import Mathlib

/-!
# PaddleBox data feed: ragged storage, record pool, reservoir cache, feeds

A shallow embedding of `paddle/fluid/framework/data_feed.h` and of
`PullBoxSparseOp::InferShape` (`paddle/fluid/operators/pull_box_sparse_op.cc`).

Conventions of the embedding.
* `std::vector<T>` is a `List T`; a pointer into a vector is an index.
* `uint16_t` / `uint32_t` arithmetic is arithmetic on `Nat` followed by an
  explicit `% 2 ^ 16` / `% 2 ^ 32`, and so is 64-bit arithmetic where a
  subtraction can wrap.  `size_t` counters that only count objects held in
  memory, or calls made, are plain `Nat`.
* A trivially copyable value of type `T` (`uint64_t`, or a `float` taken as
  its 4-byte object representation) is the `Nat` below `256 ^ sizeof(T)`
  whose little-endian bytes are its object representation.
* Undefined behaviour (out-of-range index, null dereference) and enforced
  failures are `none`; where the kind of an enforced failure matters it is an
  `Except EnforceError`.
* An `int` is an `Int`: an `int` operation that overflows is undefined
  (`int_checked`), a conversion to `int` reduces modulo `2 ^ 32` (`to_int`).
* An iterator into a vector is a position; a `std::set<uint16_t>` is the
  ascending list of its elements, a `std::unordered_map` a partial function.
* Code that the header only declares (the channel, `PickOneFile`) is modelled
  from the specification, and the definitions say so.
-/

set_option autoImplicit false

namespace PaddleBox

/-! ## Machine integers and vectors -/

/-- The conversion `static_cast<uint32_t>(n)`. -/
def to_uint32 (n : Nat) : Nat := n % 2 ^ 32

/-- The conversion `static_cast<uint16_t>(n)`. -/
def to_uint16 (n : Nat) : Nat := n % 2 ^ 16

/-- The call `std::vector::resize(n, fill)`: keep the first `n` elements, pad with `fill`. -/
def vec_resize {α : Type} (xs : List α) (n : Nat) (fill : α) : List α :=
  xs.take n ++ List.replicate (n - xs.length) fill

/-- A raw copy of `new` over `xs` starting at index `start` (the target range is in bounds). -/
def vec_overwrite {α : Type} (xs : List α) (start : Nat) (new : List α) : List α :=
  xs.take start ++ new ++ xs.drop (start + new.length)

/-! ## `SlotValues<T>` (data_feed.h 96-138) -/

/-- The struct `SlotValues<T>`: a flat value array and the slot boundaries. -/
structure SlotValues (T : Type) where
  slot_values : List T
  slot_offsets : List Nat
deriving DecidableEq, Repr

namespace SlotValues

variable {T : Type}

/-- A default-constructed `SlotValues<T>`. -/
def empty : SlotValues T := ⟨[], []⟩

/-- The method `add_values(values, num)`, the pointer range `[values, values + num)`
being the list `values` (so `num = values.length`, a `uint32_t`). -/
def add_values (s : SlotValues T) (values : List T) : SlotValues T :=
  let offs := if s.slot_offsets.isEmpty then s.slot_offsets ++ [0] else s.slot_offsets
  let vals := if 0 < values.length then s.slot_values ++ values else s.slot_values
  { slot_values := vals, slot_offsets := offs ++ [to_uint32 vals.length] }

/-- The method `get_values(int idx, &size)`: the index of the first addressed element of
`slot_values` and the value stored in `*size` (a `uint32_t` difference).  `idx` is an `int`
and `idx + 1` is computed in `int`: the call is undefined for a negative `idx` (the index
`slot_offsets[idx]` is out of range) and for `idx = 2 ^ 31 - 1` (`idx + 1` overflows), and
no larger value is an `int`. -/
def get_values (s : SlotValues T) (idx : Int) : Option (Nat × Nat) :=
  if 0 ≤ idx ∧ idx + 1 < 2 ^ 31 then
    match s.slot_offsets[idx.toNat]?, s.slot_offsets[(idx + 1).toNat]? with
    | some offset, some next => some (offset, (next + 2 ^ 32 - offset) % 2 ^ 32)
    | _, _ => none
  else none

/-- The `size` elements of `slot_values` that start at index `offset`. -/
def span (s : SlotValues T) (offset size : Nat) : List T :=
  (s.slot_values.drop offset).take size

/-- The body of the `for` loop of `add_slot_feasigns`, from iteration `i` on. -/
def add_slot_feasigns_loop : List (List T) → Nat → SlotValues T → SlotValues T
  | [], _, s => s
  | slot_val :: rest, i, s =>
    let offs := s.slot_offsets.set i (to_uint32 s.slot_values.length)
    let vals := if 0 < to_uint32 slot_val.length then s.slot_values ++ slot_val
                else s.slot_values
    add_slot_feasigns_loop rest (i + 1) { slot_values := vals, slot_offsets := offs }

/-- The method `add_slot_feasigns(slot_feasigns, fea_num)`.  `slot_num` is the slot count
converted to `int` and `slot_num + 1` is computed in `int`: a negative `slot_num` (a count
of `2 ^ 31` or more, modulo `2 ^ 32`) makes `resize` or the final store fail, and
`slot_num = 2 ^ 31 - 1` makes `slot_num + 1` overflow.  The call is defined when
`slot_num + 1 < 2 ^ 31`. -/
def add_slot_feasigns (s : SlotValues T) (slot_feasigns : List (List T)) (_fea_num : Nat) :
    Option (SlotValues T) :=
  let slot_num := to_uint32 slot_feasigns.length
  if slot_num + 1 < 2 ^ 31 then
    let s1 : SlotValues T :=
      { slot_values := s.slot_values
        slot_offsets := vec_resize s.slot_offsets (slot_num + 1) 0 }
    let s2 := add_slot_feasigns_loop (slot_feasigns.take slot_num) 0 s1
    some { slot_values := s2.slot_values
           slot_offsets := s2.slot_offsets.set slot_num (to_uint32 s2.slot_values.length) }
  else none

/-- The method `clear(shrink)`; capacity is not part of the model. -/
def clear (_s : SlotValues T) (_shrink : Bool) : SlotValues T := ⟨[], []⟩

/-- The invariant of the ragged storage: the offsets start at 0, end at the number of
values and never decrease. -/
def RaggedInv (s : SlotValues T) : Prop :=
  s.slot_offsets.head? = some 0 ∧
  s.slot_offsets.getLast? = some s.slot_values.length ∧
  s.slot_offsets.Pairwise (· ≤ ·)

instance (s : SlotValues T) : Decidable (RaggedInv s) := by
  unfold RaggedInv; infer_instance

end SlotValues

/-! ## Binary archive (`operator<<`, `operator>>`, data_feed.h 2257-2293) -/

/-- The `w` little-endian bytes of the object representation of an unsigned value. -/
def leBytes : Nat → Nat → List Nat
  | 0, _ => []
  | w + 1, x => x % 256 :: leBytes w (x / 256)

/-- The unsigned value whose little-endian object representation is `bs`. -/
def leVal : List Nat → Nat
  | [] => 0
  | b :: bs => b + 256 * leVal bs

/-- The bytes of an array of values of `sz` bytes each. -/
def rawBytes (sz : Nat) : List Nat → List Nat
  | [] => []
  | x :: xs => leBytes sz x ++ rawBytes sz xs

/-- The `n` values of `sz` bytes each stored in `bs`. -/
def readRaw (sz : Nat) : Nat → List Nat → List Nat
  | 0, _ => []
  | n + 1, bs => leVal (bs.take sz) :: readRaw sz n (bs.drop sz)

/-- Modelled from the spec: the class `Archive` (`archive.h` is not part of the sources) as
a sequential byte stream, holding the bytes between the read cursor and the end. -/
structure Archive where
  buffer : List Nat
deriving DecidableEq, Repr

namespace Archive

/-- Modelled from the spec: `Archive::Write(p, len)` appends the `len` raw bytes. -/
def Write (ar : Archive) (bytes : List Nat) : Archive := ⟨ar.buffer ++ bytes⟩

/-- Modelled from the spec: `Archive::Read(p, len)` takes the next `len` bytes and fails
when fewer remain. -/
def Read (ar : Archive) (len : Nat) : Option (List Nat × Archive) :=
  if len ≤ ar.buffer.length then some (ar.buffer.take len, ⟨ar.buffer.drop len⟩) else none

/-- Modelled from the spec: `ar << x` for an unsigned integer of `w` bytes. -/
def put (w : Nat) (ar : Archive) (x : Nat) : Archive := ar.Write (leBytes w x)

/-- Modelled from the spec: `ar >> x` for an unsigned integer of `w` bytes. -/
def get (w : Nat) (ar : Archive) : Option (Nat × Archive) :=
  match ar.Read w with
  | some (bs, ar1) => some (leVal bs, ar1)
  | none => none

end Archive

namespace SlotValues

/-- The `operator<<(Archive&, const SlotValues<T>&)`, with `sz = sizeof(T)`. -/
def archive_out (sz : Nat) (ar : Archive) (r : SlotValues Nat) : Archive :=
  let value_len := to_uint32 r.slot_values.length
  let ar1 := ar.put 4 value_len
  let ar2 := if 0 < value_len then ar1.Write (rawBytes sz (r.slot_values.take value_len))
             else ar1
  let slot_num := to_uint16 r.slot_offsets.length
  let ar3 := ar2.put 2 slot_num
  if 2 < slot_num then
    ar3.Write (rawBytes 4 ((r.slot_offsets.drop 1).take (slot_num - 2)))
  else ar3

/-- The part of `operator>>` that restores the offsets, once `value_len` and `slot_num`
are known. -/
def archive_in_offsets (ar : Archive) (offsets : List Nat) (value_len slot_num : Nat) :
    Option (Archive × List Nat) :=
  if 0 < slot_num then
    let offs := vec_resize offsets slot_num 0
    let filled : Option (Archive × List Nat) :=
      if 2 < slot_num then
        match ar.Read ((slot_num - 2) * 4) with
        | some (bs, ar1) => some (ar1, vec_overwrite offs 1 (readRaw 4 (slot_num - 2) bs))
        | none => none
      else some (ar, offs)
    match filled with
    | some (ar1, offs1) => some (ar1, offs1.set (slot_num - 1) value_len)
    | none => none
  else some (ar, offsets)

/-- The `operator>>(Archive&, SlotValues<T>&)`, with `sz = sizeof(T)`, reading into `r`. -/
def archive_in (sz : Nat) (ar : Archive) (r : SlotValues Nat) :
    Option (Archive × SlotValues Nat) :=
  match ar.get 4 with
  | none => none
  | some (value_len, ar1) =>
    let values : Option (Archive × List Nat) :=
      if 0 < value_len then
        match ar1.Read (value_len * sz) with
        | some (bs, ar2) =>
          some (ar2, vec_overwrite (vec_resize r.slot_values value_len 0) 0
                       (readRaw sz value_len bs))
        | none => none
      else some (ar1, r.slot_values)
    match values with
    | none => none
    | some (ar2, vals) =>
      match ar2.get 2 with
      | none => none
      | some (slot_num, ar3) =>
        match archive_in_offsets ar3 r.slot_offsets value_len slot_num with
        | some (ar4, offs) => some (ar4, { slot_values := vals, slot_offsets := offs })
        | none => none

end SlotValues

/-! ## Specification helpers -/

/-- The running totals `base + |v_0|`, `base + |v_0| + |v_1|`, ... of the lengths of the
arrays `vs`, each converted to `uint32_t`. -/
def cumOffsets {T : Type} : Nat → List (List T) → List Nat
  | _, [] => []
  | base, v :: vs => to_uint32 (base + v.length) :: cumOffsets (base + v.length) vs

/-! ## `MultiSlotType` (data_feed.h 1268-1398) -/

/-- The class `MultiSlotType`: the values of one slot for a batch of records.  A `float`
is taken as its object representation. -/
structure MultiSlotType where
  float_feasign_ : List Nat
  uint64_feasign_ : List Nat
  type_ : String
  offset_ : List Nat
deriving DecidableEq, Repr

namespace MultiSlotType

/-- The test `type_[0] == 'f'` enforced by `CheckFloat`. -/
def CheckFloat (m : MultiSlotType) : Bool := m.type_.toList.head? == some 'f'

/-- The test `type_[0] == 'u'` enforced by `CheckUint64`. -/
def CheckUint64 (m : MultiSlotType) : Bool := m.type_.toList.head? == some 'u'

/-- The method `InitOffset(max_batch_size)`: `offset_.resize(1); offset_[0] = 0`. -/
def InitOffset (m : MultiSlotType) (_max_batch_size : Nat) : MultiSlotType :=
  { m with offset_ := (vec_resize m.offset_ 1 0).set 0 0 }

/-- The method `AppendValues(const uint64_t* input, size_t size)`. -/
def AppendValues_uint64 (m : MultiSlotType) (input : List Nat) : Option MultiSlotType :=
  if m.CheckUint64 then
    match m.offset_.getLast? with
    | some back =>
      some { m with offset_ := m.offset_ ++ [back + input.length]
                    uint64_feasign_ := m.uint64_feasign_ ++ input }
    | none => none
  else none

/-- The method `AppendValues(const float* input, size_t size)`. -/
def AppendValues_float (m : MultiSlotType) (input : List Nat) : Option MultiSlotType :=
  if m.CheckFloat then
    match m.offset_.getLast? with
    | some back =>
      some { m with offset_ := m.offset_ ++ [back + input.length]
                    float_feasign_ := m.float_feasign_ ++ input }
    | none => none
  else none

/-- The method `AddIns(ins)`. -/
def AddIns (m ins : MultiSlotType) : Option MultiSlotType :=
  if ins.type_.toList.head? == some 'f' then
    if m.CheckFloat then
      match m.offset_.getLast? with
      | some back =>
        some { m with offset_ := m.offset_ ++ [back + ins.float_feasign_.length]
                      float_feasign_ := m.float_feasign_ ++ ins.float_feasign_ }
      | none => none
    else none
  else if ins.type_.toList.head? == some 'u' then
    if m.CheckUint64 then
      match m.offset_.getLast? with
      | some back =>
        some { m with offset_ := m.offset_ ++ [back + ins.uint64_feasign_.length]
                      uint64_feasign_ := m.uint64_feasign_ ++ ins.uint64_feasign_ }
      | none => none
    else none
  else some m

/-- The method `GetBatchSize()`: `offset_.size() - 1` in `size_t`. -/
def GetBatchSize (m : MultiSlotType) : Nat :=
  if m.offset_.length = 0 then 2 ^ 64 - 1 else m.offset_.length - 1

end MultiSlotType

/-- The packed form of the per-record value lists `rs` of one slot: `buf` is their
concatenation in record order, the offsets of `m` are the prefix sums of their lengths
(`rs.length + 1` of them) and `GetBatchSize` is the number of records. -/
def Batched (m : MultiSlotType) (buf : List Nat) (rs : List (List Nat)) : Prop :=
  buf = rs.flatten ∧
  m.offset_ = List.scanl (· + ·) 0 (rs.map List.length) ∧
  m.offset_.length = rs.length + 1 ∧
  m.GetBatchSize = rs.length

/-! ## Records and the record pool (data_feed.h 201-424) -/

/-- The struct `SlotRecordObject`. -/
structure SlotRecordObject where
  search_id : Nat
  rank : Nat
  cmatch : Nat
  ins_id_ : String
  slot_uint64_feasigns_ : SlotValues Nat
  slot_float_feasigns_ : SlotValues Nat
deriving DecidableEq, Repr

namespace SlotRecordObject

/-- The method `clear(shrink)`. -/
def clear (r : SlotRecordObject) (shrink : Bool) : SlotRecordObject :=
  { r with slot_uint64_feasigns_ := r.slot_uint64_feasigns_.clear shrink
           slot_float_feasigns_ := r.slot_float_feasigns_.clear shrink }

/-- The method `reset()`, the flag being `FLAGS_enable_slotrecord_reset_shrink`. -/
def reset (r : SlotRecordObject) (enable_slotrecord_reset_shrink : Bool) :
    SlotRecordObject :=
  r.clear enable_slotrecord_reset_shrink

end SlotRecordObject

/-- The heap of record blocks.  A `SlotRecord` (a `SlotRecordObject*`) is an address, 0 being
the null pointer; `objs p` is the object living at `p`, if any.  `malloc` hands out the
addresses `brk + 1`, `brk + 2`, ... and never an address twice. -/
structure Heap where
  objs : Nat → Option SlotRecordObject
  brk : Nat

namespace Heap

/-- The heap without any block. -/
def empty : Heap := ⟨fun _ => none, 0⟩

/-- The object a pointer refers to; `none` for the null pointer and for a dangling one. -/
def deref (h : Heap) (p : Nat) : Option SlotRecordObject :=
  if p = 0 then none else h.objs p

/-- The heap after writing `o` through the pointer `p`. -/
def store (h : Heap) (p : Nat) (o : SlotRecordObject) : Heap :=
  { h with objs := fun q => if q = p then some o else h.objs q }

/-- No block lives beyond the last address handed out, nor at the null address. -/
def WF (h : Heap) : Prop := h.objs 0 = none ∧ ∀ p, h.brk < p → h.objs p = none

end Heap

/-- The function `make_slotrecord(byte_size)`: a fresh block holding a default-constructed
object (`search_id`, `rank` and `cmatch` are left uninitialised by the source and read as 0
here). -/
def make_slotrecord (h : Heap) (_byte_size : Nat) : Nat × Heap :=
  (h.brk + 1,
   { objs := fun q => if q = h.brk + 1 then
               some ⟨0, 0, 0, "", SlotValues.empty, SlotValues.empty⟩ else h.objs q
     brk := h.brk + 1 })

/-- The function `free_slotrecord(p)`: destroys the object and frees the block; freeing a
block that is not live is undefined. -/
def free_slotrecord (h : Heap) (p : Nat) : Option Heap :=
  match h.deref p with
  | some _ => some { h with objs := fun q => if q = p then none else h.objs q }
  | none => none

/-- The class `SlotObjAllocator<SlotRecordObject>`.  The free list is intrusive: `Node` is a
union of `next` and the bytes of the object, so the `next` pointer of a free node occupies
the first 8 bytes of the record, its `search_id` field. -/
structure SlotObjAllocator where
  free_nodes_ : Nat
  capacity_ : Nat
deriving DecidableEq, Repr

namespace SlotObjAllocator

/-- The method `acquire()`. -/
def acquire (a : SlotObjAllocator) (h : Heap) : Option (Nat × SlotObjAllocator) :=
  match h.deref a.free_nodes_ with
  | some node => some (a.free_nodes_, ⟨node.search_id, (a.capacity_ + 2 ^ 64 - 1) % 2 ^ 64⟩)
  | none => none

/-- The method `release(x)`. -/
def release (a : SlotObjAllocator) (h : Heap) (x : Nat) : Option (SlotObjAllocator × Heap) :=
  match h.deref x with
  | some o => some (⟨x, a.capacity_ + 1⟩, h.store x { o with search_id := a.free_nodes_ })
  | none => none

/-- The method `capacity()`. -/
def capacity (a : SlotObjAllocator) : Nat := a.capacity_

/-- The `while` loop of `get(n, data)` with `n - i` iterations left; `data` holds the
entries `data[0 .. i)` written so far. -/
def get_loop (h : Heap) : Nat → SlotObjAllocator → List Nat → Option (List Nat × SlotObjAllocator)
  | 0, a, data => some (data, a)
  | k + 1, a, data =>
    if 0 < a.capacity_ then
      match h.deref a.free_nodes_ with
      | some node => get_loop h k ⟨node.search_id, a.capacity_ - 1⟩ (data ++ [a.free_nodes_])
      | none => none
    else some (data, a)

/-- The method `get(n, data)`: the entries written to `data` (their number is the returned
`i`) and the allocator afterwards. -/
def get (a : SlotObjAllocator) (h : Heap) (n : Nat) : Option (List Nat × SlotObjAllocator) :=
  get_loop h n a []

/-- The `for` loop of `put(n, data)`. -/
def put_loop : List Nat → SlotObjAllocator → Heap → Option (SlotObjAllocator × Heap)
  | [], a, h => some (a, h)
  | x :: rest, a, h =>
    match h.deref x with
    | some o =>
      put_loop rest ⟨x, a.capacity_ + 1⟩ (h.store x { o with search_id := a.free_nodes_ })
    | none => none

/-- The method `put(n, data)`: the returned `capacity_`, the allocator and the heap. -/
def put (a : SlotObjAllocator) (h : Heap) (data : List Nat) :
    Option (Nat × SlotObjAllocator × Heap) :=
  match put_loop data a h with
  | some (a1, h1) => some (a1.capacity_, a1, h1)
  | none => none

end SlotObjAllocator

/-- The constant `OBJPOOL_BLOCK_SIZE`. -/
def OBJPOOL_BLOCK_SIZE : Nat := 10000

/-- The class `SlotObjPool` (threads, mutex and condition variable left out). -/
structure SlotObjPool where
  inited_ : Bool
  max_capacity_ : Nat
  alloc_ : SlotObjAllocator
  disable_pool_ : Bool
  count_ : Nat
  slot_record_byte_size_ : Nat
deriving DecidableEq, Repr

/-- The loop `for (i = size; i < n; ++i) output[i] = make_slotrecord(...)` with `k`
iterations left. -/
def make_slotrecords (byte_size : Nat) : Nat → Heap → List Nat × Heap
  | 0, h => ([], h)
  | k + 1, h =>
    let r := make_slotrecord h byte_size
    let rest := make_slotrecords byte_size k r.2
    (r.1 :: rest.1, rest.2)

/-- The loop `for (i = 0; i < num; ++i) input[i]->reset()`. -/
def reset_all (shrink : Bool) : List Nat → Heap → Option Heap
  | [], h => some h
  | x :: rest, h =>
    match h.deref x with
    | some o => reset_all shrink rest (h.store x (o.reset shrink))
    | none => none

/-- The loop `for (i = 0; i < n; ++i) free_slotrecord(input[i])`. -/
def free_all : List Nat → Heap → Option Heap
  | [], h => some h
  | x :: rest, h =>
    match free_slotrecord h x with
    | some h1 => free_all rest h1
    | none => none

namespace SlotObjPool

/-- The constructor `SlotObjPool()`, the arguments being `FLAGS_padbox_record_pool_max_size`
and the block size `sizeof(SlotRecordObject) + sizeof(float) * FLAGS_padbox_slotrecord_extend_dim`. -/
def init (padbox_record_pool_max_size byte_size : Nat) : SlotObjPool :=
  { inited_ := true, max_capacity_ := padbox_record_pool_max_size, alloc_ := ⟨0, 0⟩,
    disable_pool_ := false, count_ := 0, slot_record_byte_size_ := byte_size }

/-- The method `get(SlotRecord* output, size_t n)`: the `n` entries written to `output`. -/
def get (p : SlotObjPool) (h : Heap) (n : Nat) : Option (List Nat × SlotObjPool × Heap) :=
  match p.alloc_.get h n with
  | none => none
  | some (data, a1) =>
    let size := data.length
    let p1 := { p with alloc_ := a1, count_ := (p.count_ + n) % 2 ^ 64 }
    if size = n then some (data, p1, h)
    else
      let fresh := make_slotrecords p.slot_record_byte_size_ (n - size) h
      some (data ++ fresh.1, p1, fresh.2)

/-- The method `put(SlotRecord* input, size_t num)`; the Boolean tells whether
`cond_.notify_one()` is called. -/
def put (p : SlotObjPool) (h : Heap) (shrink : Bool) (input : List Nat) :
    Option (Bool × SlotObjPool × Heap) :=
  match reset_all shrink input h with
  | none => none
  | some h1 =>
    match p.alloc_.put h1 input with
    | none => none
    | some (capacity, a1, h2) =>
      let p1 := { p with alloc_ := a1
                         count_ := (p.count_ + 2 ^ 64 - input.length % 2 ^ 64) % 2 ^ 64 }
      some (p.disable_pool_ || decide (p.max_capacity_ < capacity), p1, h2)

/-- The value of `check_capacity` in `run()`. -/
def check_capacity (p : SlotObjPool) : Nat := if p.disable_pool_ then 0 else p.max_capacity_

/-- Whether an iteration of `run()` calls `cond_.wait(lock)` before draining. -/
def run_waits (p : SlotObjPool) : Bool := decide (p.alloc_.capacity ≤ p.check_capacity)

/-- One iteration of the loop of `run()` from the point where the lock is held and the wait,
if any, has returned: `n = alloc_.get(max_size, &input[0])`, then `free_slotrecord` on each of
the `n` entries.  Returns the destroyed handles. -/
def run_pass (p : SlotObjPool) (h : Heap) : Option (List Nat × SlotObjPool × Heap) :=
  let max_size := OBJPOOL_BLOCK_SIZE * 50
  match p.alloc_.get h max_size with
  | none => none
  | some (input, a1) =>
    match free_all input h with
    | some h1 => some (input, { p with alloc_ := a1 }, h1)
    | none => none

end SlotObjPool

/-- Whether the nodes reached from `p` by following `next` up to the null pointer are
exactly the list `l`. -/
def Heap.chain (h : Heap) : Nat → List Nat → Bool
  | p, [] => p == 0
  | p, a :: l =>
    p == a && (match h.deref a with
      | some o => h.chain o.search_id l
      | none => false)

/-- A default-constructed `SlotRecordObject` as `make_slotrecord` leaves it. -/
def SlotRecordObject.fresh : SlotRecordObject :=
  ⟨0, 0, 0, "", SlotValues.empty, SlotValues.empty⟩

/-- A heap with two live blocks, at addresses 1 and 2, chained as the free list
`2 → 1 → null`. -/
def Heap.example2 : Heap :=
  ⟨fun q => if q = 1 then some ⟨0, 0, 0, "a", SlotValues.empty, SlotValues.empty⟩
            else if q = 2 then some ⟨1, 0, 0, "b", SlotValues.empty, SlotValues.empty⟩
            else none, 2⟩

/-- A heap with three live blocks: 1 is on the free list (`1 → null`), 2 and 3 are held by
a consumer and carry values. -/
def Heap.example3 : Heap :=
  ⟨fun q => if q = 1 then some ⟨0, 0, 0, "a", SlotValues.empty, SlotValues.empty⟩
            else if q = 2 then some ⟨7, 1, 2, "b", ⟨[5, 6], [0, 2]⟩, ⟨[9], [0, 0, 1]⟩⟩
            else if q = 3 then some ⟨8, 3, 4, "c", ⟨[4], [0, 1]⟩, SlotValues.empty⟩
            else none, 3⟩

/-- A heap with five live blocks chained as the free list `5 → 4 → 3 → 2 → 1 → null`. -/
def Heap.example5 : Heap :=
  ⟨fun q => if 1 ≤ q ∧ q ≤ 5 then
              some ⟨q - 1, 0, 0, "", SlotValues.empty, SlotValues.empty⟩
            else none, 5⟩

/-! ## Record archive (`operator<<`, `operator>>` for `SlotRecord`, data_feed.h 2294-2317) -/

/-- Modelled from the spec: `ar << s` for a `std::string` (`archive.h` is not part of the
sources): the 8-byte length followed by the characters, one byte each. -/
def Archive.put_string (ar : Archive) (s : String) : Archive :=
  (ar.put 8 s.length).Write (s.toList.map Char.toNat)

/-- Modelled from the spec: `ar >> s` for a `std::string`. -/
def Archive.get_string (ar : Archive) : Option (String × Archive) :=
  match ar.get 8 with
  | some (len, ar1) =>
    match ar1.Read len with
    | some (bs, ar2) => some (String.mk (bs.map Char.ofNat), ar2)
    | none => none
  | none => none

namespace SlotRecordObject

/-- The `operator<<(Archive&, const SlotRecord&)` on the record `r` points to; a `float` has
4 bytes and a `uint64_t` 8. -/
def archive_out (ar : Archive) (r : SlotRecordObject) : Archive :=
  let ar1 := SlotValues.archive_out 4 ar r.slot_float_feasigns_
  let ar2 := SlotValues.archive_out 8 ar1 r.slot_uint64_feasigns_
  let ar3 := ar2.put_string r.ins_id_
  let ar4 := ar3.put 8 r.search_id
  let ar5 := ar4.put 4 r.rank
  ar5.put 4 r.cmatch

/-- The `operator>>(Archive&, SlotRecord&)` reading into the record `r` points to. -/
def archive_in (ar : Archive) (r : SlotRecordObject) : Option (Archive × SlotRecordObject) :=
  match SlotValues.archive_in 4 ar r.slot_float_feasigns_ with
  | none => none
  | some (ar1, fl) =>
    match SlotValues.archive_in 8 ar1 r.slot_uint64_feasigns_ with
    | none => none
    | some (ar2, ul) =>
      match ar2.get_string with
      | none => none
      | some (id, ar3) =>
        match ar3.get 8 with
        | none => none
        | some (sid, ar4) =>
          match ar4.get 4 with
          | none => none
          | some (rk, ar5) =>
            match ar5.get 4 with
            | none => none
            | some (cm, ar6) =>
              some (ar6, { search_id := sid, rank := rk, cmatch := cm, ins_id_ := id,
                           slot_uint64_feasigns_ := ul, slot_float_feasigns_ := fl })

/-- The fields of `r` are values of their C++ types and the counts of its ragged storages fit
the archive's count fields: values of `sz` bytes, fewer than `2 ^ 32` of them, fewer than
`2 ^ 16` offsets. -/
def Storable (sz : Nat) (s : SlotValues Nat) : Prop :=
  (∀ x ∈ s.slot_values, x < 256 ^ sz) ∧
  s.slot_values.length < 2 ^ 32 ∧ s.slot_offsets.length < 2 ^ 16

/-- The scalar fields of `r` are values of their C++ types (`uint64_t`, `uint32_t`, a string
whose length is a `size_t`). -/
def Typed (r : SlotRecordObject) : Prop :=
  r.search_id < 2 ^ 64 ∧ r.rank < 2 ^ 32 ∧ r.cmatch < 2 ^ 32 ∧ r.ins_id_.length < 2 ^ 64

end SlotRecordObject

/-! ## Sequential executions of the pool -/

/-- A call made on the pool: `get(output, n)`, `put(input, num)`, or one reclamation pass
of `run()`. -/
inductive PoolOp where
  | get (n : Nat)
  | put (input : List Nat)
  | run
deriving DecidableEq, Repr

/-- The pool and the heap together with the bookkeeping of an execution: the handles in
flight (returned by `get` and not yet released), the number of records ever freshly
allocated and the handles destroyed by reclamation, in order. -/
structure PoolState where
  pool : SlotObjPool
  heap : Heap
  in_flight : List Nat
  allocated : Nat
  destroyed : List Nat

namespace PoolState

/-- A freshly constructed pool on an empty heap. -/
def init (padbox_record_pool_max_size byte_size : Nat) : PoolState :=
  ⟨SlotObjPool.init padbox_record_pool_max_size byte_size, Heap.empty, [], 0, []⟩

/-- One call on the pool.  Every `make_slotrecord` advances `brk` by one, so the number of
fresh allocations of a `get` is the growth of `brk`. -/
def step (shrink : Bool) (s : PoolState) : PoolOp → Option PoolState
  | .get n =>
    match s.pool.get s.heap n with
    | some (output, p1, h1) =>
      some ⟨p1, h1, s.in_flight ++ output, s.allocated + (h1.brk - s.heap.brk), s.destroyed⟩
    | none => none
  | .put input =>
    match s.pool.put s.heap shrink input with
    | some (_, p1, h1) =>
      some ⟨p1, h1, s.in_flight.filter (fun x => decide (x ∉ input)), s.allocated,
        s.destroyed⟩
    | none => none
  | .run =>
    match s.pool.run_pass s.heap with
    | some (freed, p1, h1) => some ⟨p1, h1, s.in_flight, s.allocated, s.destroyed ++ freed⟩
    | none => none

/-- A sequence of calls, one after the other. -/
def exec (shrink : Bool) : PoolState → List PoolOp → Option PoolState
  | s, [] => some s
  | s, op :: ops =>
    match s.step shrink op with
    | some s1 => exec shrink s1 ops
    | none => none

/-- The condition on a call: `put` is only given handles that are in flight, each at most
once. -/
def AllowedOp (s : PoolState) : PoolOp → Prop
  | .put input => input.Nodup ∧ ∀ x ∈ input, x ∈ s.in_flight
  | _ => True

instance (s : PoolState) (op : PoolOp) : Decidable (s.AllowedOp op) := by
  cases op <;> unfold AllowedOp <;> infer_instance

/-- The condition on a sequence of calls: each call is allowed in the state it is made in. -/
def Allowed (shrink : Bool) : PoolState → List PoolOp → Bool
  | _, [] => true
  | s, op :: ops =>
    decide (s.AllowedOp op) &&
      match s.step shrink op with
      | some s1 => Allowed shrink s1 ops
      | none => true

/-- The invariant of an execution, `l` being the free list. -/
def Inv (s : PoolState) (l : List Nat) : Prop :=
  s.heap.chain s.pool.alloc_.free_nodes_ l = true ∧
  s.pool.alloc_.capacity_ = l.length ∧
  s.heap.WF ∧
  (l ++ s.in_flight).Nodup ∧
  (∀ x ∈ s.in_flight, x ≠ 0 ∧ ∃ o, s.heap.objs x = some o) ∧
  s.destroyed.Nodup ∧
  (∀ x ∈ s.destroyed, s.heap.objs x = none ∧ x ≤ s.heap.brk) ∧
  l.length + s.in_flight.length + s.destroyed.length = s.allocated

end PoolState

/-! ## Reservoir candidate cache (data_feed.h 1438-1533) -/

/-- The struct `FeatureItem`: a feasign (the 8 bytes of the union `FeatureFeasign`) and its
16-bit slot id. -/
structure FeatureItem where
  sign : Nat
  slot : Nat
deriving DecidableEq, Repr

/-- The struct `Record`. -/
structure Record where
  uint64_feasigns_ : List FeatureItem
  float_feasigns_ : List FeatureItem
  ins_id_ : String
  content_ : String
  search_id : Nat
  rank : Nat
  cmatch : Nat
  uid_ : String
deriving DecidableEq, Repr

/-- The struct `RecordCandidate`.  The `unordered_multimap` `feas_` is the list of its
`(slot, sign)` entries in insertion order. -/
structure RecordCandidate where
  ins_id_ : String
  feas_ : List (Nat × Nat)
  shadow_index_ : Nat
deriving DecidableEq, Repr

namespace RecordCandidate

/-- The default constructor `RecordCandidate()`; `shadow_index_` is `size_t(-1)`. -/
def default : RecordCandidate := ⟨"", [], 2 ^ 64 - 1⟩

/-- The constructor `RecordCandidate(rec, slot_index_to_replace)`. -/
def ofRecord (rec : Record) (slot_index_to_replace : List Nat) : RecordCandidate :=
  { RecordCandidate.default with
    feas_ := (rec.uint64_feasigns_.filter
      (fun fea => decide (fea.slot ∈ slot_index_to_replace))).map
        (fun fea => (fea.slot, fea.sign)) }

end RecordCandidate

/-- The class `RecordCandidateList` (mutex left out). -/
structure RecordCandidateList where
  capacity_ : Nat
  full_ : Bool
  cur_size_ : Nat
  total_size_ : Nat
  candidate_list_ : List RecordCandidate
  slot_index_to_replace_ : List Nat
deriving DecidableEq, Repr

namespace RecordCandidateList

/-- The first part of `AddAndGet(record, index_result)`, up to the end of the `if`/`else`;
`r_replace` is the value the random engine returns in the `else` branch. -/
def add (l : RecordCandidateList) (record : Record) (r_replace : Nat) :
    Option RecordCandidateList :=
  let total := l.total_size_ + 1
  if !l.full_ then
    if l.cur_size_ < l.candidate_list_.length then
      let c : RecordCandidate :=
        { RecordCandidate.ofRecord record l.slot_index_to_replace_ with
          shadow_index_ := l.cur_size_ }
      some { l with
        total_size_ := total
        candidate_list_ := l.candidate_list_.set l.cur_size_ c
        cur_size_ := l.cur_size_ + 1
        full_ := decide (l.cur_size_ + 1 = l.capacity_) }
    else none
  else
    let index := r_replace % total
    if index < l.capacity_ then
      let cl := l.candidate_list_ ++ [RecordCandidate.ofRecord record l.slot_index_to_replace_]
      match cl[index]? with
      | some c =>
        some { l with
          total_size_ := total
          candidate_list_ := cl.set index { c with shadow_index_ := cl.length - 1 } }
      | none => none
    else some { l with total_size_ := total }

/-- The method `AddAndGet(record, index_result)`: the value stored in `index_result` and the
list afterwards; `r_pick` is the value the random engine returns for the final draw. -/
def AddAndGet (l : RecordCandidateList) (record : Record) (r_replace r_pick : Nat) :
    Option (Nat × RecordCandidateList) :=
  match l.add record r_replace with
  | none => none
  | some l1 =>
    if l1.cur_size_ = 0 then none
    else
      match l1.candidate_list_[r_pick % l1.cur_size_]? with
      | some c => some (c.shadow_index_, l1)
      | none => none

end RecordCandidateList

/-- The assignment `RecordCandidate::operator=(const Record&)`. -/
def RecordCandidate.assign (c : RecordCandidate) (rec : Record) : RecordCandidate :=
  { c with
    feas_ := rec.uint64_feasigns_.map (fun fea => (fea.slot, fea.sign))
    ins_id_ := rec.ins_id_ }

/-- The bytes the archive format prescribes for a `SlotValues<T>` with values of `sz` bytes:
the 4-byte value count, the raw values, the 2-byte offset count, the raw interior offsets
`slot_offsets[1 .. size-2]`. -/
def SlotValues.expected_out (sz : Nat) (s : SlotValues Nat) : List Nat :=
  leBytes 4 s.slot_values.length ++ (rawBytes sz s.slot_values ++
    (leBytes 2 s.slot_offsets.length ++
      rawBytes 4 ((s.slot_offsets.drop 1).take (s.slot_offsets.length - 2))))

namespace RecordCandidateList

/-- The `for` loop of `ReInitPass()` from iteration `i` on, with `k` iterations left. -/
def ReInitPass_loop : Nat → Nat → List RecordCandidate → Option (List RecordCandidate)
  | 0, _, cl => some cl
  | k + 1, i, cl =>
    match cl[i]? with
    | none => none
    | some ci =>
      if ci.shadow_index_ ≠ i then
        match cl[ci.shadow_index_]? with
        | none => none
        | some cs =>
          let cl1 := cl.set i { ins_id_ := cs.ins_id_, feas_ := cs.feas_, shadow_index_ := i }
          let cl2 := cl1.set ci.shadow_index_ { cs with feas_ := ci.feas_ }
          ReInitPass_loop k (i + 1) cl2
      else ReInitPass_loop k (i + 1) cl

/-- The method `ReInitPass()`. -/
def ReInitPass (l : RecordCandidateList) : Option RecordCandidateList :=
  match ReInitPass_loop l.cur_size_ 0 l.candidate_list_ with
  | some cl =>
    some { l with candidate_list_ := vec_resize cl l.capacity_ RecordCandidate.default }
  | none => none

/-- The method `Get(index)`; `none` when `PADDLE_ENFORCE_LT` raises `OutOfRange`. -/
def Get (l : RecordCandidateList) (index : Nat) : Option RecordCandidate :=
  if index < l.candidate_list_.length then l.candidate_list_[index]? else none

end RecordCandidateList

/-- A call made on the reservoir: `AddAndGet(record, index_result)` with the two values the
random engine returns, or `ReInitPass()`. -/
inductive CandidateOp where
  | add (record : Record) (r_replace r_pick : Nat)
  | reinit_pass
deriving DecidableEq, Repr

namespace RecordCandidateList

/-- One call on the reservoir. -/
def step (l : RecordCandidateList) : CandidateOp → Option RecordCandidateList
  | .add record r_replace r_pick =>
    match l.AddAndGet record r_replace r_pick with
    | some (_, l1) => some l1
    | none => none
  | .reinit_pass => l.ReInitPass

/-- A sequence of calls, one after the other. -/
def run (l : RecordCandidateList) : List CandidateOp → Option RecordCandidateList
  | [] => some l
  | op :: ops =>
    match l.step op with
    | some l1 => l1.run ops
    | none => none

/-- An empty list with a capacity of at least 1. -/
def IsEmpty (l : RecordCandidateList) : Prop :=
  l.full_ = false ∧ l.cur_size_ = 0 ∧ l.total_size_ = 0 ∧ 1 ≤ l.capacity_

instance (l : RecordCandidateList) : Decidable l.IsEmpty := by
  unfold IsEmpty; infer_instance

/-- The list holds `capacity_` pre-sized entries. -/
def Presized (l : RecordCandidateList) : Prop := l.candidate_list_.length = l.capacity_

instance (l : RecordCandidateList) : Decidable l.Presized := by
  unfold Presized; infer_instance

/-- The invariant of the states reached from an empty list: the reservoir slots are the
entries below `cur_size_`; each slot's `shadow_index_` is the slot itself or the position of
an entry appended beyond the capacity, and no two slots share one. -/
def Inv (l : RecordCandidateList) : Prop :=
  1 ≤ l.capacity_ ∧
  l.cur_size_ ≤ l.capacity_ ∧
  (l.full_ = true ↔ l.cur_size_ = l.capacity_) ∧
  l.cur_size_ ≤ l.total_size_ ∧
  l.cur_size_ ≤ l.candidate_list_.length ∧
  (l.full_ = true → l.capacity_ ≤ l.candidate_list_.length) ∧
  (∀ i, i < l.cur_size_ → ∃ ci, l.candidate_list_[i]? = some ci ∧
    (ci.shadow_index_ = i ∨
      (l.capacity_ ≤ ci.shadow_index_ ∧ ci.shadow_index_ < l.candidate_list_.length))) ∧
  (∀ i j ci cj, i < l.cur_size_ → j < l.cur_size_ →
    l.candidate_list_[i]? = some ci → l.candidate_list_[j]? = some cj →
    ci.shadow_index_ = cj.shadow_index_ → i = j)

end RecordCandidateList

/-- An empty reservoir of capacity 2 with two pre-sized entries, slot 3 being replaceable. -/
def RecordCandidateList.example0 : RecordCandidateList :=
  ⟨2, false, 0, 0, [RecordCandidate.default, RecordCandidate.default], [3]⟩

/-- A record with one feasign `sign` in the replaceable slot 3 and one in slot 4. -/
def Record.example (sign : Nat) : Record :=
  ⟨[⟨sign, 3⟩, ⟨sign + 100, 4⟩], [], "ins", "", 0, 0, 0, ""⟩

/-- The full reservoir reached from `example0` by inserting `Record.example 1` and
`Record.example 2`. -/
def RecordCandidateList.example2 : RecordCandidateList :=
  ⟨2, true, 2, 2, [⟨"", [(3, 1)], 0⟩, ⟨"", [(3, 2)], 1⟩], [3]⟩

/-- The reservoir reached from `example2` by inserting `Record.example 3` with the raw draw 4
(index `4 mod 3 = 1`): slot 1 now refers to the appended entry 2. -/
def RecordCandidateList.example3 : RecordCandidateList :=
  ⟨2, true, 2, 3, [⟨"", [(3, 1)], 0⟩, ⟨"", [(3, 2)], 2⟩, ⟨"", [(3, 3)], 2 ^ 64 - 1⟩], [3]⟩

/-! ### The reservoir-sampling experiment -/

/-- The `k`-th record of a stream: a single feasign `k`, in slot 0. -/
def Record.tagged (k : Nat) : Record := ⟨[⟨k, 0⟩], [], "", "", 0, 0, 0, ""⟩

namespace RecordCandidateList

/-- An empty list of capacity `c` with `c` pre-sized entries, slot 0 being replaceable. -/
def presized (c : Nat) : RecordCandidateList :=
  ⟨c, false, 0, 0, List.replicate c RecordCandidate.default, [0]⟩

/-- The calls `AddAndGet` that insert the records tagged `k`, `k + 1`, ... one at a time, the
call for each record taking its raw replacement draw from the list (the draw of the final
pick is fixed to 0: it does not change the list). -/
def stream_ops : Nat → List Nat → List CandidateOp
  | _, [] => []
  | k, r :: rs => CandidateOp.add (Record.tagged k) r 0 :: stream_ops (k + 1) rs

/-- The authoritative content of each reservoir slot: the `feas_` of the entry at the slot's
`shadow_index_`. -/
def authoritative (l : RecordCandidateList) : List (Option (List (Nat × Nat))) :=
  (List.range l.cur_size_).map (fun i =>
    match l.candidate_list_[i]? with
    | some ci => (l.candidate_list_[ci.shadow_index_]?).map (fun cs => cs.feas_)
    | none => none)

/-- Whether the record tagged `k` is the authoritative content of some reservoir slot. -/
def retains (l : RecordCandidateList) (k : Nat) : Bool :=
  decide (some (RecordCandidate.ofRecord (Record.tagged k) l.slot_index_to_replace_).feas_
    ∈ l.authoritative)

/-- What the insertions keep true once the reservoir of capacity `c` is full and `t` records
have been seen: `res` lists the tags of the records that are the authoritative content of the
slots `0 .. c-1`. -/
def StreamInv (c t : Nat) (l : RecordCandidateList) (res : List Nat) : Prop :=
  l.Inv ∧ l.full_ = true ∧ l.capacity_ = c ∧ l.cur_size_ = c ∧
  c ≤ l.candidate_list_.length ∧ l.total_size_ = t ∧ l.slot_index_to_replace_ = [0] ∧
  l.authoritative = res.map (fun k => some [(0, k)]) ∧
  res.length = c ∧ res.Nodup ∧ ∀ x ∈ res, 1 ≤ x ∧ x ≤ t

/-- The state after the first `k ≤ c` insertions into `presized c`. -/
def fill_state (c k : Nat) : RecordCandidateList :=
  ⟨c, decide (k = c), k, k,
    (List.range k).map (fun i => (⟨"", [(0, i + 1)], i⟩ : RecordCandidate)) ++
      List.replicate (c - k) RecordCandidate.default, [0]⟩

end RecordCandidateList

/-- The sample space of the insertions `c + 1, ..., c + m` into a full reservoir of capacity
`c`: every sequence of replacement indices whose entry for insertion number `t` lies in
`[0, t)`, each sequence once. -/
def index_sequences (c : Nat) : Nat → List (List Nat)
  | 0 => [[]]
  | m + 1 => (index_sequences c m).flatMap
      (fun js => (List.range (c + m + 1)).map (fun j => js ++ [j]))

/-- Whether the record tagged `k` is retained after the records tagged `1, 2, ...` have been
inserted into `presized c`, the insertions beyond the first `c` using the replacement
indices `js`. -/
def retained_after (c : Nat) (js : List Nat) (k : Nat) : Bool :=
  match (RecordCandidateList.presized c).run
      (RecordCandidateList.stream_ops 1 (List.replicate c 0 ++ js)) with
  | some l => l.retains k
  | none => false

/-! ## Page-view instances (data_feed.h 430-487) -/

/-- The struct `PvInstanceObject`; a `Record*` is the address it holds. -/
structure PvInstanceObject where
  ads : List Nat
deriving DecidableEq, Repr

/-- The method `PvInstanceObject::merge_instance(ins)`: `ads.push_back(ins)`. -/
def PvInstanceObject.merge_instance (o : PvInstanceObject) (ins : Nat) : PvInstanceObject :=
  { ads := o.ads ++ [ins] }

/-- The struct `SlotPvInstanceObject`; a `SlotRecord` is the address it holds. -/
structure SlotPvInstanceObject where
  ads : List Nat
deriving DecidableEq, Repr

/-- The method `SlotPvInstanceObject::merge_instance(ins)`: `ads.push_back(ins)`. -/
def SlotPvInstanceObject.merge_instance (o : SlotPvInstanceObject) (ins : Nat) :
    SlotPvInstanceObject :=
  { ads := o.ads ++ [ins] }

/-! ## Enforced failures -/

/-- The `platform::errors` kind carried by the exception of a failed `PADDLE_ENFORCE_*`. -/
inductive EnforceError where
  | InvalidArgument
  | PreconditionNotMet
deriving DecidableEq, Repr

/-! ## `MultiSlotType::Init` (data_feed.h 1272-1286, 1372-1379) -/

namespace MultiSlotType

/-- The method `CheckType(type)`: `PADDLE_ENFORCE_EQ(type == "uint64" || type == "float",
true, InvalidArgument)`. -/
def CheckType (type : String) : Except EnforceError Unit :=
  if type = "uint64" ∨ type = "float" then .ok () else .error .InvalidArgument

/-- The method `Init(type, reserved_size)`: the object afterwards and whether the call
returned or threw.  The tests `type_[0] == 'f'` and `type_[0] == 'u'` read the type the
object had before the call; `reserve` does not change the contents. -/
def Init (m : MultiSlotType) (type : String) (_reserved_size : Nat) :
    MultiSlotType × Except EnforceError Unit :=
  match CheckType type with
  | .error e => (m, .error e)
  | .ok _ =>
    let m1 : MultiSlotType :=
      if m.CheckFloat then { m with float_feasign_ := [] }
      else if m.CheckUint64 then { m with uint64_feasign_ := [] }
      else m
    ({ m1 with type_ := type }, .ok ())

/-- The method `GetType()`. -/
def GetType (m : MultiSlotType) : String := m.type_

end MultiSlotType

/-! ## `InputIndexDataFeed` (data_feed.h 2240-2255) -/

/-- The class `InputIndexDataFeed`, with the three flags of `DataFeed` that record the calls
`Init`, `SetFileList` and `Start`, and its `thread_id_`. -/
structure InputIndexDataFeed where
  finish_init_ : Bool
  finish_set_filelist_ : Bool
  finish_start_ : Bool
  thread_id_ : Int
deriving DecidableEq, Repr

namespace InputIndexDataFeed

/-- The method `Start()`: `return true;`.  The result is the value returned and the object
afterwards, or the error of a failed check. -/
def Start (s : InputIndexDataFeed) : Except EnforceError (Bool × InputIndexDataFeed) :=
  .ok (true, s)

/-- The method `Next()`: `return 0;`. -/
def Next (s : InputIndexDataFeed) : Except EnforceError (Int × InputIndexDataFeed) :=
  .ok (0, s)

/-- The method `SetThreadId(thread_id)`. -/
def SetThreadId (s : InputIndexDataFeed) (thread_id : Int) : InputIndexDataFeed :=
  { s with thread_id_ := thread_id }

end InputIndexDataFeed

/-- A call of `Start()` or of `Next()`. -/
inductive FeedCall where
  | Start
  | Next
deriving DecidableEq, Repr

/-- A sequence of calls on an `InputIndexDataFeed`, one after the other: the values returned
(`Start` returns a `bool`, taken as 0 or 1) and the object afterwards, or the error of the
first call that fails. -/
def InputIndexDataFeed.calls (s : InputIndexDataFeed) :
    List FeedCall → Except EnforceError (List Int × InputIndexDataFeed)
  | [] => .ok ([], s)
  | .Start :: rest =>
    match s.Start with
    | .error e => .error e
    | .ok (b, s1) =>
      match InputIndexDataFeed.calls s1 rest with
      | .error e => .error e
      | .ok (vs, s2) => .ok ((if b then 1 else 0) :: vs, s2)
  | .Next :: rest =>
    match s.Next with
    | .error e => .error e
    | .ok (n, s1) =>
      match InputIndexDataFeed.calls s1 rest with
      | .error e => .error e
      | .ok (vs, s2) => .ok (n :: vs, s2)

/-! ## Parser plugins: `DLManager` (data_feed.h 682-790, the `_LINUX` build) -/

/-- The struct `DLManager::DLHandle`: the module handle and the parser, both addresses. -/
structure DLHandle where
  module : Nat
  parser : Nat
deriving DecidableEq, Repr

/-- The dynamic loader as `Load` sees it: `dlopen(name, RTLD_NOW)` (`none` for a null
handle) and the parser object that calling `dlsym(module, "CreateParserObject")` returns
(`none` when the symbol is null, so that the call is undefined). -/
structure DLEnv where
  dlopen : String → Option Nat
  create_parser_func : Nat → Option Nat

/-- How a call of `Load` ends: it returns a parser pointer (`none` for `nullptr`), or the
process exits with a status, or the call is undefined; with the handle map at that point. -/
inductive LoadOutcome where
  | returned (parser : Option Nat) (handle_map_ : List (String × DLHandle))
  | exited (status : Int) (handle_map_ : List (String × DLHandle))
  | undefined
deriving DecidableEq, Repr

namespace DLManager

/-- The lookup `handle_map_.find(name)` of the `std::map`. -/
def find (handle_map_ : List (String × DLHandle)) (name : String) : Option DLHandle :=
  (handle_map_.find? (fun e => e.1 == name)).map (fun e => e.2)

/-- The call `handle_map_.insert({name, handle})`: no effect when the key is present. -/
def insert (handle_map_ : List (String × DLHandle)) (name : String) (handle : DLHandle) :
    List (String × DLHandle) :=
  match find handle_map_ name with
  | some _ => handle_map_
  | none => handle_map_ ++ [(name, handle)]

/-- The method `Load(name, const std::vector<SlotConf>& conf)`; the parser's own `Init(conf)`
does not touch the manager. -/
def Load_SlotConf (env : DLEnv) (handle_map_ : List (String × DLHandle)) (name : String) :
    LoadOutcome :=
  match find handle_map_ name with
  | some h => .returned (some h.parser) handle_map_
  | none =>
    match env.dlopen name with
    | none => .returned none handle_map_
    | some module =>
      match env.create_parser_func module with
      | none => .undefined
      | some parser => .returned (some parser) (insert handle_map_ name ⟨module, parser⟩)

/-- The method `Load(name, const std::vector<AllSlotInfo>& conf)`: as above, but a module
that cannot be opened ends in `exit(-1)`. -/
def Load_AllSlotInfo (env : DLEnv) (handle_map_ : List (String × DLHandle))
    (name : String) : LoadOutcome :=
  match find handle_map_ name with
  | some h => .returned (some h.parser) handle_map_
  | none =>
    match env.dlopen name with
    | none => .exited (-1) handle_map_
    | some module =>
      match env.create_parser_func module with
      | none => .undefined
      | some parser => .returned (some parser) (insert handle_map_ name ⟨module, parser⟩)

end DLManager

/-- A loader that can open only `"libparser.so"`. -/
def DLEnv.example : DLEnv :=
  ⟨fun name => if name = "libparser.so" then some 1 else none, fun module => some (module + 100)⟩

/-! ## `PullBoxSparseOp::InferShape` (pull_box_sparse_op.cc 23-54) -/

/-- What `InferShape` reads from its `InferShapeContext`: the dims of the `Ids` inputs
(`GetInputsDim("Ids")`, one `DDim` per input, a `DDim` being the list of its extents), the
number of `Out` outputs and the attribute `size`. -/
structure InferShapeContext where
  ids_dims : List (List Int)
  n_out : Nat
  size : Int
deriving DecidableEq, Repr

namespace PullBoxSparseOp

/-- The first `for` loop of `InferShape`, from one input on: the `out_dim` of each input, or
the error of the first failed `PADDLE_ENFORCE_EQ`; `none` when `ids_dims[ids_rank - 1]` reads
outside the dims. -/
def InferShape_loop (hidden_size : Int) :
    List (List Int) → Option (Except EnforceError (List (List Int)))
  | [] => some (.ok [])
  | ids_dims :: rest =>
    let ids_rank := ids_dims.length
    if ids_rank = 0 then none
    else
      match ids_dims[ids_rank - 1]? with
      | none => none
      | some last =>
        if last = 1 then
          let out_dim := ids_dims.take (ids_rank - 1) ++ [hidden_size]
          match InferShape_loop hidden_size rest with
          | some (.ok outs) => some (.ok (out_dim :: outs))
          | some (.error e) => some (.error e)
          | none => none
        else some (.error .InvalidArgument)

/-- The method `InferShape(ctx)`: the vector `outs_dims` it hands to
`ctx->SetOutputsDim("Out", ...)`, or the error it throws.  `SetOutputsDim` and `ShareLoD` are
methods of the context. -/
def InferShape (ctx : InferShapeContext) : Option (Except EnforceError (List (List Int))) :=
  if ctx.ids_dims.length ≥ 1 then
    if ctx.n_out ≥ 1 then InferShape_loop ctx.size ctx.ids_dims
    else some (.error .InvalidArgument)
  else some (.error .InvalidArgument)

/-- The condition of the claim: at least one `Ids` input, at least one `Out` output, and the
last dimension of every `Ids` input is 1. -/
def ShapeOk (ctx : InferShapeContext) : Prop :=
  1 ≤ ctx.ids_dims.length ∧ 1 ≤ ctx.n_out ∧ ∀ d ∈ ctx.ids_dims, d.getLast? = some 1

instance (ctx : InferShapeContext) : Decidable (ShapeOk ctx) := by
  unfold ShapeOk; infer_instance

end PullBoxSparseOp

/-! ## `MiniBatchGpuPackMgr` (data_feed.h 636-677) -/

/-- A `MiniBatchGpuPack` as far as the manager is concerned (its constructor and `reset` are
defined outside the header): the device of the place it was constructed for and the number
of times `reset` has been called on it. -/
structure MiniBatchGpuPack where
  device_id : Nat
  resets : Nat
deriving DecidableEq, Repr

/-- The class `MiniBatchGpuPackMgr` together with the packers it has allocated.  An entry of
`pack_list_` is `none` for `nullptr` and otherwise the address of a packer; the address of a
packer is its position in `packs`, the packers in the order of their `new`. -/
structure MiniBatchGpuPackMgr where
  pack_list_ : List (Option Nat)
  packs : List MiniBatchGpuPack
deriving DecidableEq, Repr

namespace MiniBatchGpuPackMgr

/-- The constant `MAX_DEIVCE_NUM`. -/
def MAX_DEIVCE_NUM : Nat := 16

/-- The constructor: every entry of `pack_list_` is `nullptr`. -/
def init : MiniBatchGpuPackMgr := ⟨List.replicate MAX_DEIVCE_NUM none, []⟩

/-- The method `get(place, infos)`, `device_id` being `place.GetDeviceId()`, a device index:
the packer returned and the manager afterwards. -/
def get (m : MiniBatchGpuPackMgr) (device_id : Nat) : Option (Nat × MiniBatchGpuPackMgr) :=
  match m.pack_list_[device_id]? with
  | none => none
  | some none =>
    let p := m.packs.length
    some (p, { pack_list_ := m.pack_list_.set device_id (some p)
               packs := m.packs ++ [⟨device_id, 0⟩] })
  | some (some p) =>
    match m.packs[p]? with
    | none => none
    | some pack =>
      some (p, { m with packs := m.packs.set p { pack with resets := pack.resets + 1 } })

/-- A sequence of `get` calls, one per device id of the list: the packers returned, in
order, and the manager afterwards. -/
def gets (m : MiniBatchGpuPackMgr) : List Nat → Option (List Nat × MiniBatchGpuPackMgr)
  | [] => some ([], m)
  | d :: ds =>
    match m.get d with
    | none => none
    | some (p, m1) =>
      match gets m1 ds with
      | none => none
      | some (ps, m2) => some (p :: ps, m2)

/-- What holds after the calls `ds` have returned the packers `rets`: a device that was not
asked for has no packer; a device that was asked for has one packer, returned by each of its
calls and reset by each call but the first; and every allocated packer is the packer of its
device. -/
def Served (ds rets : List Nat) (m : MiniBatchGpuPackMgr) : Prop :=
  rets.length = ds.length ∧ m.pack_list_.length = MAX_DEIVCE_NUM ∧
  (∀ d, d < MAX_DEIVCE_NUM → d ∉ ds → m.pack_list_[d]? = some none) ∧
  (∀ d, d ∈ ds → ∃ (p : Nat) (pack : MiniBatchGpuPack),
    m.pack_list_[d]? = some (some p) ∧ m.packs[p]? = some pack ∧
    pack.device_id = d ∧ pack.resets + 1 = ds.count d ∧
    ∀ i : Nat, ds[i]? = some d → rets[i]? = some p) ∧
  (∀ (p : Nat) (pack : MiniBatchGpuPack), m.packs[p]? = some pack →
    pack.device_id ∈ ds ∧ m.pack_list_[pack.device_id]? = some (some p))

end MiniBatchGpuPackMgr

/-! ## Bounded channel (spec 4.2; `channel.h` is outside the source) -/

/-- Modelled from the spec: the bounded channel `ChannelObject<T>` (declared in `channel.h`,
which is not part of the source), "a thread-safe, capacity-bounded queue" fed by a single
producer.  `queue` holds the items, oldest first; `waiting` is the item of the producer's
`push` that is blocked because the queue is at capacity, if there is one. -/
structure Channel (T : Type) where
  capacity : Nat
  queue : List T
  waiting : Option T
deriving DecidableEq, Repr

/-- A call made on a channel: the producer calls `push(x)`, or a consumer's `pop` takes an
item. -/
inductive ChannelCall (T : Type) where
  | push (x : T)
  | pop
deriving DecidableEq, Repr

namespace Channel

variable {T : Type}

/-- Modelled from the spec: one call on the channel, with the item a `pop` returns.  "`push`
blocks while the queue is at capacity": below capacity the item is appended, at capacity the
call waits, and the producer makes no further call while it waits (`none`).  "`pop` blocks
while empty": a `pop` takes the oldest item, and is not possible on an empty queue (`none`);
the room it makes lets the waiting `push` complete. -/
def step (c : Channel T) : ChannelCall T → Option (Option T × Channel T)
  | .push x =>
    match c.waiting with
    | some _ => none
    | none =>
      if c.queue.length < c.capacity then some (none, { c with queue := c.queue ++ [x] })
      else some (none, { c with waiting := some x })
  | .pop =>
    match c.queue with
    | [] => none
    | y :: rest =>
      match c.waiting with
      | some x => some (some y, { c with queue := rest ++ [x], waiting := none })
      | none => some (some y, { c with queue := rest })

/-- A sequence of calls, one after the other: the items popped, in order, and the channel
afterwards. -/
def run (c : Channel T) : List (ChannelCall T) → Option (List T × Channel T)
  | [] => some ([], c)
  | call :: calls =>
    match c.step call with
    | none => none
    | some (out, c1) =>
      match run c1 calls with
      | none => none
      | some (outs, c2) => some (out.toList ++ outs, c2)

/-- The items pushed by a sequence of calls, in order. -/
def pushed : List (ChannelCall T) → List T
  | [] => []
  | .push x :: calls => x :: pushed calls
  | .pop :: calls => pushed calls

/-- A channel of capacity `k` that holds nothing. -/
def empty (k : Nat) : Channel T := ⟨k, [], none⟩

end Channel

/-! ## File list distribution (spec 4.3; `PickOneFile` is defined outside the source) -/

/-- Modelled from the spec: the state shared by the reader threads, "a shared vector of file
paths plus a shared index" guarded by a mutex (`filelist_`, `*file_idx_`,
`*mutex_for_pick_file_`; `DataFeed::PickOneFile` is declared in data_feed.h and defined in a
file that is not part of the source), with a record of the run: `claims` lists, in order,
the thread and the file index of each successful pick, `exited` the threads that found no
remaining file and left their read loop. -/
structure FileList where
  filelist_ : List String
  file_idx_ : Nat
  claims : List (Nat × Nat)
  exited : List Nat
deriving DecidableEq, Repr

namespace FileList

/-- The shared state before any thread has picked a file. -/
def init (files : List String) : FileList := ⟨files, 0, [], []⟩

/-- Modelled from the spec: one call of `PickOneFile` by `thread`, atomic because it runs
under the lock: "each reader thread, under lock, takes the next unclaimed file index"; the
result is the file name (`none` when the call returns `false`), and "threads that find no
remaining files exit their read loop".  A thread that has exited makes no call (`none`). -/
def PickOneFile (s : FileList) (thread : Nat) : Option (Option String × FileList) :=
  if thread ∈ s.exited then none
  else if s.file_idx_ < s.filelist_.length then
    some (s.filelist_[s.file_idx_]?,
      { s with file_idx_ := s.file_idx_ + 1
               claims := s.claims ++ [(thread, s.file_idx_)] })
  else some (none, { s with exited := thread :: s.exited })

/-- An interleaving of the reader threads: the calls of `PickOneFile` in the order in which
they hold the lock, each given by its thread. -/
def run (s : FileList) : List Nat → Option FileList
  | [] => some s
  | thread :: schedule =>
    match s.PickOneFile thread with
    | none => none
    | some (_, s1) => run s1 schedule

end FileList

/-- What every interleaving keeps true of the shared file list `files`: the file indices
claimed so far are `0, 1, ..., file_idx_ - 1`, one claim each, and a thread has exited only
when every file has been claimed. -/
def FileList.Inv (files : List String) (s : FileList) : Prop :=
  s.filelist_ = files ∧ s.claims.map (fun c => c.2) = List.range s.file_idx_ ∧
  s.file_idx_ ≤ files.length ∧ (s.exited ≠ [] → s.file_idx_ = files.length)

/-! ## `DLManager::Close` and `ReLoad` (data_feed.h 701-712, 770-774, the `_LINUX` build) -/

namespace DLManager

/-- The method `Close(name)`: the value returned and the handle whose parser is deleted and
whose module is closed, if `name` is found; `handle_map_` is not written. -/
def Close (handle_map_ : List (String × DLHandle)) (name : String) :
    Bool × Option DLHandle × List (String × DLHandle) :=
  match find handle_map_ name with
  | none => (true, none, handle_map_)
  | some h => (false, some h, handle_map_)

/-- The method `ReLoad(name, conf)`, `Close(name); return Load(name, conf);`: the handle
that `Close` has deleted and closed, and the outcome of `Load`. -/
def ReLoad (env : DLEnv) (handle_map_ : List (String × DLHandle)) (name : String) :
    Option DLHandle × LoadOutcome :=
  let closed := Close handle_map_ name
  (closed.2.1, Load_SlotConf env closed.2.2 name)

end DLManager

/-! ## The `AucRunnerInfo` region of a record block (data_feed.h 195-235, 307-328) -/

/-- The size `sizeof(AucRunnerInfo)`: three `size_t`. -/
def sizeof_AucRunnerInfo : Nat := 24

/-- The size `sizeof(float)`. -/
def sizeof_float : Nat := 4

/-- The block size the constructor `SlotObjPool()` stores in `slot_record_byte_size_`,
`sizeof(SlotRecordObject) + sizeof(float) * FLAGS_padbox_slotrecord_extend_dim`. -/
def SlotObjPool.default_byte_size (sizeof_SlotRecordObject extend_dim : Nat) : Nat :=
  sizeof_SlotRecordObject + sizeof_float * extend_dim

/-- The method `set_slotrecord_size(byte_size)`. -/
def SlotObjPool.set_slotrecord_size (p : SlotObjPool) (byte_size : Nat) : SlotObjPool :=
  { p with slot_record_byte_size_ := byte_size }

/-- The function `get_auc_runner_info(record)`: the byte offset, from the start of the
record's block, of the `AucRunnerInfo` it returns. -/
def get_auc_runner_info (sizeof_SlotRecordObject extend_dim : Nat) : Nat :=
  sizeof_SlotRecordObject + sizeof_float * extend_dim

/-- Whether the `len` bytes from `offset` on lie inside a block of `byte_size` bytes. -/
def region_inside (offset len byte_size : Nat) : Prop := offset + len ≤ byte_size

instance (offset len byte_size : Nat) : Decidable (region_inside offset len byte_size) := by
  unfold region_inside; infer_instance

/-! ## `BufState` (data_feed.h 795-889) -/

/-- The result of an `int` operation whose mathematical value is `x`; signed overflow is
undefined. -/
def int_checked (x : Int) : Option Int :=
  if -(2 ^ 31) ≤ x ∧ x < 2 ^ 31 then some x else none

/-- The struct `BufState` (the random engine is left out: the value it returns is an
argument of the methods that draw from it). -/
structure BufState where
  left : Int
  right : Int
  central_word : Int
  step : Int
  len : Int
  cursor : Int
  row_num : Int
  batch_size : Int
  walk_len : Int
  window : List Int
deriving DecidableEq, Repr

namespace BufState

/-- The `for` loop of `GetNextCentrolWord()` from the value `step` on, with `k` iterations
left: the value returned and the state. -/
def GetNextCentrolWord_loop : Nat → Int → BufState → Option (Int × BufState)
  | 0, step, s => some (0, { s with step := step })
  | k + 1, step, s =>
    if step < 0 then none
    else
      match s.window[step.toNat]? with
      | none => none
      | some w =>
        match int_checked (s.central_word + w) with
        | none => none
        | some v =>
          if v ≥ 0 then some (1, { s with step := step })
          else GetNextCentrolWord_loop k (step + 1) s

/-- The method `GetNextCentrolWord()`, `r` being the value of `random_engine_.engine()`;
`% window_size` with `window_size == 0` is undefined. -/
def GetNextCentrolWord (s : BufState) (r : Nat) : Option (Int × BufState) :=
  match int_checked (s.central_word + 1) with
  | none => none
  | some cw =>
    let s1 := { s with central_word := cw }
    if cw ≥ s.walk_len then some (0, s1)
    else
      let window_size := s.window.length / 2
      if window_size = 0 then none
      else
        let random_window := r % window_size + 1
        let left : Int := (window_size : Int) - (random_window : Int)
        let right : Int := (window_size : Int) + (random_window : Int) - 1
        GetNextCentrolWord_loop (right + 1 - left).toNat left
          { s1 with left := left, right := right }

/-- The method `Reset(total_rows)`. -/
def Reset (s : BufState) (total_rows : Int) (r : Nat) : Option BufState :=
  let s1 := { s with cursor := 0, row_num := total_rows }
  match int_checked (s1.cursor + s1.batch_size) with
  | none => none
  | some sum =>
    let tmp_len : Option Int :=
      if sum > s1.row_num then int_checked (s1.row_num - s1.cursor) else some s1.batch_size
    match tmp_len with
    | none => none
    | some tmp_len =>
      let s2 := { s1 with len := tmp_len, central_word := -1, step := -1 }
      match s2.GetNextCentrolWord r with
      | none => none
      | some (_, s3) => some s3

/-- The method `GetNextBatch()`: the value returned and the state. -/
def GetNextBatch (s : BufState) (r : Nat) : Option (Int × BufState) :=
  match int_checked (s.cursor + s.len) with
  | none => none
  | some cursor =>
    let s1 := { s with cursor := cursor }
    match int_checked (s1.cursor + s1.batch_size) with
    | none => none
    | some sum =>
      let tmp_len : Option Int :=
        if sum > s1.row_num then int_checked (s1.row_num - s1.cursor) else some s1.batch_size
      match tmp_len with
      | none => none
      | some tmp_len =>
        if tmp_len = 0 then some (0, s1)
        else
          let s2 := { s1 with len := tmp_len, central_word := -1, step := -1 }
          match s2.GetNextCentrolWord r with
          | none => none
          | some (_, s3) => some (if tmp_len ≠ 0 then 1 else 0, s3)

/-- The calls of `GetNextBatch()` up to the first one that returns 0, one per random draw
of the list: the batches `(cursor, len)` seen after each call that returned 1, whether a
call returned 0, and the state at the end. -/
def batches (s : BufState) : List Nat → Option (List (Int × Int) × Bool × BufState)
  | [] => some ([], false, s)
  | r :: rs =>
    match s.GetNextBatch r with
    | none => none
    | some (ret, s1) =>
      if ret = 0 then some ([], true, s1)
      else
        match batches s1 rs with
        | none => none
        | some (bl, done, s2) => some ((s1.cursor, s1.len) :: bl, done, s2)

/-- A sequence of calls of `GetNextBatch()`, whatever they return: the values returned and
the state. -/
def calls (s : BufState) : List Nat → Option (List Int × BufState)
  | [] => some ([], s)
  | r :: rs =>
    match s.GetNextBatch r with
    | none => none
    | some (ret, s1) =>
      match calls s1 rs with
      | none => none
      | some (rets, s2) => some (ret :: rets, s2)

/-- What `Init` leaves that `GetNextCentrolWord` needs: a window of at least two entries
unless no walk is made, and entries that are `int` values. -/
def Walkable (s : BufState) : Prop :=
  (s.walk_len ≤ 0 ∨ 2 ≤ s.window.length) ∧ ∀ w ∈ s.window, -(2 ^ 31) ≤ w ∧ w < 2 ^ 31

end BufState

/-- A `BufState` after `Init(2, 0, window)` with an empty window: batches of 2 rows, no
walk. -/
def BufState.example : BufState := ⟨0, -1, -1, -1, 0, 0, 0, 2, 0, []⟩

/-- What `GetNextCentrolWord` leaves unchanged. -/
def BufState.SameRows (s1 s : BufState) : Prop :=
  s1.len = s.len ∧ s1.cursor = s.cursor ∧ s1.row_num = s.row_num ∧
  s1.batch_size = s.batch_size ∧ s1.walk_len = s.walk_len ∧ s1.window = s.window

/-! ## The mutating methods of `MultiSlotType` (data_feed.h 1269-1339) -/

namespace MultiSlotType

/-- A default-constructed `MultiSlotType`: empty buffers, empty type, no offsets. -/
def fresh : MultiSlotType := ⟨[], [], "", []⟩

/-- The method `AddValue(const float v)`; `none` when `CheckFloat` throws. -/
def AddValue_float (m : MultiSlotType) (v : Nat) : Option MultiSlotType :=
  if m.CheckFloat then some { m with float_feasign_ := m.float_feasign_ ++ [v] } else none

/-- The method `AddValue(const uint64_t v)`; `none` when `CheckUint64` throws. -/
def AddValue_uint64 (m : MultiSlotType) (v : Nat) : Option MultiSlotType :=
  if m.CheckUint64 then some { m with uint64_feasign_ := m.uint64_feasign_ ++ [v] }
  else none

/-- The method `CopyValues(const float* input, size_t size)`: `resize(size)`, then a raw copy
of the `size` values over the buffer; `none` when `CheckFloat` throws. -/
def CopyValues_float (m : MultiSlotType) (input : List Nat) : Option MultiSlotType :=
  if m.CheckFloat then
    some { m with
      float_feasign_ := vec_overwrite (vec_resize m.float_feasign_ input.length 0) 0 input }
  else none

/-- The method `CopyValues(const uint64_t* input, size_t size)`; `none` when `CheckUint64`
throws. -/
def CopyValues_uint64 (m : MultiSlotType) (input : List Nat) : Option MultiSlotType :=
  if m.CheckUint64 then
    some { m with
      uint64_feasign_ := vec_overwrite (vec_resize m.uint64_feasign_ input.length 0) 0 input }
  else none

end MultiSlotType

/-- A call of one of the methods of `MultiSlotType` that change the object, the `Mutable*`
accessors and `operator>>` apart. -/
inductive MultiSlotCall
  | Init (type : String) (reserved_size : Nat)
  | InitOffset (max_batch_size : Nat)
  | AddValue_float (v : Nat)
  | AddValue_uint64 (v : Nat)
  | CopyValues_float (input : List Nat)
  | CopyValues_uint64 (input : List Nat)
  | AddIns (ins : MultiSlotType)
  | AppendValues_uint64 (input : List Nat)
  | AppendValues_float (input : List Nat)
deriving DecidableEq, Repr

namespace MultiSlotType

/-- The object after one call.  A call whose check throws leaves the object as it was (every
check is the first statement of its method); `none` is the undefined `offset_.back()` on an
object without offsets. -/
def call (m : MultiSlotType) : MultiSlotCall → Option MultiSlotType
  | .Init type reserved_size => some (m.Init type reserved_size).1
  | .InitOffset max_batch_size => some (m.InitOffset max_batch_size)
  | .AddValue_float v => some ((m.AddValue_float v).getD m)
  | .AddValue_uint64 v => some ((m.AddValue_uint64 v).getD m)
  | .CopyValues_float input => some ((m.CopyValues_float input).getD m)
  | .CopyValues_uint64 input => some ((m.CopyValues_uint64 input).getD m)
  | .AddIns ins =>
    if ins.type_.toList.head? == some 'f' then
      if m.CheckFloat then m.AddIns ins else some m
    else if ins.type_.toList.head? == some 'u' then
      if m.CheckUint64 then m.AddIns ins else some m
    else m.AddIns ins
  | .AppendValues_uint64 input =>
    if m.CheckUint64 then m.AppendValues_uint64 input else some m
  | .AppendValues_float input =>
    if m.CheckFloat then m.AppendValues_float input else some m

/-- The object after a sequence of calls. -/
def run (m : MultiSlotType) (calls : List MultiSlotCall) : Option MultiSlotType :=
  calls.foldlM call m

/-- The value buffer that does not match the current type is empty. -/
def BufferInv (m : MultiSlotType) : Prop :=
  (m.CheckFloat = false → m.float_feasign_ = []) ∧
  (m.CheckUint64 = false → m.uint64_feasign_ = [])

end MultiSlotType

/-! ## Sequences of calls on a `SlotObjAllocator` (data_feed.h 241-303) -/

namespace SlotObjAllocator

/-- The `while (free_nodes_ != NULL)` loop of `clear()` with the deleter `free_slotrecord`
and `fuel` iterations at most: read `free_nodes_->next`, destroy the node, `--capacity_`
in `size_t`.  `none` when a dead node is read or destroyed, or when the fuel runs out. -/
def clear_loop : Nat → SlotObjAllocator → Heap → Option (SlotObjAllocator × Heap)
  | 0, a, h => if a.free_nodes_ = 0 then some (a, h) else none
  | fuel + 1, a, h =>
    if a.free_nodes_ = 0 then some (a, h)
    else
      match h.deref a.free_nodes_ with
      | some node =>
        match free_slotrecord h a.free_nodes_ with
        | some h1 => clear_loop fuel ⟨node.search_id, (a.capacity_ + 2 ^ 64 - 1) % 2 ^ 64⟩ h1
        | none => none
      | none => none

/-- The method `clear()`: the loop, then whether `CHECK_EQ(capacity_, 0)` holds.  Every
iteration destroys a live block and a heap has at most `brk` of them, so `brk + 1` is fuel
enough for every run of the loop that is defined. -/
def clear (a : SlotObjAllocator) (h : Heap) : Option (Bool × SlotObjAllocator × Heap) :=
  match clear_loop (h.brk + 1) a h with
  | some (a1, h1) => some (a1.capacity_ == 0, a1, h1)
  | none => none

end SlotObjAllocator

/-- A call made on the allocator. -/
inductive AllocCall where
  | release (x : Nat)
  | put (data : List Nat)
  | get (n : Nat)
  | clear
  | acquire
deriving DecidableEq, Repr

/-- The allocator and the heap, together with the bookkeeping of an execution: the nodes put
on the free list and not yet taken off it, the most recent first. -/
structure AllocState where
  alloc : SlotObjAllocator
  heap : Heap
  free : List Nat

namespace AllocState

/-- The constructor `SlotObjAllocator(deleter)` on the heap `h`: `free_nodes_(NULL)`,
`capacity_(0)`. -/
def init (h : Heap) : AllocState := ⟨⟨0, 0⟩, h, []⟩

/-- One call on the allocator; `none` when the call is undefined or when the `CHECK_EQ` of
`clear` fails. -/
def step (s : AllocState) : AllocCall → Option AllocState
  | .release x =>
    match s.alloc.release s.heap x with
    | some (a1, h1) => some ⟨a1, h1, x :: s.free⟩
    | none => none
  | .put data =>
    match s.alloc.put s.heap data with
    | some (_, a1, h1) => some ⟨a1, h1, data.reverse ++ s.free⟩
    | none => none
  | .get n =>
    match s.alloc.get s.heap n with
    | some (data, a1) => some ⟨a1, s.heap, s.free.drop data.length⟩
    | none => none
  | .clear =>
    match s.alloc.clear s.heap with
    | some (true, a1, h1) => some ⟨a1, h1, []⟩
    | _ => none
  | .acquire =>
    match s.alloc.acquire s.heap with
    | some (_, a1) => some ⟨a1, s.heap, s.free.tail⟩
    | none => none

/-- A sequence of calls, one after the other. -/
def exec : AllocState → List AllocCall → Option AllocState
  | s, [] => some s
  | s, c :: cs =>
    match s.step c with
    | some s1 => exec s1 cs
    | none => none

/-- The condition on a call: `release` and `put` are given pointers to live records that are
not on the free list, each once, and `acquire` is called only when `capacity() > 0`. -/
def AllowedCall (s : AllocState) : AllocCall → Prop
  | .release x => x ≠ 0 ∧ (s.heap.objs x).isSome = true ∧ x ∉ s.free
  | .put data =>
    data.Nodup ∧ ∀ x ∈ data, x ≠ 0 ∧ (s.heap.objs x).isSome = true ∧ x ∉ s.free
  | .acquire => 0 < s.alloc.capacity
  | _ => True

instance (s : AllocState) (c : AllocCall) : Decidable (s.AllowedCall c) := by
  cases c <;> unfold AllowedCall <;> infer_instance

/-- The condition on a sequence of calls: each call is allowed in the state it is made in. -/
def Allowed : AllocState → List AllocCall → Bool
  | _, [] => true
  | s, c :: cs =>
    decide (s.AllowedCall c) &&
      match s.step c with
      | some s1 => Allowed s1 cs
      | none => true

/-- The invariant of an execution: the nodes reached from `free_nodes_` are the nodes on the
free list, `capacity_` is their number, and the heap is well formed with 64-bit addresses. -/
def Inv (s : AllocState) : Prop :=
  s.heap.chain s.alloc.free_nodes_ s.free = true ∧
  s.alloc.capacity_ = s.free.length ∧
  s.heap.WF ∧ s.heap.brk < 2 ^ 64

end AllocState

/-! ## `FeasignValuesReplacer` (data_feed.h 1904-1962) -/

/-- The conversion of an integer value to `int` (`static_cast<int>`, or the assignment of a
wider result to an `int`): reduction modulo `2 ^ 32` into the range of `int`. -/
def to_int (x : Int) : Int := (x + 2 ^ 31) % 2 ^ 32 - 2 ^ 31

/-- The statement `offset += diff` on a `uint32_t` offset with an `int` `diff`: the sum is
taken in `unsigned int`. -/
def uint32_add_int (offset : Nat) (diff : Int) : Nat := (((offset : Int) + diff) % 2 ^ 32).toNat

/-- The struct `FeasignValuesReplacer`. -/
structure FeasignValuesReplacer where
  feasign_values_ : List (List Nat)
deriving DecidableEq, Repr

/-- What `replace` and `replace_back` work on: the replacer's `feasign_values_`, the storage
`*fea` and the counters `*del_num` and `*add_num`. -/
structure ReplaceState where
  feasign_values_ : List (List Nat)
  fea : SlotValues Nat
  del_num : Int
  add_num : Int
deriving DecidableEq, Repr

namespace FeasignValuesReplacer

/-- The loop `for (i = idx + 1; i < slot_offsets.size(); ++i) slot_offsets[i] += diff`. -/
def shift_offsets (slot_offsets : List Nat) (idx : Nat) (diff : Int) : List Nat :=
  slot_offsets.take (idx + 1) ++
    (slot_offsets.drop (idx + 1)).map (fun offset => uint32_add_int offset diff)

/-- One iteration of the loop of `replace`, for the slot `idx` and the counter `i`.  The
iterators `begin` and `end` are the positions `slot_offsets[idx]` and `slot_offsets[idx + 1]`
and `insert(begin, ...)` inserts at the position of `begin`.  `none` when an index or the
range is out of bounds, when `vals.at(idx)` throws or when the `int` subtraction
overflows. -/
def replace_body (vals : Nat → Option (List Nat)) (st : ReplaceState) (i idx : Nat) :
    Option ReplaceState :=
  (st.fea.slot_offsets[idx]?).bind fun b =>
  (st.fea.slot_offsets[idx + 1]?).bind fun e =>
  (st.feasign_values_[i]?).bind fun old =>
  if b ≤ e ∧ e ≤ st.fea.slot_values.length then
    (vals idx).bind fun v =>
    (int_checked (to_int v.length -
        to_int ((st.fea.slot_values.drop b).take (e - b) ++ old).length)).map fun diff =>
      { feasign_values_ :=
          st.feasign_values_.set i ((st.fea.slot_values.drop b).take (e - b) ++ old)
        fea :=
          ⟨(st.fea.slot_values.take b ++ st.fea.slot_values.drop e).take b ++ v ++
            (st.fea.slot_values.take b ++ st.fea.slot_values.drop e).drop b,
           shift_offsets st.fea.slot_offsets idx diff⟩
        del_num :=
          to_int (st.del_num + ((st.fea.slot_values.drop b).take (e - b) ++ old).length)
        add_num := to_int (st.add_num + v.length) }
  else none

/-- The loop `for (auto idx : slot_idxs)` of `replace`; a `std::set<uint16_t>` is the list of
its elements in ascending order. -/
def replace_loop (vals : Nat → Option (List Nat)) :
    List Nat → Nat → ReplaceState → Option ReplaceState
  | [], _, st => some st
  | idx :: rest, i, st =>
    match replace_body vals st i idx with
    | some st1 => replace_loop vals rest (i + 1) st1
    | none => none

/-- The method `replace(fea, vals, slot_idxs, del_num, add_num)`. -/
def replace (r : FeasignValuesReplacer) (fea : SlotValues Nat)
    (vals : Nat → Option (List Nat)) (slot_idxs : List Nat) (del_num add_num : Int) :
    Option ReplaceState :=
  replace_loop vals slot_idxs 0
    ⟨vec_resize r.feasign_values_ slot_idxs.length [], fea, del_num, add_num⟩

/-- One iteration of the loop of `replace_back`, for the slot `idx` and the counter `i`;
`dis = std::distance(begin, end)` is `e - b`. -/
def replace_back_body (st : ReplaceState) (i idx : Nat) : Option ReplaceState :=
  (st.fea.slot_offsets[idx]?).bind fun b =>
  (st.fea.slot_offsets[idx + 1]?).bind fun e =>
  if b ≤ e ∧ e ≤ st.fea.slot_values.length then
    (st.feasign_values_[i]?).bind fun saved =>
    (int_checked (to_int saved.length - to_int ((e - b : Nat) : Int))).map fun diff =>
      { feasign_values_ := st.feasign_values_
        fea :=
          ⟨(st.fea.slot_values.take b ++ st.fea.slot_values.drop e).take b ++ saved ++
            (st.fea.slot_values.take b ++ st.fea.slot_values.drop e).drop b,
           shift_offsets st.fea.slot_offsets idx diff⟩
        del_num := to_int (st.del_num + ((e - b : Nat) : Int))
        add_num := to_int (st.add_num + saved.length) }
  else none

/-- The loop `for (auto idx : slot_idxs)` of `replace_back`. -/
def replace_back_loop : List Nat → Nat → ReplaceState → Option ReplaceState
  | [], _, st => some st
  | idx :: rest, i, st =>
    match replace_back_body st i idx with
    | some st1 => replace_back_loop rest (i + 1) st1
    | none => none

/-- The method `replace_back(fea, slot_idxs, del_num, add_num)`: the loop, then
`feasign_values_.clear()`. -/
def replace_back (r : FeasignValuesReplacer) (fea : SlotValues Nat) (slot_idxs : List Nat)
    (del_num add_num : Int) : Option ReplaceState :=
  (replace_back_loop slot_idxs 0 ⟨r.feasign_values_, fea, del_num, add_num⟩).map
    fun st => { st with feasign_values_ := [] }

end FeasignValuesReplacer

/-- The values of slot `k` of a ragged storage: the values at the positions
`slot_offsets[k] .. slot_offsets[k + 1]`, their number being the `uint32_t` difference of the
two offsets as in `get_values` (no values when `k` is not a slot). -/
def SlotValues.slot {T : Type} (s : SlotValues T) (k : Nat) : List T :=
  match s.slot_offsets[k]?, s.slot_offsets[k + 1]? with
  | some offset, some next => s.span offset ((next + 2 ^ 32 - offset) % 2 ^ 32)
  | _, _ => []

/-- The offsets of the ragged storage that holds the slots `S`: the numbers of values in the
first `0, 1, ..., |S|` slots. -/
def slot_offsets_of {T : Type} (S : List (List T)) : List Nat :=
  (List.range (S.length + 1)).map (fun j => (S.take j).flatten.length)

/-- The ragged storage that holds the slots `S`. -/
def SlotValues.ofSlots {T : Type} (S : List (List T)) : SlotValues T :=
  ⟨S.flatten, slot_offsets_of S⟩

/-- The slots `S` with the slots `idxs` replaced, the slot `idx` by `w idx`. -/
def set_slots {T : Type} (w : Nat → List T) (idxs : List Nat) (S : List (List T)) :
    List (List T) :=
  idxs.foldl (fun S idx => S.set idx (w idx)) S

/-! ## Theorems -/

theorem leBytes_length (w x : Nat) : (leBytes w x).length = w := by
  induction w generalizing x with
  | zero => rfl
  | succ w ih => simp [leBytes, ih]

theorem leVal_leBytes (w x : Nat) : leVal (leBytes w x) = x % 256 ^ w := by
  induction w generalizing x with
  | zero => simp [leBytes, leVal, Nat.mod_one]
  | succ w ih => rw [leBytes, leVal, ih, pow_succ', Nat.mod_mul]

theorem rawBytes_length (sz : Nat) (xs : List Nat) :
    (rawBytes sz xs).length = xs.length * sz := by
  induction xs with
  | nil => simp [rawBytes]
  | cons x xs ih => simp [rawBytes, ih, leBytes_length, Nat.succ_mul, Nat.add_comm]

theorem readRaw_rawBytes (sz : Nat) (xs rest : List Nat) (h : ∀ x ∈ xs, x < 256 ^ sz) :
    readRaw sz xs.length (rawBytes sz xs ++ rest) = xs := by
  induction xs with
  | nil => simp [readRaw]
  | cons x xs ih =>
    have hx : x < 256 ^ sz := h x (List.mem_cons_self _ _)
    have hxs : ∀ y ∈ xs, y < 256 ^ sz := fun y hy => h y (List.mem_cons_of_mem _ hy)
    simp only [rawBytes, List.length_cons, readRaw, List.append_assoc]
    rw [List.take_left' (leBytes_length sz x), List.drop_left' (leBytes_length sz x),
      leVal_leBytes, Nat.mod_eq_of_lt hx, ih hxs]

theorem Archive.Read_append (a b : List Nat) (n : Nat) (h : n = a.length) :
    Archive.Read ⟨a ++ b⟩ n = some (a, ⟨b⟩) := by
  subst h
  simp [Archive.Read]

theorem Archive.get_put (w x : Nat) (b : List Nat) (h : x < 256 ^ w) :
    Archive.get w ⟨leBytes w x ++ b⟩ = some (x, ⟨b⟩) := by
  simp [Archive.get, Archive.Read_append _ _ _ (leBytes_length w x).symm, leVal_leBytes,
    Nat.mod_eq_of_lt h]

theorem archive_out_buffer (sz : Nat) (s : SlotValues Nat)
    (hv : s.slot_values.length < 2 ^ 32) (hk : s.slot_offsets.length < 2 ^ 16) :
    (SlotValues.archive_out sz ⟨[]⟩ s).buffer =
      leBytes 4 s.slot_values.length ++ (rawBytes sz s.slot_values ++
        (leBytes 2 s.slot_offsets.length ++
          (if 2 < s.slot_offsets.length then
            rawBytes 4 ((s.slot_offsets.drop 1).take (s.slot_offsets.length - 2))
           else []))) := by
  have h1 : to_uint32 s.slot_values.length = s.slot_values.length := Nat.mod_eq_of_lt hv
  have h2 : to_uint16 s.slot_offsets.length = s.slot_offsets.length := Nat.mod_eq_of_lt hk
  simp only [SlotValues.archive_out, h1, h2, Archive.put, Archive.Write, List.take_length]
  by_cases hz : 0 < s.slot_values.length
  · by_cases h3 : 2 < s.slot_offsets.length <;> simp [hz, h3]
  · have hnil : s.slot_values = [] := List.length_eq_zero.mp (by omega)
    by_cases h3 : 2 < s.slot_offsets.length <;> simp [hnil, h3, rawBytes]

theorem archive_in_offsets_roundtrip (offs rest : List Nat) (n : Nat)
    (hinv : offs = [] ∨
      (offs.head? = some 0 ∧ offs.getLast? = some n ∧ offs.Pairwise (· ≤ ·)))
    (hn : n < 2 ^ 32) :
    SlotValues.archive_in_offsets
      ⟨(if 2 < offs.length then rawBytes 4 ((offs.drop 1).take (offs.length - 2)) else [])
        ++ rest⟩
      [] n offs.length = some (⟨rest⟩, offs) := by
  rcases hinv with rfl | ⟨h0, hl, hp⟩
  · simp [SlotValues.archive_in_offsets]
  · cases offs with
    | nil => simp at h0
    | cons a t =>
      simp only [List.head?_cons, Option.some.injEq] at h0
      subst h0
      rcases List.eq_nil_or_concat t with rfl | ⟨L, b, ht⟩
      · simp at hl
        subst hl
        simp [SlotValues.archive_in_offsets, vec_resize]
      · rw [List.concat_eq_append] at ht
        subst ht
        have hb : b = n := by
          rw [← List.cons_append, List.getLast?_concat] at hl
          exact Option.some.inj hl
        subst hb
        by_cases hL : L = []
        · subst hL
          simp [SlotValues.archive_in_offsets, vec_resize, List.replicate]
        · have hlen : 0 < L.length := List.length_pos.mpr hL
          have hmem : ∀ x ∈ L, x < 256 ^ 4 := by
            intro x hx
            have hxb : x ≤ b := by
              have := List.pairwise_cons.mp hp
              have h2 := List.pairwise_append.mp this.2
              exact h2.2.2 x hx b (List.mem_singleton_self b)
            omega
          have hint : ((0 :: (L ++ [b])).drop 1).take ((0 :: (L ++ [b])).length - 2) = L := by
            simp
          have h3 : 2 < (0 :: (L ++ [b])).length := by simp; omega
          rw [hint, if_pos h3]
          have hk : (0 :: (L ++ [b])).length = L.length + 2 := by simp
          rw [hk]
          have hread : Archive.Read ⟨rawBytes 4 L ++ rest⟩ ((L.length + 2 - 2) * 4)
              = some (rawBytes 4 L, ⟨rest⟩) :=
            Archive.Read_append _ _ _ (by simp [rawBytes_length])
          have hraw : readRaw 4 (L.length + 2 - 2) (rawBytes 4 L) = L := by
            have := readRaw_rawBytes 4 L [] hmem
            simpa using this
          simp only [SlotValues.archive_in_offsets, hread, hraw]
          have hdrop : List.drop (1 + L.length) (List.replicate (L.length + 2) 0) = [0] := by
            rw [List.drop_replicate]
            have : L.length + 2 - (1 + L.length) = 1 := by omega
            rw [this]; rfl
          have htake : List.take 1 (List.replicate (L.length + 2) 0) = [0] := by
            rw [List.take_replicate]
            have : min 1 (L.length + 2) = 1 := by omega
            rw [this]; rfl
          have hset : ([0] ++ L ++ [0]).set (L.length + 2 - 1) b = 0 :: (L ++ [b]) := by
            have h1 : L.length + 2 - 1 = ([0] ++ L).length + 0 := by simp
            rw [h1, List.set_append_right _ _ (by simp)]
            simp
          simp only [vec_resize, vec_overwrite, List.take_nil, List.nil_append, List.length_nil,
            Nat.sub_zero, hdrop, htake, Nat.lt_add_left_iff_pos, Nat.zero_lt_succ, if_true,
            show 0 < L.length + 2 from by omega]
          rw [if_pos hlen]
          simp only [hset]

/-- C1: the ragged-storage round trip.  For every `SlotValues<T>` `s` (values of
`sz = sizeof(T)` bytes) that has no offsets at all or satisfies the ragged invariant, with
fewer than `2 ^ 32` values and fewer than `2 ^ 16` offsets, reading the bytes written by
`operator<<` (followed by any further bytes `rest`) with `operator>>` into an empty
`SlotValues<T>` gives back exactly the values and offsets of `s` and leaves `rest` unread. -/
theorem slotvalues_archive_roundtrip (sz : Nat) (s : SlotValues Nat) (rest : List Nat)
    (htype : ∀ x ∈ s.slot_values, x < 256 ^ sz)
    (hinv : s.slot_offsets = [] ∨ s.RaggedInv)
    (hv : s.slot_values.length < 2 ^ 32) (hk : s.slot_offsets.length < 2 ^ 16) :
    SlotValues.archive_in sz ⟨(SlotValues.archive_out sz ⟨[]⟩ s).buffer ++ rest⟩
      SlotValues.empty = some (⟨rest⟩, s) := by
  obtain ⟨vals, offs⟩ := s
  simp only at htype hinv hv hk
  rw [archive_out_buffer sz _ hv hk]
  simp only [List.append_assoc]
  have hget4 := Archive.get_put 4 vals.length
    (rawBytes sz vals ++ (leBytes 2 offs.length ++
      ((if 2 < offs.length then rawBytes 4 ((offs.drop 1).take (offs.length - 2)) else [])
        ++ rest))) (by norm_num; omega)
  have hget2 := Archive.get_put 2 offs.length
    ((if 2 < offs.length then rawBytes 4 ((offs.drop 1).take (offs.length - 2)) else [])
        ++ rest) (by norm_num; omega)
  have hoffs := archive_in_offsets_roundtrip offs rest vals.length
    (by
      rcases hinv with h | h
      · exact Or.inl h
      · exact Or.inr h) hv
  simp only [SlotValues.archive_in, hget4, SlotValues.empty]
  by_cases hz : 0 < vals.length
  · have hread : Archive.Read ⟨rawBytes sz vals ++ (leBytes 2 offs.length ++
        ((if 2 < offs.length then rawBytes 4 ((offs.drop 1).take (offs.length - 2)) else [])
          ++ rest))⟩ (vals.length * sz) = some (rawBytes sz vals, ⟨_⟩) :=
      Archive.Read_append _ _ _ (by simp [rawBytes_length])
    have hraw : readRaw sz vals.length (rawBytes sz vals) = vals := by
      simpa using readRaw_rawBytes sz vals [] htype
    simp only [if_pos hz, hread, hraw, hget2, hoffs]
    simp [vec_overwrite, vec_resize]
  · have hnil : vals = [] := List.length_eq_zero.mp (by omega)
    subst hnil
    simp only [List.length_nil, Nat.lt_irrefl, if_false, rawBytes, List.nil_append, hget2]
    simp only [List.length_nil] at hoffs
    simp only [hoffs]

/-- The round trip of C1 on a storage with three slots, the middle one empty. -/
theorem slotvalues_archive_roundtrip_witness :
    SlotValues.archive_in 8 ⟨(SlotValues.archive_out 8 ⟨[]⟩ ⟨[7, 9, 11], [0, 1, 1, 3]⟩).buffer
      ++ [42]⟩ SlotValues.empty = some (⟨[42]⟩, ⟨[7, 9, 11], [0, 1, 1, 3]⟩) :=
  slotvalues_archive_roundtrip 8 ⟨[7, 9, 11], [0, 1, 1, 3]⟩ [42]
    (by decide) (Or.inr (by decide)) (by decide) (by decide)

theorem add_values_eq {T : Type} (s : SlotValues T) (v : List T) :
    s.add_values v =
      ⟨s.slot_values ++ v,
        (if s.slot_offsets.isEmpty then s.slot_offsets ++ [0] else s.slot_offsets) ++
          [to_uint32 (s.slot_values.length + v.length)]⟩ := by
  cases v with
  | nil => simp [SlotValues.add_values]
  | cons a v => simp [SlotValues.add_values]

theorem foldl_add_values_of_ne_nil {T : Type} (vs : List (List T)) (s : SlotValues T)
    (h : s.slot_offsets ≠ []) :
    vs.foldl SlotValues.add_values s =
      ⟨s.slot_values ++ vs.flatten, s.slot_offsets ++ cumOffsets s.slot_values.length vs⟩ := by
  induction vs generalizing s with
  | nil => simp [cumOffsets]
  | cons v vs ih =>
    have hne : (s.add_values v).slot_offsets ≠ [] := by
      rw [add_values_eq]; simp
    rw [List.foldl_cons, ih _ hne, add_values_eq]
    have hemp : s.slot_offsets.isEmpty = false := by
      cases hs : s.slot_offsets with
      | nil => exact absurd hs h
      | cons a l => rfl
    simp [hemp, cumOffsets]

theorem foldl_add_values_empty {T : Type} (v : List T) (vs : List (List T)) :
    (v :: vs).foldl SlotValues.add_values SlotValues.empty =
      ⟨(v :: vs).flatten, 0 :: cumOffsets 0 (v :: vs)⟩ := by
  have hne : ((SlotValues.empty : SlotValues T).add_values v).slot_offsets ≠ [] := by
    rw [add_values_eq]; simp
  rw [List.foldl_cons, foldl_add_values_of_ne_nil _ _ hne, add_values_eq]
  simp [SlotValues.empty, cumOffsets]

theorem cumOffsets_length {T : Type} (vs : List (List T)) (b : Nat) :
    (cumOffsets b vs).length = vs.length := by
  induction vs generalizing b with
  | nil => rfl
  | cons v vs ih => simp [cumOffsets, ih]

/-- Below `2 ^ 32` the entry `i` of `b :: cumOffsets b vs` is `b` plus the number of values
of the first `i` arrays. -/
theorem cumOffsets_getElem? {T : Type} (vs : List (List T)) (b i : Nat)
    (hb : b + vs.flatten.length < 2 ^ 32) (hi : i ≤ vs.length) :
    (b :: cumOffsets b vs)[i]? = some (b + (vs.take i).flatten.length) := by
  induction vs generalizing b i with
  | nil =>
    have : i = 0 := by simpa using hi
    subst this; simp
  | cons v vs ih =>
    cases i with
    | zero => simp
    | succ i =>
      have hlen : (v :: vs).flatten.length = v.length + vs.flatten.length := by
        rw [List.flatten_cons, List.length_append]
      have h1 : to_uint32 (b + v.length) = b + v.length :=
        Nat.mod_eq_of_lt (by omega)
      have hi' : i ≤ vs.length := by simpa using hi
      have := ih (b + v.length) i (by omega) hi'
      simp only [cumOffsets, h1, List.getElem?_cons_succ, List.take_succ_cons,
        List.flatten_cons, List.length_append]
      rw [this]; congr 1; omega

theorem cumOffsets_getLast? {T : Type} (vs : List (List T)) (b : Nat)
    (hb : b + vs.flatten.length < 2 ^ 32) :
    (b :: cumOffsets b vs).getLast? = some (b + vs.flatten.length) := by
  have h := cumOffsets_getElem? vs b vs.length hb (Nat.le_refl _)
  rw [List.take_length] at h
  rw [List.getLast?_eq_getElem?]
  simpa [cumOffsets_length] using h

theorem cumOffsets_pairwise {T : Type} (vs : List (List T)) (b : Nat)
    (hb : b + vs.flatten.length < 2 ^ 32) :
    (b :: cumOffsets b vs).Pairwise (· ≤ ·) ∧ ∀ x ∈ cumOffsets b vs, b ≤ x := by
  induction vs generalizing b with
  | nil => simp [cumOffsets]
  | cons v vs ih =>
    have hlen : (v :: vs).flatten.length = v.length + vs.flatten.length := by
      rw [List.flatten_cons, List.length_append]
    have h1 : to_uint32 (b + v.length) = b + v.length :=
      Nat.mod_eq_of_lt (by omega)
    obtain ⟨hp, hle⟩ := ih (b + v.length) (by omega)
    have hall : ∀ x ∈ cumOffsets b (v :: vs), b ≤ x := by
      intro x hx
      simp only [cumOffsets, h1, List.mem_cons] at hx
      rcases hx with rfl | hx
      · omega
      · have := hle x hx; omega
    refine ⟨List.pairwise_cons.mpr ⟨hall, ?_⟩, hall⟩
    simpa [cumOffsets, h1] using hp

theorem length_le_flatten_length {T : Type} (vs : List (List T)) (v : List T) (h : v ∈ vs) :
    v.length ≤ vs.flatten.length := by
  induction vs with
  | nil => simp at h
  | cons w vs ih =>
    rw [List.flatten_cons, List.length_append]
    rcases List.mem_cons.mp h with rfl | h
    · omega
    · have := ih h; omega

theorem cumOffsets_getLast?_of_ne_nil {T : Type} (vs : List (List T)) (b : Nat)
    (h : vs ≠ []) :
    (cumOffsets b vs).getLast? = some (to_uint32 (b + vs.flatten.length)) := by
  induction vs generalizing b with
  | nil => exact absurd rfl h
  | cons v vs ih =>
    cases vs with
    | nil => simp [cumOffsets]
    | cons w ws =>
      have := ih (b + v.length) (by simp)
      rw [cumOffsets] at this
      rw [cumOffsets, cumOffsets, List.getLast?_cons_cons, this]
      simp [Nat.add_assoc]

theorem add_slot_feasigns_loop_eq {T : Type} (fs : List (List T)) (i : Nat)
    (vals : List T) (pre : List Nat) (hi : pre.length = i)
    (hv : ∀ v ∈ fs, v.length < 2 ^ 32) :
    SlotValues.add_slot_feasigns_loop fs i ⟨vals, pre ++ List.replicate (fs.length + 1) 0⟩ =
      ⟨vals ++ fs.flatten,
        pre ++ (to_uint32 vals.length :: cumOffsets vals.length fs).dropLast ++ [0]⟩ := by
  induction fs generalizing i vals pre with
  | nil => simp [SlotValues.add_slot_feasigns_loop, cumOffsets]
  | cons v rest ih =>
    have hvlen : to_uint32 v.length = v.length :=
      Nat.mod_eq_of_lt (hv v (List.mem_cons_self _ _))
    have hvals : (if 0 < to_uint32 v.length then vals ++ v else vals) = vals ++ v := by
      rw [hvlen]
      cases v with
      | nil => simp
      | cons a v => simp
    have hset : (pre ++ List.replicate ((v :: rest).length + 1) 0).set i
        (to_uint32 vals.length) =
        (pre ++ [to_uint32 vals.length]) ++ List.replicate (rest.length + 1) 0 := by
      have h0 : i = pre.length + 0 := by omega
      rw [h0, List.set_append_right _ _ (by omega)]
      simp [List.replicate_succ]
    simp only [SlotValues.add_slot_feasigns_loop, hvals, hset]
    rw [ih (i + 1) (vals ++ v) (pre ++ [to_uint32 vals.length]) (by simp [hi])
      (fun w hw => hv w (List.mem_cons_of_mem _ hw))]
    simp [cumOffsets, List.dropLast]

theorem add_slot_feasigns_empty {T : Type} (fs : List (List T)) (fea_num : Nat)
    (hk : fs.length + 1 < 2 ^ 31) (hv : ∀ v ∈ fs, v.length < 2 ^ 32) :
    SlotValues.add_slot_feasigns SlotValues.empty fs fea_num =
      some ⟨fs.flatten, 0 :: cumOffsets 0 fs⟩ := by
  have hnum : to_uint32 fs.length = fs.length := Nat.mod_eq_of_lt (by omega)
  have hloop := add_slot_feasigns_loop_eq fs 0 [] [] rfl hv
  simp only [List.nil_append, List.length_nil] at hloop
  have h0 : to_uint32 0 = 0 := rfl
  simp only [SlotValues.add_slot_feasigns, hnum, if_pos hk, SlotValues.empty, vec_resize,
    List.take_nil, List.length_nil, Nat.sub_zero, List.nil_append, List.take_length, hloop,
    h0]
  congr 2
  have hlen : ((0 :: cumOffsets 0 fs).dropLast).length = fs.length := by
    simp [cumOffsets_length]
  have hidx : fs.length = ((0 :: cumOffsets 0 fs).dropLast).length + 0 := by omega
  rw [hidx, List.set_append_right _ _ (by omega)]
  simp only [Nat.add_sub_cancel_left, List.set_cons_zero, ← hidx]
  cases hfs : fs with
  | nil => simp [cumOffsets, h0]
  | cons v rest =>
    have hl := cumOffsets_getLast?_of_ne_nil (v :: rest) 0 (by simp)
    have hne : cumOffsets 0 (v :: rest) ≠ [] := by simp [cumOffsets]
    rw [List.dropLast_cons_of_ne_nil hne, List.cons_append]
    congr 1
    rw [Nat.zero_add] at hl
    have := List.dropLast_append_getLast? _ (Option.mem_def.mpr hl)
    have hsub : (v :: rest).length - (0 :: (cumOffsets 0 (v :: rest)).dropLast).length = 0 := by
      simp [cumOffsets_length]
    rw [hsub, List.set_cons_zero]
    exact this

theorem flatten_span {T : Type} (vs : List (List T)) (i : Nat) (hi : i < vs.length) :
    ((vs.flatten).drop ((vs.take i).flatten.length)).take vs[i].length = vs[i] ∧
    (vs.take (i + 1)).flatten.length = (vs.take i).flatten.length + vs[i].length := by
  induction vs generalizing i with
  | nil => simp at hi
  | cons v rest ih =>
    cases i with
    | zero => simp
    | succ i =>
      have hi' : i < rest.length := by simpa using hi
      obtain ⟨h1, h2⟩ := ih i hi'
      constructor
      · simp only [List.take_succ_cons, List.flatten_cons, List.length_append,
          List.getElem_cons_succ]
        rw [List.drop_append]
        exact h1
      · simp only [List.take_succ_cons, List.flatten_cons, List.length_append,
          List.getElem_cons_succ]
        omega

theorem ragged_of_cumOffsets {T : Type} (vs : List (List T))
    (htot : vs.flatten.length < 2 ^ 32) :
    (⟨vs.flatten, 0 :: cumOffsets 0 vs⟩ : SlotValues T).RaggedInv := by
  refine ⟨rfl, ?_, (cumOffsets_pairwise vs 0 (by omega)).1⟩
  have := cumOffsets_getLast? vs 0 (by omega)
  simpa using this

/-- C2 (amended): starting from an empty `SlotValues`, after any non-empty sequence of
`add_values` calls appending fewer than `2 ^ 32` values in total, the offsets start at 0,
end at the number of values and never decrease; the same holds after one
`add_slot_feasigns` call on an empty `SlotValues` with fewer than `2 ^ 31 - 1` slots, which
returns.  With no `add_values` call at all there is no offset. -/
theorem add_values_ragged_invariant {T : Type} (vs : List (List T)) (fea_num : Nat)
    (htot : vs.flatten.length < 2 ^ 32) :
    (vs ≠ [] → (vs.foldl SlotValues.add_values SlotValues.empty).RaggedInv) ∧
    (vs = [] → (vs.foldl SlotValues.add_values SlotValues.empty).slot_offsets = []) ∧
    (vs.length + 1 < 2 ^ 31 →
      ∃ s, SlotValues.add_slot_feasigns SlotValues.empty vs fea_num = some s ∧
        s.RaggedInv) := by
  refine ⟨?_, ?_, ?_⟩
  · intro hne
    cases vs with
    | nil => exact absurd rfl hne
    | cons v rest =>
      rw [foldl_add_values_empty]
      exact ragged_of_cumOffsets _ htot
  · intro hnil
    subst hnil
    rfl
  · intro hk
    refine ⟨_, add_slot_feasigns_empty vs fea_num hk ?_, ragged_of_cumOffsets _ htot⟩
    intro v hv
    have := length_le_flatten_length vs v hv
    omega

/-- The invariant of C2 after appending `[1]`, `[]` and `[1, 1]`, by three `add_values`
calls and by one `add_slot_feasigns` call. -/
theorem add_values_ragged_invariant_witness :
    ([[1], [], [1, 1]] : List (List Nat)).flatten.length < 2 ^ 32 ∧
    (([[1], [], [1, 1]] : List (List Nat)).foldl SlotValues.add_values
      SlotValues.empty).RaggedInv ∧
    ∃ s, SlotValues.add_slot_feasigns SlotValues.empty
        ([[1], [], [1, 1]] : List (List Nat)) 3 = some s ∧ s.RaggedInv :=
  ⟨by decide,
    (add_values_ragged_invariant [[1], [], [1, 1]] 3 (by decide)).1 (by decide),
    (add_values_ragged_invariant [[1], [], [1, 1]] 3 (by decide)).2.2 (by decide)⟩

/-- C2 fails as stated: with no `add_values` call at all the offsets are empty, so there is
neither a first offset equal to 0 nor a last one; `add_slot_feasigns` with `2 ^ 31` (empty)
slots computes a negative `slot_num` and does not complete; and with `2 ^ 31 - 1` (empty)
slots its `slot_num + 1` overflows `int`. -/
theorem add_values_ragged_invariant_counterexample :
    ¬ (([] : List (List Nat)).foldl SlotValues.add_values SlotValues.empty).RaggedInv ∧
    SlotValues.add_slot_feasigns (SlotValues.empty : SlotValues Nat)
      (List.replicate (2 ^ 31) []) 0 = none ∧
    SlotValues.add_slot_feasigns (SlotValues.empty : SlotValues Nat)
      (List.replicate (2 ^ 31 - 1) []) 0 = none := by
  refine ⟨by decide, ?_, ?_⟩
  · have h : to_uint32 (List.replicate (2 ^ 31) ([] : List Nat)).length = 2 ^ 31 := by
      rw [List.length_replicate]; rfl
    unfold SlotValues.add_slot_feasigns
    simp only [h]
    rw [if_neg (by decide)]
  · have h : to_uint32 (List.replicate (2 ^ 31 - 1) ([] : List Nat)).length = 2 ^ 31 - 1 := by
      rw [List.length_replicate]; rfl
    unfold SlotValues.add_slot_feasigns
    simp only [h]
    rw [if_neg (by decide)]

/-- C3 (amended): after a non-empty list of fewer than `2 ^ 31` arrays `vs` with fewer than
`2 ^ 32` values in total has been appended to an empty `SlotValues` by one `add_values` call
each, there are `vs.length + 1` offsets and, for every `i < vs.length`, `get_values(i, &size)`
returns, sets `size` to the length of `vs[i]` and addresses the sub-array
`slot_values[offset[i] .. offset[i+1])`, which equals `vs[i]`. -/
theorem get_values_after_add_values {T : Type} (vs : List (List T)) (hne : vs ≠ [])
    (hk : vs.length < 2 ^ 31) (htot : vs.flatten.length < 2 ^ 32) :
    (vs.foldl SlotValues.add_values SlotValues.empty).slot_offsets.length = vs.length + 1 ∧
    ∀ (i : Nat) (hi : i < vs.length), ∃ offset,
      (vs.foldl SlotValues.add_values SlotValues.empty).slot_offsets[i]? = some offset ∧
      (vs.foldl SlotValues.add_values SlotValues.empty).slot_offsets[i + 1]? =
        some (offset + vs[i].length) ∧
      (vs.foldl SlotValues.add_values SlotValues.empty).get_values i =
        some (offset, vs[i].length) ∧
      (vs.foldl SlotValues.add_values SlotValues.empty).span offset vs[i].length = vs[i] := by
  cases vs with
  | nil => exact absurd rfl hne
  | cons v rest =>
    rw [foldl_add_values_empty]
    refine ⟨by simp [cumOffsets_length], ?_⟩
    intro i hi
    obtain ⟨hspan, hnext⟩ := flatten_span (v :: rest) i hi
    have h1 := cumOffsets_getElem? (v :: rest) 0 i (by omega) (by omega)
    have h2 := cumOffsets_getElem? (v :: rest) 0 (i + 1) (by omega) (by omega)
    rw [Nat.zero_add] at h1 h2
    rw [hnext] at h2
    have hvi : (v :: rest)[i].length < 2 ^ 32 := by
      have := length_le_flatten_length (v :: rest) _ (List.getElem_mem hi)
      omega
    refine ⟨_, h1, h2, ?_, hspan⟩
    have hguard : (0 : Int) ≤ (i : Int) ∧ (i : Int) + 1 < 2 ^ 31 := by
      constructor <;> omega
    have hnext1 : ((i : Int) + 1).toNat = i + 1 := by omega
    unfold SlotValues.get_values
    rw [if_pos hguard, Int.toNat_ofNat, hnext1, h1, h2]
    exact congrArg some (congrArg (Prod.mk _) (by omega))

/-- The statement of C3 for the arrays `[1]`, `[]` and `[1, 1]`. -/
theorem get_values_after_add_values_witness :
    ([[1], [], [1, 1]] : List (List Nat)) ≠ [] ∧
    ([[1], [], [1, 1]] : List (List Nat)).length < 2 ^ 31 ∧
    ([[1], [], [1, 1]] : List (List Nat)).flatten.length < 2 ^ 32 ∧
    (([[1], [], [1, 1]] : List (List Nat)).foldl SlotValues.add_values
        SlotValues.empty).slot_offsets.length = 3 + 1 ∧
    ∀ (i : Nat) (hi : i < ([[1], [], [1, 1]] : List (List Nat)).length), ∃ offset,
      (([[1], [], [1, 1]] : List (List Nat)).foldl SlotValues.add_values
        SlotValues.empty).slot_offsets[i]? = some offset ∧
      (([[1], [], [1, 1]] : List (List Nat)).foldl SlotValues.add_values
        SlotValues.empty).slot_offsets[i + 1]? =
          some (offset + ([[1], [], [1, 1]] : List (List Nat))[i].length) ∧
      (([[1], [], [1, 1]] : List (List Nat)).foldl SlotValues.add_values
        SlotValues.empty).get_values i =
          some (offset, ([[1], [], [1, 1]] : List (List Nat))[i].length) ∧
      (([[1], [], [1, 1]] : List (List Nat)).foldl SlotValues.add_values
        SlotValues.empty).span offset ([[1], [], [1, 1]] : List (List Nat))[i].length =
          ([[1], [], [1, 1]] : List (List Nat))[i] :=
  ⟨by decide, by decide, by decide,
    get_values_after_add_values [[1], [], [1, 1]] (by decide) (by decide) (by decide)⟩

theorem wrapped_offsets_example (A B A' : List Nat) (a x : Nat) (hA : A = a :: A')
    (hlA : A.length = 2 ^ 31) (hlB : B.length = 2 ^ 31) :
    (([A, B, [x]] : List (List Nat)).foldl SlotValues.add_values
        SlotValues.empty).get_values 2 = some (0, 1) ∧
    (([A, B, [x]] : List (List Nat)).foldl SlotValues.add_values
        SlotValues.empty).span 0 1 = [a] := by
  rw [foldl_add_values_empty]
  have hoff : cumOffsets 0 [A, B, [x]] = [2 ^ 31, 0, 1] := by
    simp only [cumOffsets, hlA, hlB, List.length_singleton, to_uint32]
    norm_num
  constructor
  · simp only [SlotValues.get_values, hoff]
    rfl
  · simp only [SlotValues.span, List.drop_zero, List.flatten_cons, hA]
    rfl

theorem get_values_last_int {T : Type} (s : SlotValues T) :
    s.get_values (2 ^ 31 - 1) = none := by
  unfold SlotValues.get_values
  rw [if_neg (by decide)]

/-- C3 fails as stated in three places.  With no array appended there is no offset at all
(not `0 + 1` of them).  Once `2 ^ 32` values are stored the `uint32_t` offsets wrap:
after appending two arrays of `2 ^ 31` zeros and then `[1]`, `get_values(2, &size)` sets
`size` to 1 but addresses `slot_values[0]`, whose content is `[0]`, not `[1]`.  And after
appending `2 ^ 31` empty arrays the index `2 ^ 31 - 1` of the last one is an `int` for which
`idx + 1` overflows: `get_values` is undefined there. -/
theorem get_values_after_add_values_counterexample :
    (([] : List (List Nat)).foldl SlotValues.add_values
        SlotValues.empty).slot_offsets.length ≠ 0 + 1 ∧
    (([List.replicate (2 ^ 31) 0, List.replicate (2 ^ 31) 0, [1]] : List (List Nat)).foldl
        SlotValues.add_values SlotValues.empty).get_values 2 = some (0, 1) ∧
    (([List.replicate (2 ^ 31) 0, List.replicate (2 ^ 31) 0, [1]] : List (List Nat)).foldl
        SlotValues.add_values SlotValues.empty).span 0 1 = [0] ∧
    2 ^ 31 - 1 < (List.replicate (2 ^ 31) ([] : List Nat)).length ∧
    ((List.replicate (2 ^ 31) ([] : List Nat)).foldl SlotValues.add_values
        SlotValues.empty).get_values (2 ^ 31 - 1) = none := by
  have hwrap : (([List.replicate (2 ^ 31) 0, List.replicate (2 ^ 31) 0, [1]] :
        List (List Nat)).foldl SlotValues.add_values SlotValues.empty).get_values 2
        = some (0, 1) ∧
      (([List.replicate (2 ^ 31) 0, List.replicate (2 ^ 31) 0, [1]] :
        List (List Nat)).foldl SlotValues.add_values SlotValues.empty).span 0 1 = [0] :=
    wrapped_offsets_example _ _ (List.replicate (2 ^ 31 - 1) 0) 0 1
      (List.replicate_succ 0 (2 ^ 31 - 1)) (List.length_replicate _ _)
      (List.length_replicate _ _)
  refine ⟨by decide, hwrap.1, hwrap.2, ?_, get_values_last_int _⟩
  rw [List.length_replicate]
  decide

theorem scanl_add_append_singleton (b : Nat) (ls : List Nat) (x : Nat) :
    List.scanl (· + ·) b (ls ++ [x]) =
      List.scanl (· + ·) b ls ++ [(ls.foldl (· + ·) b) + x] := by
  induction ls generalizing b with
  | nil => simp
  | cons a ls ih => simp [ih]

theorem scanl_add_getLast? (b : Nat) (ls : List Nat) :
    (List.scanl (· + ·) b ls).getLast? = some (ls.foldl (· + ·) b) := by
  induction ls generalizing b with
  | nil => simp
  | cons a ls ih =>
    rw [List.scanl_cons, List.getLast?_append, ih]
    simp

theorem InitOffset_offset (m : MultiSlotType) (k : Nat) : (m.InitOffset k).offset_ = [0] := by
  cases h : m.offset_ <;> simp [MultiSlotType.InitOffset, vec_resize, h]

/-- Batching with `AppendValues(const uint64_t*, size_t)`. -/
theorem foldlM_AppendValues_uint64 (rs : List (List Nat)) (m : MultiSlotType) (k : Nat)
    (ht : m.CheckUint64 = true) :
    rs.foldlM MultiSlotType.AppendValues_uint64 (m.InitOffset k) =
      some { m with offset_ := List.scanl (· + ·) 0 (rs.map List.length)
                    uint64_feasign_ := m.uint64_feasign_ ++ rs.flatten } := by
  induction rs using List.reverseRecOn with
  | nil =>
    have := InitOffset_offset m k
    cases m
    simp_all [MultiSlotType.InitOffset]
  | append_singleton rs r ih =>
    rw [List.foldlM_append, ih]
    have hc : MultiSlotType.CheckUint64
        { m with offset_ := List.scanl (· + ·) 0 (rs.map List.length)
                 uint64_feasign_ := m.uint64_feasign_ ++ rs.flatten } = true := ht
    simp [MultiSlotType.AppendValues_uint64, hc, scanl_add_getLast?,
      scanl_add_append_singleton]

/-- Batching with `AppendValues(const float*, size_t)`. -/
theorem foldlM_AppendValues_float (rs : List (List Nat)) (m : MultiSlotType) (k : Nat)
    (ht : m.CheckFloat = true) :
    rs.foldlM MultiSlotType.AppendValues_float (m.InitOffset k) =
      some { m with offset_ := List.scanl (· + ·) 0 (rs.map List.length)
                    float_feasign_ := m.float_feasign_ ++ rs.flatten } := by
  induction rs using List.reverseRecOn with
  | nil =>
    have := InitOffset_offset m k
    cases m
    simp_all [MultiSlotType.InitOffset]
  | append_singleton rs r ih =>
    rw [List.foldlM_append, ih]
    have hc : MultiSlotType.CheckFloat
        { m with offset_ := List.scanl (· + ·) 0 (rs.map List.length)
                 float_feasign_ := m.float_feasign_ ++ rs.flatten } = true := ht
    simp [MultiSlotType.AppendValues_float, hc, scanl_add_getLast?,
      scanl_add_append_singleton]

/-- On an instance of the same type, `AddIns` is `AppendValues` of the instance's values. -/
theorem AddIns_eq_AppendValues (m ins : MultiSlotType) :
    (ins.CheckUint64 = true → m.AddIns ins = m.AppendValues_uint64 ins.uint64_feasign_) ∧
    (ins.CheckFloat = true → m.AddIns ins = m.AppendValues_float ins.float_feasign_) := by
  constructor
  · intro h
    simp [MultiSlotType.CheckUint64] at h
    simp [MultiSlotType.AddIns, MultiSlotType.AppendValues_uint64, h]
  · intro h
    simp [MultiSlotType.CheckFloat] at h
    simp [MultiSlotType.AddIns, MultiSlotType.AppendValues_float, h]

theorem foldlM_AddIns_uint64 (inss : List MultiSlotType) (m0 : MultiSlotType)
    (h : ∀ ins ∈ inss, ins.CheckUint64 = true) :
    inss.foldlM MultiSlotType.AddIns m0 =
      (inss.map (·.uint64_feasign_)).foldlM MultiSlotType.AppendValues_uint64 m0 := by
  induction inss generalizing m0 with
  | nil => rfl
  | cons ins inss ih =>
    have h1 := (AddIns_eq_AppendValues m0 ins).1 (h ins (List.mem_cons_self _ _))
    simp only [List.foldlM_cons, List.map_cons, h1]
    cases m0.AppendValues_uint64 ins.uint64_feasign_ with
    | none => rfl
    | some m1 => exact ih m1 (fun i hi => h i (List.mem_cons_of_mem _ hi))

theorem foldlM_AddIns_float (inss : List MultiSlotType) (m0 : MultiSlotType)
    (h : ∀ ins ∈ inss, ins.CheckFloat = true) :
    inss.foldlM MultiSlotType.AddIns m0 =
      (inss.map (·.float_feasign_)).foldlM MultiSlotType.AppendValues_float m0 := by
  induction inss generalizing m0 with
  | nil => rfl
  | cons ins inss ih =>
    have h1 := (AddIns_eq_AppendValues m0 ins).2 (h ins (List.mem_cons_self _ _))
    simp only [List.foldlM_cons, List.map_cons, h1]
    cases m0.AppendValues_float ins.float_feasign_ with
    | none => rfl
    | some m1 => exact ih m1 (fun i hi => h i (List.mem_cons_of_mem _ hi))

theorem batched_of_scanl (m : MultiSlotType) (rs : List (List Nat))
    (h : m.offset_ = List.scanl (· + ·) 0 (rs.map List.length)) :
    Batched m rs.flatten rs := by
  have hl : m.offset_.length = rs.length + 1 := by
    rw [h, List.length_scanl, List.length_map]
  refine ⟨rfl, h, hl, ?_⟩
  simp [MultiSlotType.GetBatchSize, hl]

/-- C4: batching of one slot.  On a `MultiSlotType` whose value buffer (of the slot's type)
is empty, `InitOffset` followed by one `AppendValues` per record `r_1 .. r_n` in order, or
by one `AddIns` per record instance, succeeds and yields a value buffer equal to the
concatenation of the records' values in record order and `n + 1` offsets equal to the
prefix sums `[0, |r_1|, |r_1| + |r_2|, ...]`, and `GetBatchSize` returns `n`; in particular
the records `[1]`, `[]`, `[1, 1]` give the buffer `[1, 1, 1]` and the offsets
`[0, 1, 1, 3]`. -/
theorem batch_offsets_prefix_sums (rs : List (List Nat)) (inss : List MultiSlotType)
    (m : MultiSlotType) (k : Nat) :
    (m.CheckUint64 = true → m.uint64_feasign_ = [] →
      (∃ m1, rs.foldlM MultiSlotType.AppendValues_uint64 (m.InitOffset k) = some m1 ∧
        Batched m1 m1.uint64_feasign_ rs) ∧
      ((∀ ins ∈ inss, ins.CheckUint64 = true) →
        ∃ m1, inss.foldlM MultiSlotType.AddIns (m.InitOffset k) = some m1 ∧
          Batched m1 m1.uint64_feasign_ (inss.map (·.uint64_feasign_)))) ∧
    (m.CheckFloat = true → m.float_feasign_ = [] →
      (∃ m1, rs.foldlM MultiSlotType.AppendValues_float (m.InitOffset k) = some m1 ∧
        Batched m1 m1.float_feasign_ rs) ∧
      ((∀ ins ∈ inss, ins.CheckFloat = true) →
        ∃ m1, inss.foldlM MultiSlotType.AddIns (m.InitOffset k) = some m1 ∧
          Batched m1 m1.float_feasign_ (inss.map (·.float_feasign_)))) ∧
    (([[1], [], [1, 1]] : List (List Nat)).foldlM MultiSlotType.AppendValues_uint64
        ((⟨[], [], "uint64", []⟩ : MultiSlotType).InitOffset 0) =
      some ⟨[], [1, 1, 1], "uint64", [0, 1, 1, 3]⟩ ∧
     (⟨[], [1, 1, 1], "uint64", [0, 1, 1, 3]⟩ : MultiSlotType).GetBatchSize = 3) := by
  refine ⟨?_, ?_, ?_, ?_⟩
  · intro ht he
    constructor
    · refine ⟨_, foldlM_AppendValues_uint64 rs m k ht, ?_⟩
      simp only [he, List.nil_append]
      exact batched_of_scanl _ rs rfl
    · intro hall
      rw [foldlM_AddIns_uint64 inss _ hall]
      refine ⟨_, foldlM_AppendValues_uint64 _ m k ht, ?_⟩
      simp only [he, List.nil_append]
      exact batched_of_scanl _ _ rfl
  · intro ht he
    constructor
    · refine ⟨_, foldlM_AppendValues_float rs m k ht, ?_⟩
      simp only [he, List.nil_append]
      exact batched_of_scanl _ rs rfl
    · intro hall
      rw [foldlM_AddIns_float inss _ hall]
      refine ⟨_, foldlM_AppendValues_float _ m k ht, ?_⟩
      simp only [he, List.nil_append]
      exact batched_of_scanl _ _ rfl
  · rfl
  · rfl

/-- The statement of C4 for the `uint64` records `[1]`, `[]`, `[1, 1]`, appended by
`AppendValues` and by `AddIns`. -/
theorem batch_offsets_prefix_sums_witness :
    (∃ m1, ([[1], [], [1, 1]] : List (List Nat)).foldlM MultiSlotType.AppendValues_uint64
        ((⟨[], [], "uint64", [7]⟩ : MultiSlotType).InitOffset 3) = some m1 ∧
      Batched m1 m1.uint64_feasign_ [[1], [], [1, 1]]) ∧
    (∃ m1, ([⟨[], [1], "uint64", []⟩, ⟨[], [], "uint64", []⟩, ⟨[], [1, 1], "uint64", []⟩] :
          List MultiSlotType).foldlM MultiSlotType.AddIns
        ((⟨[], [], "uint64", [7]⟩ : MultiSlotType).InitOffset 3) = some m1 ∧
      Batched m1 m1.uint64_feasign_
        (([⟨[], [1], "uint64", []⟩, ⟨[], [], "uint64", []⟩, ⟨[], [1, 1], "uint64", []⟩] :
          List MultiSlotType).map (·.uint64_feasign_))) :=
  ⟨((batch_offsets_prefix_sums [[1], [], [1, 1]] [] ⟨[], [], "uint64", [7]⟩ 3).1
      (by decide) rfl).1,
   ((batch_offsets_prefix_sums []
      [⟨[], [1], "uint64", []⟩, ⟨[], [], "uint64", []⟩, ⟨[], [1, 1], "uint64", []⟩]
      ⟨[], [], "uint64", [7]⟩ 3).1 (by decide) rfl).2 (by decide)⟩

theorem Heap.chain_nil (h : Heap) (p : Nat) : h.chain p [] = true ↔ p = 0 := by
  simp [Heap.chain]

theorem Heap.chain_cons (h : Heap) (p a : Nat) (l : List Nat) :
    h.chain p (a :: l) = true ↔
      p = a ∧ ∃ o, h.deref a = some o ∧ h.chain o.search_id l = true := by
  cases hd : h.deref a with
  | none => simp [Heap.chain, hd]
  | some o => simp [Heap.chain, hd]

theorem Heap.deref_eq_some (h : Heap) (p : Nat) (o : SlotRecordObject) :
    h.deref p = some o ↔ p ≠ 0 ∧ h.objs p = some o := by
  unfold Heap.deref
  by_cases hp : p = 0 <;> simp [hp]

theorem Heap.chain_head (h : Heap) (p : Nat) (l : List Nat) (hc : h.chain p l = true) :
    p = l.headD 0 := by
  cases l with
  | nil => simpa [Heap.chain] using hc
  | cons a l => exact ((h.chain_cons p a l).mp hc).1

theorem Heap.chain_live (h : Heap) (p : Nat) (l : List Nat) (hc : h.chain p l = true) :
    ∀ a ∈ l, a ≠ 0 ∧ ∃ o, h.objs a = some o := by
  induction l generalizing p with
  | nil => simp
  | cons b l ih =>
    obtain ⟨_, o, ho, hrest⟩ := (h.chain_cons p b l).mp hc
    intro a ha
    rcases List.mem_cons.mp ha with rfl | ha
    · exact ⟨((h.deref_eq_some _ o).mp ho).1, o, ((h.deref_eq_some _ o).mp ho).2⟩
    · exact ih _ hrest a ha

theorem Heap.chain_frame (h h1 : Heap) (p : Nat) (l : List Nat)
    (hsame : ∀ a ∈ l, h1.deref a = h.deref a) : h1.chain p l = h.chain p l := by
  induction l generalizing p with
  | nil => rfl
  | cons b l ih =>
    have hb := hsame b (List.mem_cons_self _ _)
    have hl : ∀ q, h1.chain q l = h.chain q l :=
      fun q => ih q (fun a ha => hsame a (List.mem_cons_of_mem _ ha))
    simp only [Heap.chain, hb]
    cases h.deref b with
    | none => rfl
    | some o => simp only [hl]

theorem Heap.chain_unique (h : Heap) (p : Nat) (l1 l2 : List Nat)
    (h1 : h.chain p l1 = true) (h2 : h.chain p l2 = true) : l1 = l2 := by
  induction l1 generalizing p l2 with
  | nil =>
    have hp := (h.chain_nil p).mp h1
    cases l2 with
    | nil => rfl
    | cons b l2 =>
      obtain ⟨hpb, o, ho, _⟩ := (h.chain_cons p b l2).mp h2
      have := ((h.deref_eq_some b o).mp ho).1
      omega
  | cons a l1 ih =>
    obtain ⟨hpa, o, ho, hrest⟩ := (h.chain_cons p a l1).mp h1
    cases l2 with
    | nil =>
      have hp := (h.chain_nil p).mp h2
      have := ((h.deref_eq_some a o).mp ho).1
      omega
    | cons b l2 =>
      obtain ⟨hpb, o2, ho2, hrest2⟩ := (h.chain_cons p b l2).mp h2
      have hab : a = b := by omega
      subst hab
      rw [ho] at ho2
      have : o = o2 := Option.some.inj ho2
      subst this
      rw [ih _ _ hrest hrest2]

theorem Heap.chain_suffix (h : Heap) (p : Nat) (l1 l2 : List Nat)
    (hc : h.chain p (l1 ++ l2) = true) : h.chain (l2.headD 0) l2 = true := by
  induction l1 generalizing p with
  | nil =>
    have := h.chain_head p l2 hc
    rw [← this]; exact hc
  | cons a l1 ih =>
    obtain ⟨_, o, _, hrest⟩ := (h.chain_cons p a (l1 ++ l2)).mp hc
    exact ih _ hrest

theorem Heap.chain_nodup (h : Heap) (p : Nat) (l : List Nat) (hc : h.chain p l = true) :
    l.Nodup := by
  induction l generalizing p with
  | nil => exact List.nodup_nil
  | cons a l ih =>
    obtain ⟨_, o, ho, hrest⟩ := (h.chain_cons p a l).mp hc
    refine List.nodup_cons.mpr ⟨?_, ih _ hrest⟩
    intro ha
    obtain ⟨s, t, hst⟩ := List.append_of_mem ha
    have hsuf : h.chain ((a :: t).headD 0) (a :: t) = true := by
      apply h.chain_suffix p (a :: s) (a :: t)
      rw [List.cons_append, ← hst]; exact hc
    have hfull : h.chain a (a :: l) = true := by
      have hpa := h.chain_head p _ hc
      simp only [List.headD_cons] at hpa
      subst hpa; exact hc
    have heq := h.chain_unique a _ _ hsuf hfull
    have hlen := congrArg List.length heq
    rw [hst] at hlen
    simp at hlen
    omega

theorem SlotObjAllocator.get_loop_chain (h : Heap) (k : Nat) (a : SlotObjAllocator)
    (data l : List Nat) (hc : h.chain a.free_nodes_ l = true) (hcap : a.capacity_ = l.length) :
    SlotObjAllocator.get_loop h k a data =
      some (data ++ l.take k, ⟨(l.drop k).headD 0, (l.drop k).length⟩) := by
  induction k generalizing a data l with
  | zero =>
    have := h.chain_head _ _ hc
    cases a
    simp_all [SlotObjAllocator.get_loop]
  | succ k ih =>
    cases l with
    | nil =>
      have := (h.chain_nil _).mp hc
      cases a
      simp_all [SlotObjAllocator.get_loop]
    | cons x l =>
      obtain ⟨hpx, o, ho, hrest⟩ := (h.chain_cons _ x l).mp hc
      have hpos : 0 < a.capacity_ := by rw [hcap]; simp
      rw [SlotObjAllocator.get_loop, if_pos hpos, hpx, ho]
      simp only
      rw [ih ⟨o.search_id, a.capacity_ - 1⟩ _ l hrest (by simp [hcap])]
      simp

theorem make_slotrecords_spec (bs k : Nat) (h : Heap) :
    (make_slotrecords bs k h).1 = List.range' (h.brk + 1) k ∧
    (make_slotrecords bs k h).2.brk = h.brk + k ∧
    ∀ q, (make_slotrecords bs k h).2.objs q =
      if h.brk < q ∧ q ≤ h.brk + k then some SlotRecordObject.fresh else h.objs q := by
  induction k generalizing h with
  | zero =>
    refine ⟨rfl, rfl, ?_⟩
    intro q
    have : ¬ (h.brk < q ∧ q ≤ h.brk) := by omega
    simp [make_slotrecords, this]
  | succ k ih =>
    obtain ⟨h1, h2, h3⟩ := ih (make_slotrecord h bs).2
    refine ⟨?_, ?_, ?_⟩
    · simp only [make_slotrecords, h1, List.range'_succ]
      rfl
    · simp only [make_slotrecords, h2]
      simp only [make_slotrecord]
      omega
    · intro q
      simp only [make_slotrecords, h3]
      simp only [make_slotrecord, SlotRecordObject.fresh]
      by_cases hq : q = h.brk + 1
      · subst hq
        have c1 : ¬ (h.brk + 1 < h.brk + 1 ∧ h.brk + 1 ≤ h.brk + 1 + k) := by omega
        have c2 : h.brk < h.brk + 1 ∧ h.brk + 1 ≤ h.brk + (k + 1) := by omega
        simp [c1, c2]
      · by_cases hr : h.brk + 1 < q ∧ q ≤ h.brk + 1 + k
        · have c2 : h.brk < q ∧ q ≤ h.brk + (k + 1) := by omega
          simp [hr, c2]
        · have c2 : ¬ (h.brk < q ∧ q ≤ h.brk + (k + 1)) := by omega
          simp [hr, c2, hq]

theorem Heap.deref_store (h : Heap) (p : Nat) (o : SlotRecordObject) (q : Nat) :
    (h.store p o).deref q = if q = 0 then none else if q = p then some o else h.objs q := by
  simp [Heap.deref, Heap.store]

theorem reset_all_spec (shrink : Bool) (input : List Nat) (h : Heap)
    (hlive : ∀ x ∈ input, x ≠ 0 ∧ ∃ o, h.objs x = some o) :
    ∃ h1, reset_all shrink input h = some h1 ∧ h1.brk = h.brk ∧
      ∀ q, h1.objs q =
        if q ∈ input then (h.objs q).map (fun o => o.reset shrink) else h.objs q := by
  induction input generalizing h with
  | nil => exact ⟨h, rfl, rfl, fun q => by simp⟩
  | cons x rest ih =>
    obtain ⟨hx0, o, ho⟩ := hlive x (List.mem_cons_self _ _)
    have hd : h.deref x = some o := (h.deref_eq_some x o).mpr ⟨hx0, ho⟩
    have hlive2 : ∀ y ∈ rest, y ≠ 0 ∧ ∃ o2, (h.store x (o.reset shrink)).objs y = some o2 := by
      intro y hy
      obtain ⟨hy0, o2, ho2⟩ := hlive y (List.mem_cons_of_mem _ hy)
      refine ⟨hy0, ?_⟩
      by_cases hyx : y = x
      · exact ⟨o.reset shrink, by simp [Heap.store, hyx]⟩
      · exact ⟨o2, by simp [Heap.store, hyx, ho2]⟩
    obtain ⟨h1, hr, hb, hobjs⟩ := ih _ hlive2
    refine ⟨h1, by simp [reset_all, hd, hr], by rw [hb]; rfl, ?_⟩
    intro q
    rw [hobjs q]
    by_cases hqx : q = x
    · subst hqx
      by_cases hqr : q ∈ rest
      · simp [hqr, Heap.store, ho, SlotRecordObject.reset, SlotRecordObject.clear,
          SlotValues.clear]
      · simp [hqr, Heap.store, ho]
    · by_cases hqr : q ∈ rest <;> simp [hqr, hqx, Heap.store]

theorem SlotObjAllocator.put_loop_spec (data : List Nat) (a : SlotObjAllocator) (h : Heap)
    (l : List Nat) (hc : h.chain a.free_nodes_ l = true) (hcap : a.capacity_ = l.length)
    (hnd : data.Nodup)
    (hlive : ∀ x ∈ data, x ≠ 0 ∧ (∃ o, h.objs x = some o) ∧ x ∉ l) :
    ∃ h1, SlotObjAllocator.put_loop data a h =
        some (⟨(data.reverse ++ l).headD 0, l.length + data.length⟩, h1) ∧
      h1.chain ((data.reverse ++ l).headD 0) (data.reverse ++ l) = true ∧
      h1.brk = h.brk ∧
      (∀ q, q ∉ data → h1.objs q = h.objs q) ∧
      (∀ x ∈ data, ∃ o nx, h.objs x = some o ∧ h1.objs x = some { o with search_id := nx }) := by
  induction data generalizing a h l with
  | nil =>
    have := h.chain_head _ _ hc
    refine ⟨h, ?_, ?_, rfl, fun _ _ => rfl, by simp⟩
    · cases a; simp_all [SlotObjAllocator.put_loop]
    · simp only [List.reverse_nil, List.nil_append]
      rw [← this]; exact hc
  | cons x rest ih =>
    obtain ⟨hx0, ⟨o, ho⟩, hxl⟩ := hlive x (List.mem_cons_self _ _)
    have hd : h.deref x = some o := (h.deref_eq_some x o).mpr ⟨hx0, ho⟩
    obtain ⟨hxr, hndr⟩ := List.nodup_cons.mp hnd
    let h2 := h.store x { o with search_id := a.free_nodes_ }
    have hframe : h2.chain a.free_nodes_ l = true := by
      rw [Heap.chain_frame h h2 _ l ?_]; exact hc
      intro y hy
      have hyx : y ≠ x := fun e => hxl (e ▸ hy)
      simp [h2, Heap.deref, Heap.store, hyx]
    have hc2 : h2.chain x (x :: l) = true := by
      rw [Heap.chain_cons]
      exact ⟨rfl, { o with search_id := a.free_nodes_ },
        by simp [h2, Heap.deref_store, hx0], hframe⟩
    have hlive2 : ∀ y ∈ rest, y ≠ 0 ∧ (∃ o2, h2.objs y = some o2) ∧ y ∉ x :: l := by
      intro y hy
      obtain ⟨hy0, ⟨o2, ho2⟩, hyl⟩ := hlive y (List.mem_cons_of_mem _ hy)
      have hyx : y ≠ x := fun e => hxr (e ▸ hy)
      exact ⟨hy0, ⟨o2, by simp [h2, Heap.store, hyx, ho2]⟩, by simp [hyx, hyl]⟩
    obtain ⟨h1, hr, hch, hb, hother, hdata⟩ :=
      ih ⟨x, a.capacity_ + 1⟩ h2 (x :: l) hc2 (by simp [hcap]) hndr hlive2
    have hlist : (x :: rest).reverse ++ l = rest.reverse ++ x :: l := by simp
    refine ⟨h1, ?_, ?_, ?_, ?_, ?_⟩
    · rw [SlotObjAllocator.put_loop, hd]
      simp only
      rw [hr, hlist]
      simp [Nat.add_comm, Nat.add_left_comm]
    · rw [hlist]; exact hch
    · exact hb.trans rfl
    · intro q hq
      have hqx : q ≠ x := fun e => hq (e ▸ List.mem_cons_self _ _)
      have hqr : q ∉ rest := fun e => hq (List.mem_cons_of_mem _ e)
      rw [hother q hqr]
      simp [h2, Heap.store, hqx]
    · intro y hy
      rcases List.mem_cons.mp hy with rfl | hy
      · refine ⟨o, a.free_nodes_, ho, ?_⟩
        rw [hother y hxr]
        simp [h2, Heap.store]
      · obtain ⟨o2, nx, ho2, ho3⟩ := hdata y hy
        have hyx : y ≠ x := fun e => hxr (e ▸ hy)
        refine ⟨o2, nx, ?_, ho3⟩
        simpa [h2, Heap.store, hyx] using ho2

theorem free_all_spec (input : List Nat) (h : Heap) (hnd : input.Nodup)
    (hlive : ∀ x ∈ input, x ≠ 0 ∧ ∃ o, h.objs x = some o) :
    ∃ h1, free_all input h = some h1 ∧ h1.brk = h.brk ∧
      ∀ q, h1.objs q = if q ∈ input then none else h.objs q := by
  induction input generalizing h with
  | nil => exact ⟨h, rfl, rfl, fun q => by simp⟩
  | cons x rest ih =>
    obtain ⟨hx0, o, ho⟩ := hlive x (List.mem_cons_self _ _)
    obtain ⟨hxr, hndr⟩ := List.nodup_cons.mp hnd
    have hd : h.deref x = some o := (h.deref_eq_some x o).mpr ⟨hx0, ho⟩
    let h2 : Heap := { h with objs := fun q => if q = x then none else h.objs q }
    have hlive2 : ∀ y ∈ rest, y ≠ 0 ∧ ∃ o2, h2.objs y = some o2 := by
      intro y hy
      obtain ⟨hy0, o2, ho2⟩ := hlive y (List.mem_cons_of_mem _ hy)
      have hyx : y ≠ x := fun e => hxr (e ▸ hy)
      exact ⟨hy0, o2, by simp [h2, hyx, ho2]⟩
    obtain ⟨h1, hr, hb, hobjs⟩ := ih h2 hndr hlive2
    refine ⟨h1, by simp [free_all, free_slotrecord, hd, hr, h2], by rw [hb], ?_⟩
    intro q
    rw [hobjs q]
    by_cases hqx : q = x
    · subst hqx; simp [hxr, h2]
    · by_cases hqr : q ∈ rest <;> simp [hqr, hqx, h2]

theorem Heap.example2_WF : Heap.example2.WF := by
  refine ⟨rfl, ?_⟩
  intro p hp
  have h1 : p ≠ 1 := by simp only [Heap.example2] at hp; omega
  have h2 : p ≠ 2 := by simp only [Heap.example2] at hp; omega
  simp [Heap.example2, h1, h2]

theorem SlotObjPool.get_eq (p : SlotObjPool) (h : Heap) (l : List Nat) (n : Nat)
    (hc : h.chain p.alloc_.free_nodes_ l = true) (hcap : p.alloc_.capacity_ = l.length) :
    p.get h n =
      some (l.take n ++ List.range' (h.brk + 1) (n - min n l.length),
        { p with
          alloc_ := ⟨(l.drop n).headD 0, (l.drop n).length⟩
          count_ := (p.count_ + n) % 2 ^ 64 },
        (make_slotrecords p.slot_record_byte_size_ (n - min n l.length) h).2) := by
  have hget := SlotObjAllocator.get_loop_chain h n p.alloc_ [] l hc hcap
  have hlen : (l.take n).length = min n l.length := List.length_take _ _
  simp only [List.nil_append] at hget
  by_cases hsz : min n l.length = n
  · have hmin : n - min n l.length = 0 := by omega
    simp only [SlotObjPool.get, SlotObjAllocator.get, hget, hlen, hsz, if_true, hmin,
      List.range'_zero, List.append_nil, Nat.sub_self, make_slotrecords]
  · obtain ⟨m1, _, _⟩ := make_slotrecords_spec p.slot_record_byte_size_
      (n - min n l.length) h
    simp only [SlotObjPool.get, SlotObjAllocator.get, hget, hlen, hsz, if_false, m1]

theorem make_slotrecords_frame (bs k : Nat) (h : Heap) (hwf : h.WF) :
    (make_slotrecords bs k h).2.WF ∧
    (∀ q, q ≤ h.brk → (make_slotrecords bs k h).2.objs q = h.objs q) ∧
    ∀ p l, h.chain p l = true → (make_slotrecords bs k h).2.chain p l = true := by
  obtain ⟨_, m2, m3⟩ := make_slotrecords_spec bs k h
  have hsame : ∀ q, q ≤ h.brk → (make_slotrecords bs k h).2.objs q = h.objs q := by
    intro q hq
    rw [m3 q, if_neg (by omega)]
  refine ⟨⟨?_, ?_⟩, hsame, ?_⟩
  · rw [hsame 0 (Nat.zero_le _)]; exact hwf.1
  · intro q hq
    rw [m2] at hq
    rw [m3 q, if_neg (by omega)]
    exact hwf.2 q (by omega)
  · intro p l hc
    rw [Heap.chain_frame h _ _ _ ?_]; exact hc
    intro a ha
    obtain ⟨ha0, o, ho⟩ := h.chain_live _ _ hc a ha
    have hab : a ≤ h.brk := by
      by_contra hcon
      have := hwf.2 a (by omega)
      rw [this] at ho; exact Option.noConfusion ho
    simp only [Heap.deref, hsame a hab]

theorem SlotObjPool.put_eq (p : SlotObjPool) (h : Heap) (shrink : Bool) (input l : List Nat)
    (hc : h.chain p.alloc_.free_nodes_ l = true) (hcap : p.alloc_.capacity_ = l.length)
    (hnd : input.Nodup)
    (hlive : ∀ x ∈ input, x ≠ 0 ∧ (∃ o, h.objs x = some o) ∧ x ∉ l) :
    ∃ h1, p.put h shrink input =
        some (p.disable_pool_ || decide (p.max_capacity_ < l.length + input.length),
          { p with
            alloc_ := ⟨(input.reverse ++ l).headD 0, l.length + input.length⟩
            count_ := (p.count_ + 2 ^ 64 - input.length % 2 ^ 64) % 2 ^ 64 }, h1) ∧
      h1.chain ((input.reverse ++ l).headD 0) (input.reverse ++ l) = true ∧
      h1.brk = h.brk ∧
      (∀ q, q ∉ input → h1.objs q = h.objs q) ∧
      (∀ x ∈ input, ∃ o nx, h.objs x = some o ∧
        h1.objs x = some { o.reset shrink with search_id := nx }) := by
  obtain ⟨h1, hr, hb1, hobj1⟩ := reset_all_spec shrink input h
    (fun x hx => ⟨(hlive x hx).1, (hlive x hx).2.1⟩)
  have hc1 : h1.chain p.alloc_.free_nodes_ l = true := by
    rw [Heap.chain_frame h h1 _ l ?_]; exact hc
    intro a ha
    have hai : a ∉ input := fun hin => (hlive a hin).2.2 ha
    simp only [Heap.deref, hobj1 a, if_neg hai]
  have hlive1 : ∀ x ∈ input, x ≠ 0 ∧ (∃ o, h1.objs x = some o) ∧ x ∉ l := by
    intro x hx
    obtain ⟨hx0, ⟨o, ho⟩, hxl⟩ := hlive x hx
    exact ⟨hx0, ⟨o.reset shrink, by rw [hobj1 x, if_pos hx, ho]; rfl⟩, hxl⟩
  obtain ⟨h2, hp, hch, hb2, hother, hdata⟩ :=
    SlotObjAllocator.put_loop_spec input p.alloc_ h1 l hc1 hcap hnd hlive1
  refine ⟨h2, ?_, hch, hb2.trans hb1, ?_, ?_⟩
  · simp only [SlotObjPool.put, hr, SlotObjAllocator.put, hp]
  · intro q hq
    rw [hother q hq, hobj1 q, if_neg hq]
  · intro x hx
    obtain ⟨o1, nx, ho1, ho2⟩ := hdata x hx
    obtain ⟨_, ⟨o, ho⟩, _⟩ := hlive x hx
    rw [hobj1 x, if_pos hx, ho] at ho1
    have : o1 = o.reset shrink := (Option.some.inj ho1).symm
    subst this
    exact ⟨o, nx, ho, ho2⟩

/-- C5: for every free list `l` of size `c` and every `n`, `SlotObjPool::get(output, n)`
fills all `n` output entries: the first `min n c` are the entries taken from the head of the
free list, in order, the remaining `n - min n c` are freshly allocated records (blocks that
were not live before and now hold a default-constructed object), and the free list
afterwards is what is left of `l`, of size `c - min n c`. -/
theorem pool_get_fills_output (p : SlotObjPool) (h : Heap) (l : List Nat) (n : Nat)
    (hwf : h.WF) (hc : h.chain p.alloc_.free_nodes_ l = true)
    (hcap : p.alloc_.capacity_ = l.length) :
    ∃ p1 h1,
      p.get h n = some (l.take n ++ List.range' (h.brk + 1) (n - min n l.length), p1, h1) ∧
      (l.take n ++ List.range' (h.brk + 1) (n - min n l.length)).length = n ∧
      (l.take n).length = min n l.length ∧
      (∀ x ∈ List.range' (h.brk + 1) (n - min n l.length),
        h.objs x = none ∧ h1.objs x = some SlotRecordObject.fresh) ∧
      p1.alloc_.capacity_ = l.length - min n l.length ∧
      h1.chain p1.alloc_.free_nodes_ (l.drop n) = true ∧
      h1.WF ∧ ∀ q, q ≤ h.brk → h1.objs q = h.objs q := by
  have hlen : (l.take n).length = min n l.length := List.length_take _ _
  have hdrop : h.chain ((l.drop n).headD 0) (l.drop n) = true := by
    apply h.chain_suffix p.alloc_.free_nodes_ (l.take n) (l.drop n)
    rw [List.take_append_drop]; exact hc
  obtain ⟨_, _, m3⟩ := make_slotrecords_spec p.slot_record_byte_size_ (n - min n l.length) h
  obtain ⟨f1, f2, f3⟩ := make_slotrecords_frame p.slot_record_byte_size_
    (n - min n l.length) h hwf
  refine ⟨_, _, SlotObjPool.get_eq p h l n hc hcap, ?_, hlen, ?_, ?_, f3 _ _ hdrop, f1, f2⟩
  · simp only [List.length_append, List.length_range', hlen]; omega
  · intro x hx
    have hx2 := List.mem_range'_1.mp hx
    refine ⟨hwf.2 x (by omega), ?_⟩
    rw [m3 x, if_pos (by omega)]
  · simp only [List.length_drop]; omega

/-- The statement of C5 on the free list `2 → 1` with `n = 3`: the output is `[2, 1, 3]`,
the block 3 being fresh, and the free list is left empty. -/
theorem pool_get_fills_output_witness :
    ∃ p1 h1,
      (SlotObjPool.mk true 10 ⟨2, 2⟩ false 0 64).get Heap.example2 3 =
        some ([2, 1].take 3 ++ List.range' (Heap.example2.brk + 1) (3 - min 3 [2, 1].length),
          p1, h1) ∧
      ([2, 1].take 3 ++
        List.range' (Heap.example2.brk + 1) (3 - min 3 [2, 1].length)).length = 3 ∧
      ([2, 1].take 3).length = min 3 [2, 1].length ∧
      (∀ x ∈ List.range' (Heap.example2.brk + 1) (3 - min 3 [2, 1].length),
        Heap.example2.objs x = none ∧ h1.objs x = some SlotRecordObject.fresh) ∧
      p1.alloc_.capacity_ = [2, 1].length - min 3 [2, 1].length ∧
      h1.chain p1.alloc_.free_nodes_ ([2, 1].drop 3) = true ∧
      h1.WF ∧ ∀ q, q ≤ Heap.example2.brk → h1.objs q = Heap.example2.objs q :=
  pool_get_fills_output (SlotObjPool.mk true 10 ⟨2, 2⟩ false 0 64) Heap.example2 [2, 1] 3
    Heap.example2_WF (by decide) (by decide)

theorem run_pass_spec (p : SlotObjPool) (h : Heap) (l : List Nat)
    (hc : h.chain p.alloc_.free_nodes_ l = true) (hcap : p.alloc_.capacity_ = l.length) :
    ∃ h1, p.run_pass h =
        some (l.take (OBJPOOL_BLOCK_SIZE * 50),
          { p with alloc_ := ⟨(l.drop (OBJPOOL_BLOCK_SIZE * 50)).headD 0,
                              (l.drop (OBJPOOL_BLOCK_SIZE * 50)).length⟩ }, h1) ∧
      h1.chain ((l.drop (OBJPOOL_BLOCK_SIZE * 50)).headD 0)
        (l.drop (OBJPOOL_BLOCK_SIZE * 50)) = true ∧
      h1.brk = h.brk ∧
      ∀ q, h1.objs q = if q ∈ l.take (OBJPOOL_BLOCK_SIZE * 50) then none else h.objs q := by
  have hget := SlotObjAllocator.get_loop_chain h (OBJPOOL_BLOCK_SIZE * 50) p.alloc_ [] l hc hcap
  simp only [List.nil_append] at hget
  have hnd : l.Nodup := h.chain_nodup _ _ hc
  have hsplit : l.take (OBJPOOL_BLOCK_SIZE * 50) ++ l.drop (OBJPOOL_BLOCK_SIZE * 50) = l :=
    List.take_append_drop _ _
  have hdrop : h.chain ((l.drop (OBJPOOL_BLOCK_SIZE * 50)).headD 0)
      (l.drop (OBJPOOL_BLOCK_SIZE * 50)) = true := by
    apply h.chain_suffix p.alloc_.free_nodes_ (l.take (OBJPOOL_BLOCK_SIZE * 50))
    rw [hsplit]; exact hc
  have hlive := h.chain_live _ _ hc
  obtain ⟨h1, hf, hb, hobjs⟩ := free_all_spec (l.take (OBJPOOL_BLOCK_SIZE * 50)) h
    (hnd.sublist (List.take_sublist _ _))
    (fun x hx => hlive x (List.mem_of_mem_take hx))
  refine ⟨h1, ?_, ?_, hb, hobjs⟩
  · simp only [SlotObjPool.run_pass, SlotObjAllocator.get, hget, hf]
  · rw [Heap.chain_frame h h1 _ _ ?_]; exact hdrop
    intro a ha
    have hna : a ∉ l.take (OBJPOOL_BLOCK_SIZE * 50) := by
      intro hin
      rw [← hsplit] at hnd
      exact (List.nodup_append.mp hnd).2.2 hin ha
    simp only [Heap.deref, hobjs a, if_neg hna]

/-- C9 (amended): one reclamation pass of `SlotObjPool::run` waits for a signal first exactly
when the free-list size `c` is at most the ceiling `m` (0 when the pool is disabled,
`max_capacity_` otherwise); once it proceeds it takes the first `min c 500000` entries off
the free list, whatever the ceiling, and destroys them, so that the free-list size after the
pass is `c - min c 500000`, which is 0 whenever `c ≤ 500000`. -/
theorem run_pass_drains_block (p : SlotObjPool) (h : Heap) (l : List Nat)
    (hc : h.chain p.alloc_.free_nodes_ l = true) (hcap : p.alloc_.capacity_ = l.length) :
    p.run_waits = decide (l.length ≤ if p.disable_pool_ then 0 else p.max_capacity_) ∧
    ∃ p1 h1, p.run_pass h = some (l.take 500000, p1, h1) ∧
      (l.take 500000).length = min l.length 500000 ∧
      p1.alloc_.capacity_ = l.length - min l.length 500000 ∧
      (l.length ≤ 500000 → p1.alloc_.capacity_ = 0) ∧
      h1.chain p1.alloc_.free_nodes_ (l.drop 500000) = true ∧
      (∀ x ∈ l.take 500000, h1.objs x = none) ∧
      (∀ q, q ∉ l.take 500000 → h1.objs q = h.objs q) := by
  obtain ⟨h1, hr, hch, _, hobjs⟩ := run_pass_spec p h l hc hcap
  have hk : OBJPOOL_BLOCK_SIZE * 50 = 500000 := rfl
  rw [hk] at hr hch hobjs
  refine ⟨?_, _, h1, hr, ?_, ?_, ?_, hch, ?_, ?_⟩
  · simp only [SlotObjPool.run_waits, SlotObjAllocator.capacity, hcap,
      SlotObjPool.check_capacity]
  · rw [List.length_take, Nat.min_comm]
  · simp only [List.length_drop]; omega
  · intro hle
    simp only [List.length_drop]; omega
  · intro x hx
    rw [hobjs x, if_pos hx]
  · intro q hq
    rw [hobjs q, if_neg hq]

/-- The statement of C9 on a free list of five entries under a ceiling of three. -/
theorem run_pass_drains_block_witness :
    (SlotObjPool.mk true 3 ⟨5, 5⟩ false 0 64).run_waits =
      decide ([5, 4, 3, 2, 1].length ≤
        if (SlotObjPool.mk true 3 ⟨5, 5⟩ false 0 64).disable_pool_ then 0
        else (SlotObjPool.mk true 3 ⟨5, 5⟩ false 0 64).max_capacity_) ∧
    ∃ p1 h1, (SlotObjPool.mk true 3 ⟨5, 5⟩ false 0 64).run_pass Heap.example5 =
        some ([5, 4, 3, 2, 1].take 500000, p1, h1) ∧
      ([5, 4, 3, 2, 1].take 500000).length = min [5, 4, 3, 2, 1].length 500000 ∧
      p1.alloc_.capacity_ = [5, 4, 3, 2, 1].length - min [5, 4, 3, 2, 1].length 500000 ∧
      ([5, 4, 3, 2, 1].length ≤ 500000 → p1.alloc_.capacity_ = 0) ∧
      h1.chain p1.alloc_.free_nodes_ ([5, 4, 3, 2, 1].drop 500000) = true ∧
      (∀ x ∈ [5, 4, 3, 2, 1].take 500000, h1.objs x = none) ∧
      (∀ q, q ∉ [5, 4, 3, 2, 1].take 500000 → h1.objs q = Heap.example5.objs q) :=
  run_pass_drains_block (SlotObjPool.mk true 3 ⟨5, 5⟩ false 0 64) Heap.example5
    [5, 4, 3, 2, 1] (by decide) (by decide)

/-- C9 fails as stated: with five entries on the free list and a ceiling of three
(`max_capacity_ = 3`, pool not disabled) the pass does not wait and takes all five entries
off the free list, leaving 0 entries and not `min 5 3 = 3`. -/
theorem run_pass_drains_block_counterexample :
    (SlotObjPool.mk true 3 ⟨5, 5⟩ false 0 64).run_waits = false ∧
    Heap.example5.chain 5 [5, 4, 3, 2, 1] = true ∧
    ((SlotObjPool.mk true 3 ⟨5, 5⟩ false 0 64).run_pass Heap.example5).map
        (fun r => (r.1, r.2.1.alloc_.capacity_)) = some ([5, 4, 3, 2, 1], 0) ∧
    min 5 3 ≠ 0 := by
  refine ⟨by decide, by decide, by decide, by decide⟩

theorem Heap.le_brk_of_live (h : Heap) (hwf : h.WF) (x : Nat) (o : SlotRecordObject)
    (ho : h.objs x = some o) : x ≤ h.brk := by
  by_contra hcon
  have := hwf.2 x (by omega)
  rw [this] at ho
  exact Option.noConfusion ho

theorem PoolState.inv_get (shrink : Bool) (s : PoolState) (l : List Nat) (n : Nat)
    (hinv : s.Inv l) :
    ∃ s1, s.step shrink (.get n) = some s1 ∧ s1.Inv (l.drop n) ∧
      s1.in_flight = s.in_flight ++
        (l.take n ++ List.range' (s.heap.brk + 1) (n - min n l.length)) ∧
      s1.destroyed = s.destroyed := by
  obtain ⟨hc, hcap, hwf, hnd, hlive, hdn, hdead, hcount⟩ := hinv
  have hget := SlotObjPool.get_eq s.pool s.heap l n hc hcap
  obtain ⟨_, m2, m3⟩ := make_slotrecords_spec s.pool.slot_record_byte_size_
    (n - min n l.length) s.heap
  obtain ⟨f1, f2, f3⟩ := make_slotrecords_frame s.pool.slot_record_byte_size_
    (n - min n l.length) s.heap hwf
  have hdrop : s.heap.chain ((l.drop n).headD 0) (l.drop n) = true := by
    apply s.heap.chain_suffix s.pool.alloc_.free_nodes_ (l.take n) (l.drop n)
    rw [List.take_append_drop]; exact hc
  have hllive := s.heap.chain_live _ _ hc
  have hsplit : l.take n ++ l.drop n = l := List.take_append_drop _ _
  refine ⟨⟨{ s.pool with
        alloc_ := ⟨(l.drop n).headD 0, (l.drop n).length⟩
        count_ := (s.pool.count_ + n) % 2 ^ 64 },
      (make_slotrecords s.pool.slot_record_byte_size_ (n - min n l.length) s.heap).2,
      s.in_flight ++ (l.take n ++ List.range' (s.heap.brk + 1) (n - min n l.length)),
      s.allocated + ((make_slotrecords s.pool.slot_record_byte_size_
        (n - min n l.length) s.heap).2.brk - s.heap.brk), s.destroyed⟩,
    by simp only [PoolState.step, hget], ⟨f3 _ _ hdrop, rfl, f1, ?_, ?_, hdn, ?_, ?_⟩,
    rfl, rfl⟩
  · -- no handle twice among the free list and the handles in flight
    have hfresh : ∀ x ∈ List.range' (s.heap.brk + 1) (n - min n l.length),
        x ∉ l ∧ x ∉ s.in_flight := by
      intro x hx
      have hx2 := List.mem_range'_1.mp hx
      constructor
      · intro hxl
        obtain ⟨_, o, ho⟩ := hllive x hxl
        have := s.heap.le_brk_of_live hwf x o ho
        omega
      · intro hxf
        obtain ⟨_, o, ho⟩ := hlive x hxf
        have := s.heap.le_brk_of_live hwf x o ho
        omega
    have hperm : (l.drop n ++ (s.in_flight ++
        (l.take n ++ List.range' (s.heap.brk + 1) (n - min n l.length)))).Perm
        ((l ++ s.in_flight) ++ List.range' (s.heap.brk + 1) (n - min n l.length)) := by
      rw [List.perm_iff_count]
      intro a
      have := congrArg (List.count a) hsplit
      simp only [List.count_append] at this ⊢
      omega
    rw [hperm.nodup_iff, List.nodup_append]
    refine ⟨hnd, List.nodup_range' _ _, ?_⟩
    intro x hx1 hx2
    rcases List.mem_append.mp hx1 with hx | hx
    · exact (hfresh x hx2).1 hx
    · exact (hfresh x hx2).2 hx
  · intro x hx
    simp only [List.mem_append] at hx
    rcases hx with hx | hx | hx
    · obtain ⟨hx0, o, ho⟩ := hlive x hx
      exact ⟨hx0, o, by rw [f2 x (s.heap.le_brk_of_live hwf x o ho)]; exact ho⟩
    · obtain ⟨hx0, o, ho⟩ := hllive x (List.mem_of_mem_take hx)
      exact ⟨hx0, o, by rw [f2 x (s.heap.le_brk_of_live hwf x o ho)]; exact ho⟩
    · have hx2 := List.mem_range'_1.mp hx
      exact ⟨by omega, _, by rw [m3 x, if_pos (by omega)]⟩
  · intro x hx
    obtain ⟨hnone, hle⟩ := hdead x hx
    refine ⟨by rw [f2 x hle]; exact hnone, ?_⟩
    rw [m2]; omega
  · simp only [List.length_append, List.length_drop, List.length_take, List.length_range', m2]
    omega

theorem length_filter_not_mem (fl input : List Nat) (hfl : fl.Nodup) (hin : input.Nodup)
    (hsub : ∀ x ∈ input, x ∈ fl) :
    (fl.filter (fun x => decide (x ∉ input))).length + input.length = fl.length := by
  have hperm : (fl.filter (fun x => decide (x ∈ input))).Perm input := by
    rw [List.perm_ext_iff_of_nodup (hfl.filter _) hin]
    intro a
    simp only [List.mem_filter, decide_eq_true_eq]
    exact ⟨fun h => h.2, fun h => ⟨hsub a h, h⟩⟩
  have hsplit := List.filter_append_perm (fun x => decide (x ∈ input)) fl
  have h1 := hsplit.length_eq
  have h2 := hperm.length_eq
  have h3 : fl.filter (fun x => !decide (x ∈ input)) =
      fl.filter (fun x => decide (x ∉ input)) := by
    congr 1; funext x; simp
  rw [List.length_append, h3] at h1
  omega

theorem PoolState.inv_put (shrink : Bool) (s : PoolState) (l input : List Nat)
    (hinv : s.Inv l) (hallowed : s.AllowedOp (.put input)) :
    ∃ s1, s.step shrink (.put input) = some s1 ∧ s1.Inv (input.reverse ++ l) ∧
      s1.in_flight = s.in_flight.filter (fun x => decide (x ∉ input)) ∧
      s1.destroyed = s.destroyed := by
  obtain ⟨hc, hcap, hwf, hnd, hlive, hdn, hdead, hcount⟩ := hinv
  obtain ⟨hin, hsub⟩ := hallowed
  obtain ⟨hndl, hndf, hdisj⟩ := List.nodup_append.mp hnd
  have hlive2 : ∀ x ∈ input, x ≠ 0 ∧ (∃ o, s.heap.objs x = some o) ∧ x ∉ l := by
    intro x hx
    obtain ⟨hx0, hxo⟩ := hlive x (hsub x hx)
    exact ⟨hx0, hxo, fun hxl => hdisj hxl (hsub x hx)⟩
  obtain ⟨h1, hput, hch, hb, hother, hdata⟩ :=
    SlotObjPool.put_eq s.pool s.heap shrink input l hc hcap hin hlive2
  refine ⟨⟨{ s.pool with
        alloc_ := ⟨(input.reverse ++ l).headD 0, l.length + input.length⟩
        count_ := (s.pool.count_ + 2 ^ 64 - input.length % 2 ^ 64) % 2 ^ 64 },
      h1, s.in_flight.filter (fun x => decide (x ∉ input)), s.allocated, s.destroyed⟩,
    by simp only [PoolState.step, hput],
    ⟨hch, by simp [Nat.add_comm], ⟨?_, ?_⟩, ?_, ?_, hdn, ?_, ?_⟩, rfl, rfl⟩
  · have h0 : (0 : Nat) ∉ input := fun h => (hlive2 0 h).1 rfl
    rw [hother 0 h0]; exact hwf.1
  · intro q hq
    rw [hb] at hq
    have hqi : q ∉ input := by
      intro hqin
      obtain ⟨_, ⟨o, ho⟩, _⟩ := hlive2 q hqin
      have := s.heap.le_brk_of_live hwf q o ho
      omega
    rw [hother q hqi]; exact hwf.2 q hq
  · rw [List.nodup_append]
    refine ⟨?_, hndf.filter _, ?_⟩
    · rw [List.nodup_append]
      refine ⟨List.nodup_reverse.mpr hin, hndl, ?_⟩
      intro x hx1 hx2
      exact (hlive2 x (List.mem_reverse.mp hx1)).2.2 hx2
    · intro x hx1 hx2
      simp only [List.mem_filter, decide_eq_true_eq] at hx2
      rcases List.mem_append.mp hx1 with hx | hx
      · exact hx2.2 (List.mem_reverse.mp hx)
      · exact hdisj hx hx2.1
  · intro x hx
    simp only [List.mem_filter, decide_eq_true_eq] at hx
    obtain ⟨hx0, o, ho⟩ := hlive x hx.1
    exact ⟨hx0, o, by rw [hother x hx.2]; exact ho⟩
  · intro x hx
    obtain ⟨hnone, hle⟩ := hdead x hx
    have hxi : x ∉ input := by
      intro hxin
      obtain ⟨_, ⟨o, ho⟩, _⟩ := hlive2 x hxin
      rw [hnone] at ho
      exact Option.noConfusion ho
    exact ⟨by rw [hother x hxi]; exact hnone, by rw [hb]; exact hle⟩
  · have := length_filter_not_mem s.in_flight input hndf hin hsub
    simp only [List.length_append, List.length_reverse]
    omega

theorem PoolState.inv_run (shrink : Bool) (s : PoolState) (l : List Nat) (hinv : s.Inv l) :
    ∃ s1, s.step shrink .run = some s1 ∧ s1.Inv (l.drop (OBJPOOL_BLOCK_SIZE * 50)) ∧
      s1.in_flight = s.in_flight ∧
      s1.destroyed = s.destroyed ++ l.take (OBJPOOL_BLOCK_SIZE * 50) := by
  obtain ⟨hc, hcap, hwf, hnd, hlive, hdn, hdead, hcount⟩ := hinv
  obtain ⟨hndl, hndf, hdisj⟩ := List.nodup_append.mp hnd
  obtain ⟨h1, hrun, hch, hb, hobjs⟩ := run_pass_spec s.pool s.heap l hc hcap
  have hllive := s.heap.chain_live _ _ hc
  have hsplit : l.take (OBJPOOL_BLOCK_SIZE * 50) ++ l.drop (OBJPOOL_BLOCK_SIZE * 50) = l :=
    List.take_append_drop _ _
  refine ⟨⟨{ s.pool with
        alloc_ := ⟨(l.drop (OBJPOOL_BLOCK_SIZE * 50)).headD 0,
                   (l.drop (OBJPOOL_BLOCK_SIZE * 50)).length⟩ },
      h1, s.in_flight, s.allocated, s.destroyed ++ l.take (OBJPOOL_BLOCK_SIZE * 50)⟩,
    by simp only [PoolState.step, hrun],
    ⟨hch, rfl, ⟨?_, ?_⟩, ?_, ?_, ?_, ?_, ?_⟩, rfl, rfl⟩
  · rw [hobjs 0]
    by_cases h0 : 0 ∈ l.take (OBJPOOL_BLOCK_SIZE * 50)
    · rw [if_pos h0]
    · rw [if_neg h0]; exact hwf.1
  · intro q hq
    rw [hb] at hq
    rw [hobjs q]
    by_cases h0 : q ∈ l.take (OBJPOOL_BLOCK_SIZE * 50)
    · rw [if_pos h0]
    · rw [if_neg h0]; exact hwf.2 q hq
  · exact hnd.sublist ((List.drop_sublist _ _).append_right _)
  · intro x hx
    obtain ⟨hx0, o, ho⟩ := hlive x hx
    have hxt : x ∉ l.take (OBJPOOL_BLOCK_SIZE * 50) :=
      fun hin => hdisj (List.mem_of_mem_take hin) hx
    exact ⟨hx0, o, by rw [hobjs x, if_neg hxt]; exact ho⟩
  · rw [List.nodup_append]
    refine ⟨hdn, hndl.sublist (List.take_sublist _ _), ?_⟩
    intro x hx1 hx2
    obtain ⟨_, o, ho⟩ := hllive x (List.mem_of_mem_take hx2)
    rw [(hdead x hx1).1] at ho
    exact Option.noConfusion ho
  · intro x hx
    rw [hb, hobjs x]
    rcases List.mem_append.mp hx with hx | hx
    · obtain ⟨hnone, hle⟩ := hdead x hx
      refine ⟨?_, hle⟩
      by_cases h0 : x ∈ l.take (OBJPOOL_BLOCK_SIZE * 50)
      · rw [if_pos h0]
      · rw [if_neg h0]; exact hnone
    · obtain ⟨_, o, ho⟩ := hllive x (List.mem_of_mem_take hx)
      exact ⟨by rw [if_pos hx], s.heap.le_brk_of_live hwf x o ho⟩
  · have := congrArg List.length hsplit
    simp only [List.length_append] at this ⊢
    omega

theorem PoolState.init_inv (m b : Nat) : (PoolState.init m b).Inv [] := by
  refine ⟨rfl, rfl, ⟨rfl, fun _ _ => rfl⟩, List.nodup_nil, ?_, List.nodup_nil, ?_, rfl⟩
  · intro x hx; simp [PoolState.init] at hx
  · intro x hx; simp [PoolState.init] at hx

/-- Every allowed call succeeds and keeps the invariant. -/
theorem PoolState.step_inv (shrink : Bool) (s : PoolState) (l : List Nat) (op : PoolOp)
    (hinv : s.Inv l) (hallowed : s.AllowedOp op) :
    ∃ s1 l1, s.step shrink op = some s1 ∧ s1.Inv l1 := by
  cases op with
  | get n =>
    obtain ⟨s1, h1, h2, _⟩ := PoolState.inv_get shrink s l n hinv
    exact ⟨s1, _, h1, h2⟩
  | put input =>
    obtain ⟨s1, h1, h2, _⟩ := PoolState.inv_put shrink s l input hinv hallowed
    exact ⟨s1, _, h1, h2⟩
  | run =>
    obtain ⟨s1, h1, h2, _⟩ := PoolState.inv_run shrink s l hinv
    exact ⟨s1, _, h1, h2⟩

/-- Every allowed sequence of calls runs to its end and keeps the invariant. -/
theorem PoolState.exec_inv (shrink : Bool) (ops : List PoolOp) (s : PoolState) (l : List Nat)
    (hinv : s.Inv l) (hallowed : s.Allowed shrink ops = true) :
    ∃ s1 l1, s.exec shrink ops = some s1 ∧ s1.Inv l1 := by
  induction ops generalizing s l with
  | nil => exact ⟨s, l, rfl, hinv⟩
  | cons op ops ih =>
    simp only [PoolState.Allowed, Bool.and_eq_true, decide_eq_true_eq] at hallowed
    obtain ⟨hop, hrest⟩ := hallowed
    obtain ⟨s1, l1, hstep, hinv1⟩ := PoolState.step_inv shrink s l op hinv hop
    rw [hstep] at hrest
    obtain ⟨s2, l2, hexec, hinv2⟩ := ih s1 l1 hinv1 hrest
    exact ⟨s2, l2, by simp only [PoolState.exec, hstep, hexec], hinv2⟩

/-- C8: in every sequential execution of `get`, `put` and reclamation passes on a fresh pool
in which `put` is only given handles currently in flight, each at most once: the handles in
flight are pairwise distinct, every handle returned by a further `get` is distinct from the
other handles it returns and from every handle in flight, no handle has been destroyed more
than once, no destroyed handle is in flight, and a further reclamation pass destroys only
handles that are neither in flight nor already destroyed, each once. -/
theorem pool_no_double_handout (shrink : Bool) (m b : Nat) (ops : List PoolOp)
    (hallowed : (PoolState.init m b).Allowed shrink ops = true) :
    ∃ s, (PoolState.init m b).exec shrink ops = some s ∧
      s.in_flight.Nodup ∧ s.destroyed.Nodup ∧ (∀ x ∈ s.destroyed, x ∉ s.in_flight) ∧
      (∀ n, ∃ s1 output, s.step shrink (.get n) = some s1 ∧
        s1.in_flight = s.in_flight ++ output ∧ output.length = n ∧ output.Nodup ∧
        ∀ x ∈ output, x ∉ s.in_flight ∧ x ∉ s.destroyed) ∧
      (∃ s1 freed, s.step shrink .run = some s1 ∧
        s1.destroyed = s.destroyed ++ freed ∧ freed.Nodup ∧
        ∀ x ∈ freed, x ∉ s.in_flight ∧ x ∉ s.destroyed) := by
  obtain ⟨s, l, hexec, hinv⟩ :=
    PoolState.exec_inv shrink ops _ [] (PoolState.init_inv m b) hallowed
  have hinv0 := hinv
  obtain ⟨hc, hcap, hwf, hnd, hlive, hdn, hdead, hcount⟩ := hinv
  obtain ⟨hndl, hndf, hdisj⟩ := List.nodup_append.mp hnd
  have hdf : ∀ x ∈ s.destroyed, x ∉ s.in_flight := by
    intro x hx hxf
    obtain ⟨_, o, ho⟩ := hlive x hxf
    rw [(hdead x hx).1] at ho
    exact Option.noConfusion ho
  refine ⟨s, hexec, hndf, hdn, hdf, ?_, ?_⟩
  · intro n
    obtain ⟨s1, hstep, hinv1, hfl, hds⟩ := PoolState.inv_get shrink s l n hinv0
    obtain ⟨_, _, _, hnd1, hlive1, _, hdead1, _⟩ := hinv1
    have hnd2 := (List.nodup_append.mp hnd1).2.1
    rw [hfl] at hnd2
    obtain ⟨_, hout, hdisj2⟩ := List.nodup_append.mp hnd2
    refine ⟨s1, _, hstep, hfl, ?_, hout, ?_⟩
    · simp only [List.length_append, List.length_take, List.length_range']; omega
    · intro x hx
      refine ⟨fun hxf => hdisj2 hxf hx, ?_⟩
      intro hxd
      rw [← hds] at hxd
      obtain ⟨_, o, ho⟩ := hlive1 x (by rw [hfl]; exact List.mem_append_right _ hx)
      rw [(hdead1 x hxd).1] at ho
      exact Option.noConfusion ho
  · obtain ⟨s1, hstep, hinv1, hfl, hds⟩ := PoolState.inv_run shrink s l hinv0
    obtain ⟨_, _, _, _, _, hdn1, _, _⟩ := hinv1
    rw [hds] at hdn1
    obtain ⟨_, hfr, hdisj2⟩ := List.nodup_append.mp hdn1
    refine ⟨s1, _, hstep, hds, hfr, ?_⟩
    intro x hx
    exact ⟨fun hxf => hdisj (List.mem_of_mem_take hx) hxf, fun hxd => hdisj2 hxd hx⟩

/-- The statement of C8 after taking three records, releasing two of them, a reclamation
pass and taking two more. -/
theorem pool_no_double_handout_witness :
    ∃ s, (PoolState.init 1 64).exec true [.get 3, .put [2, 1], .run, .get 2] = some s ∧
      s.in_flight.Nodup ∧ s.destroyed.Nodup ∧ (∀ x ∈ s.destroyed, x ∉ s.in_flight) ∧
      (∀ n, ∃ s1 output, s.step true (.get n) = some s1 ∧
        s1.in_flight = s.in_flight ++ output ∧ output.length = n ∧ output.Nodup ∧
        ∀ x ∈ output, x ∉ s.in_flight ∧ x ∉ s.destroyed) ∧
      (∃ s1 freed, s.step true .run = some s1 ∧
        s1.destroyed = s.destroyed ++ freed ∧ freed.Nodup ∧
        ∀ x ∈ freed, x ∉ s.in_flight ∧ x ∉ s.destroyed) :=
  pool_no_double_handout true 1 64 [.get 3, .put [2, 1], .run, .get 2] (by decide)

/-- C10: for every `RecordCandidateList` that is not full (`full_` unset,
`cur_size_ < capacity_`, at least `capacity_` entries in `candidate_list_`) and every record,
`AddAndGet(record, index)` returns and increments `total_size_` and `cur_size_` by exactly 1,
stores `RecordCandidate(record, slot_index_to_replace_)` with `shadow_index_` set to the old
`cur_size_` at position old `cur_size_`, leaves every other entry of `candidate_list_`
unchanged, and sets `full_` exactly when the new `cur_size_` equals `capacity_`. -/
theorem AddAndGet_not_full (l : RecordCandidateList) (record : Record) (r_replace r_pick : Nat)
    (hfull : l.full_ = false) (hcur : l.cur_size_ < l.capacity_)
    (hsize : l.capacity_ ≤ l.candidate_list_.length) :
    ∃ index l1, l.AddAndGet record r_replace r_pick = some (index, l1) ∧
      l1.total_size_ = l.total_size_ + 1 ∧
      l1.cur_size_ = l.cur_size_ + 1 ∧
      l1.candidate_list_[l.cur_size_]? =
        some { RecordCandidate.ofRecord record l.slot_index_to_replace_ with
               shadow_index_ := l.cur_size_ } ∧
      (∀ j, j ≠ l.cur_size_ → l1.candidate_list_[j]? = l.candidate_list_[j]?) ∧
      l1.candidate_list_.length = l.candidate_list_.length ∧
      (l1.full_ = true ↔ l1.cur_size_ = l1.capacity_) ∧
      l1.capacity_ = l.capacity_ ∧
      l1.slot_index_to_replace_ = l.slot_index_to_replace_ := by
  have hlt : l.cur_size_ < l.candidate_list_.length := by omega
  have hadd : l.add record r_replace = some { l with
      total_size_ := l.total_size_ + 1
      candidate_list_ := l.candidate_list_.set l.cur_size_
        { RecordCandidate.ofRecord record l.slot_index_to_replace_ with
          shadow_index_ := l.cur_size_ }
      cur_size_ := l.cur_size_ + 1
      full_ := decide (l.cur_size_ + 1 = l.capacity_) } := by
    simp only [RecordCandidateList.add, hfull, Bool.not_false, if_true, if_pos hlt]
  have hpick : r_pick % (l.cur_size_ + 1) < (l.candidate_list_.set l.cur_size_
      { RecordCandidate.ofRecord record l.slot_index_to_replace_ with
        shadow_index_ := l.cur_size_ }).length := by
    have : r_pick % (l.cur_size_ + 1) < l.cur_size_ + 1 := Nat.mod_lt _ (Nat.succ_pos _)
    rw [List.length_set]; omega
  obtain ⟨c, hc⟩ : ∃ c, (l.candidate_list_.set l.cur_size_
      { RecordCandidate.ofRecord record l.slot_index_to_replace_ with
        shadow_index_ := l.cur_size_ })[r_pick % (l.cur_size_ + 1)]? = some c :=
    ⟨_, List.getElem?_eq_getElem hpick⟩
  refine ⟨c.shadow_index_, { l with
      total_size_ := l.total_size_ + 1
      candidate_list_ := l.candidate_list_.set l.cur_size_
        { RecordCandidate.ofRecord record l.slot_index_to_replace_ with
          shadow_index_ := l.cur_size_ }
      cur_size_ := l.cur_size_ + 1
      full_ := decide (l.cur_size_ + 1 = l.capacity_) }, ?_, rfl, rfl, ?_, ?_, ?_, ?_, rfl, rfl⟩
  · simp only [RecordCandidateList.AddAndGet, hadd, Nat.succ_ne_zero, if_false, hc]
  · simp only [List.getElem?_set_self hlt]
  · intro j hj
    simp only [List.getElem?_set_ne (Ne.symm hj)]
  · simp only [List.length_set]
  · simp only [decide_eq_true_eq]

/-- The statement of C10 on a reservoir of capacity 2 holding one candidate. -/
theorem AddAndGet_not_full_witness :
    ∃ index l1, (RecordCandidateList.mk 2 false 1 1
        [⟨"", [(3, 5)], 0⟩, RecordCandidate.default] [3]).AddAndGet
        ⟨[⟨7, 3⟩, ⟨8, 4⟩], [], "ins", "", 0, 0, 0, ""⟩ 11 12 = some (index, l1) ∧
      l1.total_size_ = 1 + 1 ∧
      l1.cur_size_ = 1 + 1 ∧
      l1.candidate_list_[1]? =
        some { RecordCandidate.ofRecord ⟨[⟨7, 3⟩, ⟨8, 4⟩], [], "ins", "", 0, 0, 0, ""⟩ [3] with
               shadow_index_ := 1 } ∧
      (∀ j, j ≠ 1 → l1.candidate_list_[j]? =
        ([⟨"", [(3, 5)], 0⟩, RecordCandidate.default] : List RecordCandidate)[j]?) ∧
      l1.candidate_list_.length =
        ([⟨"", [(3, 5)], 0⟩, RecordCandidate.default] : List RecordCandidate).length ∧
      (l1.full_ = true ↔ l1.cur_size_ = l1.capacity_) ∧
      l1.capacity_ = 2 ∧
      l1.slot_index_to_replace_ = [3] :=
  AddAndGet_not_full (RecordCandidateList.mk 2 false 1 1
      [⟨"", [(3, 5)], 0⟩, RecordCandidate.default] [3])
    ⟨[⟨7, 3⟩, ⟨8, 4⟩], [], "ins", "", 0, 0, 0, ""⟩ 11 12 rfl (by decide) (by decide)

theorem count_filter_map_pair (fs : List FeatureItem) (S : List Nat) (p : Nat × Nat) :
    ((fs.filter (fun fea => decide (fea.slot ∈ S))).map (fun fea => (fea.slot, fea.sign))).count p =
      if p.1 ∈ S then (fs.map (fun fea => (fea.slot, fea.sign))).count p else 0 := by
  induction fs with
  | nil => simp
  | cons f fs ih =>
    by_cases hf : f.slot ∈ S
    · simp only [List.filter_cons, hf, decide_True, if_true, List.map_cons, List.count_cons, ih]
      by_cases hp : p.1 ∈ S
      · simp only [hp, if_true]
      · have hne : ¬ ((f.slot, f.sign) == p) = true := by
          intro h
          have := beq_iff_eq.mp h
          subst this
          exact hp hf
        simp [hp, hne]
    · simp only [List.filter_cons, hf, decide_False, Bool.false_eq_true, if_false, ih,
        List.map_cons, List.count_cons]
      by_cases hp : p.1 ∈ S
      · have hne : ¬ ((f.slot, f.sign) == p) = true := by
          intro h
          have := beq_iff_eq.mp h
          subst this
          exact hf hp
        simp [hp, hne]
      · simp only [hp, if_false]

/-- C15: for every record `rec` and every set `S` of slot ids, the candidate
`RecordCandidate(rec, S)` carries exactly the replaceable features: every `(slot, sign)`
pair occurs in `feas_` as often as among the entries of `rec.uint64_feasigns_` when its slot
is in `S` and not at all otherwise, so `feas_` holds no feature of a slot outside `S`. -/
theorem ofRecord_feas_replaceable (rec : Record) (S : List Nat) :
    (∀ p : Nat × Nat, (RecordCandidate.ofRecord rec S).feas_.count p =
      if p.1 ∈ S then
        (rec.uint64_feasigns_.map (fun fea => (fea.slot, fea.sign))).count p
      else 0) ∧
    (∀ p ∈ (RecordCandidate.ofRecord rec S).feas_, p.1 ∈ S) ∧
    (RecordCandidate.ofRecord rec S).feas_.length =
      rec.uint64_feasigns_.countP (fun fea => decide (fea.slot ∈ S)) := by
  refine ⟨fun p => count_filter_map_pair _ S p, ?_, ?_⟩
  · intro p hp
    have hpos : 0 < (RecordCandidate.ofRecord rec S).feas_.count p :=
      List.count_pos_iff.mpr hp
    have hc := count_filter_map_pair rec.uint64_feasigns_ S p
    by_contra hS
    rw [if_neg hS] at hc
    have : (RecordCandidate.ofRecord rec S).feas_.count p = 0 := hc
    omega
  · simp only [RecordCandidate.ofRecord, List.length_map, List.countP_eq_length_filter]

/-- C16 on the code: the constructor `RecordCandidate(rec, S)` never assigns `ins_id_`, which
stays empty whatever identifier the record has (here `"ins_1"`), whereas the assignment
`operator=(const Record&)` copies the identifier. -/
theorem ofRecord_ins_id_empty (rec : Record) (S : List Nat) (c : RecordCandidate) :
    (RecordCandidate.ofRecord rec S).ins_id_ = "" ∧
    (c.assign rec).ins_id_ = rec.ins_id_ ∧
    (RecordCandidate.ofRecord ⟨[⟨7, 3⟩], [], "ins_1", "", 0, 0, 0, ""⟩ [3]).ins_id_ ≠
      (⟨[⟨7, 3⟩], [], "ins_1", "", 0, 0, 0, ""⟩ : Record).ins_id_ := by
  refine ⟨rfl, rfl, ?_⟩
  decide

theorem archive_out_append (sz : Nat) (ar : Archive) (s : SlotValues Nat) :
    (SlotValues.archive_out sz ar s).buffer =
      ar.buffer ++ (SlotValues.archive_out sz ⟨[]⟩ s).buffer := by
  simp only [SlotValues.archive_out, Archive.put, Archive.Write]
  by_cases hz : 0 < to_uint32 s.slot_values.length <;>
    by_cases h3 : 2 < to_uint16 s.slot_offsets.length <;>
      simp [hz, h3]

theorem expected_out_eq (sz : Nat) (s : SlotValues Nat)
    (hv : s.slot_values.length < 2 ^ 32) (hk : s.slot_offsets.length < 2 ^ 16) :
    (SlotValues.archive_out sz ⟨[]⟩ s).buffer = SlotValues.expected_out sz s := by
  rw [archive_out_buffer sz s hv hk, SlotValues.expected_out]
  by_cases h3 : 2 < s.slot_offsets.length
  · rw [if_pos h3]
  · rw [if_neg h3]
    have : s.slot_offsets.length - 2 = 0 := by omega
    rw [this, List.take_zero]
    rfl

theorem archive_out_of_wrapped (sz : Nat) (vals offs : List Nat)
    (hv : to_uint32 vals.length = 0) (hk : to_uint16 offs.length = 0) :
    (SlotValues.archive_out sz ⟨[]⟩ ⟨vals, offs⟩).buffer = [0, 0, 0, 0, 0, 0] := by
  simp only [SlotValues.archive_out, hv, hk, Archive.put, Archive.Write]
  rfl

theorem expected_out_length (sz : Nat) (vals offs : List Nat) :
    (SlotValues.expected_out sz ⟨vals, offs⟩).length =
      4 + (vals.length * sz + (2 + (offs.length - 2) * 4)) := by
  simp only [SlotValues.expected_out, List.length_append, leBytes_length, rawBytes_length,
    List.length_take, List.length_drop]
  omega

/-- C18 (amended): for every `SlotValues<T>` with fewer than `2 ^ 32` values and fewer than
`2 ^ 16` offsets, `operator<<` appends to the archive exactly the 4-byte count of values,
the raw bytes of all values, the 2-byte count of offsets and the raw bytes of the interior
offsets `slot_offsets[1 .. size-2]` (nothing when there are at most 2 offsets); the first
and the final offset are not written. -/
theorem archive_out_emits (sz : Nat) (ar : Archive) (s : SlotValues Nat)
    (hv : s.slot_values.length < 2 ^ 32) (hk : s.slot_offsets.length < 2 ^ 16) :
    (SlotValues.archive_out sz ar s).buffer =
      ar.buffer ++ (leBytes 4 s.slot_values.length ++ (rawBytes sz s.slot_values ++
        (leBytes 2 s.slot_offsets.length ++
          rawBytes 4 ((s.slot_offsets.drop 1).take (s.slot_offsets.length - 2))))) ∧
    (s.slot_offsets.length ≤ 2 →
      (s.slot_offsets.drop 1).take (s.slot_offsets.length - 2) = []) ∧
    (2 ≤ s.slot_offsets.length → ∃ first final,
      s.slot_offsets =
        first :: ((s.slot_offsets.drop 1).take (s.slot_offsets.length - 2) ++ [final])) := by
  refine ⟨?_, ?_, ?_⟩
  · rw [archive_out_append, expected_out_eq sz s hv hk, SlotValues.expected_out]
  · intro h2
    have : s.slot_offsets.length - 2 = 0 := by omega
    rw [this, List.take_zero]
  · intro h2
    cases hs : s.slot_offsets with
    | nil => rw [hs] at h2; simp at h2
    | cons a t =>
      rcases List.eq_nil_or_concat t with ht | ⟨L, b, ht⟩
      · rw [hs, ht] at h2; simp at h2
      · rw [List.concat_eq_append] at ht
        subst ht
        exact ⟨a, b, by simp⟩

/-- The statement of C18 for three values and the offsets `[0, 1, 1, 3]`. -/
theorem archive_out_emits_witness :
    (SlotValues.archive_out 8 ⟨[42]⟩ ⟨[7, 9, 11], [0, 1, 1, 3]⟩).buffer =
      [42] ++ (leBytes 4 3 ++ (rawBytes 8 [7, 9, 11] ++ (leBytes 2 4 ++ rawBytes 4 [1, 1]))) ∧
    (SlotValues.archive_out 8 ⟨[42]⟩ ⟨[7, 9, 11], [0, 1, 1, 3]⟩).buffer.length = 39 :=
  ⟨(archive_out_emits 8 ⟨[42]⟩ ⟨[7, 9, 11], [0, 1, 1, 3]⟩ (by decide) (by decide)).1,
    by decide⟩

/-- C18 fails as stated when a count does not fit its field.  With `2 ^ 16` offsets (and no
value) `operator<<` writes the offset count 0 and no offset at all, 6 bytes in total, where
the stated format has `6 + 65534 * 4` bytes; with `2 ^ 32` values (and no offset) it writes
the value count 0 and no value, again 6 bytes, where the stated format has
`6 + 2 ^ 32 * 8` bytes. -/
theorem archive_out_emits_counterexample :
    (SlotValues.archive_out 8 ⟨[]⟩ ⟨[], List.replicate (2 ^ 16) 0⟩).buffer =
      [0, 0, 0, 0, 0, 0] ∧
    (SlotValues.expected_out 8 ⟨[], List.replicate (2 ^ 16) 0⟩).length = 6 + 65534 * 4 ∧
    (SlotValues.archive_out 8 ⟨[]⟩ ⟨List.replicate (2 ^ 32) 0, []⟩).buffer =
      [0, 0, 0, 0, 0, 0] ∧
    (SlotValues.expected_out 8 ⟨List.replicate (2 ^ 32) 0, []⟩).length = 6 + 2 ^ 32 * 8 := by
  refine ⟨?_, ?_, ?_, ?_⟩
  · exact archive_out_of_wrapped 8 [] _ rfl (by rw [List.length_replicate]; rfl)
  · rw [expected_out_length, List.length_replicate, List.length_nil]
    norm_num
  · exact archive_out_of_wrapped 8 _ [] (by rw [List.length_replicate]; rfl) rfl
  · rw [expected_out_length, List.length_replicate, List.length_nil]
    norm_num

/-- C20 (amended): a zero-length slot is represented by equal consecutive offsets.  For every
`SlotValues` `s`, `add_values(values, 0)` leaves `slot_values` unchanged and appends the
offset `slot_values.size()`: it produces the offsets `[0, 0]` when `s` was empty and, when
`s` satisfies the ragged invariant with fewer than `2 ^ 32` values, it appends one offset
equal to the previous last offset.  Likewise `MultiSlotType::AppendValues(input, 0)`, on a
slot of the matching type that has a last offset, leaves the value buffer unchanged and
appends an offset equal to the previous last one. -/
theorem zero_length_slot {T : Type} (s : SlotValues T) (m : MultiSlotType) (last : Nat) :
    (s.add_values []).slot_values = s.slot_values ∧
    (s = SlotValues.empty → (s.add_values []).slot_offsets = [0, 0]) ∧
    (s.RaggedInv → s.slot_values.length < 2 ^ 32 →
      s.slot_offsets.getLast? = some s.slot_values.length ∧
      (s.add_values []).slot_offsets = s.slot_offsets ++ [s.slot_values.length]) ∧
    (m.offset_.getLast? = some last →
      (m.CheckUint64 = true →
        m.AppendValues_uint64 [] = some { m with offset_ := m.offset_ ++ [last] }) ∧
      (m.CheckFloat = true →
        m.AppendValues_float [] = some { m with offset_ := m.offset_ ++ [last] })) := by
  refine ⟨rfl, ?_, ?_, ?_⟩
  · intro hs
    subst hs
    rfl
  · intro hinv hlen
    obtain ⟨hhead, hlast, _⟩ := hinv
    refine ⟨hlast, ?_⟩
    have hne : s.slot_offsets.isEmpty = false := by
      cases hs : s.slot_offsets with
      | nil => rw [hs] at hhead; simp at hhead
      | cons a t => rfl
    simp only [SlotValues.add_values, hne, List.length_nil, Nat.lt_irrefl, if_false,
      Bool.false_eq_true, to_uint32, Nat.mod_eq_of_lt hlen]
  · intro hlast
    constructor
    · intro ht
      simp [MultiSlotType.AppendValues_uint64, ht, hlast]
    · intro ht
      simp [MultiSlotType.AppendValues_float, ht, hlast]

/-- The statement of C20 on a storage with offsets `[0, 2]` and on a `uint64` slot whose
last offset is 3. -/
theorem zero_length_slot_witness :
    ((⟨[5, 6], [0, 2]⟩ : SlotValues Nat).add_values []).slot_offsets = [0, 2] ++ [2] ∧
    (⟨[], [1, 1, 1], "uint64", [0, 1, 1, 3]⟩ : MultiSlotType).AppendValues_uint64 [] =
      some ⟨[], [1, 1, 1], "uint64", [0, 1, 1, 3] ++ [3]⟩ :=
  ⟨((zero_length_slot (⟨[5, 6], [0, 2]⟩ : SlotValues Nat)
      ⟨[], [1, 1, 1], "uint64", [0, 1, 1, 3]⟩ 3).2.2.1 (by decide) (by decide)).2,
   ((zero_length_slot (⟨[5, 6], [0, 2]⟩ : SlotValues Nat)
      ⟨[], [1, 1, 1], "uint64", [0, 1, 1, 3]⟩ 3).2.2.2 rfl).1 (by decide)⟩

/-- C20 fails as stated for a `SlotValues` whose last offset is not the number of values:
on values `[1, 2, 3]` with offsets `[0, 5]`, `add_values(values, 0)` appends the offset 3,
which is not the previous last offset 5. -/
theorem zero_length_slot_counterexample :
    ((⟨[1, 2, 3], [0, 5]⟩ : SlotValues Nat).add_values []).slot_offsets = [0, 5, 3] ∧
    (⟨[1, 2, 3], [0, 5]⟩ : SlotValues Nat).slot_offsets.getLast? = some 5 := by
  decide

theorem SlotValues.archive_in_out (sz : Nat) (s : SlotValues Nat) (rest : List Nat)
    (hst : SlotRecordObject.Storable sz s) (hinv : s.slot_offsets = [] ∨ s.RaggedInv) :
    SlotValues.archive_in sz ⟨(SlotValues.archive_out sz ⟨[]⟩ s).buffer ++ rest⟩
      SlotValues.empty = some (⟨rest⟩, s) := by
  obtain ⟨htype, hv, hk⟩ := hst
  obtain ⟨vals, offs⟩ := s
  simp only at htype hinv hv hk
  rw [archive_out_buffer sz _ hv hk]
  simp only [List.append_assoc]
  have hget4 := Archive.get_put 4 vals.length
    (rawBytes sz vals ++ (leBytes 2 offs.length ++
      ((if 2 < offs.length then rawBytes 4 ((offs.drop 1).take (offs.length - 2)) else [])
        ++ rest))) (by norm_num; omega)
  have hget2 := Archive.get_put 2 offs.length
    ((if 2 < offs.length then rawBytes 4 ((offs.drop 1).take (offs.length - 2)) else [])
        ++ rest) (by norm_num; omega)
  have hoffs := archive_in_offsets_roundtrip offs rest vals.length
    (by
      rcases hinv with h | h
      · exact Or.inl h
      · exact Or.inr h) hv
  simp only [SlotValues.archive_in, hget4, SlotValues.empty]
  by_cases hz : 0 < vals.length
  · have hread : Archive.Read ⟨rawBytes sz vals ++ (leBytes 2 offs.length ++
        ((if 2 < offs.length then rawBytes 4 ((offs.drop 1).take (offs.length - 2)) else [])
          ++ rest))⟩ (vals.length * sz) = some (rawBytes sz vals, ⟨_⟩) :=
      Archive.Read_append _ _ _ (by simp [rawBytes_length])
    have hraw : readRaw sz vals.length (rawBytes sz vals) = vals := by
      simpa using readRaw_rawBytes sz vals [] htype
    simp only [if_pos hz, hread, hraw, hget2, hoffs]
    simp [vec_overwrite, vec_resize]
  · have hnil : vals = [] := List.length_eq_zero.mp (by omega)
    subst hnil
    simp only [List.length_nil, Nat.lt_irrefl, if_false, rawBytes, List.nil_append, hget2]
    simp only [List.length_nil] at hoffs
    simp only [hoffs]

theorem Archive.get_string_put (s : String) (b : List Nat) (h : s.length < 2 ^ 64) :
    Archive.get_string ⟨(Archive.put_string ⟨[]⟩ s).buffer ++ b⟩ = some (s, ⟨b⟩) := by
  have hlen : (s.toList.map Char.toNat).length = s.length := by simp
  have hchars : (s.toList.map Char.toNat).map Char.ofNat = s.toList := by
    rw [List.map_map]
    have : (Char.ofNat ∘ Char.toNat) = id := by
      funext c; simp
    rw [this, List.map_id]
  simp only [Archive.get_string, Archive.put_string, Archive.put, Archive.Write,
    List.nil_append, List.append_assoc]
  rw [Archive.get_put 8 s.length _ (by norm_num; omega)]
  simp only
  rw [Archive.Read_append _ _ _ hlen.symm]
  simp only [hchars]
  rfl

theorem SlotRecordObject.archive_out_record (ar : Archive) (r : SlotRecordObject) :
    (r.archive_out ar).buffer =
      ar.buffer ++ ((SlotValues.archive_out 4 ⟨[]⟩ r.slot_float_feasigns_).buffer ++
        ((SlotValues.archive_out 8 ⟨[]⟩ r.slot_uint64_feasigns_).buffer ++
          ((Archive.put_string ⟨[]⟩ r.ins_id_).buffer ++
            (leBytes 8 r.search_id ++ (leBytes 4 r.rank ++ leBytes 4 r.cmatch))))) := by
  simp only [SlotRecordObject.archive_out, Archive.put, Archive.Write, Archive.put_string,
    List.nil_append, List.append_assoc]
  rw [archive_out_append 8, archive_out_append 4]
  simp only [List.append_assoc]

theorem SlotRecordObject.archive_in_of_parts (t : SlotRecordObject) (fl ul : SlotValues Nat)
    (id : String) (sid rk cm : Nat) (rest : List Nat)
    (hf : ∀ b, SlotValues.archive_in 4 ⟨(SlotValues.archive_out 4 ⟨[]⟩ fl).buffer ++ b⟩
      t.slot_float_feasigns_ = some (⟨b⟩, fl))
    (hu : ∀ b, SlotValues.archive_in 8 ⟨(SlotValues.archive_out 8 ⟨[]⟩ ul).buffer ++ b⟩
      t.slot_uint64_feasigns_ = some (⟨b⟩, ul))
    (hid : id.length < 2 ^ 64) (hsid : sid < 2 ^ 64) (hrk : rk < 2 ^ 32) (hcm : cm < 2 ^ 32) :
    t.archive_in ⟨((⟨sid, rk, cm, id, ul, fl⟩ : SlotRecordObject).archive_out ⟨[]⟩).buffer
      ++ rest⟩ = some (⟨rest⟩, ⟨sid, rk, cm, id, ul, fl⟩) := by
  rw [SlotRecordObject.archive_out_record]
  simp only [List.nil_append, List.append_assoc]
  simp only [SlotRecordObject.archive_in, hf, hu, Archive.get_string_put _ _ hid]
  rw [Archive.get_put 8 sid _ (by norm_num; omega)]
  simp only
  rw [Archive.get_put 4 rk _ (by norm_num; omega)]
  simp only
  have := Archive.get_put 4 cm rest (by norm_num; omega)
  rw [this]

/-- C19 (amended): for every record `r` whose two ragged storages satisfy the ragged
invariant and have fewer than `2 ^ 32` values and fewer than `2 ^ 16` offsets each,
`operator<<` writes the float slot-values block, then the uint64 slot-values block, then
`ins_id_`, then `search_id` (8 bytes), `rank` (4 bytes) and `cmatch` (4 bytes), and
`operator>>` reading these bytes (followed by any bytes `rest`) into a record `t` whose
ragged storages are empty, as in a freshly constructed record, reproduces all six fields of
`r` and leaves `rest` unread. -/
theorem slotrecord_archive_roundtrip (r t : SlotRecordObject) (ar : Archive)
    (rest : List Nat)
    (hf : SlotRecordObject.Storable 4 r.slot_float_feasigns_)
    (hu : SlotRecordObject.Storable 8 r.slot_uint64_feasigns_)
    (hfinv : r.slot_float_feasigns_.RaggedInv) (huinv : r.slot_uint64_feasigns_.RaggedInv)
    (hty : r.Typed)
    (htf : t.slot_float_feasigns_ = SlotValues.empty)
    (htu : t.slot_uint64_feasigns_ = SlotValues.empty) :
    (r.archive_out ar).buffer =
      ar.buffer ++ ((SlotValues.archive_out 4 ⟨[]⟩ r.slot_float_feasigns_).buffer ++
        ((SlotValues.archive_out 8 ⟨[]⟩ r.slot_uint64_feasigns_).buffer ++
          ((Archive.put_string ⟨[]⟩ r.ins_id_).buffer ++
            (leBytes 8 r.search_id ++ (leBytes 4 r.rank ++ leBytes 4 r.cmatch))))) ∧
    t.archive_in ⟨(r.archive_out ⟨[]⟩).buffer ++ rest⟩ = some (⟨rest⟩, r) := by
  refine ⟨SlotRecordObject.archive_out_record ar r, ?_⟩
  obtain ⟨hsid, hrk, hcm, hid⟩ := hty
  obtain ⟨sid, rk, cm, id, ul, fl⟩ := r
  apply SlotRecordObject.archive_in_of_parts t fl ul id sid rk cm rest
  · intro b
    rw [htf]
    exact SlotValues.archive_in_out 4 fl b hf (Or.inr hfinv)
  · intro b
    rw [htu]
    exact SlotValues.archive_in_out 8 ul b hu (Or.inr huinv)
  · exact hid
  · exact hsid
  · exact hrk
  · exact hcm

/-- The round trip of C19 for a record with one float slot and two uint64 slots, read into a
freshly constructed record. -/
theorem slotrecord_archive_roundtrip_witness :
    SlotRecordObject.fresh.archive_in
      ⟨((⟨77, 2, 3, "ins", ⟨[5, 6, 7], [0, 2, 3]⟩, ⟨[1065353216], [0, 1]⟩⟩ :
          SlotRecordObject).archive_out ⟨[]⟩).buffer ++ [9]⟩ =
      some (⟨[9]⟩, ⟨77, 2, 3, "ins", ⟨[5, 6, 7], [0, 2, 3]⟩, ⟨[1065353216], [0, 1]⟩⟩) :=
  (slotrecord_archive_roundtrip
    ⟨77, 2, 3, "ins", ⟨[5, 6, 7], [0, 2, 3]⟩, ⟨[1065353216], [0, 1]⟩⟩
    SlotRecordObject.fresh ⟨[]⟩ [9]
    ⟨by decide, by decide, by decide⟩ ⟨by decide, by decide, by decide⟩
    (by decide) (by decide) ⟨by decide, by decide, by decide, by decide⟩ rfl rfl).2

theorem SlotRecordObject.archive_wrapped_offsets (offs : List Nat)
    (hk : to_uint16 offs.length = 0) :
    (SlotRecordObject.fresh.archive_in
      ⟨((⟨0, 0, 0, "", ⟨[], [0]⟩, ⟨[], offs⟩⟩ : SlotRecordObject).archive_out ⟨[]⟩).buffer⟩).map
        (fun x => x.2.slot_float_feasigns_.slot_offsets) = some [] := by
  rw [SlotRecordObject.archive_out_record]
  simp only [archive_out_of_wrapped 4 [] offs rfl hk]
  decide

/-- C19 fails as stated when a count does not fit its field: for a record whose float
storage has no value and `2 ^ 16` offsets, all 0 (both storages satisfy the ragged
invariant), `operator<<` writes the offset count 0, and `operator>>` into a freshly
constructed record leaves the float storage without any offset. -/
theorem slotrecord_archive_roundtrip_counterexample :
    (⟨[], List.replicate (2 ^ 16) 0⟩ : SlotValues Nat).RaggedInv ∧
    (⟨[], [0]⟩ : SlotValues Nat).RaggedInv ∧
    (SlotRecordObject.fresh.archive_in
      ⟨((⟨0, 0, 0, "", ⟨[], [0]⟩, ⟨[], List.replicate (2 ^ 16) 0⟩⟩ :
          SlotRecordObject).archive_out ⟨[]⟩).buffer⟩).map
        (fun x => x.2.slot_float_feasigns_.slot_offsets) = some [] ∧
    (List.replicate (2 ^ 16) 0).length = 2 ^ 16 := by
  refine ⟨⟨?_, ?_, ?_⟩, by decide, ?_, List.length_replicate _ _⟩
  · rw [List.head?_replicate]; rfl
  · rw [List.getLast?_replicate]; rfl
  · rw [List.pairwise_replicate]
    exact Or.inr (Nat.le_refl 0)
  · exact SlotRecordObject.archive_wrapped_offsets _ (by rw [List.length_replicate]; rfl)

theorem RecordCandidateList.add_not_full (l : RecordCandidateList) (record : Record)
    (r : Nat) (hfull : l.full_ = false) :
    l.add record r =
      if l.cur_size_ < l.candidate_list_.length then
        some { l with
          total_size_ := l.total_size_ + 1
          candidate_list_ := l.candidate_list_.set l.cur_size_
            { RecordCandidate.ofRecord record l.slot_index_to_replace_ with
              shadow_index_ := l.cur_size_ }
          cur_size_ := l.cur_size_ + 1
          full_ := decide (l.cur_size_ + 1 = l.capacity_) }
      else none := by
  simp only [RecordCandidateList.add, hfull, Bool.not_false, if_true]

theorem RecordCandidateList.add_full (l : RecordCandidateList) (record : Record)
    (r : Nat) (hfull : l.full_ = true) (hsize : l.capacity_ ≤ l.candidate_list_.length) :
    l.add record r =
      if r % (l.total_size_ + 1) < l.capacity_ then
        some { l with
          total_size_ := l.total_size_ + 1
          candidate_list_ :=
            (l.candidate_list_ ++
              [RecordCandidate.ofRecord record l.slot_index_to_replace_]).set
              (r % (l.total_size_ + 1))
              { (l.candidate_list_.getD (r % (l.total_size_ + 1)) RecordCandidate.default) with
                shadow_index_ := l.candidate_list_.length } }
      else some { l with total_size_ := l.total_size_ + 1 } := by
  simp only [RecordCandidateList.add, hfull, Bool.not_true, Bool.false_eq_true, if_false]
  by_cases hlt : r % (l.total_size_ + 1) < l.capacity_
  · have hin : r % (l.total_size_ + 1) < l.candidate_list_.length := by omega
    have hget : (l.candidate_list_ ++
        [RecordCandidate.ofRecord record l.slot_index_to_replace_])[r % (l.total_size_ + 1)]? =
        some (l.candidate_list_.getD (r % (l.total_size_ + 1)) RecordCandidate.default) := by
      rw [List.getElem?_append_left hin, List.getD_eq_getElem?_getD,
        List.getElem?_eq_getElem hin]
      rfl
    simp only [if_pos hlt, hget, List.length_append, List.length_singleton,
      Nat.add_sub_cancel]
  · simp only [if_neg hlt]

theorem RecordCandidateList.inv_add (l l1 : RecordCandidateList) (record : Record) (r : Nat)
    (hinv : l.Inv) (hadd : l.add record r = some l1) : l1.Inv := by
  obtain ⟨h1, h2, h3, h4, h5, h6, h7, h8⟩ := hinv
  cases hfull : l.full_ with
  | false =>
    rw [RecordCandidateList.add_not_full l record r hfull] at hadd
    have hne : l.cur_size_ ≠ l.capacity_ := fun h => by
      have := h3.mpr h
      rw [hfull] at this
      exact Bool.noConfusion this
    by_cases hlt : l.cur_size_ < l.candidate_list_.length
    · rw [if_pos hlt] at hadd
      have hl1 := (Option.some.inj hadd).symm
      subst hl1
      refine ⟨h1, by simp only; omega, by simp only [decide_eq_true_eq], by simp only; omega,
        by simp only [List.length_set]; omega, ?_, ?_, ?_⟩
      · intro hf
        simp only [decide_eq_true_eq] at hf
        simp only [List.length_set]; omega
      · intro i hi
        simp only at hi
        by_cases hic : i = l.cur_size_
        · subst hic
          exact ⟨_, List.getElem?_set_self hlt, Or.inl rfl⟩
        · obtain ⟨ci, hci, hsh⟩ := h7 i (by omega)
          refine ⟨ci, ?_, ?_⟩
          · simp only [List.getElem?_set_ne (Ne.symm hic)]; exact hci
          · simp only [List.length_set]; exact hsh
      · intro i j ci cj hi hj hci hcj hs
        simp only at hi hj hci hcj
        by_cases hic : i = l.cur_size_
        · by_cases hjc : j = l.cur_size_
          · omega
          · subst hic
            rw [List.getElem?_set_self hlt] at hci
            rw [List.getElem?_set_ne (Ne.symm hjc)] at hcj
            have hci2 := (Option.some.inj hci).symm
            subst hci2
            obtain ⟨cj2, hcj2, hsh⟩ := h7 j (by omega)
            rw [hcj] at hcj2
            have := Option.some.inj hcj2
            subst this
            simp only at hs
            rcases hsh with hsh | hsh <;> omega
        · by_cases hjc : j = l.cur_size_
          · subst hjc
            rw [List.getElem?_set_self hlt] at hcj
            rw [List.getElem?_set_ne (Ne.symm hic)] at hci
            have hcj2 := (Option.some.inj hcj).symm
            subst hcj2
            obtain ⟨ci2, hci2, hsh⟩ := h7 i (by omega)
            rw [hci] at hci2
            have := Option.some.inj hci2
            subst this
            simp only at hs
            rcases hsh with hsh | hsh <;> omega
          · rw [List.getElem?_set_ne (Ne.symm hic)] at hci
            rw [List.getElem?_set_ne (Ne.symm hjc)] at hcj
            exact h8 i j ci cj (by omega) (by omega) hci hcj hs
    · rw [if_neg hlt] at hadd
      exact Option.noConfusion hadd
  | true =>
    have hsize := h6 hfull
    have hcur : l.cur_size_ = l.capacity_ := h3.mp hfull
    rw [RecordCandidateList.add_full l record r hfull hsize] at hadd
    by_cases hlt : r % (l.total_size_ + 1) < l.capacity_
    · rw [if_pos hlt] at hadd
      have hl1 := (Option.some.inj hadd).symm
      subst hl1
      have hin : r % (l.total_size_ + 1) < l.candidate_list_.length := by omega
      have hin2 : r % (l.total_size_ + 1) <
          (l.candidate_list_ ++
            [RecordCandidate.ofRecord record l.slot_index_to_replace_]).length := by
        simp only [List.length_append, List.length_singleton]; omega
      refine ⟨h1, h2, h3, by simp only; omega, ?_, ?_, ?_, ?_⟩
      · simp only [List.length_set, List.length_append, List.length_singleton]; omega
      · intro _
        simp only [List.length_set, List.length_append, List.length_singleton]; omega
      · intro i hi
        simp only at hi
        by_cases hix : i = r % (l.total_size_ + 1)
        · subst hix
          refine ⟨_, List.getElem?_set_self hin2, Or.inr ?_⟩
          simp only [List.length_set, List.length_append, List.length_singleton]
          omega
        · obtain ⟨ci, hci, hsh⟩ := h7 i hi
          refine ⟨ci, ?_, ?_⟩
          · simp only [List.getElem?_set_ne (Ne.symm hix)]
            rw [List.getElem?_append_left (by omega)]; exact hci
          · simp only [List.length_set, List.length_append, List.length_singleton]
            rcases hsh with hsh | hsh
            · exact Or.inl hsh
            · exact Or.inr ⟨hsh.1, by omega⟩
      · intro i j ci cj hi hj hci hcj hs
        simp only at hi hj hci hcj
        by_cases hix : i = r % (l.total_size_ + 1)
        · by_cases hjx : j = r % (l.total_size_ + 1)
          · omega
          · subst hix
            rw [List.getElem?_set_self hin2] at hci
            rw [List.getElem?_set_ne (Ne.symm hjx),
              List.getElem?_append_left (by omega)] at hcj
            have hci2 := (Option.some.inj hci).symm
            subst hci2
            obtain ⟨cj2, hcj2, hsh⟩ := h7 j hj
            rw [hcj] at hcj2
            have := Option.some.inj hcj2
            subst this
            simp only at hs
            rcases hsh with hsh | hsh <;> omega
        · by_cases hjx : j = r % (l.total_size_ + 1)
          · subst hjx
            rw [List.getElem?_set_self hin2] at hcj
            rw [List.getElem?_set_ne (Ne.symm hix),
              List.getElem?_append_left (by omega)] at hci
            have hcj2 := (Option.some.inj hcj).symm
            subst hcj2
            obtain ⟨ci2, hci2, hsh⟩ := h7 i hi
            rw [hci] at hci2
            have := Option.some.inj hci2
            subst this
            simp only at hs
            rcases hsh with hsh | hsh <;> omega
          · rw [List.getElem?_set_ne (Ne.symm hix),
              List.getElem?_append_left (by omega)] at hci
            rw [List.getElem?_set_ne (Ne.symm hjx),
              List.getElem?_append_left (by omega)] at hcj
            exact h8 i j ci cj hi hj hci hcj hs
    · rw [if_neg hlt] at hadd
      have hl1 := (Option.some.inj hadd).symm
      subst hl1
      exact ⟨h1, h2, h3, by simp only; omega, h5, h6, h7, h8⟩

theorem vec_resize_length {α : Type} (xs : List α) (n : Nat) (fill : α) :
    (vec_resize xs n fill).length = n := by
  simp only [vec_resize, List.length_append, List.length_take, List.length_replicate]
  omega

theorem vec_resize_getElem? {α : Type} (xs : List α) (n i : Nat) (fill : α)
    (hi : i < n) (hx : i < xs.length) : (vec_resize xs n fill)[i]? = xs[i]? := by
  simp only [vec_resize]
  rw [List.getElem?_append_left (by simp only [List.length_take]; omega),
    List.getElem?_take_of_lt hi]

/-- The loop of `ReInitPass`: after the iterations `i .. cur - 1` every slot `j < cur` holds
the identifier and the features the entry at its `shadow_index_` had in the list `cl0` the
pass started from, and its `shadow_index_` is `j`. -/
theorem RecordCandidateList.ReInitPass_loop_spec (cl0 : List RecordCandidate) (cur cap : Nat)
    (hcc : cur ≤ cap) (hcn : cur ≤ cl0.length)
    (hsh : ∀ i, i < cur → ∃ ci, cl0[i]? = some ci ∧
      (ci.shadow_index_ = i ∨ (cap ≤ ci.shadow_index_ ∧ ci.shadow_index_ < cl0.length)))
    (hinj : ∀ i j ci cj, i < cur → j < cur → cl0[i]? = some ci → cl0[j]? = some cj →
      ci.shadow_index_ = cj.shadow_index_ → i = j)
    (k i : Nat) (cl : List RecordCandidate) (hik : i + k = cur)
    (hlen : cl.length = cl0.length)
    (hdone : ∀ j, j < i → ∃ cj cs, cl0[j]? = some cj ∧ cl0[cj.shadow_index_]? = some cs ∧
      cl[j]? = some ⟨cs.ins_id_, cs.feas_, j⟩)
    (htodo : ∀ j, i ≤ j → j < cur → cl[j]? = cl0[j]?)
    (hsrc : ∀ j cj, i ≤ j → j < cur → cl0[j]? = some cj →
      cl[cj.shadow_index_]? = cl0[cj.shadow_index_]?) :
    ∃ cl1, RecordCandidateList.ReInitPass_loop k i cl = some cl1 ∧
      cl1.length = cl0.length ∧
      ∀ j, j < cur → ∃ cj cs, cl0[j]? = some cj ∧ cl0[cj.shadow_index_]? = some cs ∧
        cl1[j]? = some ⟨cs.ins_id_, cs.feas_, j⟩ := by
  induction k generalizing i cl with
  | zero =>
    refine ⟨cl, rfl, hlen, ?_⟩
    intro j hj
    exact hdone j (by omega)
  | succ k ih =>
    have hi : i < cur := by omega
    obtain ⟨ci, hci, hci_sh⟩ := hsh i hi
    have hcli : cl[i]? = some ci := by rw [htodo i (Nat.le_refl _) hi]; exact hci
    by_cases hself : ci.shadow_index_ = i
    · -- the slot already holds its own content
      have hstep : RecordCandidateList.ReInitPass_loop (k + 1) i cl =
          RecordCandidateList.ReInitPass_loop k (i + 1) cl := by
        simp only [RecordCandidateList.ReInitPass_loop, hcli, hself, ne_eq, not_true_eq_false,
          if_false]
      rw [hstep]
      apply ih (i + 1) cl (by omega) hlen
      · intro j hj
        by_cases hji : j = i
        · subst hji
          refine ⟨ci, ci, hci, by rw [hself]; exact hci, ?_⟩
          rw [hcli]
          cases ci
          simp only at hself
          subst hself
          rfl
        · exact hdone j (by omega)
      · intro j hj1 hj2
        exact htodo j (by omega) hj2
      · intro j cj hj1 hj2 hcj
        exact hsrc j cj (by omega) hj2 hcj
    · -- the content lives in an appended entry
      have hs : cap ≤ ci.shadow_index_ ∧ ci.shadow_index_ < cl0.length := by
        rcases hci_sh with h | h
        · exact absurd h hself
        · exact h
      obtain ⟨cs, hcs0⟩ : ∃ cs, cl0[ci.shadow_index_]? = some cs :=
        ⟨_, List.getElem?_eq_getElem hs.2⟩
      have hcls : cl[ci.shadow_index_]? = some cs := by
        rw [hsrc i ci (Nat.le_refl _) hi hci]; exact hcs0
      have hstep : RecordCandidateList.ReInitPass_loop (k + 1) i cl =
          RecordCandidateList.ReInitPass_loop k (i + 1)
            ((cl.set i ⟨cs.ins_id_, cs.feas_, i⟩).set ci.shadow_index_
              { cs with feas_ := ci.feas_ }) := by
        simp only [RecordCandidateList.ReInitPass_loop, hcli, ne_eq, hself, not_false_eq_true,
          if_true, hcls]
      rw [hstep]
      have hil : i < cl.length := by omega
      apply ih (i + 1) _ (by omega) (by simp only [List.length_set]; exact hlen)
      · intro j hj
        by_cases hji : j = i
        · subst hji
          refine ⟨ci, cs, hci, hcs0, ?_⟩
          rw [List.getElem?_set_ne (by omega), List.getElem?_set_self hil]
        · obtain ⟨cj, cs2, h1, h2, h3⟩ := hdone j (by omega)
          refine ⟨cj, cs2, h1, h2, ?_⟩
          rw [List.getElem?_set_ne (by omega), List.getElem?_set_ne (by omega)]
          exact h3
      · intro j hj1 hj2
        rw [List.getElem?_set_ne (by omega), List.getElem?_set_ne (by omega)]
        exact htodo j (by omega) hj2
      · intro j cj hj1 hj2 hcj
        obtain ⟨cj2, hcj2, hcj_sh⟩ := hsh j hj2
        rw [hcj] at hcj2
        have := Option.some.inj hcj2
        subst this
        have hne_s : ci.shadow_index_ ≠ cj.shadow_index_ := by
          intro heq
          have := hinj i j ci cj hi hj2 hci hcj heq
          omega
        have hne_i : i ≠ cj.shadow_index_ := by
          rcases hcj_sh with h | h <;> omega
        rw [List.getElem?_set_ne hne_s, List.getElem?_set_ne hne_i]
        exact hsrc j cj (by omega) hj2 hcj

theorem RecordCandidateList.ReInitPass_spec (l : RecordCandidateList) (hinv : l.Inv) :
    ∃ l1, l.ReInitPass = some l1 ∧ l1.Inv ∧
      l1.candidate_list_.length = l.capacity_ ∧
      l1.capacity_ = l.capacity_ ∧ l1.cur_size_ = l.cur_size_ ∧ l1.full_ = l.full_ ∧
      l1.total_size_ = l.total_size_ ∧
      l1.slot_index_to_replace_ = l.slot_index_to_replace_ ∧
      ∀ i, i < l.cur_size_ → ∃ ci cs, l.candidate_list_[i]? = some ci ∧
        l.candidate_list_[ci.shadow_index_]? = some cs ∧
        l1.candidate_list_[i]? = some ⟨cs.ins_id_, cs.feas_, i⟩ := by
  obtain ⟨h1, h2, h3, h4, h5, h6, h7, h8⟩ := hinv
  obtain ⟨cl1, hloop, hlen, hres⟩ :=
    RecordCandidateList.ReInitPass_loop_spec l.candidate_list_ l.cur_size_ l.capacity_
      h2 h5 h7 h8 l.cur_size_ 0 l.candidate_list_ (by omega) rfl
      (fun j hj => absurd hj (Nat.not_lt_zero j)) (fun _ _ _ => rfl) (fun _ _ _ _ _ => rfl)
  have hget : ∀ i, i < l.cur_size_ →
      (vec_resize cl1 l.capacity_ RecordCandidate.default)[i]? = cl1[i]? :=
    fun i hi => vec_resize_getElem? cl1 l.capacity_ i _ (by omega) (by omega)
  refine ⟨{ l with candidate_list_ := vec_resize cl1 l.capacity_ RecordCandidate.default },
    by simp only [RecordCandidateList.ReInitPass, hloop],
    ⟨h1, h2, h3, h4, ?_, ?_, ?_, ?_⟩, vec_resize_length _ _ _, rfl, rfl, rfl, rfl, rfl, ?_⟩
  · simp only [vec_resize_length]; exact h2
  · intro _
    simp only [vec_resize_length]; exact Nat.le_refl _
  · intro i hi
    obtain ⟨cj, cs, _, _, hc⟩ := hres i hi
    exact ⟨_, by simp only [hget i hi]; exact hc, Or.inl rfl⟩
  · intro i j ci cj hi hj hci hcj hs
    simp only at hi hj hci hcj
    obtain ⟨_, csi, _, _, hc1⟩ := hres i hi
    obtain ⟨_, csj, _, _, hc2⟩ := hres j hj
    rw [hget i hi, hc1] at hci
    rw [hget j hj, hc2] at hcj
    have e1 := (Option.some.inj hci).symm
    have e2 := (Option.some.inj hcj).symm
    subst e1 e2
    exact hs
  · intro i hi
    obtain ⟨cj, cs, hc1, hc2, hc3⟩ := hres i hi
    exact ⟨cj, cs, hc1, hc2, by simp only [hget i hi]; exact hc3⟩

theorem RecordCandidateList.inv_of_isEmpty (l : RecordCandidateList) (h : l.IsEmpty) :
    l.Inv := by
  obtain ⟨hf, hc, ht, hcap⟩ := h
  refine ⟨hcap, by omega, ?_, by omega, by omega, ?_, ?_, ?_⟩
  · constructor
    · intro h; rw [hf] at h; exact Bool.noConfusion h
    · intro h; omega
  · intro h; rw [hf] at h; exact Bool.noConfusion h
  · intro i hi; omega
  · intro i j _ _ hi; omega

theorem RecordCandidateList.add_of_AddAndGet (l l1 : RecordCandidateList) (record : Record)
    (r1 r2 index : Nat) (h : l.AddAndGet record r1 r2 = some (index, l1)) :
    l.add record r1 = some l1 := by
  unfold RecordCandidateList.AddAndGet at h
  cases hadd : l.add record r1 with
  | none => rw [hadd] at h; exact Option.noConfusion h
  | some l2 =>
    rw [hadd] at h
    simp only at h
    by_cases hz : l2.cur_size_ = 0
    · rw [if_pos hz] at h; exact Option.noConfusion h
    · rw [if_neg hz] at h
      cases hc : l2.candidate_list_[r2 % l2.cur_size_]? with
      | none => rw [hc] at h; exact Option.noConfusion h
      | some c =>
        rw [hc] at h
        have := Option.some.inj h
        rw [(Prod.mk.inj this).2]

/-- What a call leaves unchanged or grows: the capacity and the set of replaceable slots are
fixed and, when the entries cover the capacity, they still do afterwards. -/
theorem RecordCandidateList.step_frame (l l1 : RecordCandidateList) (op : CandidateOp)
    (hinv : l.Inv) (hstep : l.step op = some l1) :
    l1.Inv ∧ l1.capacity_ = l.capacity_ ∧
    l1.slot_index_to_replace_ = l.slot_index_to_replace_ ∧
    (l.capacity_ ≤ l.candidate_list_.length → l1.capacity_ ≤ l1.candidate_list_.length) ∧
    (l.full_ = true → l1.full_ = true ∧ l1.cur_size_ = l.cur_size_) := by
  cases op with
  | add record r1 r2 =>
    simp only [RecordCandidateList.step] at hstep
    cases hag : l.AddAndGet record r1 r2 with
    | none => rw [hag] at hstep; exact Option.noConfusion hstep
    | some res =>
      obtain ⟨index, l2⟩ := res
      rw [hag] at hstep
      have := Option.some.inj hstep
      subst this
      have hadd := RecordCandidateList.add_of_AddAndGet l l2 record r1 r2 index hag
      refine ⟨RecordCandidateList.inv_add l l2 record r1 hinv hadd, ?_⟩
      cases hfull : l.full_ with
      | false =>
        rw [RecordCandidateList.add_not_full l record r1 hfull] at hadd
        by_cases hlt : l.cur_size_ < l.candidate_list_.length
        · rw [if_pos hlt] at hadd
          have := (Option.some.inj hadd).symm
          subst this
          refine ⟨rfl, rfl, ?_, ?_⟩
          · intro h; simp only [List.length_set]; exact h
          · intro h; exact Bool.noConfusion h
        · rw [if_neg hlt] at hadd; exact Option.noConfusion hadd
      | true =>
        have hsize := hinv.2.2.2.2.2.1 hfull
        rw [RecordCandidateList.add_full l record r1 hfull hsize] at hadd
        by_cases hlt : r1 % (l.total_size_ + 1) < l.capacity_
        · rw [if_pos hlt] at hadd
          have := (Option.some.inj hadd).symm
          subst this
          refine ⟨rfl, rfl, ?_, ?_⟩
          · intro h
            simp only [List.length_set, List.length_append, List.length_singleton]; omega
          · intro _; exact ⟨hfull, rfl⟩
        · rw [if_neg hlt] at hadd
          have := (Option.some.inj hadd).symm
          subst this
          exact ⟨rfl, rfl, fun h => h, fun _ => ⟨hfull, rfl⟩⟩
  | reinit_pass =>
    simp only [RecordCandidateList.step] at hstep
    obtain ⟨l2, hpass, hinv2, hlen, hcap, hcur, hfl, _, hslots, _⟩ :=
      RecordCandidateList.ReInitPass_spec l hinv
    rw [hpass] at hstep
    have := Option.some.inj hstep
    subst this
    exact ⟨hinv2, hcap, hslots, fun _ => by rw [hlen, hcap],
      fun h => ⟨by rw [hfl]; exact h, hcur⟩⟩

theorem RecordCandidateList.run_frame (ops : List CandidateOp) (l l1 : RecordCandidateList)
    (hinv : l.Inv) (hrun : l.run ops = some l1) :
    l1.Inv ∧ l1.capacity_ = l.capacity_ ∧
    (l.capacity_ ≤ l.candidate_list_.length → l1.capacity_ ≤ l1.candidate_list_.length) ∧
    (l.full_ = true → l1.full_ = true ∧ l1.cur_size_ = l.cur_size_) := by
  induction ops generalizing l with
  | nil =>
    simp only [RecordCandidateList.run] at hrun
    have := Option.some.inj hrun
    subst this
    exact ⟨hinv, rfl, fun h => h, fun h => ⟨h, rfl⟩⟩
  | cons op ops ih =>
    simp only [RecordCandidateList.run] at hrun
    cases hstep : l.step op with
    | none => rw [hstep] at hrun; exact Option.noConfusion hrun
    | some l2 =>
      rw [hstep] at hrun
      obtain ⟨hinv2, hcap2, _, hsz2, hfull2⟩ :=
        RecordCandidateList.step_frame l l2 op hinv hstep
      obtain ⟨hinv3, hcap3, hsz3, hfull3⟩ := ih l2 hinv2 hrun
      refine ⟨hinv3, by rw [hcap3, hcap2], ?_, ?_⟩
      · intro h; exact hsz3 (hsz2 h)
      · intro h
        obtain ⟨hf2, hc2⟩ := hfull2 h
        obtain ⟨hf3, hc3⟩ := hfull3 hf2
        exact ⟨hf3, by rw [hc3, hc2]⟩

/-- In a state that satisfies the invariant and whose entries cover the capacity,
`AddAndGet` returns, and the index it returns is the `shadow_index_` of the picked slot and
lies within `candidate_list_`. -/
theorem RecordCandidateList.AddAndGet_returns (l : RecordCandidateList) (record : Record)
    (r1 r2 : Nat) (hinv : l.Inv) (hsize : l.capacity_ ≤ l.candidate_list_.length) :
    ∃ l1 c, l.add record r1 = some l1 ∧
      l1.candidate_list_[r2 % l1.cur_size_]? = some c ∧
      l.AddAndGet record r1 r2 = some (c.shadow_index_, l1) ∧
      l1.cur_size_ ≠ 0 ∧ c.shadow_index_ < l1.candidate_list_.length := by
  have hadd : ∃ l1, l.add record r1 = some l1 ∧ l1.cur_size_ ≠ 0 := by
    obtain ⟨h1, h2, h3, _, _, _, _, _⟩ := hinv
    cases hfull : l.full_ with
    | false =>
      have hne : l.cur_size_ ≠ l.capacity_ := fun h => by
        have := h3.mpr h
        rw [hfull] at this
        exact Bool.noConfusion this
      rw [RecordCandidateList.add_not_full l record r1 hfull, if_pos (by omega)]
      exact ⟨_, rfl, Nat.succ_ne_zero _⟩
    | true =>
      have hcur := h3.mp hfull
      rw [RecordCandidateList.add_full l record r1 hfull hsize]
      by_cases hlt : r1 % (l.total_size_ + 1) < l.capacity_
      · rw [if_pos hlt]; exact ⟨_, rfl, by simp only; omega⟩
      · rw [if_neg hlt]; exact ⟨_, rfl, by simp only; omega⟩
  obtain ⟨l1, hl1, hnz⟩ := hadd
  have hinv1 := RecordCandidateList.inv_add l l1 record r1 hinv hl1
  have hpick : r2 % l1.cur_size_ < l1.cur_size_ := Nat.mod_lt _ (Nat.pos_of_ne_zero hnz)
  obtain ⟨c, hc, hsh⟩ := hinv1.2.2.2.2.2.2.1 _ hpick
  refine ⟨l1, c, hl1, hc, ?_, hnz, ?_⟩
  · simp only [RecordCandidateList.AddAndGet, hl1, hnz, if_false, hc]
  · have h5 := hinv1.2.2.2.2.1
    rcases hsh with h | h
    · omega
    · exact h.2

theorem length_filter_range_lt (t c : Nat) :
    ((List.range t).filter (fun j => decide (j < c))).length = min c t := by
  induction t with
  | zero => simp
  | succ t ih =>
    rw [List.range_succ, List.filter_append, List.length_append, ih]
    by_cases h : t < c
    · simp only [List.filter_cons, h, decide_True, if_true, List.filter_nil,
        List.length_singleton]
      omega
    · simp only [List.filter_cons, h, decide_False, Bool.false_eq_true, if_false,
        List.filter_nil, List.length_nil]
      omega

/-- C11: for every full `RecordCandidateList` (reached from an empty list by `AddAndGet` and
`ReInitPass`) and every raw random draw `r`, `AddAndGet` returns, increments `total_size_`
to `t` and uses `index = r mod t`.  If `index < capacity_` the new candidate is appended at
the end of `candidate_list_` and `candidate_list_[index].shadow_index_` is set to that new
position, every other entry staying as it was; otherwise `candidate_list_` is unchanged.
Exactly `capacity_` of the `t` index values in `[0, t)` cause a replacement, the value `j`
targeting the reservoir slot `j`. -/
theorem AddAndGet_full_replacement (l0 l : RecordCandidateList) (ops : List CandidateOp)
    (record : Record) (r r_pick : Nat)
    (h0 : l0.IsEmpty) (hrun : l0.run ops = some l) (hfull : l.full_ = true) :
    ∃ index l1, l.AddAndGet record r r_pick = some (index, l1) ∧
      l1.total_size_ = l.total_size_ + 1 ∧
      (r % l1.total_size_ < l.capacity_ →
        ∃ c, l.candidate_list_[r % l1.total_size_]? = some c ∧
          l1.candidate_list_ =
            (l.candidate_list_ ++
              [RecordCandidate.ofRecord record l.slot_index_to_replace_]).set
              (r % l1.total_size_) { c with shadow_index_ := l.candidate_list_.length } ∧
          l1.candidate_list_[l.candidate_list_.length]? =
            some (RecordCandidate.ofRecord record l.slot_index_to_replace_) ∧
          ∀ i, i ≠ r % l1.total_size_ → i < l.candidate_list_.length →
            l1.candidate_list_[i]? = l.candidate_list_[i]?) ∧
      (¬ r % l1.total_size_ < l.capacity_ → l1.candidate_list_ = l.candidate_list_) ∧
      l.capacity_ ≤ l1.total_size_ ∧
      ((List.range l1.total_size_).filter (fun j => decide
        ((l.add record j).map (fun x => x.candidate_list_) ≠
          some l.candidate_list_))).length = l.capacity_ := by
  obtain ⟨hinv, _, _, _⟩ :=
    RecordCandidateList.run_frame ops l0 l (RecordCandidateList.inv_of_isEmpty l0 h0) hrun
  have hsize : l.capacity_ ≤ l.candidate_list_.length := hinv.2.2.2.2.2.1 hfull
  have hcur : l.cur_size_ = l.capacity_ := hinv.2.2.1.mp hfull
  have htot : l.cur_size_ ≤ l.total_size_ := hinv.2.2.2.1
  obtain ⟨l1, c, hadd, _, hag, _, _⟩ :=
    RecordCandidateList.AddAndGet_returns l record r r_pick hinv hsize
  have haddj := fun j => RecordCandidateList.add_full l record j hfull hsize
  have ht : l1.total_size_ = l.total_size_ + 1 := by
    have h := haddj r
    rw [hadd] at h
    by_cases hlt : r % (l.total_size_ + 1) < l.capacity_
    · rw [if_pos hlt] at h; rw [Option.some.inj h]
    · rw [if_neg hlt] at h; rw [Option.some.inj h]
  refine ⟨c.shadow_index_, l1, hag, ht, ?_, ?_, by omega, ?_⟩
  · intro hlt
    rw [ht] at hlt ⊢
    have h := haddj r
    rw [hadd, if_pos hlt] at h
    have hin : r % (l.total_size_ + 1) < l.candidate_list_.length := by omega
    refine ⟨l.candidate_list_[r % (l.total_size_ + 1)], List.getElem?_eq_getElem hin, ?_, ?_, ?_⟩
    · rw [Option.some.inj h]
      simp only [List.getD_eq_getElem?_getD, List.getElem?_eq_getElem hin, Option.getD_some]
    · rw [Option.some.inj h]
      simp only
      rw [List.getElem?_set_ne (by omega), List.getElem?_concat_length]
    · intro i hi hil
      rw [Option.some.inj h]
      simp only
      rw [List.getElem?_set_ne (Ne.symm hi), List.getElem?_append_left hil]
  · intro hlt
    rw [ht] at hlt
    have h := haddj r
    rw [hadd, if_neg hlt] at h
    rw [Option.some.inj h]
  · rw [ht]
    have hcongr : (List.range (l.total_size_ + 1)).filter (fun j => decide
        ((l.add record j).map (fun x => x.candidate_list_) ≠ some l.candidate_list_)) =
        (List.range (l.total_size_ + 1)).filter (fun j => decide (j < l.capacity_)) := by
      apply List.filter_congr
      intro j hj
      have hjt : j < l.total_size_ + 1 := List.mem_range.mp hj
      rw [haddj j, Nat.mod_eq_of_lt hjt]
      by_cases hlt : j < l.capacity_
      · have hne : (l.candidate_list_ ++
            [RecordCandidate.ofRecord record l.slot_index_to_replace_]).set j
            { (l.candidate_list_.getD j RecordCandidate.default) with
              shadow_index_ := l.candidate_list_.length } ≠ l.candidate_list_ := by
          intro heq
          have := congrArg List.length heq
          simp only [List.length_set, List.length_append, List.length_singleton] at this
          omega
        rw [if_pos hlt]
        simp only [Option.map_some', ne_eq, Option.some.injEq, hne,
          not_false_eq_true, decide_True, hlt]
      · rw [if_neg hlt]
        simp only [Option.map_some', ne_eq, not_true_eq_false, decide_False, hlt]
    rw [hcongr, length_filter_range_lt]
    omega

/-- The statement of C11 on a full reservoir of capacity 2 that has seen 2 records, with the
raw draw 4: `t = 3`, `index = 1`, slot 1 is redirected to the appended entry. -/
theorem AddAndGet_full_replacement_witness :
    ∃ index l1, RecordCandidateList.example2.AddAndGet (Record.example 3) 4 0 =
        some (index, l1) ∧
      l1.total_size_ = RecordCandidateList.example2.total_size_ + 1 ∧
      (4 % l1.total_size_ < RecordCandidateList.example2.capacity_ →
        ∃ c, RecordCandidateList.example2.candidate_list_[4 % l1.total_size_]? = some c ∧
          l1.candidate_list_ =
            (RecordCandidateList.example2.candidate_list_ ++
              [RecordCandidate.ofRecord (Record.example 3)
                RecordCandidateList.example2.slot_index_to_replace_]).set
              (4 % l1.total_size_)
              { c with shadow_index_ := RecordCandidateList.example2.candidate_list_.length } ∧
          l1.candidate_list_[RecordCandidateList.example2.candidate_list_.length]? =
            some (RecordCandidate.ofRecord (Record.example 3)
              RecordCandidateList.example2.slot_index_to_replace_) ∧
          ∀ i, i ≠ 4 % l1.total_size_ →
            i < RecordCandidateList.example2.candidate_list_.length →
            l1.candidate_list_[i]? = RecordCandidateList.example2.candidate_list_[i]?) ∧
      (¬ 4 % l1.total_size_ < RecordCandidateList.example2.capacity_ →
        l1.candidate_list_ = RecordCandidateList.example2.candidate_list_) ∧
      RecordCandidateList.example2.capacity_ ≤ l1.total_size_ ∧
      ((List.range l1.total_size_).filter (fun j => decide
        ((RecordCandidateList.example2.add (Record.example 3) j).map
          (fun x => x.candidate_list_) ≠
          some RecordCandidateList.example2.candidate_list_))).length =
        RecordCandidateList.example2.capacity_ :=
  AddAndGet_full_replacement RecordCandidateList.example0 RecordCandidateList.example2
    [.add (Record.example 1) 0 0, .add (Record.example 2) 0 0] (Record.example 3) 4 0
    (by decide) (by decide) rfl

/-- C13: in every state reached by `AddAndGet` and `ReInitPass` from an empty list with
`capacity_ >= 1` and `capacity_` pre-sized entries, and for every pair of random draws,
`AddAndGet` returns; `cur_size_` is non-zero at the final draw, the returned `index_result`
is the `shadow_index_` of the reservoir slot `r_pick mod cur_size_`, and it is below
`candidate_list_.size()`, so that `Get(index_result)` does not raise `OutOfRange`. -/
theorem AddAndGet_index_in_range (l0 l : RecordCandidateList) (ops : List CandidateOp)
    (record : Record) (r_replace r_pick : Nat)
    (h0 : l0.IsEmpty) (hpre : l0.Presized) (hrun : l0.run ops = some l) :
    ∃ index l1 c, l.AddAndGet record r_replace r_pick = some (index, l1) ∧
      l1.cur_size_ ≠ 0 ∧
      l1.candidate_list_[r_pick % l1.cur_size_]? = some c ∧
      index = c.shadow_index_ ∧
      index < l1.candidate_list_.length ∧
      ∃ g, l1.Get index = some g := by
  obtain ⟨hinv, _, hsz, _⟩ :=
    RecordCandidateList.run_frame ops l0 l (RecordCandidateList.inv_of_isEmpty l0 h0) hrun
  have hsize : l.capacity_ ≤ l.candidate_list_.length := hsz (Nat.le_of_eq hpre.symm)
  obtain ⟨l1, c, _, hc, hag, hnz, hlt⟩ :=
    RecordCandidateList.AddAndGet_returns l record r_replace r_pick hinv hsize
  refine ⟨c.shadow_index_, l1, c, hag, hnz, hc, rfl, hlt, l1.candidate_list_[c.shadow_index_], ?_⟩
  simp only [RecordCandidateList.Get, if_pos hlt, List.getElem?_eq_getElem hlt]

/-- The statement of C13 in the state `example3`, where slot 1 refers to the appended entry:
the draw `r_pick = 5` picks slot 1 and `AddAndGet` returns the index 2. -/
theorem AddAndGet_index_in_range_witness :
    ∃ index l1 c, RecordCandidateList.example3.AddAndGet (Record.example 4) 3 5 =
        some (index, l1) ∧
      l1.cur_size_ ≠ 0 ∧
      l1.candidate_list_[5 % l1.cur_size_]? = some c ∧
      index = c.shadow_index_ ∧
      index < l1.candidate_list_.length ∧
      ∃ g, l1.Get index = some g :=
  AddAndGet_index_in_range RecordCandidateList.example0 RecordCandidateList.example3
    [.add (Record.example 1) 0 0, .add (Record.example 2) 0 0, .add (Record.example 3) 4 0]
    (Record.example 4) 3 5 (by decide) (by decide) (by decide)

/-- C14: in every state reached by `AddAndGet` (and `ReInitPass`) from an empty list with
`capacity_ >= 1`, `ReInitPass` returns and afterwards, for every `i < cur_size_`, the entry
`candidate_list_[i]` has the `ins_id_` and the `feas_` that the entry at its previous
`shadow_index_` had before the pass, its `shadow_index_` equals `i`, and
`candidate_list_.size() == capacity_`. -/
theorem ReInitPass_restores_slots (l0 l : RecordCandidateList) (ops : List CandidateOp)
    (h0 : l0.IsEmpty) (hrun : l0.run ops = some l) :
    ∃ l1, l.ReInitPass = some l1 ∧
      l1.candidate_list_.length = l1.capacity_ ∧
      l1.cur_size_ = l.cur_size_ ∧
      ∀ i, i < l.cur_size_ → ∃ before source after,
        l.candidate_list_[i]? = some before ∧
        l.candidate_list_[before.shadow_index_]? = some source ∧
        l1.candidate_list_[i]? = some after ∧
        after.ins_id_ = source.ins_id_ ∧ after.feas_ = source.feas_ ∧
        after.shadow_index_ = i := by
  obtain ⟨hinv, _, _, _⟩ :=
    RecordCandidateList.run_frame ops l0 l (RecordCandidateList.inv_of_isEmpty l0 h0) hrun
  obtain ⟨l1, hpass, _, hlen, hcap, hcur, _, _, _, hslots⟩ :=
    RecordCandidateList.ReInitPass_spec l hinv
  refine ⟨l1, hpass, by rw [hlen, hcap], hcur, ?_⟩
  intro i hi
  obtain ⟨ci, cs, h1, h2, h3⟩ := hslots i hi
  exact ⟨ci, cs, _, h1, h2, h3, rfl, rfl, rfl⟩

/-- The statement of C14 in the state `example3`: after the pass slot 1 holds the features
of the appended entry and the list has 2 entries again. -/
theorem ReInitPass_restores_slots_witness :
    ∃ l1, RecordCandidateList.example3.ReInitPass = some l1 ∧
      l1.candidate_list_.length = l1.capacity_ ∧
      l1.cur_size_ = RecordCandidateList.example3.cur_size_ ∧
      ∀ i, i < RecordCandidateList.example3.cur_size_ → ∃ before source after,
        RecordCandidateList.example3.candidate_list_[i]? = some before ∧
        RecordCandidateList.example3.candidate_list_[before.shadow_index_]? = some source ∧
        l1.candidate_list_[i]? = some after ∧
        after.ins_id_ = source.ins_id_ ∧ after.feas_ = source.feas_ ∧
        after.shadow_index_ = i :=
  ReInitPass_restores_slots RecordCandidateList.example0 RecordCandidateList.example3
    [.add (Record.example 1) 0 0, .add (Record.example 2) 0 0, .add (Record.example 3) 4 0]
    (by decide) (by decide)

/-- C17: the reservoir has fixed capacity.  In every state reached by `AddAndGet` and
`ReInitPass` from an empty list with `capacity_ >= 1`, the capacity is the initial one,
`cur_size_ <= capacity_`, `full_` holds if and only if `cur_size_ == capacity_`, and once
`full_` holds `cur_size_` never changes again: every state reached from there is full with
the same `cur_size_`. -/
theorem reservoir_fixed_capacity (l0 l : RecordCandidateList) (ops : List CandidateOp)
    (h0 : l0.IsEmpty) (hrun : l0.run ops = some l) :
    l.capacity_ = l0.capacity_ ∧
    l.cur_size_ ≤ l.capacity_ ∧
    (l.full_ = true ↔ l.cur_size_ = l.capacity_) ∧
    ∀ ops2 l2, l.full_ = true → l.run ops2 = some l2 →
      l2.full_ = true ∧ l2.cur_size_ = l.cur_size_ ∧ l2.cur_size_ = l2.capacity_ := by
  obtain ⟨hinv, hcap, _, _⟩ :=
    RecordCandidateList.run_frame ops l0 l (RecordCandidateList.inv_of_isEmpty l0 h0) hrun
  refine ⟨hcap, hinv.2.1, hinv.2.2.1, ?_⟩
  intro ops2 l2 hfull hrun2
  obtain ⟨hinv2, _, _, hkeep⟩ := RecordCandidateList.run_frame ops2 l l2 hinv hrun2
  obtain ⟨hf2, hc2⟩ := hkeep hfull
  exact ⟨hf2, hc2, hinv2.2.2.1.mp hf2⟩

/-- The statement of C17 in the full state `example2`, continued by an insertion that
replaces slot 1 and a `ReInitPass`. -/
theorem reservoir_fixed_capacity_witness :
    RecordCandidateList.example2.capacity_ = RecordCandidateList.example0.capacity_ ∧
    RecordCandidateList.example2.cur_size_ ≤ RecordCandidateList.example2.capacity_ ∧
    (RecordCandidateList.example2.full_ = true ↔
      RecordCandidateList.example2.cur_size_ = RecordCandidateList.example2.capacity_) ∧
    ∀ ops2 l2, RecordCandidateList.example2.full_ = true →
      RecordCandidateList.example2.run ops2 = some l2 →
      l2.full_ = true ∧ l2.cur_size_ = RecordCandidateList.example2.cur_size_ ∧
        l2.cur_size_ = l2.capacity_ :=
  reservoir_fixed_capacity RecordCandidateList.example0 RecordCandidateList.example2
    [.add (Record.example 1) 0 0, .add (Record.example 2) 0 0] (by decide) (by decide)

theorem RecordCandidateList.run_append (a b : List CandidateOp) (l : RecordCandidateList) :
    l.run (a ++ b) = (l.run a).bind (fun l1 => l1.run b) := by
  induction a generalizing l with
  | nil => rfl
  | cons op a ih =>
    simp only [List.cons_append, RecordCandidateList.run]
    cases l.step op with
    | none => rfl
    | some l1 => exact ih l1

theorem RecordCandidateList.stream_ops_append (a b : List Nat) (k : Nat) :
    RecordCandidateList.stream_ops k (a ++ b) =
      RecordCandidateList.stream_ops k a ++
        RecordCandidateList.stream_ops (k + a.length) b := by
  induction a generalizing k with
  | nil => rfl
  | cons r a ih =>
    show CandidateOp.add (Record.tagged k) r 0 ::
        RecordCandidateList.stream_ops (k + 1) (a ++ b) =
      CandidateOp.add (Record.tagged k) r 0 ::
        (RecordCandidateList.stream_ops (k + 1) a ++
          RecordCandidateList.stream_ops (k + (a.length + 1)) b)
    rw [ih, show k + 1 + a.length = k + (a.length + 1) by omega]

theorem RecordCandidate.ofRecord_tagged (k : Nat) :
    RecordCandidate.ofRecord (Record.tagged k) [0] = ⟨"", [(0, k)], 2 ^ 64 - 1⟩ := by
  simp [RecordCandidate.ofRecord, Record.tagged, RecordCandidate.default]

theorem RecordCandidateList.fill_state_step (c k r : Nat) (hk : k < c) :
    (RecordCandidateList.fill_state c k).step (CandidateOp.add (Record.tagged (k + 1)) r 0) =
      some (RecordCandidateList.fill_state c (k + 1)) := by
  have hfull : (RecordCandidateList.fill_state c k).full_ = false := by
    simp only [RecordCandidateList.fill_state, decide_eq_false_iff_not]; omega
  have hlen : ∀ k, k ≤ c → (RecordCandidateList.fill_state c k).candidate_list_.length = c := by
    intro k hk
    simp only [RecordCandidateList.fill_state, List.length_append, List.length_map,
      List.length_range, List.length_replicate]
    omega
  have hadd : (RecordCandidateList.fill_state c k).add (Record.tagged (k + 1)) r =
      some (RecordCandidateList.fill_state c (k + 1)) := by
    rw [RecordCandidateList.add_not_full _ _ _ hfull, if_pos (by rw [hlen k (by omega)]; exact hk)]
    simp only [RecordCandidateList.fill_state, RecordCandidate.ofRecord_tagged]
    congr 2
    apply List.ext_getElem?
    intro i
    rw [List.getElem?_set]
    by_cases hik : k = i
    · subst hik
      rw [if_pos rfl, List.getElem?_append_left (by simp), List.getElem?_map,
        List.getElem?_range (by omega)]
      simp
      omega
    · rw [if_neg hik]
      by_cases hlt : i < k
      · rw [List.getElem?_append_left (by simp; omega),
          List.getElem?_append_left (by simp; omega), List.getElem?_map, List.getElem?_map,
          List.getElem?_range hlt, List.getElem?_range (by omega)]
      · rw [List.getElem?_append_right (by simp; omega),
          List.getElem?_append_right (by simp; omega)]
        simp only [List.length_map, List.length_range, List.getElem?_replicate]
        by_cases h1 : i - k < c - k
        · rw [if_pos h1, if_pos (by omega)]
        · rw [if_neg h1, if_neg (by omega)]
  have h0 : (RecordCandidateList.fill_state c (k + 1)).candidate_list_[0]? =
      some ((RecordCandidateList.fill_state c (k + 1)).candidate_list_.getD 0
        RecordCandidate.default) := by
    rw [List.getD_eq_getElem?_getD, List.getElem?_eq_getElem (by rw [hlen (k + 1) hk]; omega)]
    rfl
  have hcur : (RecordCandidateList.fill_state c (k + 1)).cur_size_ = k + 1 := rfl
  simp only [RecordCandidateList.step, RecordCandidateList.AddAndGet, hadd, hcur,
    Nat.succ_ne_zero, if_false, Nat.zero_mod, h0]

theorem RecordCandidateList.fill_state_run (c n k : Nat) (h : k + n ≤ c) :
    (RecordCandidateList.fill_state c k).run
      (RecordCandidateList.stream_ops (k + 1) (List.replicate n 0)) =
      some (RecordCandidateList.fill_state c (k + n)) := by
  induction n generalizing k with
  | zero => rfl
  | succ n ih =>
    simp only [List.replicate_succ, RecordCandidateList.stream_ops, RecordCandidateList.run,
      RecordCandidateList.fill_state_step c k 0 (by omega)]
    rw [ih (k + 1) (by omega)]
    rw [show k + 1 + n = k + (n + 1) by omega]

theorem RecordCandidateList.presized_eq (c : Nat) (hc : 1 ≤ c) :
    RecordCandidateList.presized c = RecordCandidateList.fill_state c 0 := by
  have : decide (0 = c) = false := by simp only [decide_eq_false_iff_not]; omega
  simp only [RecordCandidateList.presized, RecordCandidateList.fill_state, this,
    List.range_zero, List.map_nil, List.nil_append, Nat.sub_zero]

theorem RecordCandidateList.presized_fill (c : Nat) (hc : 1 ≤ c) :
    (RecordCandidateList.presized c).run
      (RecordCandidateList.stream_ops 1 (List.replicate c 0)) =
      some (RecordCandidateList.fill_state c c) := by
  rw [RecordCandidateList.presized_eq c hc]
  have := RecordCandidateList.fill_state_run c c 0 (by omega)
  simpa using this

theorem RecordCandidateList.fill_state_get (c i : Nat) (hi : i < c) :
    (RecordCandidateList.fill_state c c).candidate_list_[i]? =
      some ⟨"", [(0, i + 1)], i⟩ := by
  simp only [RecordCandidateList.fill_state]
  rw [List.getElem?_append_left (by simp only [List.length_map, List.length_range]; exact hi),
    List.getElem?_map, List.getElem?_range hi]
  rfl

theorem RecordCandidateList.fill_state_streamInv (c : Nat) (hc : 1 ≤ c) :
    RecordCandidateList.StreamInv c c (RecordCandidateList.fill_state c c)
      ((List.range c).map (fun i => i + 1)) := by
  have hinv := (RecordCandidateList.run_frame _ (RecordCandidateList.presized c) _
    (RecordCandidateList.inv_of_isEmpty _ ⟨rfl, rfl, rfl, hc⟩)
    (RecordCandidateList.presized_fill c hc)).1
  refine ⟨hinv, by simp only [RecordCandidateList.fill_state, decide_True], rfl, rfl, ?_, rfl,
    rfl, ?_, by simp only [List.length_map, List.length_range], ?_, ?_⟩
  · simp only [RecordCandidateList.fill_state, List.length_append, List.length_map,
      List.length_range, List.length_replicate]
    omega
  · unfold RecordCandidateList.authoritative
    rw [List.map_map]
    apply List.map_congr_left
    intro i hi
    have hi2 : i < c := List.mem_range.mp hi
    have hcur : (RecordCandidateList.fill_state c c).cur_size_ = c := rfl
    simp only [RecordCandidateList.fill_state_get c i hi2, Function.comp, Option.map_some']
  · exact (List.nodup_range c).map (fun a b h => by simpa using h)
  · intro x hx
    obtain ⟨i, hi, rfl⟩ := List.mem_map.mp hx
    have := List.mem_range.mp hi
    omega

theorem RecordCandidateList.authoritative_add_replace (l : RecordCandidateList)
    (new : RecordCandidate) (j : Nat) (hinv : l.Inv) (hfull : l.full_ = true)
    (hj : j < l.capacity_) :
    ({ l with
        total_size_ := l.total_size_ + 1
        candidate_list_ := (l.candidate_list_ ++ [new]).set j
          { (l.candidate_list_.getD j RecordCandidate.default) with
            shadow_index_ := l.candidate_list_.length } } :
      RecordCandidateList).authoritative = l.authoritative.set j (some new.feas_) := by
  obtain ⟨h1, h2, h3, h4, h5, h6, h7, h8⟩ := hinv
  have hcur : l.cur_size_ = l.capacity_ := h3.mp hfull
  have hsize := h6 hfull
  unfold RecordCandidateList.authoritative
  simp only []
  apply List.ext_getElem?
  intro i
  rw [List.getElem?_set, List.getElem?_map, List.getElem?_map]
  by_cases hi : i < l.cur_size_
  · rw [List.getElem?_range hi]
    simp only [Option.map_some']
    by_cases hji : j = i
    · subst hji
      rw [if_pos rfl, if_pos (by simp only [List.length_map, List.length_range]; exact hi)]
      rw [List.getElem?_set_self (by simp only [List.length_append, List.length_singleton]; omega)]
      simp only []
      rw [List.getElem?_set_ne (by omega), List.getElem?_append_right (Nat.le_refl _),
        Nat.sub_self]
      rfl
    · rw [if_neg hji]
      obtain ⟨ci, hci, hsh⟩ := h7 i hi
      rw [List.getElem?_set_ne hji, List.getElem?_append_left (by omega), hci]
      simp only []
      have hne : j ≠ ci.shadow_index_ := by rcases hsh with h | h <;> omega
      have hlt : ci.shadow_index_ < l.candidate_list_.length := by
        rcases hsh with h | h <;> omega
      rw [List.getElem?_set_ne hne, List.getElem?_append_left hlt]
  · rw [List.getElem?_eq_none (by simp only [List.length_range]; omega), if_neg (by omega)]
    rfl

/-- One insertion into a full reservoir, seen on the authoritative contents: the record
tagged `t + 1` takes slot `j` when the replacement index `j` is below the capacity, and is
dropped otherwise. -/
theorem RecordCandidateList.streamInv_step (c t j : Nat) (l : RecordCandidateList)
    (res : List Nat) (h : RecordCandidateList.StreamInv c t l res) (hj : j < t + 1) :
    ∃ l1, l.step (CandidateOp.add (Record.tagged (t + 1)) j 0) = some l1 ∧
      RecordCandidateList.StreamInv c (t + 1) l1 (if j < c then res.set j (t + 1) else res) := by
  obtain ⟨hinv, hfull, hcap, hcur, hsize, htot, hS, hauth, hlen, hnd, hres⟩ := h
  have hsize2 : l.capacity_ ≤ l.candidate_list_.length := by omega
  obtain ⟨l1, cp, hadd, hpick, hag, hnz, _⟩ :=
    RecordCandidateList.AddAndGet_returns l (Record.tagged (t + 1)) j 0 hinv hsize2
  have hstep : l.step (CandidateOp.add (Record.tagged (t + 1)) j 0) = some l1 := by
    simp only [RecordCandidateList.step, hag]
  have hinv1 := RecordCandidateList.inv_add l l1 _ j hinv hadd
  have hof : RecordCandidate.ofRecord (Record.tagged (t + 1)) l.slot_index_to_replace_ =
      ⟨"", [(0, t + 1)], 2 ^ 64 - 1⟩ := by
    rw [hS]; exact RecordCandidate.ofRecord_tagged _
  rw [RecordCandidateList.add_full l _ j hfull hsize2, htot, Nat.mod_eq_of_lt hj, hof] at hadd
  refine ⟨l1, hstep, ?_⟩
  by_cases hlt : j < c
  · rw [if_pos (by omega)] at hadd
    have hl1 := (Option.some.inj hadd).symm
    have hauth1 := RecordCandidateList.authoritative_add_replace l
      ⟨"", [(0, t + 1)], 2 ^ 64 - 1⟩ j hinv hfull (by omega)
    rw [htot] at hauth1
    rw [if_pos hlt]
    subst hl1
    refine ⟨hinv1, hfull, hcap, hcur, ?_, rfl, hS, ?_, ?_, ?_, ?_⟩
    · simp only [List.length_set, List.length_append]; omega
    · rw [hauth1, hauth, List.map_set]
    · rw [List.length_set]; exact hlen
    · refine hnd.set ?_
      intro hmem
      have := (hres _ hmem).2
      omega
    · intro x hx
      rcases List.mem_or_eq_of_mem_set hx with h | h
      · have := hres x h
        omega
      · omega
  · rw [if_neg (by omega)] at hadd
    have hl1 := (Option.some.inj hadd).symm
    rw [if_neg hlt]
    subst hl1
    refine ⟨hinv1, hfull, hcap, hcur, hsize, rfl, hS, hauth, hlen, hnd, ?_⟩
    intro x hx
    have := hres x hx
    omega

theorem RecordCandidateList.retains_of_streamInv (c t k : Nat) (l : RecordCandidateList)
    (res : List Nat) (h : RecordCandidateList.StreamInv c t l res) :
    l.retains k = decide (k ∈ res) := by
  obtain ⟨_, _, _, _, _, _, hS, hauth, _, _, _⟩ := h
  unfold RecordCandidateList.retains
  rw [hS, RecordCandidate.ofRecord_tagged, hauth]
  congr 1
  apply propext
  constructor
  · intro hm
    obtain ⟨x, hx, hxe⟩ := List.mem_map.mp hm
    have hxk : x = k := by simpa using hxe
    rw [← hxk]; exact hx
  · intro hm
    exact List.mem_map.mpr ⟨k, hm, rfl⟩

theorem RecordCandidateList.run_snoc (c m j : Nat) (js : List Nat) (hlen : js.length = m)
    (l : RecordCandidateList)
    (hrun : (RecordCandidateList.presized c).run
      (RecordCandidateList.stream_ops 1 (List.replicate c 0 ++ js)) = some l) :
    (RecordCandidateList.presized c).run
      (RecordCandidateList.stream_ops 1 (List.replicate c 0 ++ (js ++ [j]))) =
      l.step (CandidateOp.add (Record.tagged (c + m + 1)) j 0) := by
  rw [← List.append_assoc, RecordCandidateList.stream_ops_append,
    RecordCandidateList.run_append, hrun]
  simp only [Option.bind, List.length_append, List.length_replicate, hlen,
    RecordCandidateList.stream_ops, RecordCandidateList.run]
  rw [show 1 + (c + m) = c + m + 1 by omega]
  cases l.step (CandidateOp.add (Record.tagged (c + m + 1)) j 0) <;> rfl

theorem mem_index_sequences_succ (c m : Nat) (js1 : List Nat) :
    js1 ∈ index_sequences c (m + 1) ↔
      ∃ js, js ∈ index_sequences c m ∧ ∃ j, j < c + m + 1 ∧ js1 = js ++ [j] := by
  simp only [index_sequences, List.mem_flatMap, List.mem_map, List.mem_range]
  constructor
  · rintro ⟨js, hjs, j, hj, rfl⟩
    exact ⟨js, hjs, j, hj, rfl⟩
  · rintro ⟨js, hjs, j, hj, rfl⟩
    exact ⟨js, hjs, j, hj, rfl⟩

/-- Every sequence of the sample space is a run of the code: the insertions return, and the
reservoir is full with `c + m` records seen. -/
theorem index_sequences_reach (c : Nat) (hc : 1 ≤ c) (m : Nat) :
    ∀ js, js ∈ index_sequences c m → js.length = m ∧ ∃ l res,
      (RecordCandidateList.presized c).run
        (RecordCandidateList.stream_ops 1 (List.replicate c 0 ++ js)) = some l ∧
      RecordCandidateList.StreamInv c (c + m) l res := by
  induction m with
  | zero =>
    intro js hjs
    have hnil : js = [] := by simpa [index_sequences] using hjs
    subst hnil
    refine ⟨rfl, _, _, ?_, RecordCandidateList.fill_state_streamInv c hc⟩
    rw [List.append_nil]
    exact RecordCandidateList.presized_fill c hc
  | succ m ih =>
    intro js1 hjs1
    obtain ⟨js, hjs, j, hj, rfl⟩ := (mem_index_sequences_succ c m js1).mp hjs1
    obtain ⟨hlen, l, res, hrun, hinv⟩ := ih js hjs
    obtain ⟨l1, hstep, hinv1⟩ := RecordCandidateList.streamInv_step c (c + m) j l res hinv hj
    refine ⟨by simp only [List.length_append, List.length_singleton, hlen], l1, _, ?_, hinv1⟩
    rw [RecordCandidateList.run_snoc c m j js hlen l hrun]
    exact hstep

theorem countP_range_ne (t s : Nat) :
    (List.range t).countP (fun j => decide (j ≠ s)) = if s < t then t - 1 else t := by
  induction t with
  | zero => simp
  | succ t ih =>
    have hlast : List.countP (fun j => decide (j ≠ s)) [t] = if t = s then 0 else 1 := by
      by_cases h : t = s <;> simp [List.countP_cons, h]
    rw [List.range_succ, List.countP_append, ih, hlast]
    split_ifs <;> omega

/-- The count behind one insertion: of the `t` index values, `res.length` bring in the new
record `x`, all but one keep a record `y` that was held, and none brings in any other. -/
theorem countP_contents_step (res : List Nat) (x y t : Nat) (hnd : res.Nodup)
    (hx : x ∉ res) (ht : res.length ≤ t) :
    (List.range t).countP
        (fun j => decide (y ∈ (if j < res.length then res.set j x else res))) =
      if y = x then res.length else if y ∈ res then t - 1 else 0 := by
  by_cases hyx : y = x
  · subst hyx
    rw [if_pos rfl]
    have hcongr : ∀ j ∈ List.range t,
        (decide (y ∈ (if j < res.length then res.set j y else res)) = true ↔
          decide (j < res.length) = true) := by
      intro j _
      simp only [decide_eq_true_eq]
      constructor
      · intro hm
        by_cases hj : j < res.length
        · exact hj
        · rw [if_neg hj] at hm
          exact absurd hm hx
      · intro hj
        rw [if_pos hj]
        exact List.mem_set _ _ hj _
    rw [List.countP_congr hcongr, List.countP_eq_length_filter, length_filter_range_lt]
    omega
  · rw [if_neg hyx]
    by_cases hy : y ∈ res
    · rw [if_pos hy]
      obtain ⟨s, hs, hsy⟩ := List.mem_iff_getElem.mp hy
      have hcongr : ∀ j ∈ List.range t,
          (decide (y ∈ (if j < res.length then res.set j x else res)) = true ↔
            decide (j ≠ s) = true) := by
        intro j _
        simp only [decide_eq_true_eq]
        constructor
        · intro hm hjs
          subst hjs
          rw [if_pos hs] at hm
          obtain ⟨i, hi, hiy⟩ := List.mem_iff_getElem.mp hm
          rw [List.length_set] at hi
          rw [List.getElem_set] at hiy
          by_cases hji : j = i
          · rw [if_pos hji] at hiy
            exact hyx hiy.symm
          · rw [if_neg hji] at hiy
            have := hnd.getElem_inj_iff.mp (hiy.trans hsy.symm)
            exact hji this.symm
        · intro hjs
          by_cases hj : j < res.length
          · rw [if_pos hj]
            refine List.mem_iff_getElem.mpr ⟨s, by rw [List.length_set]; exact hs, ?_⟩
            rw [List.getElem_set, if_neg hjs]
            exact hsy
          · rw [if_neg hj]; exact hy
      rw [List.countP_congr hcongr, countP_range_ne, if_pos (by omega)]
    · rw [if_neg hy]
      rw [List.countP_eq_zero]
      intro j _
      simp only [decide_eq_true_eq]
      intro hm
      by_cases hj : j < res.length
      · rw [if_pos hj] at hm
        rcases List.mem_or_eq_of_mem_set hm with h | h
        · exact hy h
        · exact hyx h
      · rw [if_neg hj] at hm
        exact hy hm

theorem retained_after_of_run (c k : Nat) (js : List Nat) (l : RecordCandidateList)
    (hrun : (RecordCandidateList.presized c).run
      (RecordCandidateList.stream_ops 1 (List.replicate c 0 ++ js)) = some l) :
    retained_after c js k = l.retains k := by
  unfold retained_after
  rw [hrun]

theorem retained_after_snoc_count (c m k : Nat) (hc : 1 ≤ c) (js : List Nat)
    (hjs : js ∈ index_sequences c m) :
    (List.range (c + m + 1)).countP (fun j => retained_after c (js ++ [j]) k) =
      if k = c + m + 1 then c else if retained_after c js k = true then c + m else 0 := by
  obtain ⟨hlen, l, res, hrun, hinv⟩ := index_sequences_reach c hc m js hjs
  have hret : retained_after c js k = decide (k ∈ res) := by
    rw [retained_after_of_run c k js l hrun]
    exact RecordCandidateList.retains_of_streamInv c (c + m) k l res hinv
  have hreslen : res.length = c := hinv.2.2.2.2.2.2.2.2.1
  have hnd : res.Nodup := hinv.2.2.2.2.2.2.2.2.2.1
  have hall := hinv.2.2.2.2.2.2.2.2.2.2
  have hsn : ∀ j ∈ List.range (c + m + 1),
      (retained_after c (js ++ [j]) k = true ↔
        decide (k ∈ (if j < res.length then res.set j (c + m + 1) else res)) = true) := by
    intro j hj
    obtain ⟨l1, hstep, hinv1⟩ :=
      RecordCandidateList.streamInv_step c (c + m) j l res hinv (List.mem_range.mp hj)
    rw [retained_after_of_run c k (js ++ [j]) l1
        ((RecordCandidateList.run_snoc c m j js hlen l hrun).trans hstep),
      RecordCandidateList.retains_of_streamInv c (c + m + 1) k l1 _ hinv1, hreslen]
  have hx : c + m + 1 ∉ res := fun hmem => by
    have := (hall _ hmem).2
    omega
  rw [List.countP_congr hsn,
    countP_contents_step res (c + m + 1) k (c + m + 1) hnd hx (by omega), hreslen, hret]
  simp only [decide_eq_true_eq, Nat.add_sub_cancel]

theorem countP_index_sequences_succ (c m : Nat) (p : List Nat → Bool) :
    (index_sequences c (m + 1)).countP p =
      ((index_sequences c m).map
        (fun js => (List.range (c + m + 1)).countP (fun j => p (js ++ [j])))).sum := by
  show List.countP p ((index_sequences c m).flatMap
      (fun js => (List.range (c + m + 1)).map (fun j => js ++ [j]))) = _
  rw [List.flatMap_def, List.countP_flatten, List.map_map]
  congr 1
  apply List.map_congr_left
  intro js _
  simp only [Function.comp, List.countP_map]
  rfl

theorem sum_map_const_nat {α : Type} (l : List α) (a : Nat) :
    (l.map (fun _ => a)).sum = l.length * a := by
  induction l with
  | nil => simp
  | cons x l ih =>
    simp only [List.map_cons, List.sum_cons, List.length_cons, ih]
    rw [Nat.succ_mul]; omega

theorem sum_map_ite_nat {α : Type} (l : List α) (p : α → Bool) (a : Nat) :
    (l.map (fun x => if p x = true then a else 0)).sum = l.countP p * a := by
  induction l with
  | nil => simp
  | cons x l ih =>
    simp only [List.map_cons, List.sum_cons, List.countP_cons, ih]
    by_cases h : p x = true
    · simp only [h, if_true]
      rw [Nat.add_mul]; omega
    · simp only [h, if_false, Bool.false_eq_true, Nat.add_zero, Nat.zero_add]

theorem length_index_sequences_succ (c m : Nat) :
    (index_sequences c (m + 1)).length = (index_sequences c m).length * (c + m + 1) := by
  show ((index_sequences c m).flatMap
      (fun js => (List.range (c + m + 1)).map (fun j => js ++ [j]))).length = _
  rw [List.length_flatMap]
  have hfun : (List.length ∘ fun js : List Nat =>
      List.map (fun j => js ++ [j]) (List.range (c + m + 1))) = fun _ => c + m + 1 := by
    funext js
    simp only [Function.comp, List.length_map, List.length_range]
  rw [hfun]
  exact sum_map_const_nat _ _

theorem length_index_sequences_pos (c m : Nat) : 0 < (index_sequences c m).length := by
  induction m with
  | zero => simp [index_sequences]
  | succ m ih =>
    rw [length_index_sequences_succ]
    exact Nat.mul_pos ih (by omega)

/-- The count of the sequences after which record `k` is retained, times the number of
records, is the capacity times the number of sequences. -/
theorem retained_count (c : Nat) (hc : 1 ≤ c) (m : Nat) :
    ∀ k, 1 ≤ k → k ≤ c + m →
      (index_sequences c m).countP (fun js => retained_after c js k) * (c + m) =
        c * (index_sequences c m).length := by
  induction m with
  | zero =>
    intro k hk1 hk
    have hret : retained_after c [] k = true := by
      have hrun : (RecordCandidateList.presized c).run
          (RecordCandidateList.stream_ops 1 (List.replicate c 0 ++ [])) =
          some (RecordCandidateList.fill_state c c) := by
        rw [List.append_nil]; exact RecordCandidateList.presized_fill c hc
      rw [retained_after_of_run c k [] _ hrun,
        RecordCandidateList.retains_of_streamInv c c k _ _
          (RecordCandidateList.fill_state_streamInv c hc)]
      simp only [decide_eq_true_eq]
      exact List.mem_map.mpr ⟨k - 1, List.mem_range.mpr (by omega), by omega⟩
    simp only [index_sequences, List.countP_cons, List.countP_nil, hret, if_true,
      List.length_singleton]
    omega
  | succ m ih =>
    intro k hk1 hk
    rw [countP_index_sequences_succ,
      List.map_congr_left (fun js hjs => retained_after_snoc_count c m k hc js hjs),
      length_index_sequences_succ]
    by_cases hkt : k = c + m + 1
    · simp only [hkt, if_true]
      rw [sum_map_const_nat]
      rw [show c + (m + 1) = c + m + 1 by omega]
      ring
    · simp only [hkt, if_false]
      rw [sum_map_ite_nat]
      have := ih k hk1 (by omega)
      rw [show c + (m + 1) = c + m + 1 by omega, this]
      ring

/-- The sample space holds exactly the sequences of `m` replacement indices whose entry for
insertion number `c + p + 1` lies in `[0, c + p + 1)`. -/
theorem mem_index_sequences (c m : Nat) :
    ∀ js, js ∈ index_sequences c m ↔
      js.length = m ∧ ∀ p, p < m → ∃ j, js[p]? = some j ∧ j < c + p + 1 := by
  induction m with
  | zero =>
    intro js
    simp only [index_sequences, List.mem_singleton]
    constructor
    · intro h
      subst h
      exact ⟨rfl, fun p hp => absurd hp (Nat.not_lt_zero _)⟩
    · intro h
      exact List.length_eq_zero.mp h.1
  | succ m ih =>
    intro js1
    rw [mem_index_sequences_succ]
    constructor
    · rintro ⟨js, hjs, j, hj, rfl⟩
      obtain ⟨hlen, hall⟩ := (ih js).mp hjs
      refine ⟨by simp only [List.length_append, List.length_singleton, hlen], fun p hp => ?_⟩
      by_cases hpm : p < m
      · obtain ⟨j1, h1, h2⟩ := hall p hpm
        exact ⟨j1, by rw [List.getElem?_append_left (by omega)]; exact h1, h2⟩
      · have hpe : p = m := by omega
        refine ⟨j, ?_, by omega⟩
        rw [List.getElem?_append_right (by omega), hlen, hpe, Nat.sub_self]
        rfl
    · rintro ⟨hlen, hall⟩
      obtain ⟨js, j, rfl⟩ : ∃ js j, js1 = js ++ [j] := by
        rcases List.eq_nil_or_concat js1 with h | ⟨L, b, h⟩
        · subst h
          exact absurd hlen (by simp)
        · exact ⟨L, b, h.trans (List.concat_eq_append _ _)⟩
      have hl : js.length = m := by
        simp only [List.length_append, List.length_singleton] at hlen
        omega
      refine ⟨js, (ih js).mpr ⟨hl, fun p hp => ?_⟩, j, ?_, rfl⟩
      · obtain ⟨j1, h1, h2⟩ := hall p (by omega)
        rw [List.getElem?_append_left (by omega)] at h1
        exact ⟨j1, h1, h2⟩
      · obtain ⟨j1, h1, h2⟩ := hall m (by omega)
        rw [List.getElem?_append_right (by omega), hl, Nat.sub_self] at h1
        have hjj : j = j1 := by simpa using h1
        omega

theorem nodup_index_sequences (c m : Nat) : (index_sequences c m).Nodup := by
  induction m with
  | zero => simp [index_sequences]
  | succ m ih =>
    show ((index_sequences c m).flatMap
      (fun js => (List.range (c + m + 1)).map (fun j => js ++ [j]))).Nodup
    rw [List.nodup_flatMap]
    refine ⟨fun js _ => (List.nodup_range _).map (fun a b h => by simpa using h), ?_⟩
    refine List.Pairwise.imp ?_ ih
    intro a b hne x hx1 hx2
    obtain ⟨j1, _, h1⟩ := List.mem_map.mp hx1
    obtain ⟨j2, _, h2⟩ := List.mem_map.mp hx2
    exact hne (List.append_inj' (h1.trans h2.symm) rfl).1

/-- Being the authoritative content of a slot is being the content of a slot after
`ReInitPass()`. -/
theorem RecordCandidateList.retains_iff_after_pass (l : RecordCandidateList) (k : Nat)
    (hinv : l.Inv) :
    ∃ l1, l.ReInitPass = some l1 ∧
      (l.retains k = true ↔ ∃ i e, i < l.cur_size_ ∧ l1.candidate_list_[i]? = some e ∧
        e.feas_ = (RecordCandidate.ofRecord (Record.tagged k) l.slot_index_to_replace_).feas_) := by
  obtain ⟨l1, hre, _, _, _, _, _, _, _, hslots⟩ := RecordCandidateList.ReInitPass_spec l hinv
  refine ⟨l1, hre, ?_⟩
  unfold RecordCandidateList.retains RecordCandidateList.authoritative
  simp only [decide_eq_true_eq, List.mem_map, List.mem_range]
  constructor
  · rintro ⟨i, hi, heq⟩
    obtain ⟨ci, cs, h1, h2, h3⟩ := hslots i hi
    rw [h1] at heq
    simp only [h2, Option.map_some', Option.some.injEq] at heq
    exact ⟨i, _, hi, h3, heq⟩
  · rintro ⟨i, e, hi, he, hf⟩
    obtain ⟨ci, cs, h1, h2, h3⟩ := hslots i hi
    rw [h3] at he
    have hee := (Option.some.inj he).symm
    subst hee
    refine ⟨i, hi, ?_⟩
    rw [h1]
    simp only [h2, Option.map_some', Option.some.injEq]
    exact hf

/-- C12: for every capacity `c >= 1`, every `N > c` and each record `k` of the `N` records
inserted one at a time with `AddAndGet` into an empty list of capacity `c`: the sample space
holds every sequence of replacement indices whose index for the insertion that makes
`total_size_ = t` lies in `[0, t)`, each sequence once (independent uniform indices); every
such sequence is a run of the code that returns with `N` records seen and a full reservoir;
record `k` being the authoritative content of a slot is record `k` being the content of a
slot after `ReInitPass()`; and the sequences after which record `k` is retained are exactly
the fraction `c / N` of the sample space. -/
theorem reservoir_retention_probability (c N k : Nat) (hc : 1 ≤ c) (hN : c < N)
    (hk1 : 1 ≤ k) (hk : k ≤ N) :
    (∀ js, js ∈ index_sequences c (N - c) ↔
      js.length = N - c ∧ ∀ p, p < N - c → ∃ j, js[p]? = some j ∧ j < c + p + 1) ∧
    (index_sequences c (N - c)).Nodup ∧
    (∀ js, js ∈ index_sequences c (N - c) → ∃ l l1,
      (RecordCandidateList.presized c).run
        (RecordCandidateList.stream_ops 1 (List.replicate c 0 ++ js)) = some l ∧
      l.total_size_ = N ∧ l.cur_size_ = c ∧ l.ReInitPass = some l1 ∧
      (retained_after c js k = true ↔
        ∃ i e, i < c ∧ l1.candidate_list_[i]? = some e ∧ e.feas_ = [(0, k)])) ∧
    (index_sequences c (N - c)).countP (fun js => retained_after c js k) * N =
      c * (index_sequences c (N - c)).length ∧
    ((index_sequences c (N - c)).countP (fun js => retained_after c js k) : ℚ) /
      ((index_sequences c (N - c)).length : ℚ) = (c : ℚ) / (N : ℚ) := by
  have hcount := retained_count c hc (N - c) k hk1 (by omega)
  rw [show c + (N - c) = N by omega] at hcount
  refine ⟨mem_index_sequences c _, nodup_index_sequences c _, ?_, hcount, ?_⟩
  · intro js hjs
    obtain ⟨_, l, res, hrun, hinv⟩ := index_sequences_reach c hc _ js hjs
    obtain ⟨l1, hre, hiff⟩ := RecordCandidateList.retains_iff_after_pass l k hinv.1
    obtain ⟨_, _, _, hcur, _, htot, hS, _⟩ := hinv
    rw [hS, RecordCandidate.ofRecord_tagged, hcur] at hiff
    refine ⟨l, l1, hrun, htot.trans (Nat.add_sub_of_le (Nat.le_of_lt hN)), hcur, hre, ?_⟩
    rw [retained_after_of_run c k js l hrun]
    exact hiff
  · have hL := length_index_sequences_pos c (N - c)
    have hL0 : ((index_sequences c (N - c)).length : ℚ) ≠ 0 := by exact_mod_cast hL.ne'
    have hN0 : (N : ℚ) ≠ 0 := by
      have : N ≠ 0 := by omega
      exact_mod_cast this
    rw [div_eq_div_iff hL0 hN0]
    exact_mod_cast hcount

/-- The statement of C12 for capacity 2 and 4 records: record 3 is retained after 6 of the 12
index sequences. -/
theorem reservoir_retention_probability_witness :
    (index_sequences 2 (4 - 2)).countP (fun js => retained_after 2 js 3) * 4 =
      2 * (index_sequences 2 (4 - 2)).length :=
  (reservoir_retention_probability 2 4 3 (by decide) (by decide) (by decide)
    (by decide)).2.2.2.1

theorem PvInstanceObject.foldl_merge_instance (more : List Nat) (o : PvInstanceObject) :
    (more.foldl PvInstanceObject.merge_instance o).ads = o.ads ++ more := by
  induction more generalizing o with
  | nil => simp
  | cons x more ih =>
    rw [List.foldl_cons, ih]
    simp [PvInstanceObject.merge_instance]

theorem SlotPvInstanceObject.foldl_merge_slot_instance (more : List Nat)
    (o : SlotPvInstanceObject) :
    (more.foldl SlotPvInstanceObject.merge_instance o).ads = o.ads ++ more := by
  induction more generalizing o with
  | nil => simp
  | cons x more ih =>
    rw [List.foldl_cons, ih]
    simp [SlotPvInstanceObject.merge_instance]

/-- C21: for every `PvInstanceObject` `o` and `SlotPvInstanceObject` `so` and every record
`ins`, `merge_instance(ins)` makes the sequence `ads` the old sequence followed by `ins`: the
old entries stay where they were, the length grows by one, and any further merges only
append. -/
theorem merge_instance_append_only (o : PvInstanceObject) (so : SlotPvInstanceObject)
    (ins : Nat) (more : List Nat) :
    ((o.merge_instance ins).ads = o.ads ++ [ins] ∧
      (o.merge_instance ins).ads.take o.ads.length = o.ads ∧
      (o.merge_instance ins).ads.length = o.ads.length + 1 ∧
      (more.foldl PvInstanceObject.merge_instance (o.merge_instance ins)).ads =
        o.ads ++ ins :: more) ∧
    ((so.merge_instance ins).ads = so.ads ++ [ins] ∧
      (so.merge_instance ins).ads.take so.ads.length = so.ads ∧
      (so.merge_instance ins).ads.length = so.ads.length + 1 ∧
      (more.foldl SlotPvInstanceObject.merge_instance (so.merge_instance ins)).ads =
        so.ads ++ ins :: more) := by
  refine ⟨⟨rfl, ?_, ?_, ?_⟩, ⟨rfl, ?_, ?_, ?_⟩⟩
  · show (o.ads ++ [ins]).take o.ads.length = o.ads
    rw [List.take_left']
    rfl
  · show (o.ads ++ [ins]).length = o.ads.length + 1
    rw [List.length_append, List.length_singleton]
  · rw [PvInstanceObject.foldl_merge_instance]
    show o.ads ++ [ins] ++ more = o.ads ++ ins :: more
    rw [List.append_assoc, List.singleton_append]
  · show (so.ads ++ [ins]).take so.ads.length = so.ads
    rw [List.take_left']
    rfl
  · show (so.ads ++ [ins]).length = so.ads.length + 1
    rw [List.length_append, List.length_singleton]
  · rw [SlotPvInstanceObject.foldl_merge_slot_instance]
    show so.ads ++ [ins] ++ more = so.ads ++ ins :: more
    rw [List.append_assoc, List.singleton_append]

theorem InputIndexDataFeed.calls_eq (cs : List FeedCall) (s : InputIndexDataFeed) :
    s.calls cs =
      .ok (cs.map (fun c => match c with | .Start => (1 : Int) | .Next => 0), s) := by
  induction cs with
  | nil => rfl
  | cons c cs ih =>
    cases c with
    | Start =>
      simp only [InputIndexDataFeed.calls, InputIndexDataFeed.Start, ih, List.map_cons,
        if_true]
    | Next =>
      simp only [InputIndexDataFeed.calls, InputIndexDataFeed.Next, ih, List.map_cons]

/-- C22 as amended: `InputIndexDataFeed`, the variant whose `Start` and `Next` are both
defined in the source, enforces no call order.  In every state of the three flags, `Start()`
returns `true` and `Next()` returns `0` and the object is unchanged, and so every sequence of
calls of `Start` and `Next` returns, whatever its order. -/
theorem input_index_feed_no_call_order (s : InputIndexDataFeed) (cs : List FeedCall) :
    s.Start = .ok (true, s) ∧ s.Next = .ok (0, s) ∧
    s.calls cs =
      .ok (cs.map (fun c => match c with | .Start => (1 : Int) | .Next => 0), s) := by
  refine ⟨rfl, rfl, ?_⟩
  exact InputIndexDataFeed.calls_eq cs s

/-- C22 as stated fails: on an initialised `InputIndexDataFeed` on which neither
`SetFileList` nor `Start` has been called, `Start()` returns `true`, `Next()` returns `0`,
and `Next` called before `Start` returns too; none ends in a failure. -/
theorem input_index_feed_no_call_order_counterexample :
    InputIndexDataFeed.Start ⟨true, false, false, 0⟩ = .ok (true, ⟨true, false, false, 0⟩) ∧
    InputIndexDataFeed.Next ⟨true, false, false, 0⟩ = .ok (0, ⟨true, false, false, 0⟩) ∧
    InputIndexDataFeed.calls ⟨true, false, false, 0⟩ [.Next, .Start] =
      .ok ([0, 1], ⟨true, false, false, 0⟩) ∧
    ¬ ∃ e, InputIndexDataFeed.Start ⟨true, false, false, 0⟩ = .error e := by
  refine ⟨rfl, rfl, rfl, ?_⟩
  rintro ⟨e, he⟩
  exact Except.noConfusion he

theorem MultiSlotType.CheckType_ok (type : String) (h : type = "uint64" ∨ type = "float") :
    MultiSlotType.CheckType type = .ok () := by
  unfold MultiSlotType.CheckType
  rw [if_pos h]

theorem MultiSlotType.CheckType_error (type : String)
    (h : ¬ (type = "uint64" ∨ type = "float")) :
    MultiSlotType.CheckType type = .error .InvalidArgument := by
  unfold MultiSlotType.CheckType
  rw [if_neg h]

/-- C24: `MultiSlotType::Init(type)` either returns, and then `type` is `"uint64"` or
`"float"` and `GetType()` returns `type`, or throws `InvalidArgument`, and then `type` is
neither and the object is the one before the call: it fails exactly when `type` is neither
`"uint64"` nor `"float"`. -/
theorem Init_type_checked (m : MultiSlotType) (type : String) (reserved_size : Nat) :
    ((type = "uint64" ∨ type = "float") ∧ (m.Init type reserved_size).2 = .ok () ∧
      (m.Init type reserved_size).1.GetType = type) ∨
    ((type ≠ "uint64" ∧ type ≠ "float") ∧
      m.Init type reserved_size = (m, .error .InvalidArgument)) := by
  by_cases h : type = "uint64" ∨ type = "float"
  · left
    have hc := MultiSlotType.CheckType_ok type h
    refine ⟨h, ?_, ?_⟩
    · simp only [MultiSlotType.Init, hc]
    · simp only [MultiSlotType.Init, hc, MultiSlotType.GetType]
  · right
    have hc := MultiSlotType.CheckType_error type h
    refine ⟨?_, ?_⟩
    · exact ⟨fun h1 => h (Or.inl h1), fun h2 => h (Or.inr h2)⟩
    · simp only [MultiSlotType.Init, hc]

theorem DLManager.Load_SlotConf_fail (env : DLEnv) (handle_map_ : List (String × DLHandle))
    (name : String) (hnew : DLManager.find handle_map_ name = none)
    (hfail : env.dlopen name = none) :
    DLManager.Load_SlotConf env handle_map_ name = .returned none handle_map_ := by
  unfold DLManager.Load_SlotConf
  rw [hnew]
  simp only [hfail]

theorem DLManager.Load_AllSlotInfo_fail (env : DLEnv)
    (handle_map_ : List (String × DLHandle)) (name : String)
    (hnew : DLManager.find handle_map_ name = none) (hfail : env.dlopen name = none) :
    DLManager.Load_AllSlotInfo env handle_map_ name = .exited (-1) handle_map_ := by
  unfold DLManager.Load_AllSlotInfo
  rw [hnew]
  simp only [hfail]

/-- C23: for every plugin `name` that is not in the handle map and whose shared object
`dlopen` cannot open, `Load(name, std::vector<AllSlotInfo>)` ends in `exit(-1)` and returns
no parser, `Load(name, std::vector<SlotConf>)` returns `nullptr`, and in both cases the
handle map is the one before the call, so that it still has no entry for `name`. -/
theorem Load_open_failure (env : DLEnv) (handle_map_ : List (String × DLHandle))
    (name : String) (hnew : DLManager.find handle_map_ name = none)
    (hfail : env.dlopen name = none) :
    DLManager.Load_AllSlotInfo env handle_map_ name = .exited (-1) handle_map_ ∧
    (¬ ∃ parser m, DLManager.Load_AllSlotInfo env handle_map_ name = .returned parser m) ∧
    DLManager.Load_SlotConf env handle_map_ name = .returned none handle_map_ ∧
    (∀ out m, (DLManager.Load_AllSlotInfo env handle_map_ name = .exited out m ∨
        DLManager.Load_SlotConf env handle_map_ name = .returned none m) →
      DLManager.find m name = none) := by
  have h1 := DLManager.Load_AllSlotInfo_fail env handle_map_ name hnew hfail
  have h2 := DLManager.Load_SlotConf_fail env handle_map_ name hnew hfail
  refine ⟨h1, ?_, h2, ?_⟩
  · rintro ⟨parser, m, hm⟩
    rw [h1] at hm
    exact LoadOutcome.noConfusion hm
  · intro out m hm
    rcases hm with hm | hm
    · rw [h1] at hm
      have hmm : handle_map_ = m := by injection hm
      rw [← hmm]; exact hnew
    · rw [h2] at hm
      have hmm : handle_map_ = m := by injection hm
      rw [← hmm]; exact hnew

/-- The statement of C23 for a manager that has loaded `"libparser.so"` and is asked for
`"missing.so"`, which the loader cannot open. -/
theorem Load_open_failure_witness :
    DLManager.Load_AllSlotInfo DLEnv.example [("libparser.so", ⟨1, 101⟩)] "missing.so" =
      .exited (-1) [("libparser.so", ⟨1, 101⟩)] ∧
    DLManager.Load_SlotConf DLEnv.example [("libparser.so", ⟨1, 101⟩)] "missing.so" =
      .returned none [("libparser.so", ⟨1, 101⟩)] :=
  ⟨(Load_open_failure DLEnv.example [("libparser.so", ⟨1, 101⟩)] "missing.so"
      (by decide) (by decide)).1,
    (Load_open_failure DLEnv.example [("libparser.so", ⟨1, 101⟩)] "missing.so"
      (by decide) (by decide)).2.2.1⟩

theorem getElem?_length_sub_one (d : List Int) :
    d[d.length - 1]? = d.getLast? := by
  rw [List.getLast?_eq_getElem?]

theorem PullBoxSparseOp.InferShape_loop_ok (hidden_size : Int) (ids : List (List Int))
    (h : ∀ d ∈ ids, d.getLast? = some 1) :
    PullBoxSparseOp.InferShape_loop hidden_size ids =
      some (.ok (ids.map (fun d => d.dropLast ++ [hidden_size]))) := by
  induction ids with
  | nil => rfl
  | cons d rest ih =>
    have hd := h d (List.mem_cons_self _ _)
    have hne : d ≠ [] := by
      intro he
      rw [he] at hd
      exact Option.noConfusion hd
    have hlen : d.length ≠ 0 := fun h0 => hne (List.length_eq_zero.mp h0)
    have hrest := ih (fun x hx => h x (List.mem_cons_of_mem _ hx))
    simp only [PullBoxSparseOp.InferShape_loop, hlen, if_false,
      getElem?_length_sub_one d, hd, if_true, hrest, List.map_cons,
      List.dropLast_eq_take]

theorem PullBoxSparseOp.InferShape_loop_error (hidden_size : Int) (ids : List (List Int))
    (hrank : ∀ d ∈ ids, d ≠ []) (h : ¬ ∀ d ∈ ids, d.getLast? = some 1) :
    PullBoxSparseOp.InferShape_loop hidden_size ids = some (.error .InvalidArgument) := by
  induction ids with
  | nil => exact absurd (fun d hd => absurd hd (List.not_mem_nil d)) h
  | cons d rest ih =>
    have hne : d ≠ [] := hrank d (List.mem_cons_self _ _)
    have hlen : d.length ≠ 0 := fun h0 => hne (List.length_eq_zero.mp h0)
    obtain ⟨last, hlast⟩ : ∃ last, d.getLast? = some last := by
      cases hl : d.getLast? with
      | none => exact absurd (List.getLast?_eq_none_iff.mp hl) hne
      | some last => exact ⟨last, rfl⟩
    by_cases h1 : last = 1
    · subst h1
      have hrest : ¬ ∀ x ∈ rest, x.getLast? = some 1 := by
        intro hall
        apply h
        intro x hx
        rcases List.mem_cons.mp hx with hx | hx
        · rw [hx]; exact hlast
        · exact hall x hx
      have := ih (fun x hx => hrank x (List.mem_cons_of_mem _ hx)) hrest
      simp only [PullBoxSparseOp.InferShape_loop, hlen, if_false,
        getElem?_length_sub_one d, hlast, if_true, this]
    · simp only [PullBoxSparseOp.InferShape_loop, hlen, if_false,
        getElem?_length_sub_one d, hlast, h1]

theorem PullBoxSparseOp.InferShape_loop_of_ok (hidden_size : Int) (ids : List (List Int))
    (outs : List (List Int))
    (h : PullBoxSparseOp.InferShape_loop hidden_size ids = some (.ok outs)) :
    ∀ d ∈ ids, d.getLast? = some 1 := by
  induction ids generalizing outs with
  | nil => exact fun d hd => absurd hd (List.not_mem_nil d)
  | cons d rest ih =>
    unfold PullBoxSparseOp.InferShape_loop at h
    simp only [getElem?_length_sub_one d] at h
    by_cases hlen : d.length = 0
    · rw [if_pos hlen] at h
      exact Option.noConfusion h
    · rw [if_neg hlen] at h
      cases hl : d.getLast? with
      | none =>
        rw [hl] at h
        exact Option.noConfusion h
      | some last =>
        rw [hl] at h
        simp only at h
        by_cases h1 : last = 1
        · rw [if_pos h1] at h
          cases hr : PullBoxSparseOp.InferShape_loop hidden_size rest with
          | none =>
            rw [hr] at h
            exact Option.noConfusion h
          | some r =>
            cases r with
            | error e =>
              rw [hr] at h
              simp only at h
              exact Except.noConfusion (Option.some.inj h)
            | ok outs1 =>
              intro x hx
              rcases List.mem_cons.mp hx with hx | hx
              · rw [hx, hl, h1]
              · exact ih outs1 hr x hx
        · rw [if_neg h1] at h
          exact Except.noConfusion (Option.some.inj h)

theorem PullBoxSparseOp.InferShape_ok_iff (ctx : InferShapeContext)
    (outs : List (List Int)) :
    PullBoxSparseOp.InferShape ctx = some (.ok outs) ↔
      PullBoxSparseOp.ShapeOk ctx ∧
        outs = ctx.ids_dims.map (fun d => d.dropLast ++ [ctx.size]) := by
  unfold PullBoxSparseOp.InferShape PullBoxSparseOp.ShapeOk
  by_cases hids : ctx.ids_dims.length ≥ 1
  · by_cases hout : ctx.n_out ≥ 1
    · rw [if_pos hids, if_pos hout]
      constructor
      · intro h
        have hlast := PullBoxSparseOp.InferShape_loop_of_ok _ _ _ h
        rw [PullBoxSparseOp.InferShape_loop_ok _ _ hlast] at h
        have he : Except.ok (ctx.ids_dims.map (fun d => d.dropLast ++ [ctx.size])) =
            (Except.ok outs : Except EnforceError (List (List Int))) := Option.some.inj h
        exact ⟨⟨hids, hout, hlast⟩, by injection he with he; exact he.symm⟩
      · rintro ⟨⟨_, _, hlast⟩, rfl⟩
        exact PullBoxSparseOp.InferShape_loop_ok _ _ hlast
    · rw [if_pos hids, if_neg hout]
      constructor
      · intro h
        exact Except.noConfusion (Option.some.inj h)
      · rintro ⟨⟨_, h2, _⟩, _⟩
        exact absurd h2 hout
  · rw [if_neg hids]
    constructor
    · intro h
      exact Except.noConfusion (Option.some.inj h)
    · rintro ⟨⟨h1, _, _⟩, _⟩
      exact absurd h1 hids

theorem PullBoxSparseOp.InferShape_error (ctx : InferShapeContext)
    (hrank : ∀ d ∈ ctx.ids_dims, d ≠ []) (h : ¬ PullBoxSparseOp.ShapeOk ctx) :
    PullBoxSparseOp.InferShape ctx = some (.error .InvalidArgument) := by
  unfold PullBoxSparseOp.InferShape
  by_cases hids : ctx.ids_dims.length ≥ 1
  · by_cases hout : ctx.n_out ≥ 1
    · rw [if_pos hids, if_pos hout]
      exact PullBoxSparseOp.InferShape_loop_error ctx.size ctx.ids_dims hrank
        (fun hlast => h ⟨hids, hout, hlast⟩)
    · rw [if_pos hids, if_neg hout]
  · rw [if_neg hids]

/-- C25: `InferShape` succeeds if and only if there is at least one `Ids` input, at least one
`Out` output and the last dimension of every `Ids` input is 1; on success the dims set for
`Out[i]` are the dims of `Ids[i]` without the last one followed by the attribute `size`;
and when an `Ids` input has a last dimension at all (every input has at least one
dimension) and the condition fails, it raises `InvalidArgument`. -/
theorem InferShape_spec (ctx : InferShapeContext) :
    ((∃ outs, PullBoxSparseOp.InferShape ctx = some (.ok outs)) ↔
      PullBoxSparseOp.ShapeOk ctx) ∧
    (∀ outs, PullBoxSparseOp.InferShape ctx = some (.ok outs) →
      outs.length = ctx.ids_dims.length ∧
      ∀ (i : Nat) (d : List Int), ctx.ids_dims[i]? = some d →
        outs[i]? = some (d.dropLast ++ [ctx.size])) ∧
    ((∀ d ∈ ctx.ids_dims, d ≠ []) → ¬ PullBoxSparseOp.ShapeOk ctx →
      PullBoxSparseOp.InferShape ctx = some (.error .InvalidArgument)) := by
  refine ⟨⟨?_, ?_⟩, ?_, ?_⟩
  · rintro ⟨outs, h⟩
    exact ((PullBoxSparseOp.InferShape_ok_iff ctx outs).mp h).1
  · intro h
    exact ⟨_, (PullBoxSparseOp.InferShape_ok_iff ctx _).mpr ⟨h, rfl⟩⟩
  · intro outs h
    have he := ((PullBoxSparseOp.InferShape_ok_iff ctx outs).mp h).2
    subst he
    refine ⟨List.length_map _ _, ?_⟩
    intro i d hd
    rw [List.getElem?_map, hd]
    rfl
  · exact PullBoxSparseOp.InferShape_error ctx

/-- The statement of C25 for two `Ids` inputs of dims `[4, 1]` and `[2, 3, 1]`, two outputs
and `size = 8` (the output dims are `[4, 8]` and `[2, 3, 8]`), and for an input whose last
dimension is 3 (`InvalidArgument`). -/
theorem InferShape_spec_witness :
    (∃ outs, PullBoxSparseOp.InferShape ⟨[[4, 1], [2, 3, 1]], 2, 8⟩ = some (.ok outs) ∧
      outs[1]? = some [2, 3, 8]) ∧
    PullBoxSparseOp.InferShape ⟨[[4, 1], [2, 3]], 2, 8⟩ = some (.error .InvalidArgument) := by
  refine ⟨?_, ?_⟩
  · obtain ⟨outs, h⟩ :=
      (InferShape_spec ⟨[[4, 1], [2, 3, 1]], 2, 8⟩).1.mpr (by decide)
    exact ⟨outs, h,
      ((InferShape_spec ⟨[[4, 1], [2, 3, 1]], 2, 8⟩).2.1 outs h).2 1 [2, 3, 1] rfl⟩
  · exact (InferShape_spec ⟨[[4, 1], [2, 3]], 2, 8⟩).2.2 (by decide) (by decide)

theorem MiniBatchGpuPackMgr.gets_cons (d : Nat) (ds : List Nat) (m : MiniBatchGpuPackMgr) :
    m.gets (d :: ds) =
      match m.get d with
      | none => none
      | some (p, m1) =>
        match m1.gets ds with
        | none => none
        | some (ps, m2) => some (p :: ps, m2) := rfl

theorem MiniBatchGpuPackMgr.gets_snoc (ds : List Nat) :
    ∀ (rets : List Nat) (d p : Nat) (m m1 m2 : MiniBatchGpuPackMgr),
      m.gets ds = some (rets, m1) → m1.get d = some (p, m2) →
      m.gets (ds ++ [d]) = some (rets ++ [p], m2) := by
  induction ds with
  | nil =>
    intro rets d p m m1 m2 h1 h2
    have he : ([], m) = (rets, m1) := Option.some.inj h1
    obtain ⟨hr, hm⟩ := Prod.mk.inj he
    subst hr hm
    show m.gets [d] = _
    rw [MiniBatchGpuPackMgr.gets_cons, h2]
    rfl
  | cons x ds ih =>
    intro rets d p m m1 m2 h1 h2
    rw [MiniBatchGpuPackMgr.gets_cons] at h1
    cases hx : m.get x with
    | none =>
      rw [hx] at h1
      exact Option.noConfusion h1
    | some r =>
      obtain ⟨q, mx⟩ := r
      rw [hx] at h1
      simp only at h1
      cases hr : mx.gets ds with
      | none =>
        rw [hr] at h1
        exact Option.noConfusion h1
      | some r2 =>
        obtain ⟨ps, my⟩ := r2
        rw [hr] at h1
        simp only at h1
        have he : (q :: ps, my) = (rets, m1) := Option.some.inj h1
        obtain ⟨hrets, hm⟩ := Prod.mk.inj he
        subst hrets hm
        show m.gets (x :: (ds ++ [d])) = _
        rw [MiniBatchGpuPackMgr.gets_cons, hx]
        simp only [ih ps d p mx my m2 hr h2, List.cons_append]

theorem MiniBatchGpuPackMgr.served_nil :
    MiniBatchGpuPackMgr.Served [] [] MiniBatchGpuPackMgr.init := by
  refine ⟨rfl, by simp [MiniBatchGpuPackMgr.init], ?_, ?_, ?_⟩
  · intro d hd _
    simp only [MiniBatchGpuPackMgr.init]
    rw [List.getElem?_replicate, if_pos hd]
  · intro d hd
    exact absurd hd (List.not_mem_nil d)
  · intro p pack hp
    simp [MiniBatchGpuPackMgr.init] at hp

theorem getElem?_snoc_cases {α : Type} (ds : List α) (d x : α) (i : Nat)
    (h : (ds ++ [d])[i]? = some x) :
    (i < ds.length ∧ ds[i]? = some x) ∨ (i = ds.length ∧ x = d) := by
  by_cases hi : i < ds.length
  · rw [List.getElem?_append_left hi] at h
    exact Or.inl ⟨hi, h⟩
  · rw [List.getElem?_append_right (by omega)] at h
    by_cases h0 : i - ds.length = 0
    · rw [h0] at h
      have hx : d = x := by simpa using h
      exact Or.inr ⟨by omega, hx.symm⟩
    · have : ([d] : List α)[i - ds.length]? = none :=
        List.getElem?_eq_none (by simp only [List.length_singleton]; omega)
      rw [this] at h
      exact Option.noConfusion h

theorem getElem?_snoc_length {α : Type} (rets : List α) (p : α) :
    (rets ++ [p])[rets.length]? = some p := by
  rw [List.getElem?_append_right (Nat.le_refl _), Nat.sub_self]
  rfl

/-- A call of `get` for a device that already has a packer: the packer is reset and
returned. -/
theorem MiniBatchGpuPackMgr.served_get_old (ds rets : List Nat) (m : MiniBatchGpuPackMgr)
    (d : Nat) (h : MiniBatchGpuPackMgr.Served ds rets m) (hd : d ∈ ds) :
    ∃ p m2, m.get d = some (p, m2) ∧
      MiniBatchGpuPackMgr.Served (ds ++ [d]) (rets ++ [p]) m2 := by
  obtain ⟨hlen, hpl, hnone, hsome, hpacks⟩ := h
  obtain ⟨p, pack, hpl_d, hpk, hdev, hres, hret⟩ := hsome d hd
  have hplt : p < m.packs.length := by
    by_contra hge
    rw [List.getElem?_eq_none (by omega)] at hpk
    exact Option.noConfusion hpk
  refine ⟨p, { m with packs := m.packs.set p { pack with resets := pack.resets + 1 } }, ?_,
    ?_, hpl, ?_, ?_, ?_⟩
  · simp only [MiniBatchGpuPackMgr.get, hpl_d, hpk]
  · simp only [List.length_append, List.length_singleton, hlen]
  · intro d1 hd1 hnot
    exact hnone d1 hd1 (fun hm => hnot (List.mem_append_left _ hm))
  · intro d1 hd1
    have hd1s : d1 ∈ ds := by
      rcases List.mem_append.mp hd1 with hm | hm
      · exact hm
      · rw [List.mem_singleton.mp hm]; exact hd
    obtain ⟨p1, pack1, h1, h2, h3, h4, h5⟩ := hsome d1 hd1s
    by_cases hdd : d1 = d
    · subst hdd
      rw [hpl_d] at h1
      have hpp : p = p1 := by injection h1 with h1; injection h1
      subst hpp
      refine ⟨p, { pack with resets := pack.resets + 1 }, hpl_d,
        List.getElem?_set_self hplt, hdev, ?_, ?_⟩
      · simp only [List.count_append, List.count_singleton_self]
        omega
      · intro i hi
        rcases getElem?_snoc_cases ds d1 d1 i hi with ⟨hlt, hds⟩ | ⟨heq, _⟩
        · rw [List.getElem?_append_left (by omega)]
          exact hret i hds
        · rw [heq, ← hlen]
          exact getElem?_snoc_length rets p
    · have hpne : p ≠ p1 := by
        intro hpp
        subst hpp
        rw [hpk] at h2
        have : pack = pack1 := Option.some.inj h2
        subst this
        exact hdd (h3.symm.trans hdev)
      refine ⟨p1, pack1, h1, ?_, h3, ?_, ?_⟩
      · simp only [List.getElem?_set_ne hpne]
        exact h2
      · have hc : List.count d1 [d] = 0 :=
          List.count_eq_zero.mpr (fun hm => hdd (List.mem_singleton.mp hm))
        rw [List.count_append, hc]
        exact h4
      · intro i hi
        rcases getElem?_snoc_cases ds d d1 i hi with ⟨hlt, hds⟩ | ⟨_, heq⟩
        · rw [List.getElem?_append_left (by omega)]
          exact h5 i hds
        · exact absurd heq hdd
  · intro p1 pack1 hp1
    simp only at hp1
    by_cases hpp : p = p1
    · subst hpp
      rw [List.getElem?_set_self hplt] at hp1
      have : pack1 = { pack with resets := pack.resets + 1 } := (Option.some.inj hp1).symm
      subst this
      simp only [hdev]
      exact ⟨List.mem_append_right _ (List.mem_singleton_self d), hpl_d⟩
    · rw [List.getElem?_set_ne hpp] at hp1
      obtain ⟨hm, hq⟩ := hpacks p1 pack1 hp1
      exact ⟨List.mem_append_left _ hm, hq⟩

/-- A call of `get` for a device without a packer: a packer is created for it and
returned. -/
theorem MiniBatchGpuPackMgr.served_get_new (ds rets : List Nat) (m : MiniBatchGpuPackMgr)
    (d : Nat) (h : MiniBatchGpuPackMgr.Served ds rets m)
    (hd16 : d < MiniBatchGpuPackMgr.MAX_DEIVCE_NUM) (hd : d ∉ ds) :
    ∃ p m2, m.get d = some (p, m2) ∧
      MiniBatchGpuPackMgr.Served (ds ++ [d]) (rets ++ [p]) m2 := by
  obtain ⟨hlen, hpl, hnone, hsome, hpacks⟩ := h
  have hpl_d := hnone d hd16 hd
  have hdlt : d < m.pack_list_.length := by rw [hpl]; exact hd16
  refine ⟨m.packs.length,
    { pack_list_ := m.pack_list_.set d (some m.packs.length)
      packs := m.packs ++ [⟨d, 0⟩] }, ?_, ?_, ?_, ?_, ?_, ?_⟩
  · simp only [MiniBatchGpuPackMgr.get, hpl_d]
  · simp only [List.length_append, List.length_singleton, hlen]
  · simp only [List.length_set]
    exact hpl
  · intro d1 hd1 hnot
    have hne : d ≠ d1 := fun he =>
      hnot (List.mem_append_right _ (by rw [he]; exact List.mem_singleton_self d1))
    simp only [List.getElem?_set_ne hne]
    exact hnone d1 hd1 (fun hm => hnot (List.mem_append_left _ hm))
  · intro d1 hd1
    by_cases hdd : d1 = d
    · subst hdd
      refine ⟨m.packs.length, ⟨d1, 0⟩, List.getElem?_set_self hdlt,
        getElem?_snoc_length m.packs _, rfl, ?_, ?_⟩
      · rw [List.count_append, List.count_singleton_self, List.count_eq_zero.mpr hd]
      · intro i hi
        rcases getElem?_snoc_cases ds d1 d1 i hi with ⟨hlt, hds⟩ | ⟨heq, _⟩
        · exact absurd (List.getElem?_mem hds) hd
        · rw [heq, ← hlen]
          exact getElem?_snoc_length rets _
    · have hd1s : d1 ∈ ds := by
        rcases List.mem_append.mp hd1 with hm | hm
        · exact hm
        · exact absurd (List.mem_singleton.mp hm) hdd
      obtain ⟨p1, pack1, h1, h2, h3, h4, h5⟩ := hsome d1 hd1s
      have hp1lt : p1 < m.packs.length := by
        by_contra hge
        rw [List.getElem?_eq_none (by omega)] at h2
        exact Option.noConfusion h2
      refine ⟨p1, pack1, ?_, ?_, h3, ?_, ?_⟩
      · simp only [List.getElem?_set_ne (Ne.symm hdd)]
        exact h1
      · simp only [List.getElem?_append_left hp1lt]
        exact h2
      · have hc : List.count d1 [d] = 0 :=
          List.count_eq_zero.mpr (fun hm => hdd (List.mem_singleton.mp hm))
        rw [List.count_append, hc]
        exact h4
      · intro i hi
        rcases getElem?_snoc_cases ds d d1 i hi with ⟨hlt, hds⟩ | ⟨_, heq⟩
        · rw [List.getElem?_append_left (by omega)]
          exact h5 i hds
        · exact absurd heq hdd
  · intro p1 pack1 hp1
    simp only at hp1
    rcases getElem?_snoc_cases m.packs _ pack1 p1 hp1 with ⟨hlt, hold⟩ | ⟨heq, hpk⟩
    · obtain ⟨hm, hq⟩ := hpacks p1 pack1 hold
      have hne : d ≠ pack1.device_id := fun he => hd (he ▸ hm)
      refine ⟨List.mem_append_left _ hm, ?_⟩
      simp only [List.getElem?_set_ne hne]
      exact hq
    · subst hpk
      subst heq
      exact ⟨List.mem_append_right _ (List.mem_singleton_self d),
        List.getElem?_set_self hdlt⟩

/-- Every sequence of `get` calls for device ids below `MAX_DEIVCE_NUM` returns. -/
theorem MiniBatchGpuPackMgr.gets_served (ds : List Nat)
    (h : ∀ d ∈ ds, d < MiniBatchGpuPackMgr.MAX_DEIVCE_NUM) :
    ∃ rets m, MiniBatchGpuPackMgr.init.gets ds = some (rets, m) ∧
      MiniBatchGpuPackMgr.Served ds rets m := by
  induction ds using List.reverseRecOn with
  | nil => exact ⟨[], _, rfl, MiniBatchGpuPackMgr.served_nil⟩
  | append_singleton ds d ih =>
    obtain ⟨rets, m, hrun, hserved⟩ := ih (fun x hx => h x (List.mem_append_left _ hx))
    have hd16 := h d (List.mem_append_right _ (List.mem_singleton_self d))
    by_cases hd : d ∈ ds
    · obtain ⟨p, m2, hget, hs2⟩ := MiniBatchGpuPackMgr.served_get_old ds rets m d hserved hd
      exact ⟨_, _, MiniBatchGpuPackMgr.gets_snoc ds rets d p _ m m2 hrun hget, hs2⟩
    · obtain ⟨p, m2, hget, hs2⟩ :=
        MiniBatchGpuPackMgr.served_get_new ds rets m d hserved hd16 hd
      exact ⟨_, _, MiniBatchGpuPackMgr.gets_snoc ds rets d p _ m m2 hrun hget, hs2⟩

/-- C26: for every sequence of `MiniBatchGpuPackMgr::get` calls with device ids below 16 on a
fresh manager, every call returns; no two packers were created for the same device id and
each packer was created for a device that was asked for; the packer of a device has been
reset once for each call for that device but the first; and two calls return the same packer
exactly when they are for the same device id. -/
theorem packer_per_device_singleton (ds : List Nat)
    (h : ∀ d ∈ ds, d < MiniBatchGpuPackMgr.MAX_DEIVCE_NUM) :
    ∃ rets m, MiniBatchGpuPackMgr.init.gets ds = some (rets, m) ∧
      rets.length = ds.length ∧
      (m.packs.map (fun pack => pack.device_id)).Nodup ∧
      (∀ pack ∈ m.packs,
        pack.device_id ∈ ds ∧ pack.resets + 1 = ds.count pack.device_id) ∧
      (∀ (i : Nat) (di : Nat), ds[i]? = some di →
        ∃ (p : Nat) (pack : MiniBatchGpuPack),
          rets[i]? = some p ∧ m.packs[p]? = some pack ∧ pack.device_id = di) ∧
      (∀ (i j di dj pi pj : Nat), ds[i]? = some di → ds[j]? = some dj →
        rets[i]? = some pi → rets[j]? = some pj → (pi = pj ↔ di = dj)) := by
  obtain ⟨rets, m, hrun, hlen, hpl, hnone, hsome, hpacks⟩ :=
    MiniBatchGpuPackMgr.gets_served ds h
  refine ⟨rets, m, hrun, hlen, ?_, ?_, ?_, ?_⟩
  · rw [List.nodup_iff_getElem?_ne_getElem?]
    intro i j hij hj heq
    rw [List.length_map] at hj
    rw [List.getElem?_map, List.getElem?_map, List.getElem?_eq_getElem hj,
      List.getElem?_eq_getElem (Nat.lt_trans hij hj)] at heq
    have hdev : (m.packs[i]).device_id = (m.packs[j]).device_id := by
      simpa using heq
    have h1 := (hpacks i _ (List.getElem?_eq_getElem (Nat.lt_trans hij hj))).2
    have h2 := (hpacks j _ (List.getElem?_eq_getElem hj)).2
    rw [hdev, h2] at h1
    have hji : j = i := by injection h1 with h1; injection h1
    omega
  · intro pack hmem
    obtain ⟨p, hp⟩ := List.getElem?_of_mem hmem
    obtain ⟨hm, hq⟩ := hpacks p pack hp
    obtain ⟨p1, pack1, h1, h2, _, h4, _⟩ := hsome pack.device_id hm
    rw [hq] at h1
    have hpp : p = p1 := by injection h1 with h1; injection h1
    subst hpp
    rw [hp] at h2
    have hpk : pack = pack1 := Option.some.inj h2
    subst hpk
    exact ⟨hm, h4⟩
  · intro i di hi
    obtain ⟨p1, pack1, _, h2, h3, _, h5⟩ := hsome di (List.getElem?_mem hi)
    exact ⟨p1, pack1, h5 i hi, h2, h3⟩
  · intro i j di dj pi pj hi hj hpi hpj
    obtain ⟨p1, pack1, a1, a2, a3, _, a5⟩ := hsome di (List.getElem?_mem hi)
    obtain ⟨p2, pack2, b1, b2, b3, _, b5⟩ := hsome dj (List.getElem?_mem hj)
    have e1 : pi = p1 := Option.some.inj ((hpi.symm).trans (a5 i hi))
    have e2 : pj = p2 := Option.some.inj ((hpj.symm).trans (b5 j hj))
    subst e1 e2
    constructor
    · intro hpp
      subst hpp
      rw [a2] at b2
      have hpk : pack1 = pack2 := Option.some.inj b2
      subst hpk
      exact a3.symm.trans b3
    · intro hdd
      subst hdd
      rw [a1] at b1
      injection b1 with b1
      injection b1

/-- The statement of C26 for the calls with device ids 3, 5, 3: the first and the third call
return the one packer created for device 3 and the second call another one. -/
theorem packer_per_device_singleton_witness :
    ∃ rets m, MiniBatchGpuPackMgr.init.gets [3, 5, 3] = some (rets, m) ∧
      rets.length = 3 ∧
      (m.packs.map (fun pack => pack.device_id)).Nodup ∧
      (∀ (i j di dj pi pj : Nat), [3, 5, 3][i]? = some di → [3, 5, 3][j]? = some dj →
        rets[i]? = some pi → rets[j]? = some pj → (pi = pj ↔ di = dj)) := by
  obtain ⟨rets, m, h1, h2, h3, _, _, h6⟩ :=
    packer_per_device_singleton [3, 5, 3] (by decide)
  exact ⟨rets, m, h1, h2, h3, h6⟩

theorem add_slot_feasigns_many_slots {T : Type} (s : SlotValues T) (fs : List (List T))
    (fea_num : Nat) (h1 : 2 ^ 31 ≤ fs.length + 1) (h2 : fs.length < 2 ^ 32) :
    s.add_slot_feasigns fs fea_num = none := by
  have h : to_uint32 fs.length = fs.length := Nat.mod_eq_of_lt h2
  unfold SlotValues.add_slot_feasigns
  simp only [h]
  rw [if_neg (by omega)]

/-- C30 as amended: for every list `fs` of fewer than `2 ^ 31 - 1` per-slot value vectors
with fewer than `2 ^ 32` values in total, `add_slot_feasigns(fs, fea_num)` on an empty
`SlotValues` returns, and its `slot_values` and `slot_offsets` are those of one `add_values`
call per element of `fs`, in order, on an empty `SlotValues` when `fs` is not empty, and no
values with the offsets `[0]` when `fs` is empty. -/
theorem add_slot_feasigns_refines_add_values {T : Type} (fs : List (List T))
    (fea_num : Nat) (hk : fs.length + 1 < 2 ^ 31) (htot : fs.flatten.length < 2 ^ 32) :
    SlotValues.add_slot_feasigns SlotValues.empty fs fea_num =
      some (if fs.isEmpty then ⟨[], [0]⟩
        else fs.foldl SlotValues.add_values SlotValues.empty) := by
  have hv : ∀ v ∈ fs, v.length < 2 ^ 32 := fun v hm =>
    Nat.lt_of_le_of_lt (length_le_flatten_length fs v hm) htot
  rw [add_slot_feasigns_empty fs fea_num hk hv]
  cases fs with
  | nil => rfl
  | cons v vs =>
    rw [foldl_add_values_empty]
    rfl

/-- The statement of C30 (amended) for the slots `[7, 8]`, `[]`, `[9]`: both ways give the
values `[7, 8, 9]` and the offsets `[0, 2, 2, 3]`. -/
theorem add_slot_feasigns_refines_add_values_witness :
    SlotValues.add_slot_feasigns SlotValues.empty [[7, 8], [], [9]] 3 =
      some ([[7, 8], [], [9]].foldl SlotValues.add_values SlotValues.empty) ∧
    [[7, 8], [], [9]].foldl SlotValues.add_values SlotValues.empty =
      (⟨[7, 8, 9], [0, 2, 2, 3]⟩ : SlotValues Nat) :=
  ⟨add_slot_feasigns_refines_add_values [[7, 8], [], [9]] 3 (by decide) (by decide),
    by decide⟩

/-- C30 fails as stated: `2 ^ 31` empty slots hold no value at all, yet `slot_num`, an
`int`, is negative and `add_slot_feasigns` does not complete, whereas one `add_values` call
per slot does; and with `2 ^ 31 - 1` empty slots `slot_num + 1` overflows `int`. -/
theorem add_slot_feasigns_refines_add_values_counterexample :
    List.replicate (2 ^ 31) ([] : List Nat) ≠ [] ∧
    (List.replicate (2 ^ 31) ([] : List Nat)).flatten.length < 2 ^ 32 ∧
    SlotValues.add_slot_feasigns (SlotValues.empty : SlotValues Nat)
      (List.replicate (2 ^ 31) []) 0 = none ∧
    SlotValues.add_slot_feasigns (SlotValues.empty : SlotValues Nat)
      (List.replicate (2 ^ 31) []) 0 ≠
      some ((List.replicate (2 ^ 31) ([] : List Nat)).foldl SlotValues.add_values
        SlotValues.empty) ∧
    (List.replicate (2 ^ 31 - 1) ([] : List Nat)).flatten.length < 2 ^ 32 ∧
    SlotValues.add_slot_feasigns (SlotValues.empty : SlotValues Nat)
      (List.replicate (2 ^ 31 - 1) []) 0 = none := by
  have hnone : SlotValues.add_slot_feasigns (SlotValues.empty : SlotValues Nat)
      (List.replicate (2 ^ 31) []) 0 = none :=
    add_slot_feasigns_many_slots _ _ _ (by rw [List.length_replicate]; norm_num)
      (by rw [List.length_replicate]; norm_num)
  have hnone1 : SlotValues.add_slot_feasigns (SlotValues.empty : SlotValues Nat)
      (List.replicate (2 ^ 31 - 1) []) 0 = none :=
    add_slot_feasigns_many_slots _ _ _ (by rw [List.length_replicate]; norm_num)
      (by rw [List.length_replicate]; norm_num)
  refine ⟨?_, ?_, hnone, ?_, ?_, hnone1⟩
  · intro he
    have hl := congrArg List.length he
    rw [List.length_replicate] at hl
    exact absurd hl (by norm_num)
  · rw [List.flatten_replicate_nil]
    decide
  · rw [hnone]
    exact fun h => Option.noConfusion h
  · rw [List.flatten_replicate_nil]
    decide

theorem Channel.run_cons {T : Type} (c : Channel T) (call : ChannelCall T)
    (calls : List (ChannelCall T)) :
    c.run (call :: calls) =
      match c.step call with
      | none => none
      | some (out, c1) =>
        match c1.run calls with
        | none => none
        | some (outs, c2) => some (out.toList ++ outs, c2) := rfl

/-- Nothing is lost, duplicated or reordered: the items held before a run followed by the
items pushed during it are the items popped followed by the items held afterwards. -/
theorem Channel.run_conserves {T : Type} (calls : List (ChannelCall T)) :
    ∀ (c : Channel T) (outs : List T) (c2 : Channel T), c.run calls = some (outs, c2) →
      c.queue ++ c.waiting.toList ++ Channel.pushed calls =
        outs ++ (c2.queue ++ c2.waiting.toList) := by
  induction calls with
  | nil =>
    intro c outs c2 h
    have he : ([], c) = (outs, c2) := Option.some.inj h
    obtain ⟨ho, hc⟩ := Prod.mk.inj he
    subst ho hc
    simp [Channel.pushed]
  | cons call calls ih =>
    intro c outs c2 h
    rw [Channel.run_cons] at h
    cases hs : c.step call with
    | none =>
      rw [hs] at h
      exact Option.noConfusion h
    | some r =>
      obtain ⟨out, c1⟩ := r
      rw [hs] at h
      simp only at h
      cases hr : c1.run calls with
      | none =>
        rw [hr] at h
        exact Option.noConfusion h
      | some r2 =>
        obtain ⟨outs1, c3⟩ := r2
        rw [hr] at h
        simp only at h
        have he : (out.toList ++ outs1, c3) = (outs, c2) := Option.some.inj h
        obtain ⟨ho, hc⟩ := Prod.mk.inj he
        subst ho hc
        have hih := ih c1 outs1 c3 hr
        cases call with
        | push x =>
          simp only [Channel.step] at hs
          cases hw : c.waiting with
          | some w =>
            rw [hw] at hs
            exact Option.noConfusion hs
          | none =>
            rw [hw] at hs
            simp only at hs
            by_cases hroom : c.queue.length < c.capacity
            · rw [if_pos hroom] at hs
              have he2 := Prod.mk.inj (Option.some.inj hs)
              obtain ⟨ho2, hc2⟩ := he2
              subst ho2 hc2
              generalize c3.queue ++ c3.waiting.toList = R at hih ⊢
              simp only [hw, Option.toList, Channel.pushed, List.append_nil, List.nil_append,
                List.append_assoc, List.cons_append, List.singleton_append] at hih ⊢
              exact hih
            · rw [if_neg hroom] at hs
              have he2 := Prod.mk.inj (Option.some.inj hs)
              obtain ⟨ho2, hc2⟩ := he2
              subst ho2 hc2
              generalize c3.queue ++ c3.waiting.toList = R at hih ⊢
              simp only [hw, Option.toList, Channel.pushed, List.append_nil, List.nil_append,
                List.append_assoc, List.cons_append, List.singleton_append] at hih ⊢
              exact hih
        | pop =>
          simp only [Channel.step] at hs
          cases hq : c.queue with
          | nil =>
            rw [hq] at hs
            exact Option.noConfusion hs
          | cons y rest =>
            rw [hq] at hs
            simp only at hs
            cases hw : c.waiting with
            | some w =>
              rw [hw] at hs
              simp only at hs
              have he2 := Prod.mk.inj (Option.some.inj hs)
              obtain ⟨ho2, hc2⟩ := he2
              subst ho2 hc2
              generalize c3.queue ++ c3.waiting.toList = R at hih ⊢
              simp only [hw, Option.toList, Channel.pushed, List.append_nil, List.nil_append,
                List.append_assoc, List.cons_append, List.singleton_append] at hih ⊢
              first
                | exact hih
                | rw [hih]
            | none =>
              rw [hw] at hs
              simp only at hs
              have he2 := Prod.mk.inj (Option.some.inj hs)
              obtain ⟨ho2, hc2⟩ := he2
              subst ho2 hc2
              generalize c3.queue ++ c3.waiting.toList = R at hih ⊢
              simp only [hw, Option.toList, Channel.pushed, List.append_nil, List.nil_append,
                List.append_assoc, List.cons_append, List.singleton_append] at hih ⊢
              first
                | exact hih
                | rw [hih]

theorem Channel.run_push_room {T : Type} (c : Channel T) (x : T)
    (calls : List (ChannelCall T)) (hw : c.waiting = none)
    (hroom : c.queue.length < c.capacity) :
    c.run (.push x :: calls) = ({ c with queue := c.queue ++ [x] } : Channel T).run calls := by
  rw [Channel.run_cons]
  simp only [Channel.step, hw, if_pos hroom, Option.toList, List.nil_append]
  split
  · rename_i heq
    exact heq.symm
  · rename_i heq
    exact heq.symm

theorem Channel.run_push_all {T : Type} (xs : List T) (rest : List (ChannelCall T)) :
    ∀ (k : Nat) (q : List T), q.length + xs.length ≤ k →
      (⟨k, q, none⟩ : Channel T).run (xs.map ChannelCall.push ++ rest) =
        (⟨k, q ++ xs, none⟩ : Channel T).run rest := by
  induction xs with
  | nil =>
    intro k q _
    simp only [List.map_nil, List.nil_append, List.append_nil]
  | cons x xs ih =>
    intro k q hroom
    simp only [List.length_cons] at hroom
    rw [List.map_cons, List.cons_append,
      Channel.run_push_room _ x _ rfl (by show q.length < k; omega)]
    show (⟨k, q ++ [x], none⟩ : Channel T).run _ = _
    rw [ih k (q ++ [x]) (by simp only [List.length_append, List.length_singleton]; omega),
      List.append_assoc, List.singleton_append]

theorem Channel.run_pop_all {T : Type} (k : Nat) (q : List T) :
    (⟨k, q, none⟩ : Channel T).run (List.replicate q.length ChannelCall.pop) =
      some (q, ⟨k, [], none⟩) := by
  induction q with
  | nil => rfl
  | cons y rest ih =>
    rw [List.length_cons, List.replicate_succ, Channel.run_cons]
    simp only [Channel.step]
    rw [ih]
    rfl

/-- C27: on the bounded channel fed by a single producer, in every sequence of pushes and
pops that starts on an empty channel the items popped are, in order, the first of the items
pushed (the rest being still in the channel, in order); so popping as many items as were
pushed returns them in the order they were pushed.  And pushing any list that fits the
capacity and then popping as many times returns the list. -/
theorem channel_fifo {T : Type} (k : Nat) (calls : List (ChannelCall T)) (outs : List T)
    (c : Channel T) (hrun : (Channel.empty k).run calls = some (outs, c)) :
    Channel.pushed calls = outs ++ (c.queue ++ c.waiting.toList) ∧
    (outs.length = (Channel.pushed calls).length → outs = Channel.pushed calls) ∧
    (∀ xs : List T, xs.length ≤ k →
      (Channel.empty k).run
        (xs.map ChannelCall.push ++ List.replicate xs.length ChannelCall.pop) =
        some (xs, Channel.empty k)) := by
  have hcons := Channel.run_conserves calls (Channel.empty k) outs c hrun
  have hpushed : Channel.pushed calls = outs ++ (c.queue ++ c.waiting.toList) := by
    simpa [Channel.empty] using hcons
  refine ⟨hpushed, ?_, ?_⟩
  · intro hlen
    rw [hpushed, List.length_append] at hlen
    have hnil : c.queue ++ c.waiting.toList = [] :=
      List.length_eq_zero.mp (by omega)
    rw [hpushed, hnil, List.append_nil]
  · intro xs hxs
    show (⟨k, [], none⟩ : Channel T).run _ = _
    rw [Channel.run_push_all xs _ k [] (by simpa using hxs), List.nil_append]
    exact Channel.run_pop_all k xs

/-- The statement of C27 on a channel of capacity 1: the producer pushes 1, 2, 3 (the push of
2 and the push of 3 each wait for a pop) and the three pops return 1, 2, 3. -/
theorem channel_fifo_witness :
    (Channel.empty 1).run
        [.push 1, .push 2, .pop, .push 3, .pop, .pop] = some ([1, 2, 3], Channel.empty 1) ∧
    Channel.pushed [.push 1, .push 2, .pop, .push 3, .pop, .pop] = [1, 2, 3] ++ ([] ++ []) :=
  ⟨by decide,
    (channel_fifo 1 [.push 1, .push 2, .pop, .push 3, .pop, .pop] [1, 2, 3]
      (Channel.empty 1) (by decide)).1⟩

/-- C28: on a channel that holds as many items as its capacity, a further `push(x)` does not
complete: the queue is unchanged and `x` waits, and as long as no pop occurs it keeps
waiting; the next pop takes the oldest item, and with it the waiting push completes, `x`
being the newest item of the queue. -/
theorem channel_backpressure {T : Type} (c : Channel T) (x : T)
    (hfull : c.queue.length = c.capacity) (hw : c.waiting = none) :
    c.step (.push x) = some (none, { c with waiting := some x }) ∧
    (∀ (calls : List (ChannelCall T)) (outs : List T) (c2 : Channel T),
      ({ c with waiting := some x } : Channel T).run calls = some (outs, c2) →
      ChannelCall.pop ∉ calls → c2 = { c with waiting := some x }) ∧
    (∀ (y : T) (rest : List T), c.queue = y :: rest →
      ({ c with waiting := some x } : Channel T).step .pop =
        some (some y, ⟨c.capacity, rest ++ [x], none⟩)) := by
  refine ⟨?_, ?_, ?_⟩
  · simp only [Channel.step, hw, hfull, Nat.lt_irrefl, if_false]
  · intro calls outs c2 hrun hnopop
    cases calls with
    | nil =>
      have he : (([] : List T), ({ c with waiting := some x } : Channel T)) = (outs, c2) :=
        Option.some.inj hrun
      exact (Prod.mk.inj he).2.symm
    | cons call calls =>
      cases call with
      | push z =>
        rw [Channel.run_cons] at hrun
        simp only [Channel.step] at hrun
        exact Option.noConfusion hrun
      | pop => exact absurd (List.mem_cons_self _ _) hnopop
  · intro y rest hq
    simp only [Channel.step, hq]

/-- The statement of C28 on a channel of capacity 2 that holds 5 and 6: the push of 7 waits,
and the pop that returns 5 lets it complete. -/
theorem channel_backpressure_witness :
    (⟨2, [5, 6], none⟩ : Channel Nat).step (.push 7) = some (none, ⟨2, [5, 6], some 7⟩) ∧
    (⟨2, [5, 6], some 7⟩ : Channel Nat).step .pop = some (some 5, ⟨2, [6, 7], none⟩) :=
  ⟨(channel_backpressure ⟨2, [5, 6], none⟩ 7 rfl rfl).1,
    (channel_backpressure ⟨2, [5, 6], none⟩ 7 rfl rfl).2.2 5 [6] rfl⟩

theorem FileList.inv_init (files : List String) :
    FileList.Inv files (FileList.init files) :=
  ⟨rfl, rfl, Nat.zero_le _, fun h => absurd rfl h⟩

theorem FileList.inv_PickOneFile (files : List String) (s s1 : FileList) (thread : Nat)
    (name : Option String) (hinv : FileList.Inv files s)
    (hpick : s.PickOneFile thread = some (name, s1)) :
    FileList.Inv files s1 ∧
      (name = none ↔ s.file_idx_ = files.length) ∧
      (∀ n, name = some n → files[s.file_idx_]? = some n ∧
        s1.claims = s.claims ++ [(thread, s.file_idx_)]) := by
  obtain ⟨hfl, hcl, hle, hex⟩ := hinv
  unfold FileList.PickOneFile at hpick
  by_cases hmem : thread ∈ s.exited
  · rw [if_pos hmem] at hpick
    exact Option.noConfusion hpick
  · rw [if_neg hmem] at hpick
    by_cases hlt : s.file_idx_ < s.filelist_.length
    · rw [if_pos hlt] at hpick
      obtain ⟨hn, hs1⟩ := Prod.mk.inj (Option.some.inj hpick)
      subst hs1
      have hget : s.filelist_[s.file_idx_]? = some (s.filelist_[s.file_idx_]) :=
        List.getElem?_eq_getElem hlt
      rw [hfl] at hlt
      refine ⟨⟨hfl, ?_, hlt, ?_⟩, ?_, ?_⟩
      · simp only [List.map_append, List.map_cons, List.map_nil, hcl, List.range_succ]
      · intro hne
        have := hex hne
        omega
      · constructor
        · intro hnone
          rw [← hn, hget] at hnone
          exact Option.noConfusion hnone
        · intro heq
          omega
      · intro n hnn
        rw [← hn, hfl] at hnn
        exact ⟨hnn, rfl⟩
    · rw [if_neg hlt] at hpick
      obtain ⟨hn, hs1⟩ := Prod.mk.inj (Option.some.inj hpick)
      subst hs1
      rw [hfl] at hlt
      have hidx : s.file_idx_ = files.length := by omega
      refine ⟨⟨hfl, hcl, hle, fun _ => hidx⟩, ⟨fun _ => hidx, fun _ => hn.symm⟩, ?_⟩
      intro n hnn
      rw [← hn] at hnn
      exact Option.noConfusion hnn

theorem FileList.inv_of_run (files : List String) (schedule : List Nat) :
    ∀ (s s1 : FileList), FileList.Inv files s → s.run schedule = some s1 →
      FileList.Inv files s1 := by
  induction schedule with
  | nil =>
    intro s s1 hinv hrun
    have : s = s1 := Option.some.inj hrun
    subst this
    exact hinv
  | cons thread schedule ih =>
    intro s s1 hinv hrun
    simp only [FileList.run] at hrun
    cases hp : s.PickOneFile thread with
    | none =>
      rw [hp] at hrun
      exact Option.noConfusion hrun
    | some r =>
      obtain ⟨name, s2⟩ := r
      rw [hp] at hrun
      exact ih s2 s1 (FileList.inv_PickOneFile files s s2 thread name hinv hp).1 hrun

/-- C29: with the files `files` and `T >= 1` reader threads that pick files through
`PickOneFile` on the shared index, in any interleaving: no file index is claimed twice and
every claim is a file of the list; and once all `T` threads have left their read loop, every
file of the list has been claimed, by exactly one thread. -/
theorem file_list_distribution (files : List String) (T : Nat) (hT : 1 ≤ T)
    (schedule : List Nat) (s : FileList)
    (hrun : (FileList.init files).run schedule = some s) :
    (s.claims.map (fun c => c.2)).Nodup ∧
    (∀ c ∈ s.claims, c.2 < files.length) ∧
    ((∀ t, t < T → t ∈ s.exited) →
      ∀ i, i < files.length →
        ∃ t, (t, i) ∈ s.claims ∧ ∀ t1, (t1, i) ∈ s.claims → t1 = t) := by
  obtain ⟨_, hcl, hle, hex⟩ :=
    FileList.inv_of_run files schedule _ s (FileList.inv_init files) hrun
  have hnd : (s.claims.map (fun c => c.2)).Nodup := by
    rw [hcl]; exact List.nodup_range _
  refine ⟨hnd, ?_, ?_⟩
  · intro c hc
    have hm : c.2 ∈ s.claims.map (fun c => c.2) := List.mem_map.mpr ⟨c, hc, rfl⟩
    rw [hcl] at hm
    have := List.mem_range.mp hm
    omega
  · intro hall i hi
    have h0 : 0 ∈ s.exited := hall 0 (by omega)
    have hidx : s.file_idx_ = files.length :=
      hex (fun hnil => by rw [hnil] at h0; exact absurd h0 (List.not_mem_nil 0))
    have hm : i ∈ s.claims.map (fun c => c.2) := by
      rw [hcl, hidx]; exact List.mem_range.mpr hi
    obtain ⟨c, hc, hci⟩ := List.mem_map.mp hm
    obtain ⟨t, j⟩ := c
    simp only at hci
    subst hci
    refine ⟨t, hc, ?_⟩
    intro t1 ht1
    have := List.inj_on_of_nodup_map hnd ht1 hc rfl
    exact (Prod.mk.inj this).1

/-- The statement of C29 for three files and two threads, thread 1 picking twice before
thread 0 picks: the claims are file 0 and file 1 by thread 1 and file 2 by thread 0, and
both threads have exited. -/
theorem file_list_distribution_witness :
    (FileList.init ["a", "b", "c"]).run [1, 1, 0, 1, 0] =
      some ⟨["a", "b", "c"], 3, [(1, 0), (1, 1), (0, 2)], [0, 1]⟩ ∧
    ∀ i, i < 3 → ∃ t, (t, i) ∈ [(1, 0), (1, 1), (0, 2)] ∧
      ∀ t1, (t1, i) ∈ [(1, 0), (1, 1), (0, 2)] → t1 = t :=
  ⟨by decide,
    (file_list_distribution ["a", "b", "c"] 2 (by decide) [1, 1, 0, 1, 0]
      ⟨["a", "b", "c"], 3, [(1, 0), (1, 1), (0, 2)], [0, 1]⟩ (by decide)).2.2
      (by decide)⟩

theorem DLManager.find_cons_self (name : String) (h : DLHandle)
    (rest : List (String × DLHandle)) :
    DLManager.find ((name, h) :: rest) name = some h := by
  simp [DLManager.find, List.find?]

/-- C36 on the code: `Close(name)` deletes the parser of a loaded plugin and closes its
module but leaves its entry in `handle_map_`, so the `Load` that `ReLoad` makes next finds
the entry and returns the parser that has just been deleted; `dlopen` is not called and the
handle map still contains `name`. -/
theorem ReLoad_returns_closed_plugin (env : DLEnv) (name : String) (h : DLHandle)
    (rest : List (String × DLHandle)) :
    DLManager.Close ((name, h) :: rest) name = (false, some h, (name, h) :: rest) ∧
    DLManager.find (DLManager.Close ((name, h) :: rest) name).2.2 name = some h ∧
    DLManager.ReLoad env ((name, h) :: rest) name =
      (some h, .returned (some h.parser) ((name, h) :: rest)) ∧
    DLManager.ReLoad DLEnv.example [("libparser.so", ⟨1, 101⟩)] "libparser.so" =
      (some ⟨1, 101⟩, .returned (some 101) [("libparser.so", ⟨1, 101⟩)]) := by
  have hfind := DLManager.find_cons_self name h rest
  have hclose : DLManager.Close ((name, h) :: rest) name =
      (false, some h, (name, h) :: rest) := by
    unfold DLManager.Close
    rw [hfind]
  refine ⟨hclose, ?_, ?_, ?_⟩
  · rw [hclose]; exact hfind
  · unfold DLManager.ReLoad
    rw [hclose]
    simp only [DLManager.Load_SlotConf, hfind]
  · decide

theorem int_checked_of_range (x : Int) (h1 : -(2 ^ 31) ≤ x) (h2 : x < 2 ^ 31) :
    int_checked x = some x := by
  unfold int_checked
  rw [if_pos ⟨h1, h2⟩]

theorem BufState.GetNextCentrolWord_loop_defined (k : Nat) :
    ∀ (step : Int) (s : BufState), 0 ≤ step → step.toNat + k ≤ s.window.length →
      s.central_word = 0 → (∀ w ∈ s.window, -(2 ^ 31) ≤ w ∧ w < 2 ^ 31) →
      ∃ ret s1, BufState.GetNextCentrolWord_loop k step s = some (ret, s1) ∧
        BufState.SameRows s1 s := by
  induction k with
  | zero =>
    intro step s _ _ _ _
    exact ⟨0, _, rfl, rfl, rfl, rfl, rfl, rfl, rfl⟩
  | succ k ih =>
    intro step s hstep hlen hcw htyped
    have hlt : step.toNat < s.window.length := by omega
    have hget : s.window[step.toNat]? = some (s.window[step.toNat]) :=
      List.getElem?_eq_getElem hlt
    have hw := htyped _ (List.getElem_mem hlt)
    have hsum : int_checked (s.central_word + s.window[step.toNat]) =
        some (s.window[step.toNat]) := by
      rw [hcw, Int.zero_add]
      exact int_checked_of_range _ hw.1 hw.2
    unfold BufState.GetNextCentrolWord_loop
    rw [if_neg (by omega), hget]
    simp only [hsum]
    by_cases hv : s.window[step.toNat] ≥ 0
    · rw [if_pos hv]
      exact ⟨1, _, rfl, rfl, rfl, rfl, rfl, rfl, rfl⟩
    · rw [if_neg hv]
      exact ih (step + 1) s (by omega) (by omega) hcw htyped

theorem BufState.GetNextCentrolWord_defined (s : BufState) (r : Nat)
    (hcw : s.central_word = -1) (hw : s.Walkable) :
    ∃ ret s1, s.GetNextCentrolWord r = some (ret, s1) ∧ BufState.SameRows s1 s := by
  obtain ⟨hwin, htyped⟩ := hw
  have h0 : int_checked (s.central_word + 1) = some 0 := by
    rw [hcw]; rfl
  unfold BufState.GetNextCentrolWord
  rw [h0]
  simp only
  by_cases hwalk : (0 : Int) ≥ s.walk_len
  · rw [if_pos hwalk]
    exact ⟨0, _, rfl, rfl, rfl, rfl, rfl, rfl, rfl⟩
  · rw [if_neg hwalk]
    have hlen : 2 ≤ s.window.length := by
      rcases hwin with h | h
      · omega
      · exact h
    have hws : s.window.length / 2 ≠ 0 := by omega
    rw [if_neg hws]
    have hmod : r % (s.window.length / 2) < s.window.length / 2 :=
      Nat.mod_lt _ (by omega)
    obtain ⟨ret, s1, hrun, hsame⟩ := BufState.GetNextCentrolWord_loop_defined
      (((s.window.length / 2 : Nat) : Int) + ((r % (s.window.length / 2) + 1 : Nat) : Int) - 1
        + 1 - (((s.window.length / 2 : Nat) : Int) -
          ((r % (s.window.length / 2) + 1 : Nat) : Int))).toNat
      (((s.window.length / 2 : Nat) : Int) - ((r % (s.window.length / 2) + 1 : Nat) : Int))
      { s with
        central_word := 0
        left := ((s.window.length / 2 : Nat) : Int) -
          ((r % (s.window.length / 2) + 1 : Nat) : Int)
        right := ((s.window.length / 2 : Nat) : Int) +
          ((r % (s.window.length / 2) + 1 : Nat) : Int) - 1 }
      (by omega) (by simp only; omega) rfl htyped
    exact ⟨ret, s1, hrun, hsame⟩

theorem BufState.Reset_spec (s : BufState) (bs total r : Nat) (hbs : s.batch_size = bs)
    (hbound : bs + total < 2 ^ 31) (hw : s.Walkable) :
    ∃ s0, s.Reset total r = some s0 ∧ s0.cursor = 0 ∧
      s0.len = ((min bs total : Nat) : Int) ∧ s0.row_num = total ∧ s0.batch_size = bs ∧
      s0.Walkable := by
  have hsum : int_checked ((0 : Int) + s.batch_size) = some (bs : Int) := by
    rw [hbs, Int.zero_add]
    exact int_checked_of_range _ (by omega) (by omega)
  have hsub : int_checked ((total : Int) - 0) = some (total : Int) := by
    rw [Int.sub_zero]
    exact int_checked_of_range _ (by omega) (by omega)
  have hlen : (if (bs : Int) > (total : Int) then int_checked ((total : Int) - 0)
      else some s.batch_size) = some (((min bs total : Nat) : Int)) := by
    by_cases h : (bs : Int) > (total : Int)
    · rw [if_pos h, hsub]
      exact congrArg some (by omega)
    · rw [if_neg h, hbs]
      exact congrArg some (by omega)
  obtain ⟨ret, s3, hrun, h1, h2, h3, h4, h5, h6⟩ := BufState.GetNextCentrolWord_defined
    { s with cursor := 0, row_num := total, len := ((min bs total : Nat) : Int),
             central_word := -1, step := -1 } r rfl hw
  refine ⟨s3, ?_, h2, h1, h3, h4.trans hbs, ?_⟩
  · unfold BufState.Reset
    simp only [hsum, hlen, hrun]
  · exact ⟨by rw [h5, h6]; exact hw.1, by rw [h6]; exact hw.2⟩

/-- A call of `GetNextBatch()` when the current batch is the last one: it returns 0 and
`cursor` is `row_num`. -/
theorem BufState.GetNextBatch_last (s : BufState) (bs total c r : Nat)
    (hbs : s.batch_size = bs) (hpos : 0 < bs) (hbound : bs + total < 2 ^ 31)
    (hcur : s.cursor = c) (hlen : s.len = ((min bs (total - c) : Nat) : Int))
    (hrow : s.row_num = total) (hc : c ≤ total) (hlast : total - c ≤ bs) :
    s.GetNextBatch r = some (0, { s with cursor := total }) := by
  have h1 : int_checked (s.cursor + s.len) = some (total : Int) := by
    rw [hcur, hlen]
    have : (c : Int) + ((min bs (total - c) : Nat) : Int) = (total : Int) := by omega
    rw [this]
    exact int_checked_of_range _ (by omega) (by omega)
  have h2 : int_checked ((total : Int) + s.batch_size) = some ((total : Int) + bs) := by
    rw [hbs]
    exact int_checked_of_range _ (by omega) (by omega)
  have h3 : int_checked ((total : Int) - (total : Int)) = some 0 := by
    rw [Int.sub_self]
    rfl
  unfold BufState.GetNextBatch
  simp only [h1, h2, hrow, gt_iff_lt]
  rw [if_pos (by omega)]
  simp only [h3, if_true]

/-- A call of `GetNextBatch()` when rows remain beyond the current batch: it returns 1 and
the next batch starts where the current one ends. -/
theorem BufState.GetNextBatch_more (s : BufState) (bs total c r : Nat)
    (hbs : s.batch_size = bs) (hpos : 0 < bs) (hbound : bs + total < 2 ^ 31)
    (hcur : s.cursor = c) (hlen : s.len = ((min bs (total - c) : Nat) : Int))
    (hrow : s.row_num = total) (hmore : bs < total - c) (hw : s.Walkable) :
    ∃ s1, s.GetNextBatch r = some (1, s1) ∧ s1.cursor = ((c + bs : Nat) : Int) ∧
      s1.len = ((min bs (total - (c + bs)) : Nat) : Int) ∧ s1.row_num = total ∧
      s1.batch_size = bs ∧ s1.Walkable := by
  have h1 : int_checked (s.cursor + s.len) = some (((c + bs : Nat) : Int)) := by
    rw [hcur, hlen]
    have : (c : Int) + ((min bs (total - c) : Nat) : Int) = ((c + bs : Nat) : Int) := by
      omega
    rw [this]
    exact int_checked_of_range _ (by omega) (by omega)
  have h2 : int_checked (((c + bs : Nat) : Int) + s.batch_size) =
      some (((c + bs : Nat) : Int) + bs) := by
    rw [hbs]
    exact int_checked_of_range _ (by omega) (by omega)
  have h3 : (if ((c + bs : Nat) : Int) + (bs : Int) > s.row_num then
        int_checked (s.row_num - ((c + bs : Nat) : Int))
      else some s.batch_size) = some (((min bs (total - (c + bs)) : Nat) : Int)) := by
    rw [hrow, hbs]
    by_cases h : ((c + bs : Nat) : Int) + (bs : Int) > (total : Int)
    · rw [if_pos h, int_checked_of_range _ (by omega) (by omega)]
      exact congrArg some (by omega)
    · rw [if_neg h]
      exact congrArg some (by omega)
  have hne : ((min bs (total - (c + bs)) : Nat) : Int) ≠ 0 := by omega
  obtain ⟨ret, s3, hrun, g1, g2, g3, g4, g5, g6⟩ := BufState.GetNextCentrolWord_defined
    { s with cursor := ((c + bs : Nat) : Int)
             len := ((min bs (total - (c + bs)) : Nat) : Int)
             central_word := -1, step := -1 } r rfl hw
  refine ⟨s3, ?_, g2, g1, g3.trans hrow, g4.trans hbs, ?_⟩
  · unfold BufState.GetNextBatch
    simp only [h1, h2, h3, hne, if_false, hrun, ne_eq, not_false_eq_true, if_true]
  · exact ⟨by rw [g5, g6]; exact hw.1, by rw [g6]; exact hw.2⟩

theorem BufState.batches_spec (bs total : Nat) (hpos : 0 < bs)
    (hbound : bs + total < 2 ^ 31) (k : Nat) :
    ∀ (s : BufState) (c : Nat) (draws : List Nat), s.batch_size = bs → s.cursor = c →
      s.len = ((min bs (total - c) : Nat) : Int) → s.row_num = total → s.Walkable →
      c < total → k * bs < total - c → total - c ≤ (k + 1) * bs → k + 1 ≤ draws.length →
      ∃ bl sf, s.batches draws = some (bl, true, sf) ∧
        bl = (List.range k).map (fun j =>
          (((c + (j + 1) * bs : Nat) : Int),
            ((min bs (total - (c + (j + 1) * bs)) : Nat) : Int))) ∧
        sf.cursor = total ∧ sf.row_num = total := by
  induction k with
  | zero =>
    intro s c draws hbs hcur hlen hrow _ hc _ hlast hdraws
    cases draws with
    | nil => exact absurd hdraws (by simp)
    | cons r rs =>
      have hl : total - c ≤ bs := by simpa using hlast
      have hgnb := BufState.GetNextBatch_last s bs total c r hbs hpos hbound hcur hlen hrow
        (by omega) hl
      refine ⟨[], { s with cursor := total }, ?_, rfl, rfl, hrow⟩
      simp only [BufState.batches, hgnb, if_true]
  | succ k ih =>
    intro s c draws hbs hcur hlen hrow hw hc hlow hup hdraws
    cases draws with
    | nil => exact absurd hdraws (by simp)
    | cons r rs =>
      have e1 : (k + 1) * bs = k * bs + bs := Nat.succ_mul k bs
      have e2 : (k + 1 + 1) * bs = (k + 1) * bs + bs := Nat.succ_mul (k + 1) bs
      obtain ⟨s1, hgnb, g1, g2, g3, g4, g5⟩ := BufState.GetNextBatch_more s bs total c r
        hbs hpos hbound hcur hlen hrow (by omega) hw
      obtain ⟨bl, sf, hrun, hbl, hf1, hf2⟩ := ih s1 (c + bs) rs g4 g1 g2 g3 g5
        (by omega) (by omega) (by omega) (by simpa using hdraws)
      refine ⟨(s1.cursor, s1.len) :: bl, sf, ?_, ?_, hf1, hf2⟩
      · simp only [BufState.batches, hgnb, hrun]
        rfl
      · rw [hbl, List.range_succ_eq_map, List.map_cons, List.map_map, g1, g2]
        congr 1
        · simp only [Nat.zero_add, Nat.one_mul]
        · apply List.map_congr_left
          intro j _
          have e3 : (j + 1 + 1) * bs = (j + 1) * bs + bs := Nat.succ_mul (j + 1) bs
          simp only [Function.comp, Nat.succ_eq_add_one]
          rw [show c + bs + (j + 1) * bs = c + (j + 1 + 1) * bs by omega]

theorem sum_chunks (bs : Nat) :
    ∀ (n total : Nat), total ≤ n * bs →
      ((List.range n).map (fun i => min bs (total - i * bs))).sum = total := by
  intro n
  induction n with
  | zero =>
    intro total h
    simp only [Nat.zero_mul, Nat.le_zero] at h
    simp [h]
  | succ n ih =>
    intro total h
    have e1 : (n + 1) * bs = n * bs + bs := Nat.succ_mul n bs
    rw [List.range_succ_eq_map, List.map_cons, List.map_map, List.sum_cons]
    have hfun : ((fun i => min bs (total - i * bs)) ∘ Nat.succ) =
        fun i => min bs (total - bs - i * bs) := by
      funext i
      have e2 : (i + 1) * bs = i * bs + bs := Nat.succ_mul i bs
      simp only [Function.comp, Nat.succ_eq_add_one]
      omega
    rw [hfun, ih (total - bs) (by omega)]
    simp only [Nat.zero_mul, Nat.sub_zero]
    omega

theorem ceil_div_spec (bs total : Nat) (hpos : 0 < bs) (ht : 0 < total) :
    1 ≤ (total + bs - 1) / bs ∧
    ((total + bs - 1) / bs - 1) * bs < total ∧ total ≤ (total + bs - 1) / bs * bs := by
  have h1 := Nat.div_add_mod (total + bs - 1) bs
  have h2 := Nat.mod_lt (total + bs - 1) hpos
  have hq1 : 1 ≤ (total + bs - 1) / bs := Nat.div_pos (by omega) hpos
  have h3 : ((total + bs - 1) / bs - 1) * bs + bs = (total + bs - 1) / bs * bs := by
    have : (total + bs - 1) / bs = ((total + bs - 1) / bs - 1) + 1 := by omega
    conv_rhs => rw [this]
    rw [Nat.add_mul, Nat.one_mul]
  have h4 : bs * ((total + bs - 1) / bs) = (total + bs - 1) / bs * bs := Nat.mul_comm _ _
  omega

/-- C37 as amended: for every `batch_size > 0` and `total_rows >= 0` with
`batch_size + total_rows < 2 ^ 31`, on a `BufState` whose window `GetNextCentrolWord` can
use: `Reset(total_rows)` returns; the calls of `GetNextBatch` return 1 until one returns 0,
and that call leaves `cursor == row_num`; the batches `(cursor, len)` seen after `Reset` and
after each call that returned 1 are `(i * batch_size, min(batch_size, total_rows - i *
batch_size))` for `i = 0, 1, ...`, that is `ceil(total_rows / batch_size)` batches, each
starting where the one before ends, with `1 <= len <= batch_size` and lengths that sum to
`total_rows` (for `total_rows = 0` the one batch seen after `Reset` has `len = 0`). -/
theorem buf_state_batches (s : BufState) (bs total r0 : Nat) (draws : List Nat)
    (hbs : s.batch_size = bs) (hpos : 0 < bs) (hbound : bs + total < 2 ^ 31)
    (hw : s.Walkable) (hdraws : max 1 ((total + bs - 1) / bs) ≤ draws.length) :
    ∃ s0 bl sf, s.Reset total r0 = some s0 ∧ s0.batches draws = some (bl, true, sf) ∧
      (s0.cursor, s0.len) :: bl =
        (List.range (max 1 ((total + bs - 1) / bs))).map (fun i =>
          (((i * bs : Nat) : Int), ((min bs (total - i * bs) : Nat) : Int))) ∧
      ((List.range ((total + bs - 1) / bs)).map
        (fun i => min bs (total - i * bs))).sum = total ∧
      (∀ i, i < (total + bs - 1) / bs →
        1 ≤ min bs (total - i * bs) ∧ min bs (total - i * bs) ≤ bs ∧
        i * bs + min bs (total - i * bs) = min total ((i + 1) * bs)) ∧
      sf.cursor = total ∧ sf.row_num = total := by
  obtain ⟨s0, hreset, hc0, hl0, hr0, hb0, hw0⟩ :=
    BufState.Reset_spec s bs total r0 hbs hbound hw
  by_cases ht : total = 0
  · subst ht
    have hn : (0 + bs - 1) / bs = 0 := Nat.div_eq_of_lt (by omega)
    cases draws with
    | nil => exact absurd hdraws (by simp)
    | cons r rs =>
      have hgnb := BufState.GetNextBatch_last s0 bs 0 0 r hb0 hpos hbound
        (by rw [hc0]; rfl) (by rw [hl0]) hr0 (Nat.le_refl 0) (by omega)
      refine ⟨s0, [], { s0 with cursor := ((0 : Nat) : Int) }, hreset, ?_, ?_, ?_, ?_, rfl,
        hr0⟩
      · simp only [BufState.batches, hgnb, if_true]
      · rw [hn, hc0, hl0]
        have hr : List.range (max 1 0) = [0] := rfl
        rw [hr, List.map_cons, List.map_nil, Nat.zero_mul, Nat.sub_zero]
        rfl
      · rw [hn]; rfl
      · intro i hi
        rw [hn] at hi
        exact absurd hi (Nat.not_lt_zero i)
  · obtain ⟨hq1, hlow, hup⟩ := ceil_div_spec bs total hpos (Nat.pos_of_ne_zero ht)
    have hmax : max 1 ((total + bs - 1) / bs) = ((total + bs - 1) / bs - 1) + 1 := by omega
    obtain ⟨bl, sf, hrun, hbl, hf1, hf2⟩ :=
      BufState.batches_spec bs total hpos hbound ((total + bs - 1) / bs - 1) s0 0 draws hb0
        (by rw [hc0]; rfl) (by rw [hl0]; rfl) hr0 hw0 (Nat.pos_of_ne_zero ht)
        (by omega)
        (by
          have : ((total + bs - 1) / bs - 1 + 1) = (total + bs - 1) / bs := by omega
          rw [this]; omega)
        (by omega)
    refine ⟨s0, bl, sf, hreset, hrun, ?_, sum_chunks bs _ total hup, ?_, hf1, hf2⟩
    · rw [hmax, hbl, List.range_succ_eq_map, List.map_cons, List.map_map, hc0, hl0]
      congr 1
      · simp only [Nat.zero_mul, Nat.sub_zero]
        rfl
      · apply List.map_congr_left
        intro j _
        simp only [Function.comp, Nat.succ_eq_add_one, Nat.zero_add]
    · intro i hi
      have e1 : (i + 1) * bs = i * bs + bs := Nat.succ_mul i bs
      have hle : i * bs ≤ ((total + bs - 1) / bs - 1) * bs :=
        Nat.mul_le_mul_right bs (by omega)
      omega

/-- The statement of C37 for batches of 2 rows and 5 rows in all: the batches are
`(0, 2)`, `(2, 2)`, `(4, 1)`, and the third call of `GetNextBatch` returns 0 with
`cursor = 5`. -/
theorem buf_state_batches_witness :
    ∃ s0 bl sf, BufState.example.Reset 5 0 = some s0 ∧
      s0.batches [0, 0, 0] = some (bl, true, sf) ∧
      (s0.cursor, s0.len) :: bl = [(0, 2), (2, 2), (4, 1)] ∧ sf.cursor = 5 := by
  obtain ⟨s0, bl, sf, h1, h2, h3, _, _, h6, _⟩ :=
    buf_state_batches BufState.example 2 5 0 [0, 0, 0] rfl (by decide) (by decide)
      ⟨Or.inl (by decide), fun w hw => absurd hw (List.not_mem_nil w)⟩ (by decide)
  exact ⟨s0, bl, sf, h1, h2, h3.trans (by decide), h6⟩

/-- C37 fails as stated: with `batch_size = total_rows = 2 ^ 31 - 1`, `Reset` gives the one
batch `(0, 2 ^ 31 - 1)`, and in the next call of `GetNextBatch` the sum
`cursor + batch_size` overflows `int`: the call is undefined instead of returning 0. -/
theorem buf_state_batches_counterexample :
    ((({ BufState.example with batch_size := 2 ^ 31 - 1 } : BufState).Reset
        (2 ^ 31 - 1) 0).map (fun s0 => (s0.cursor, s0.len, s0.row_num))) =
      some (0, 2 ^ 31 - 1, 2 ^ 31 - 1) ∧
    (match ({ BufState.example with batch_size := 2 ^ 31 - 1 } : BufState).Reset
        (2 ^ 31 - 1) 0 with
      | some s0 => s0.GetNextBatch 0
      | none => none) = none := by
  decide

/-- C38 on the code: with batches of 2 rows and 5 rows in all, the third call of
`GetNextBatch` after `Reset` returns 0, having moved `cursor` to 5 and left `len = 1`; the
fourth call moves `cursor` to 6, sets `len = -1` and returns 1; the fifth returns 0 again and
the sixth returns 1. -/
theorem GetNextBatch_after_exhaustion :
    (match BufState.example.Reset 5 0 with
      | some s0 => (s0.calls [0, 0, 0]).map (fun x => (x.1, x.2.cursor, x.2.len))
      | none => none) = some ([1, 1, 0], 5, 1) ∧
    (match BufState.example.Reset 5 0 with
      | some s0 => (s0.calls [0, 0, 0, 0]).map (fun x => (x.1, x.2.cursor, x.2.len))
      | none => none) = some ([1, 1, 0, 1], 6, -1) ∧
    (match BufState.example.Reset 5 0 with
      | some s0 => (s0.calls [0, 0, 0, 0, 0, 0]).map (fun x => x.1)
      | none => none) = some [1, 1, 0, 1, 0, 1] := by
  decide

theorem MultiSlotType.check_exclusive (m : MultiSlotType) (h : m.CheckFloat = true) :
    m.CheckUint64 = false := by
  unfold MultiSlotType.CheckFloat at h
  unfold MultiSlotType.CheckUint64
  have hf : m.type_.toList.head? = some 'f' := by simpa using h
  rw [hf]
  decide

theorem MultiSlotType.bufferInv_fresh : MultiSlotType.fresh.BufferInv :=
  ⟨fun _ => rfl, fun _ => rfl⟩

theorem MultiSlotType.Init_buffers_empty (m : MultiSlotType) (type : String) (n : Nat)
    (hinv : m.BufferInv) (hok : (m.Init type n).2 = .ok ()) :
    (m.Init type n).1.float_feasign_ = [] ∧ (m.Init type n).1.uint64_feasign_ = [] ∧
      (m.Init type n).1.type_ = type := by
  unfold MultiSlotType.Init at hok ⊢
  cases hc : MultiSlotType.CheckType type with
  | error e =>
    rw [hc] at hok
    exact absurd hok (by simp)
  | ok u =>
    simp only []
    cases hf : m.CheckFloat with
    | true =>
      have hu := MultiSlotType.check_exclusive m hf
      simp [hinv.2 hu]
    | false =>
      cases hu : m.CheckUint64 with
      | true =>
        simp [hinv.1 hf]
      | false =>
        simp [hinv.1 hf, hinv.2 hu]

theorem MultiSlotType.bufferInv_Init (m : MultiSlotType) (type : String) (n : Nat)
    (hinv : m.BufferInv) : (m.Init type n).1.BufferInv := by
  cases hr : (m.Init type n).2 with
  | ok u =>
    obtain ⟨h1, h2, _⟩ := MultiSlotType.Init_buffers_empty m type n hinv hr
    exact ⟨fun _ => h1, fun _ => h2⟩
  | error e =>
    have : (m.Init type n).1 = m := by
      unfold MultiSlotType.Init at hr ⊢
      cases hc : MultiSlotType.CheckType type with
      | error e1 => rfl
      | ok u =>
        rw [hc] at hr
        exact absurd hr (by simp)
    rw [this]
    exact hinv

theorem MultiSlotType.bufferInv_float (m : MultiSlotType) (fl : List Nat) (offs : List Nat)
    (hinv : m.BufferInv) (hf : m.CheckFloat = true) :
    ({ m with float_feasign_ := fl, offset_ := offs } : MultiSlotType).BufferInv := by
  refine ⟨fun h => ?_, fun h => hinv.2 h⟩
  exact absurd hf (by
    have h1 : m.CheckFloat = false := h
    rw [h1]; decide)

theorem MultiSlotType.bufferInv_uint64 (m : MultiSlotType) (ul : List Nat) (offs : List Nat)
    (hinv : m.BufferInv) (hu : m.CheckUint64 = true) :
    ({ m with uint64_feasign_ := ul, offset_ := offs } : MultiSlotType).BufferInv := by
  refine ⟨fun h => hinv.1 h, fun h => ?_⟩
  exact absurd hu (by
    have h1 : m.CheckUint64 = false := h
    rw [h1]; decide)

theorem MultiSlotType.bufferInv_AppendValues_float (m m1 : MultiSlotType) (input : List Nat)
    (hinv : m.BufferInv) (h : m.AppendValues_float input = some m1) : m1.BufferInv := by
  unfold MultiSlotType.AppendValues_float at h
  cases hf : m.CheckFloat with
  | false => rw [hf] at h; exact absurd h (by simp)
  | true =>
    rw [hf] at h
    simp only [if_true] at h
    cases hb : m.offset_.getLast? with
    | none => rw [hb] at h; exact absurd h (by simp)
    | some back =>
      rw [hb] at h
      simp only [Option.some.injEq] at h
      rw [← h]
      exact MultiSlotType.bufferInv_float m _ _ hinv hf

theorem MultiSlotType.bufferInv_AppendValues_uint64 (m m1 : MultiSlotType) (input : List Nat)
    (hinv : m.BufferInv) (h : m.AppendValues_uint64 input = some m1) : m1.BufferInv := by
  unfold MultiSlotType.AppendValues_uint64 at h
  cases hu : m.CheckUint64 with
  | false => rw [hu] at h; exact absurd h (by simp)
  | true =>
    rw [hu] at h
    simp only [if_true] at h
    cases hb : m.offset_.getLast? with
    | none => rw [hb] at h; exact absurd h (by simp)
    | some back =>
      rw [hb] at h
      simp only [Option.some.injEq] at h
      rw [← h]
      exact MultiSlotType.bufferInv_uint64 m _ _ hinv hu

theorem MultiSlotType.bufferInv_AddIns (m ins m1 : MultiSlotType)
    (hinv : m.BufferInv) (h : m.AddIns ins = some m1) : m1.BufferInv := by
  by_cases hf : ins.type_.toList.head? = some 'f'
  · have hc : ins.CheckFloat = true := by
      unfold MultiSlotType.CheckFloat; rw [hf]; rfl
    rw [(AddIns_eq_AppendValues m ins).2 hc] at h
    exact MultiSlotType.bufferInv_AppendValues_float m m1 _ hinv h
  · by_cases hu : ins.type_.toList.head? = some 'u'
    · have hcu : ins.CheckUint64 = true := by
        unfold MultiSlotType.CheckUint64; rw [hu]; rfl
      rw [(AddIns_eq_AppendValues m ins).1 hcu] at h
      exact MultiSlotType.bufferInv_AppendValues_uint64 m m1 _ hinv h
    · have hf1 : (ins.type_.toList.head? == some 'f') = false := by simpa using hf
      have hu1 : (ins.type_.toList.head? == some 'u') = false := by simpa using hu
      unfold MultiSlotType.AddIns at h
      rw [hf1, hu1] at h
      simp only [Bool.false_eq_true, if_false, Option.some.injEq] at h
      rw [← h]
      exact hinv

theorem MultiSlotType.bufferInv_call (m m1 : MultiSlotType) (c : MultiSlotCall)
    (hinv : m.BufferInv) (h : m.call c = some m1) : m1.BufferInv := by
  cases c with
  | Init type n =>
    simp only [MultiSlotType.call, Option.some.injEq] at h
    rw [← h]
    exact MultiSlotType.bufferInv_Init m type n hinv
  | InitOffset k =>
    simp only [MultiSlotType.call, Option.some.injEq] at h
    rw [← h]
    exact hinv
  | AddValue_float v =>
    simp only [MultiSlotType.call, Option.some.injEq] at h
    rw [← h]
    unfold MultiSlotType.AddValue_float
    cases hf : m.CheckFloat with
    | false => exact hinv
    | true => exact MultiSlotType.bufferInv_float m _ _ hinv hf
  | AddValue_uint64 v =>
    simp only [MultiSlotType.call, Option.some.injEq] at h
    rw [← h]
    unfold MultiSlotType.AddValue_uint64
    cases hu : m.CheckUint64 with
    | false => exact hinv
    | true => exact MultiSlotType.bufferInv_uint64 m _ _ hinv hu
  | CopyValues_float input =>
    simp only [MultiSlotType.call, Option.some.injEq] at h
    rw [← h]
    unfold MultiSlotType.CopyValues_float
    cases hf : m.CheckFloat with
    | false => exact hinv
    | true => exact MultiSlotType.bufferInv_float m _ _ hinv hf
  | CopyValues_uint64 input =>
    simp only [MultiSlotType.call, Option.some.injEq] at h
    rw [← h]
    unfold MultiSlotType.CopyValues_uint64
    cases hu : m.CheckUint64 with
    | false => exact hinv
    | true => exact MultiSlotType.bufferInv_uint64 m _ _ hinv hu
  | AddIns ins =>
    simp only [MultiSlotType.call] at h
    split at h
    · split at h
      · exact MultiSlotType.bufferInv_AddIns m ins m1 hinv h
      · rw [← Option.some.inj h]; exact hinv
    · split at h
      · split at h
        · exact MultiSlotType.bufferInv_AddIns m ins m1 hinv h
        · rw [← Option.some.inj h]; exact hinv
      · exact MultiSlotType.bufferInv_AddIns m ins m1 hinv h
  | AppendValues_uint64 input =>
    simp only [MultiSlotType.call] at h
    split at h
    · exact MultiSlotType.bufferInv_AppendValues_uint64 m m1 _ hinv h
    · rw [← Option.some.inj h]; exact hinv
  | AppendValues_float input =>
    simp only [MultiSlotType.call] at h
    split at h
    · exact MultiSlotType.bufferInv_AppendValues_float m m1 _ hinv h
    · rw [← Option.some.inj h]; exact hinv

theorem MultiSlotType.bufferInv_run (calls : List MultiSlotCall) :
    ∀ (m m1 : MultiSlotType), m.BufferInv → m.run calls = some m1 → m1.BufferInv := by
  induction calls with
  | nil =>
    intro m m1 hinv h
    simp only [MultiSlotType.run, List.foldlM_nil] at h
    rw [← Option.some.inj h]
    exact hinv
  | cons c cs ih =>
    intro m m1 hinv h
    simp only [MultiSlotType.run, List.foldlM_cons] at h
    cases hc : m.call c with
    | none =>
      rw [hc] at h
      exact absurd h (by simp)
    | some m2 =>
      rw [hc] at h
      exact ih m2 m1 (MultiSlotType.bufferInv_call m m2 c hinv hc) h

/-- C33: in every `MultiSlotType` state reached from a default-constructed object by calls
of `Init`, `InitOffset`, `AddValue`, `CopyValues`, `AddIns` and `AppendValues` (returning or
throwing), the float buffer is empty unless `type_` starts with `f` and the uint64 buffer is
empty unless `type_` starts with `u`, so that at most one buffer holds values; and every
`Init(t)` that returns on such a state leaves both buffers empty and `type_ == t`. -/
theorem multislot_type_buffers (calls : List MultiSlotCall) (m : MultiSlotType)
    (hrun : MultiSlotType.fresh.run calls = some m) :
    (m.CheckFloat = false → m.float_feasign_ = []) ∧
    (m.CheckUint64 = false → m.uint64_feasign_ = []) ∧
    (m.float_feasign_ = [] ∨ m.uint64_feasign_ = []) ∧
    ∀ (t : String) (n : Nat), (m.Init t n).2 = .ok () →
      (m.Init t n).1.float_feasign_ = [] ∧ (m.Init t n).1.uint64_feasign_ = [] ∧
        (m.Init t n).1.type_ = t := by
  have hinv := MultiSlotType.bufferInv_run calls MultiSlotType.fresh m
    MultiSlotType.bufferInv_fresh hrun
  refine ⟨hinv.1, hinv.2, ?_, ?_⟩
  · cases hf : m.CheckFloat with
    | false => exact Or.inl (hinv.1 hf)
    | true => exact Or.inr (hinv.2 (MultiSlotType.check_exclusive m hf))
  · intro t n hok
    exact MultiSlotType.Init_buffers_empty m t n hinv hok

/-- The statement of C33 on a float slot that received a value and was then initialised as a
uint64 slot and given a value: the float buffer is empty, and a further `Init("float")`
leaves both buffers empty. -/
theorem multislot_type_buffers_witness :
    MultiSlotType.fresh.run [.Init "float" 0, .AddValue_float 5, .AddValue_uint64 9,
        .Init "uint64" 0, .AddValue_uint64 7] = some ⟨[], [7], "uint64", []⟩ ∧
    (⟨[], [7], "uint64", []⟩ : MultiSlotType).float_feasign_ = [] ∧
    ((⟨[], [7], "uint64", []⟩ : MultiSlotType).Init "float" 0).1 = ⟨[], [], "float", []⟩ := by
  have hrun : MultiSlotType.fresh.run [.Init "float" 0, .AddValue_float 5, .AddValue_uint64 9,
      .Init "uint64" 0, .AddValue_uint64 7] = some ⟨[], [7], "uint64", []⟩ := by decide
  have h := multislot_type_buffers _ _ hrun
  exact ⟨hrun, h.1 (by decide), by decide⟩

theorem Heap.chain_length_le (h : Heap) (hwf : h.WF) (p : Nat) (l : List Nat)
    (hc : h.chain p l = true) : l.length ≤ h.brk := by
  have hnd := h.chain_nodup p l hc
  have hsub : l ⊆ List.range' 1 h.brk := by
    intro x hx
    obtain ⟨hx0, o, ho⟩ := h.chain_live p l hc x hx
    have hle := h.le_brk_of_live hwf x o ho
    rw [List.mem_range'_1]
    omega
  have := (List.subperm_of_subset hnd hsub).length_le
  rw [List.length_range'] at this
  exact this

theorem SlotObjAllocator.release_eq_put_loop (a : SlotObjAllocator) (h : Heap) (x : Nat) :
    a.release h x = SlotObjAllocator.put_loop [x] a h := by
  unfold SlotObjAllocator.release SlotObjAllocator.put_loop
  cases h.deref x with
  | none => rfl
  | some o => rfl

theorem SlotObjAllocator.clear_loop_spec (l : List Nat) :
    ∀ (fuel : Nat) (a : SlotObjAllocator) (h : Heap),
      h.chain a.free_nodes_ l = true → a.capacity_ = l.length → l.length < 2 ^ 64 →
      l.length ≤ fuel →
      ∃ h1, SlotObjAllocator.clear_loop fuel a h = some (⟨0, 0⟩, h1) ∧ h1.brk = h.brk ∧
        ∀ q, h1.objs q = if q ∈ l then none else h.objs q := by
  induction l with
  | nil =>
    intro fuel a h hc hcap _ _
    have hp := (h.chain_nil _).mp hc
    have ha : a = ⟨0, 0⟩ := by
      cases a
      simp only [List.length_nil] at hcap hp
      simp only [hcap, hp]
    refine ⟨h, ?_, rfl, fun q => by simp⟩
    cases fuel with
    | zero => simp only [SlotObjAllocator.clear_loop, hp, if_true, ha]
    | succ f => simp only [SlotObjAllocator.clear_loop, hp, if_true, ha]
  | cons x t ih =>
    intro fuel a h hc hcap hlt hfuel
    obtain ⟨hpx, o, ho, hrest⟩ := (h.chain_cons _ x t).mp hc
    obtain ⟨hx0, hox⟩ := (h.deref_eq_some x o).mp ho
    have hnd := h.chain_nodup _ _ hc
    obtain ⟨hxt, _⟩ := List.nodup_cons.mp hnd
    simp only [List.length_cons] at hcap hlt hfuel
    cases fuel with
    | zero => exact absurd hfuel (by omega)
    | succ f =>
      have hframe : ∀ b ∈ t,
          Heap.deref { h with objs := fun q => if q = x then none else h.objs q } b
            = h.deref b := by
        intro b hb
        have hbx : b ≠ x := fun e => hxt (e ▸ hb)
        simp only [Heap.deref, hbx, if_false]
      have hrest1 :
          Heap.chain { h with objs := fun q => if q = x then none else h.objs q }
            o.search_id t = true := by
        rw [Heap.chain_frame h _ _ _ hframe]
        exact hrest
      have hcap1 : (a.capacity_ + 2 ^ 64 - 1) % 2 ^ 64 = t.length := by
        rw [hcap]
        omega
      obtain ⟨h1, hrun, hb, hobjs⟩ :=
        ih f ⟨o.search_id, (a.capacity_ + 2 ^ 64 - 1) % 2 ^ 64⟩
          { h with objs := fun q => if q = x then none else h.objs q }
          hrest1 hcap1 (by omega) (by omega)
      refine ⟨h1, ?_, hb, ?_⟩
      · rw [SlotObjAllocator.clear_loop, if_neg (by rw [hpx]; exact hx0), hpx, ho]
        simp only [free_slotrecord, ho]
        exact hrun
      · intro q
        rw [hobjs q]
        by_cases hqt : q ∈ t
        · simp [hqt]
        · by_cases hqx : q = x
          · simp [hqx]
          · simp [hqt, hqx]

theorem AllocState.alloc_inv_init (h : Heap) (hwf : h.WF) (hbrk : h.brk < 2 ^ 64) :
    (AllocState.init h).Inv :=
  ⟨rfl, rfl, hwf, hbrk⟩

theorem AllocState.alloc_inv_put (s : AllocState) (data : List Nat) (hinv : s.Inv)
    (hnd : data.Nodup)
    (hlive : ∀ x ∈ data, x ≠ 0 ∧ (s.heap.objs x).isSome = true ∧ x ∉ s.free) :
    ∃ h1, SlotObjAllocator.put_loop data s.alloc s.heap =
        some (⟨(data.reverse ++ s.free).headD 0, s.free.length + data.length⟩, h1) ∧
      AllocState.Inv ⟨⟨(data.reverse ++ s.free).headD 0, s.free.length + data.length⟩, h1,
        data.reverse ++ s.free⟩ := by
  obtain ⟨hc, hcap, hwf, hbrk⟩ := hinv
  have hlive2 : ∀ x ∈ data, x ≠ 0 ∧ (∃ o, s.heap.objs x = some o) ∧ x ∉ s.free := by
    intro x hx
    obtain ⟨h0, h1, h2⟩ := hlive x hx
    exact ⟨h0, Option.isSome_iff_exists.mp h1, h2⟩
  obtain ⟨h1, hput, hch, hb, hother, _⟩ :=
    SlotObjAllocator.put_loop_spec data s.alloc s.heap s.free hc hcap hnd hlive2
  refine ⟨h1, hput, hch, by simp [Nat.add_comm], ⟨?_, ?_⟩, by rw [hb]; exact hbrk⟩
  · have h0 : (0 : Nat) ∉ data := fun h => (hlive2 0 h).1 rfl
    show h1.objs 0 = none
    rw [hother 0 h0]; exact hwf.1
  · intro q hq
    show h1.objs q = none
    have hq1 : s.heap.brk < q := by
      have : h1.brk < q := hq
      rw [hb] at this
      exact this
    have hqi : q ∉ data := by
      intro hqin
      obtain ⟨_, ⟨o, ho⟩, _⟩ := hlive2 q hqin
      have := s.heap.le_brk_of_live hwf q o ho
      omega
    rw [hother q hqi]; exact hwf.2 q hq1

theorem AllocState.alloc_inv_get (s : AllocState) (n : Nat) (hinv : s.Inv) :
    s.alloc.get s.heap n =
        some (s.free.take n, ⟨(s.free.drop n).headD 0, (s.free.drop n).length⟩) ∧
      AllocState.Inv ⟨⟨(s.free.drop n).headD 0, (s.free.drop n).length⟩, s.heap,
        s.free.drop (s.free.take n).length⟩ := by
  obtain ⟨hc, hcap, hwf, hbrk⟩ := hinv
  have hget := SlotObjAllocator.get_loop_chain s.heap n s.alloc [] s.free hc hcap
  rw [List.nil_append] at hget
  have hsuf : s.heap.chain ((s.free.drop n).headD 0) (s.free.drop n) = true := by
    apply s.heap.chain_suffix s.alloc.free_nodes_ (s.free.take n)
    rw [List.take_append_drop]
    exact hc
  have hdrop : s.free.drop (s.free.take n).length = s.free.drop n := by
    rw [List.length_take]
    by_cases hle : n ≤ s.free.length
    · rw [Nat.min_eq_left hle]
    · rw [Nat.min_eq_right (by omega), List.drop_of_length_le (Nat.le_refl _),
        List.drop_of_length_le (by omega)]
  refine ⟨hget, ?_, ?_, hwf, hbrk⟩
  · show s.heap.chain ((s.free.drop n).headD 0) (s.free.drop (s.free.take n).length) = true
    rw [hdrop]; exact hsuf
  · show (s.free.drop n).length = (s.free.drop (s.free.take n).length).length
    rw [hdrop]

theorem AllocState.alloc_inv_clear (s : AllocState) (hinv : s.Inv) :
    ∃ h1, s.alloc.clear s.heap = some (true, ⟨0, 0⟩, h1) ∧
      AllocState.Inv ⟨⟨0, 0⟩, h1, []⟩ ∧
      ∀ q, h1.objs q = if q ∈ s.free then none else s.heap.objs q := by
  obtain ⟨hc, hcap, hwf, hbrk⟩ := hinv
  have hlen := s.heap.chain_length_le hwf _ _ hc
  obtain ⟨h1, hrun, hb, hobjs⟩ :=
    SlotObjAllocator.clear_loop_spec s.free (s.heap.brk + 1) s.alloc s.heap hc hcap
      (by omega) (by omega)
  refine ⟨h1, ?_, ⟨rfl, rfl, ⟨?_, ?_⟩, by rw [hb]; exact hbrk⟩, hobjs⟩
  · simp only [SlotObjAllocator.clear, hrun]
    rfl
  · show h1.objs 0 = none
    rw [hobjs 0]
    split
    · rfl
    · exact hwf.1
  · intro q hq
    show h1.objs q = none
    have hq1 : s.heap.brk < q := by
      have : h1.brk < q := hq
      rw [hb] at this
      exact this
    rw [hobjs q]
    split
    · rfl
    · exact hwf.2 q hq1

theorem AllocState.alloc_inv_acquire (s : AllocState) (hinv : s.Inv)
    (hpos : 0 < s.alloc.capacity) :
    ∃ x a1, s.alloc.acquire s.heap = some (x, a1) ∧ s.free.head? = some x ∧
      AllocState.Inv ⟨a1, s.heap, s.free.tail⟩ := by
  obtain ⟨hc, hcap, hwf, hbrk⟩ := hinv
  have hlen := s.heap.chain_length_le hwf _ _ hc
  unfold SlotObjAllocator.capacity at hpos
  cases hl : s.free with
  | nil =>
    rw [hl] at hcap
    simp only [List.length_nil] at hcap
    omega
  | cons x t =>
    rw [hl] at hc hcap hlen
    obtain ⟨hpx, o, ho, hrest⟩ := (s.heap.chain_cons _ x t).mp hc
    simp only [List.length_cons] at hcap hlen
    refine ⟨x, ⟨o.search_id, (s.alloc.capacity_ + 2 ^ 64 - 1) % 2 ^ 64⟩, ?_, rfl, ?_⟩
    · unfold SlotObjAllocator.acquire
      rw [hpx, ho]
    · refine ⟨hrest, ?_, hwf, hbrk⟩
      show (s.alloc.capacity_ + 2 ^ 64 - 1) % 2 ^ 64 = t.length
      rw [hcap]
      omega

theorem AllocState.alloc_step_inv (s : AllocState) (c : AllocCall) (hinv : s.Inv)
    (hallowed : s.AllowedCall c) : ∃ s1, s.step c = some s1 ∧ s1.Inv := by
  cases c with
  | release x =>
    obtain ⟨h1, hput, hinv1⟩ := AllocState.alloc_inv_put s [x] hinv (List.nodup_singleton x)
      (by
        intro y hy
        rw [List.mem_singleton] at hy
        subst hy
        exact hallowed)
    refine ⟨_, ?_, hinv1⟩
    simp only [AllocState.step, SlotObjAllocator.release_eq_put_loop, hput]
    rfl
  | put data =>
    obtain ⟨h1, hput, hinv1⟩ := AllocState.alloc_inv_put s data hinv hallowed.1 hallowed.2
    refine ⟨_, ?_, hinv1⟩
    simp only [AllocState.step, SlotObjAllocator.put, hput]
  | get n =>
    obtain ⟨hget, hinv1⟩ := AllocState.alloc_inv_get s n hinv
    refine ⟨_, ?_, hinv1⟩
    simp only [AllocState.step, hget]
  | clear =>
    obtain ⟨h1, hclear, hinv1, _⟩ := AllocState.alloc_inv_clear s hinv
    refine ⟨_, ?_, hinv1⟩
    simp only [AllocState.step, hclear]
  | acquire =>
    obtain ⟨x, a1, hacq, _, hinv1⟩ := AllocState.alloc_inv_acquire s hinv hallowed
    refine ⟨_, ?_, hinv1⟩
    simp only [AllocState.step, hacq]

theorem AllocState.alloc_exec_inv (calls : List AllocCall) :
    ∀ (s : AllocState), s.Inv → s.Allowed calls = true →
      ∃ s1, s.exec calls = some s1 ∧ s1.Inv := by
  induction calls with
  | nil =>
    intro s hinv _
    exact ⟨s, rfl, hinv⟩
  | cons c cs ih =>
    intro s hinv hallowed
    simp only [AllocState.Allowed, Bool.and_eq_true, decide_eq_true_eq] at hallowed
    obtain ⟨hc, hrest⟩ := hallowed
    obtain ⟨s1, hstep, hinv1⟩ := AllocState.alloc_step_inv s c hinv hc
    rw [hstep] at hrest
    obtain ⟨s2, hexec, hinv2⟩ := ih s1 hinv1 hrest
    exact ⟨s2, by simp only [AllocState.exec, hstep, hexec], hinv2⟩

theorem Heap.example3_WF : Heap.example3.WF := by
  refine ⟨by decide, ?_⟩
  intro p hp
  have hp3 : 3 < p := hp
  simp only [Heap.example3]
  rw [if_neg (by omega), if_neg (by omega), if_neg (by omega)]

theorem readRaw_length (sz n : Nat) : ∀ bs : List Nat, (readRaw sz n bs).length = n := by
  induction n with
  | zero => intro bs; rfl
  | succ n ih => intro bs; simp [readRaw, ih]

theorem vec_overwrite_all {α : Type} (xs new : List α) (h : xs.length = new.length) :
    vec_overwrite xs 0 new = new := by
  unfold vec_overwrite
  rw [List.take_zero, List.nil_append, Nat.zero_add, List.drop_of_length_le (by omega),
    List.append_nil]

theorem vec_resize_head (o : List Nat) (k : Nat) (hk : 0 < k) :
    ∃ L, vec_resize o k 0 = o.headD 0 :: L ∧ L.length = k - 1 := by
  obtain ⟨j, rfl⟩ : ∃ j, k = j + 1 := ⟨k - 1, by omega⟩
  cases o with
  | nil =>
    refine ⟨List.replicate j 0, ?_, by simp⟩
    simp [vec_resize, List.replicate_succ]
  | cons a t =>
    refine ⟨t.take j ++ List.replicate (j + 1 - (t.length + 1)) 0, ?_, ?_⟩
    · simp [vec_resize]
    · simp only [List.length_append, List.length_take, List.length_replicate]
      omega

theorem offsets_fill (o m : List Nat) (vl k : Nat) (hk : 2 < k) (hm : m.length = k - 2) :
    (vec_overwrite (vec_resize o k 0) 1 m).set (k - 1) vl = o.headD 0 :: (m ++ [vl]) := by
  obtain ⟨L, hL, hlen⟩ := vec_resize_head o k (by omega)
  rw [hL]
  unfold vec_overwrite
  have hdrop : ∃ z, (o.headD 0 :: L).drop (1 + m.length) = [z] := by
    have hl1 : ((o.headD 0 :: L).drop (1 + m.length)).length = 1 := by
      rw [List.length_drop, List.length_cons]
      omega
    cases hd : (o.headD 0 :: L).drop (1 + m.length) with
    | nil => rw [hd] at hl1; simp at hl1
    | cons z zs =>
      rw [hd] at hl1
      simp only [List.length_cons] at hl1
      have : zs = [] := List.length_eq_zero.mp (by omega)
      exact ⟨z, by rw [this]⟩
  obtain ⟨z, hz⟩ := hdrop
  rw [hz]
  have htake : (o.headD 0 :: L).take 1 = [o.headD 0] := by simp
  rw [htake]
  have hidx : k - 1 = ([o.headD 0] ++ m).length := by
    simp only [List.length_append, List.length_singleton]
    omega
  rw [hidx, List.set_append_right _ _ (Nat.le_refl _), Nat.sub_self]
  rfl

theorem archive_in_offsets_general (M rest offsets : List Nat) (n k : Nat)
    (hM : M.length = (k - 2) * 4) :
    SlotValues.archive_in_offsets ⟨(if 2 < k then M else []) ++ rest⟩ offsets n k =
      some (⟨rest⟩,
        if k = 0 then offsets
        else if k = 1 then [n]
        else offsets.headD 0 :: ((if 2 < k then readRaw 4 (k - 2) M else []) ++ [n])) := by
  unfold SlotValues.archive_in_offsets
  by_cases h0 : k = 0
  · subst h0
    simp
  · rw [if_pos (by omega), if_neg h0]
    by_cases h2 : 2 < k
    · have hread : Archive.Read ⟨M ++ rest⟩ ((k - 2) * 4) = some (M, ⟨rest⟩) :=
        Archive.Read_append _ _ _ hM.symm
      simp only [if_pos h2, hread]
      rw [offsets_fill offsets _ n k h2 (readRaw_length 4 (k - 2) M), if_neg (by omega)]
    · simp only [if_neg h2, List.nil_append]
      obtain ⟨L, hL, hlen⟩ := vec_resize_head offsets k (by omega)
      rw [hL]
      by_cases h1 : k = 1
      · subst h1
        have : L = [] := List.length_eq_zero.mp (by omega)
        subst this
        simp
      · have hk2 : k = 2 := by omega
        subst hk2
        rw [if_neg (by omega)]
        cases L with
        | nil => simp at hlen
        | cons z zs =>
          have : zs = [] := List.length_eq_zero.mp (by simpa using hlen)
          subst this
          simp

theorem archive_in_general (sz n k : Nat) (V M rest : List Nat) (r : SlotValues Nat)
    (hn : n < 2 ^ 32) (hk : k < 2 ^ 16) (hV : V.length = n * sz)
    (hM : M.length = (k - 2) * 4) :
    SlotValues.archive_in sz
        ⟨leBytes 4 n ++ (V ++ (leBytes 2 k ++ ((if 2 < k then M else []) ++ rest)))⟩ r =
      some (⟨rest⟩,
        ⟨if 0 < n then readRaw sz n V else r.slot_values,
         if k = 0 then r.slot_offsets
         else if k = 1 then [n]
         else r.slot_offsets.headD 0 ::
           ((if 2 < k then readRaw 4 (k - 2) M else []) ++ [n])⟩) := by
  have hget4 := Archive.get_put 4 n
    (V ++ (leBytes 2 k ++ ((if 2 < k then M else []) ++ rest))) (by norm_num; omega)
  have hget2 := Archive.get_put 2 k ((if 2 < k then M else []) ++ rest)
    (by norm_num; omega)
  have hoffs := archive_in_offsets_general M rest r.slot_offsets n k hM
  simp only [SlotValues.archive_in, hget4]
  by_cases hz : 0 < n
  · have hread : Archive.Read ⟨V ++ (leBytes 2 k ++ ((if 2 < k then M else []) ++ rest))⟩
        (n * sz) = some (V, ⟨leBytes 2 k ++ ((if 2 < k then M else []) ++ rest)⟩) :=
      Archive.Read_append _ _ _ hV.symm
    simp only [if_pos hz, hread, hget2, hoffs]
    rw [vec_overwrite_all _ _
      ((vec_resize_length _ _ _).trans (readRaw_length sz n V).symm)]
  · have hVnil : V = [] := List.length_eq_zero.mp (by
      have : n = 0 := by omega
      rw [hV, this, Nat.zero_mul])
    subst hVnil
    simp only [if_neg hz, List.nil_append, hget2, hoffs]

theorem archive_out_buffer_wrapped (sz : Nat) (s : SlotValues Nat) :
    (SlotValues.archive_out sz ⟨[]⟩ s).buffer =
      leBytes 4 (to_uint32 s.slot_values.length) ++
        (rawBytes sz (s.slot_values.take (to_uint32 s.slot_values.length)) ++
          (leBytes 2 (to_uint16 s.slot_offsets.length) ++
            (if 2 < to_uint16 s.slot_offsets.length then
              rawBytes 4 ((s.slot_offsets.drop 1).take (to_uint16 s.slot_offsets.length - 2))
             else []))) := by
  simp only [SlotValues.archive_out, Archive.put, Archive.Write]
  by_cases hz : 0 < to_uint32 s.slot_values.length
  · by_cases h3 : 2 < to_uint16 s.slot_offsets.length <;> simp [hz, h3]
  · have h0 : to_uint32 s.slot_values.length = 0 := by omega
    by_cases h3 : 2 < to_uint16 s.slot_offsets.length <;> simp [h0, h3, rawBytes]

theorem archive_in_of_out (sz : Nat) (s : SlotValues Nat) (rest : List Nat) :
    ∃ vals mid,
      vals.length = to_uint32 s.slot_values.length ∧
      mid.length = to_uint16 s.slot_offsets.length - 2 ∧
      ∀ r : SlotValues Nat,
      SlotValues.archive_in sz ⟨(SlotValues.archive_out sz ⟨[]⟩ s).buffer ++ rest⟩ r =
        some (⟨rest⟩,
          ⟨if 0 < to_uint32 s.slot_values.length then vals else r.slot_values,
           if to_uint16 s.slot_offsets.length = 0 then r.slot_offsets
           else if to_uint16 s.slot_offsets.length = 1 then
             [to_uint32 s.slot_values.length]
           else r.slot_offsets.headD 0 ::
             (mid ++ [to_uint32 s.slot_values.length])⟩) := by
  have hn : to_uint32 s.slot_values.length < 2 ^ 32 := Nat.mod_lt _ (by norm_num)
  have hk : to_uint16 s.slot_offsets.length < 2 ^ 16 := Nat.mod_lt _ (by norm_num)
  have hnle : to_uint32 s.slot_values.length ≤ s.slot_values.length := Nat.mod_le _ _
  have hkle : to_uint16 s.slot_offsets.length ≤ s.slot_offsets.length := Nat.mod_le _ _
  have hV : (rawBytes sz (s.slot_values.take (to_uint32 s.slot_values.length))).length =
      to_uint32 s.slot_values.length * sz := by
    rw [rawBytes_length, List.length_take, Nat.min_eq_left hnle]
  have hM : (rawBytes 4
      ((s.slot_offsets.drop 1).take (to_uint16 s.slot_offsets.length - 2))).length =
      (to_uint16 s.slot_offsets.length - 2) * 4 := by
    rw [rawBytes_length, List.length_take, List.length_drop, Nat.min_eq_left (by omega)]
  refine ⟨readRaw sz (to_uint32 s.slot_values.length)
      (rawBytes sz (s.slot_values.take (to_uint32 s.slot_values.length))),
    if 2 < to_uint16 s.slot_offsets.length then
      readRaw 4 (to_uint16 s.slot_offsets.length - 2)
        (rawBytes 4 ((s.slot_offsets.drop 1).take (to_uint16 s.slot_offsets.length - 2)))
    else [], readRaw_length _ _ _, ?_, ?_⟩
  · split
    · exact readRaw_length _ _ _
    · simp only [List.length_nil]; omega
  · intro r
    have hgen := archive_in_general sz _ _ _ _ rest r hn hk hV hM
    rw [archive_out_buffer_wrapped]
    simp only [List.append_assoc]
    exact hgen

/-- C31 as amended: for every byte stream written by `operator<<` from a `SlotValues<T>` `s`
whose written counts are not zero (`value_len`, the number of values as a `uint32_t`, and
`slot_num`, the number of offsets as a `uint16_t`) and every two targets `r1` and `r2`
whose `slot_offsets` start with the same entry (a target without offsets counting as
starting with 0; so every two targets that are empty or satisfy the ragged invariant),
`operator>>` returns and leaves `r1` and `r2` with identical `slot_values` and
`slot_offsets`: `value_len` values and `slot_num` offsets, the last one `value_len`. -/
theorem archive_in_target_independent (sz : Nat) (s r1 r2 : SlotValues Nat)
    (rest : List Nat)
    (hv : 0 < to_uint32 s.slot_values.length) (hk : 0 < to_uint16 s.slot_offsets.length)
    (hhead : r1.slot_offsets.headD 0 = r2.slot_offsets.headD 0) :
    ∃ t, SlotValues.archive_in sz
          ⟨(SlotValues.archive_out sz ⟨[]⟩ s).buffer ++ rest⟩ r1 = some (⟨rest⟩, t) ∧
      SlotValues.archive_in sz
          ⟨(SlotValues.archive_out sz ⟨[]⟩ s).buffer ++ rest⟩ r2 = some (⟨rest⟩, t) ∧
      t.slot_values.length = to_uint32 s.slot_values.length ∧
      t.slot_offsets.length = to_uint16 s.slot_offsets.length ∧
      t.slot_offsets.getLast? = some (to_uint32 s.slot_values.length) := by
  obtain ⟨vals, mid, hvals, hmid, hin⟩ := archive_in_of_out sz s rest
  have h1 := hin r1
  have h2 := hin r2
  rw [if_pos hv, if_neg (by omega)] at h1 h2
  rw [← hhead] at h2
  refine ⟨_, h1, h2, hvals, ?_, ?_⟩
  · by_cases hone : to_uint16 s.slot_offsets.length = 1
    · simp only [if_pos hone, List.length_singleton]
      exact hone.symm
    · show (if to_uint16 s.slot_offsets.length = 1 then [to_uint32 s.slot_values.length]
          else r1.slot_offsets.headD 0 :: (mid ++ [to_uint32 s.slot_values.length])).length
          = to_uint16 s.slot_offsets.length
      rw [if_neg hone, List.length_cons, List.length_append, List.length_singleton, hmid]
      omega
  · by_cases hone : to_uint16 s.slot_offsets.length = 1
    · simp only [if_pos hone]
      rfl
    · simp only [if_neg hone]
      rw [← List.cons_append, List.getLast?_append]
      rfl

/-- The statement of C31 on a storage with three slots, read into a target that holds a slot
of two values and into an empty target. -/
theorem archive_in_target_independent_witness :
    ∃ t, SlotValues.archive_in 8
          ⟨(SlotValues.archive_out 8 ⟨[]⟩ ⟨[7, 9, 11], [0, 1, 1, 3]⟩).buffer ++ [42]⟩
          ⟨[1, 2], [0, 2]⟩ = some (⟨[42]⟩, t) ∧
      SlotValues.archive_in 8
          ⟨(SlotValues.archive_out 8 ⟨[]⟩ ⟨[7, 9, 11], [0, 1, 1, 3]⟩).buffer ++ [42]⟩
          SlotValues.empty = some (⟨[42]⟩, t) ∧
      t.slot_values.length = to_uint32 3 ∧
      t.slot_offsets.length = to_uint16 4 ∧
      t.slot_offsets.getLast? = some (to_uint32 3) :=
  archive_in_target_independent 8 ⟨[7, 9, 11], [0, 1, 1, 3]⟩ ⟨[1, 2], [0, 2]⟩
    SlotValues.empty [42] (by decide) (by decide) rfl

/-- C31 fails as stated: the stream written from an empty `SlotValues` leaves a target that
holds the values `[1, 2]` with offsets `[0, 2]` as it was, and an empty target empty; the
stream written from one empty slot (offsets `[0, 0]`) leaves the same target with its old
values `[1, 2]` and the offsets `[0, 0]`, and an empty target with no values. -/
theorem archive_in_target_independent_counterexample :
    SlotValues.archive_in 8 ⟨(SlotValues.archive_out 8 ⟨[]⟩ SlotValues.empty).buffer⟩
        ⟨[1, 2], [0, 2]⟩ = some (⟨[]⟩, ⟨[1, 2], [0, 2]⟩) ∧
    SlotValues.archive_in 8 ⟨(SlotValues.archive_out 8 ⟨[]⟩ SlotValues.empty).buffer⟩
        SlotValues.empty = some (⟨[]⟩, SlotValues.empty) ∧
    SlotValues.archive_in 8 ⟨(SlotValues.archive_out 8 ⟨[]⟩ ⟨[], [0, 0]⟩).buffer⟩
        ⟨[1, 2], [0, 2]⟩ = some (⟨[]⟩, ⟨[1, 2], [0, 0]⟩) ∧
    SlotValues.archive_in 8 ⟨(SlotValues.archive_out 8 ⟨[]⟩ ⟨[], [0, 0]⟩).buffer⟩
        SlotValues.empty = some (⟨[]⟩, ⟨[], [0, 0]⟩) := by
  decide

theorem to_int_of_range (x : Int) (h1 : -(2 ^ 31) ≤ x) (h2 : x < 2 ^ 31) : to_int x = x := by
  unfold to_int
  omega

theorem uint32_add_int_of_range (o : Nat) (d : Int) (r : Nat) (h : (o : Int) + d = r)
    (hr : r < 2 ^ 32) : uint32_add_int o d = r := by
  unfold uint32_add_int
  rw [h]
  omega

theorem slot_offsets_of_length {T : Type} (S : List (List T)) :
    (slot_offsets_of S).length = S.length + 1 := by
  simp [slot_offsets_of]

theorem slot_offsets_of_getElem? {T : Type} (S : List (List T)) (j : Nat)
    (hj : j ≤ S.length) :
    (slot_offsets_of S)[j]? = some ((S.take j).flatten.length) := by
  unfold slot_offsets_of
  rw [List.getElem?_map, List.getElem?_range (by omega)]
  rfl

theorem flatten_split {T : Type} (S : List (List T)) (idx : Nat) (h : idx < S.length) :
    S.flatten = (S.take idx).flatten ++ (S[idx] ++ (S.drop (idx + 1)).flatten) := by
  have hS : S = S.take idx ++ S[idx] :: S.drop (idx + 1) := by
    rw [← List.drop_eq_getElem_cons h, List.take_append_drop]
  conv_lhs => rw [hS]
  rw [List.flatten_append, List.flatten_cons]

theorem flatten_length_set {T : Type} (S : List (List T)) (idx : Nat) (v : List T)
    (h : idx < S.length) :
    (S.set idx v).flatten.length + S[idx].length = S.flatten.length + v.length := by
  induction S generalizing idx with
  | nil => simp at h
  | cons a S ih =>
    cases idx with
    | zero =>
      simp only [List.set_cons_zero, List.flatten_cons, List.length_append,
        List.getElem_cons_zero]
      omega
    | succ idx =>
      have h1 : idx < S.length := by simpa using h
      have := ih idx h1
      simp only [List.set_cons_succ, List.flatten_cons, List.length_append,
        List.getElem_cons_succ]
      omega

theorem take_flatten_length_le {T : Type} (S : List (List T)) (j : Nat) :
    (S.take j).flatten.length ≤ S.flatten.length := by
  conv_rhs => rw [← List.take_append_drop j S]
  rw [List.flatten_append, List.length_append]
  omega

theorem take_flatten_length_mono {T : Type} (S : List (List T)) (j k : Nat) (h : j ≤ k) :
    (S.take j).flatten.length ≤ (S.take k).flatten.length := by
  have : S.take j = (S.take k).take j := by
    rw [List.take_take, Nat.min_eq_left h]
  rw [this]
  exact take_flatten_length_le _ _

theorem take_set_of_le {T : Type} (S : List T) (idx j : Nat) (v : T) (h : j ≤ idx) :
    (S.set idx v).take j = S.take j := by
  rw [List.set_take, List.set_eq_of_length_le]
  rw [List.length_take]
  omega

/-- The effect of one erase-and-insert on the storage of the slots `S`. -/
theorem splice_ofSlots (S : List (List Nat)) (idx : Nat) (v : List Nat)
    (h : idx < S.length) (hnew : (S.set idx v).flatten.length < 2 ^ 32) :
    ∃ b e, (slot_offsets_of S)[idx]? = some b ∧ (slot_offsets_of S)[idx + 1]? = some e ∧
      b ≤ e ∧ e ≤ S.flatten.length ∧ e - b = S[idx].length ∧
      (S.flatten.drop b).take (e - b) = S[idx] ∧
      (S.flatten.take b ++ S.flatten.drop e).take b ++ v ++
        (S.flatten.take b ++ S.flatten.drop e).drop b = (S.set idx v).flatten ∧
      FeasignValuesReplacer.shift_offsets (slot_offsets_of S) idx
        ((v.length : Int) - (S[idx].length : Int)) = slot_offsets_of (S.set idx v) := by
  obtain ⟨hspan, hlen⟩ := flatten_span S idx h
  refine ⟨(S.take idx).flatten.length, (S.take (idx + 1)).flatten.length,
    slot_offsets_of_getElem? S idx (by omega), slot_offsets_of_getElem? S (idx + 1) (by omega),
    by omega, take_flatten_length_le _ _, by omega, ?_, ?_, ?_⟩
  · rw [hlen, Nat.add_sub_cancel_left]
    exact hspan
  · have hsplit := flatten_split S idx h
    have hsplit2 := flatten_split (S.set idx v) idx (by rw [List.length_set]; exact h)
    rw [take_set_of_le _ _ _ _ (Nat.le_refl idx), List.drop_set_of_lt _ _ (Nat.lt_succ_self idx),
      List.getElem_set_self] at hsplit2
    rw [hsplit2, hlen]
    have htake : S.flatten.take (S.take idx).flatten.length = (S.take idx).flatten := by
      conv_lhs => rw [hsplit]
      rw [List.take_left']
      rfl
    have hdrop : S.flatten.drop ((S.take idx).flatten.length + S[idx].length)
        = (S.drop (idx + 1)).flatten := by
      conv_lhs => rw [hsplit]
      rw [← List.append_assoc, List.drop_left']
      rw [List.length_append]
    rw [htake, hdrop, List.take_left' rfl, List.drop_left' rfl, List.append_assoc]
  · apply List.ext_getElem?
    intro j
    unfold FeasignValuesReplacer.shift_offsets
    have hlen1 : ((slot_offsets_of S).take (idx + 1)).length = idx + 1 := by
      rw [List.length_take, slot_offsets_of_length]
      omega
    by_cases hj : j < idx + 1
    · rw [List.getElem?_append_left (by omega), List.getElem?_take_of_lt hj,
        slot_offsets_of_getElem? S j (by omega),
        slot_offsets_of_getElem? (S.set idx v) j (by rw [List.length_set]; omega),
        take_set_of_le _ _ _ _ (by omega)]
    · rw [List.getElem?_append_right (by omega), hlen1, List.getElem?_map,
        List.getElem?_drop, show idx + 1 + (j - (idx + 1)) = j from by omega]
      by_cases hjn : j ≤ S.length
      · rw [slot_offsets_of_getElem? S j hjn,
          slot_offsets_of_getElem? (S.set idx v) j (by rw [List.length_set]; exact hjn),
          List.set_take]
        have hL : idx < (S.take j).length := by
          rw [List.length_take]
          omega
        have hset := flatten_length_set (S.take j) idx v hL
        rw [List.getElem_take] at hset
        have hle : ((S.take j).set idx v).flatten.length ≤ (S.set idx v).flatten.length := by
          rw [← List.set_take]
          exact take_flatten_length_le _ _
        simp only [Option.map_some']
        exact congrArg some (uint32_add_int_of_range _ _ _ (by omega) (by omega))
      · rw [List.getElem?_eq_none (by rw [slot_offsets_of_length]; omega),
          List.getElem?_eq_none
            (by rw [slot_offsets_of_length, List.length_set]; omega)]
        rfl

theorem getElem_length_le_flatten {T : Type} (S : List (List T)) (idx : Nat)
    (h : idx < S.length) : S[idx].length ≤ S.flatten.length :=
  length_le_flatten_length S _ (List.getElem_mem h)

theorem set_length_le_flatten {T : Type} (S : List (List T)) (idx : Nat) (v : List T)
    (h : idx < S.length) : v.length ≤ (S.set idx v).flatten.length := by
  have hl : idx < (S.set idx v).length := by rw [List.length_set]; exact h
  have := getElem_length_le_flatten (S.set idx v) idx hl
  rw [List.getElem_set_self] at this
  exact this

theorem int_diff_checked (a b : Nat) (ha : a < 2 ^ 31) (hb : b < 2 ^ 31) :
    int_checked (to_int (a : Int) - to_int (b : Int)) = some ((a : Int) - (b : Int)) := by
  rw [to_int_of_range _ (by omega) (by omega), to_int_of_range _ (by omega) (by omega)]
  unfold int_checked
  rw [if_pos ⟨by omega, by omega⟩]

theorem splice_ofSlots_fields (S : List (List Nat)) (idx : Nat) (v : List Nat)
    (h : idx < S.length) (hnew : (S.set idx v).flatten.length < 2 ^ 32) :
    ∃ b e, (SlotValues.ofSlots S).slot_offsets[idx]? = some b ∧
      (SlotValues.ofSlots S).slot_offsets[idx + 1]? = some e ∧
      (b ≤ e ∧ e ≤ (SlotValues.ofSlots S).slot_values.length) ∧ e - b = S[idx].length ∧
      ((SlotValues.ofSlots S).slot_values.drop b).take (e - b) = S[idx] ∧
      ((SlotValues.ofSlots S).slot_values.take b ++
          (SlotValues.ofSlots S).slot_values.drop e).take b ++ v ++
        ((SlotValues.ofSlots S).slot_values.take b ++
          (SlotValues.ofSlots S).slot_values.drop e).drop b = (S.set idx v).flatten ∧
      FeasignValuesReplacer.shift_offsets (SlotValues.ofSlots S).slot_offsets idx
        ((v.length : Int) - (S[idx].length : Int)) = slot_offsets_of (S.set idx v) := by
  obtain ⟨b, e, hb, he, hbe, hel, hdis, hsaved, hins, hshift⟩ :=
    splice_ofSlots S idx v h hnew
  exact ⟨b, e, hb, he, ⟨hbe, hel⟩, hdis, hsaved, hins, hshift⟩

theorem FeasignValuesReplacer.replace_body_ofSlots (vals : Nat → Option (List Nat))
    (st : ReplaceState) (S : List (List Nat)) (i idx : Nat) (v : List Nat)
    (hfea : st.fea = SlotValues.ofSlots S)
    (hfv : st.feasign_values_[i]? = some []) (hv : vals idx = some v) (h : idx < S.length)
    (hold : S.flatten.length < 2 ^ 31) (hnew : (S.set idx v).flatten.length < 2 ^ 31) :
    FeasignValuesReplacer.replace_body vals st i idx =
      some ⟨st.feasign_values_.set i S[idx], SlotValues.ofSlots (S.set idx v),
        to_int (st.del_num + S[idx].length), to_int (st.add_num + v.length)⟩ := by
  obtain ⟨b, e, hb, he, hrange, hdis, hsaved, hins, hshift⟩ :=
    splice_ofSlots_fields S idx v h (by omega)
  have h1 := getElem_length_le_flatten S idx h
  have h2 := set_length_le_flatten S idx v h
  have hdiff := int_diff_checked v.length S[idx].length (by omega) (by omega)
  unfold FeasignValuesReplacer.replace_body
  rw [hfea, hb, Option.some_bind, he, Option.some_bind, hfv, Option.some_bind,
    if_pos hrange, hv, Option.some_bind, List.append_nil, hsaved, hdiff, Option.map_some',
    hins, hshift]
  rfl

theorem FeasignValuesReplacer.replace_back_body_ofSlots
    (st : ReplaceState) (S : List (List Nat)) (i idx : Nat) (v : List Nat)
    (hfea : st.fea = SlotValues.ofSlots S)
    (hfv : st.feasign_values_[i]? = some v) (h : idx < S.length)
    (hold : S.flatten.length < 2 ^ 31) (hnew : (S.set idx v).flatten.length < 2 ^ 31) :
    FeasignValuesReplacer.replace_back_body st i idx =
      some ⟨st.feasign_values_, SlotValues.ofSlots (S.set idx v),
        to_int (st.del_num + S[idx].length), to_int (st.add_num + v.length)⟩ := by
  obtain ⟨b, e, hb, he, hrange, hdis, hsaved, hins, hshift⟩ :=
    splice_ofSlots_fields S idx v h (by omega)
  have h1 := getElem_length_le_flatten S idx h
  have h2 := set_length_le_flatten S idx v h
  have hdiff := int_diff_checked v.length S[idx].length (by omega) (by omega)
  unfold FeasignValuesReplacer.replace_back_body
  rw [hfea, hb, Option.some_bind, he, Option.some_bind, if_pos hrange, hfv,
    Option.some_bind, hdis, hdiff, Option.map_some', hins, hshift]
  rfl

theorem getD_set_of_not_mem (S : List (List Nat)) (idx : Nat) (v : List Nat) (rest : List Nat)
    (h : idx ∉ rest) :
    rest.map (fun k => (S.set idx v)[k]?.getD []) = rest.map (fun k => S[k]?.getD []) := by
  apply List.map_congr_left
  intro k hk
  have hne : idx ≠ k := fun e => h (e ▸ hk)
  simp only [List.getElem?_set_ne hne]

theorem getD_length_set_of_not_mem (S : List (List Nat)) (idx : Nat) (v : List Nat)
    (rest : List Nat) (h : idx ∉ rest) :
    rest.map (fun k => ((S.set idx v)[k]?.getD []).length) =
      rest.map (fun k => (S[k]?.getD []).length) := by
  apply List.map_congr_left
  intro k hk
  have hne : idx ≠ k := fun e => h (e ▸ hk)
  simp only [List.getElem?_set_ne hne]

theorem FeasignValuesReplacer.replace_loop_ofSlots (vals : Nat → Option (List Nat))
    (nv : Nat → List Nat) (idxs : List Nat) :
    ∀ (i : Nat) (st : ReplaceState) (S pre : List (List Nat)),
      st.fea = SlotValues.ofSlots S →
      st.feasign_values_ = pre ++ List.replicate idxs.length [] → i = pre.length →
      (∀ idx ∈ idxs, idx < S.length) → idxs.Nodup →
      (∀ idx ∈ idxs, vals idx = some (nv idx)) →
      (∀ p q, idxs = p ++ q → (set_slots nv p S).flatten.length < 2 ^ 31) →
      ∃ st1, FeasignValuesReplacer.replace_loop vals idxs i st = some st1 ∧
        st1.fea = SlotValues.ofSlots (set_slots nv idxs S) ∧
        st1.feasign_values_ = pre ++ idxs.map (fun k => S[k]?.getD []) ∧
        (-(2 ^ 31) ≤ st.del_num →
          st.del_num + ((idxs.map (fun k => (S[k]?.getD []).length)).sum : Nat) < 2 ^ 31 →
          st1.del_num = st.del_num + ((idxs.map (fun k => (S[k]?.getD []).length)).sum : Nat)) ∧
        (-(2 ^ 31) ≤ st.add_num →
          st.add_num + ((idxs.map (fun k => (nv k).length)).sum : Nat) < 2 ^ 31 →
          st1.add_num = st.add_num + ((idxs.map (fun k => (nv k).length)).sum : Nat)) := by
  induction idxs with
  | nil =>
    intro i st S pre hfea hfv _ _ _ _ _
    refine ⟨st, rfl, hfea, ?_, ?_, ?_⟩
    · rw [hfv]; rfl
    · intro _ _
      simp
    · intro _ _
      simp
  | cons idx rest ih =>
    intro i st S pre hfea hfv hi hvalid hnd hvals hH
    obtain ⟨hidx_rest, hnd_rest⟩ := List.nodup_cons.mp hnd
    have hidx : idx < S.length := hvalid idx (List.mem_cons_self _ _)
    have hold : S.flatten.length < 2 ^ 31 := hH [] (idx :: rest) rfl
    have hnew : (S.set idx (nv idx)).flatten.length < 2 ^ 31 := hH [idx] rest rfl
    have hfvi : st.feasign_values_[i]? = some [] := by
      rw [hfv, hi, List.getElem?_append_right (Nat.le_refl _), Nat.sub_self,
        List.length_cons, List.replicate_succ, List.getElem?_cons_zero]
    have hbody := FeasignValuesReplacer.replace_body_ofSlots vals st S i idx (nv idx) hfea hfvi
      (hvals idx (List.mem_cons_self _ _)) hidx hold hnew
    have hfv1 : st.feasign_values_.set i S[idx] =
        (pre ++ [S[idx]]) ++ List.replicate rest.length [] := by
      rw [hfv, hi]
      have : pre.length = pre.length + 0 := rfl
      rw [List.set_append_right _ _ (Nat.le_refl _), Nat.sub_self]
      simp [List.replicate_succ]
    obtain ⟨st1, hrun, hfea1, hfvs, hdel, hadd⟩ :=
      ih (i + 1) ⟨st.feasign_values_.set i S[idx], SlotValues.ofSlots (S.set idx (nv idx)),
          to_int (st.del_num + S[idx].length), to_int (st.add_num + (nv idx).length)⟩
        (S.set idx (nv idx)) (pre ++ [S[idx]]) rfl hfv1
        (by rw [hi]; simp)
        (fun k hk => by
          rw [List.length_set]
          exact hvalid k (List.mem_cons_of_mem _ hk))
        hnd_rest (fun k hk => hvals k (List.mem_cons_of_mem _ hk))
        (fun p q hpq => hH (idx :: p) q (by rw [hpq]; rfl))
    have hgetD : S[idx]?.getD [] = S[idx] := by
      rw [List.getElem?_eq_getElem hidx]; rfl
    have hsum := congrArg List.sum
      (getD_length_set_of_not_mem S idx (nv idx) rest hidx_rest)
    have h1 := getElem_length_le_flatten S idx hidx
    have h2 := set_length_le_flatten S idx (nv idx) hidx
    have hs1 : ((idx :: rest).map (fun k => (S[k]?.getD []).length)).sum =
        S[idx].length + (rest.map (fun k => (S[k]?.getD []).length)).sum := by
      rw [List.map_cons, List.sum_cons, hgetD]
    have hs2 : ((idx :: rest).map (fun k => (nv k).length)).sum =
        (nv idx).length + (rest.map (fun k => (nv k).length)).sum := by
      rw [List.map_cons, List.sum_cons]
    refine ⟨st1, ?_, hfea1, ?_, ?_, ?_⟩
    · rw [FeasignValuesReplacer.replace_loop, hbody]
      exact hrun
    · rw [hfvs, getD_set_of_not_mem S idx (nv idx) rest hidx_rest, List.map_cons, hgetD,
        List.append_assoc]
      rfl
    · intro hlo hhi
      rw [hs1] at hhi ⊢
      have hto : to_int (st.del_num + (S[idx].length : Int)) =
          st.del_num + (S[idx].length : Int) := to_int_of_range _ (by omega) (by omega)
      have h3 := hdel
        (by show -(2 ^ 31) ≤ to_int (st.del_num + (S[idx].length : Int)); rw [hto]; omega)
        (by
          show to_int (st.del_num + (S[idx].length : Int)) + _ < 2 ^ 31
          rw [hto, hsum]
          omega)
      rw [h3, hsum]
      show to_int (st.del_num + (S[idx].length : Int)) + _ = _
      rw [hto]
      omega
    · intro hlo hhi
      rw [hs2] at hhi ⊢
      have hto : to_int (st.add_num + ((nv idx).length : Int)) =
          st.add_num + ((nv idx).length : Int) := to_int_of_range _ (by omega) (by omega)
      have h3 := hadd
        (by show -(2 ^ 31) ≤ to_int (st.add_num + ((nv idx).length : Int)); rw [hto]; omega)
        (by
          show to_int (st.add_num + ((nv idx).length : Int)) + _ < 2 ^ 31
          rw [hto]
          omega)
      rw [h3]
      show to_int (st.add_num + ((nv idx).length : Int)) + _ = _
      rw [hto]
      omega

theorem FeasignValuesReplacer.replace_back_loop_ofSlots (g : Nat → List Nat)
    (idxs : List Nat) :
    ∀ (i : Nat) (st : ReplaceState) (S pre : List (List Nat)),
      st.fea = SlotValues.ofSlots S →
      st.feasign_values_ = pre ++ idxs.map g → i = pre.length →
      (∀ idx ∈ idxs, idx < S.length) →
      (∀ p q, idxs = p ++ q → (set_slots g p S).flatten.length < 2 ^ 31) →
      ∃ st1, FeasignValuesReplacer.replace_back_loop idxs i st = some st1 ∧
        st1.fea = SlotValues.ofSlots (set_slots g idxs S) ∧
        st1.feasign_values_ = st.feasign_values_ := by
  induction idxs with
  | nil =>
    intro i st S pre hfea _ _ _ _
    exact ⟨st, rfl, hfea, rfl⟩
  | cons idx rest ih =>
    intro i st S pre hfea hfv hi hvalid hH
    have hidx : idx < S.length := hvalid idx (List.mem_cons_self _ _)
    have hold : S.flatten.length < 2 ^ 31 := hH [] (idx :: rest) rfl
    have hnew : (S.set idx (g idx)).flatten.length < 2 ^ 31 := hH [idx] rest rfl
    have hfvi : st.feasign_values_[i]? = some (g idx) := by
      rw [hfv, hi, List.getElem?_append_right (Nat.le_refl _), Nat.sub_self,
        List.map_cons, List.getElem?_cons_zero]
    have hbody := FeasignValuesReplacer.replace_back_body_ofSlots st S i idx (g idx) hfea hfvi
      hidx hold hnew
    obtain ⟨st1, hrun, hfea1, hfvs⟩ :=
      ih (i + 1) ⟨st.feasign_values_, SlotValues.ofSlots (S.set idx (g idx)),
          to_int (st.del_num + S[idx].length), to_int (st.add_num + (g idx).length)⟩
        (S.set idx (g idx)) (pre ++ [g idx]) rfl
        (by
          show st.feasign_values_ = _
          rw [hfv, List.map_cons, List.append_assoc]
          rfl)
        (by rw [hi]; simp)
        (fun k hk => by
          rw [List.length_set]
          exact hvalid k (List.mem_cons_of_mem _ hk))
        (fun p q hpq => hH (idx :: p) q (by rw [hpq]; rfl))
    refine ⟨st1, ?_, hfea1, hfvs⟩
    rw [FeasignValuesReplacer.replace_back_loop, hbody]
    exact hrun

theorem set_slots_length {T : Type} (w : Nat → List T) (l : List Nat) :
    ∀ S : List (List T), (set_slots w l S).length = S.length := by
  induction l with
  | nil => intro S; rfl
  | cons idx l ih =>
    intro S
    show (set_slots w l (S.set idx (w idx))).length = S.length
    rw [ih, List.length_set]

theorem set_slots_getElem? {T : Type} (w : Nat → List T) (l : List Nat) :
    ∀ (S : List (List T)) (k : Nat), k < S.length →
      (set_slots w l S)[k]? = if k ∈ l then some (w k) else S[k]? := by
  induction l with
  | nil =>
    intro S k _
    simp [set_slots]
  | cons idx l ih =>
    intro S k hk
    show (set_slots w l (S.set idx (w idx)))[k]? = _
    rw [ih _ k (by rw [List.length_set]; exact hk)]
    by_cases hkl : k ∈ l
    · rw [if_pos hkl, if_pos (List.mem_cons_of_mem _ hkl)]
    · rw [if_neg hkl]
      by_cases hki : idx = k
      · subst hki
        rw [if_pos (List.mem_cons_self _ _), List.getElem?_set_self hk]
      · rw [List.getElem?_set_ne hki, if_neg]
        intro hmem
        rcases List.mem_cons.mp hmem with h | h
        · exact hki h.symm
        · exact hkl h

theorem flatten_length_set_le {T : Type} (S : List (List T)) (idx : Nat) (v : List T) :
    (S.set idx v).flatten.length ≤ S.flatten.length + v.length := by
  by_cases h : idx < S.length
  · have := flatten_length_set S idx v h
    omega
  · rw [List.set_eq_of_length_le (by omega)]
    omega

theorem set_slots_flatten_le {T : Type} (w : Nat → List T) (l : List Nat) :
    ∀ S : List (List T),
      (set_slots w l S).flatten.length ≤ S.flatten.length + (l.map (fun k => (w k).length)).sum := by
  induction l with
  | nil => intro S; simp [set_slots]
  | cons idx l ih =>
    intro S
    show (set_slots w l (S.set idx (w idx))).flatten.length ≤ _
    have h1 := ih (S.set idx (w idx))
    have h2 := flatten_length_set_le S idx (w idx)
    rw [List.map_cons, List.sum_cons]
    omega

theorem set_slots_prefix_bound {T : Type} (w : Nat → List T) (idxs : List Nat)
    (S : List (List T)) (B : Nat)
    (h : S.flatten.length + (idxs.map (fun k => (w k).length)).sum < B) :
    ∀ p q, idxs = p ++ q → (set_slots w p S).flatten.length < B := by
  intro p q hpq
  have h1 := set_slots_flatten_le w p S
  rw [hpq, List.map_append, List.sum_append] at h
  omega

/-- Restoring, slot by slot, a storage in which the slots `idxs` were replaced passes only
through storages in which some of these slots are replaced. -/
theorem set_slots_back {T : Type} (nv : Nat → List T) (idxs : List Nat) (S : List (List T))
    (hnd : idxs.Nodup) (p q : List Nat) (hpq : idxs = p ++ q) :
    set_slots (fun k => S[k]?.getD []) p (set_slots nv idxs S) = set_slots nv q S := by
  apply List.ext_getElem?
  intro k
  by_cases hk : k < S.length
  · rw [set_slots_getElem? _ p _ k (by rw [set_slots_length]; exact hk),
      set_slots_getElem? nv idxs S k hk, set_slots_getElem? nv q S k hk]
    rw [hpq] at hnd ⊢
    obtain ⟨_, _, hdisj⟩ := List.nodup_append.mp hnd
    by_cases hkp : k ∈ p
    · have hkq : k ∉ q := fun h => hdisj hkp h
      rw [if_pos hkp, if_neg hkq, List.getElem?_eq_getElem hk]
      rfl
    · rw [if_neg hkp]
      by_cases hkq : k ∈ q
      · rw [if_pos (List.mem_append_right _ hkq), if_pos hkq]
      · rw [if_neg (by
          intro h
          rcases List.mem_append.mp h with h | h
          · exact hkp h
          · exact hkq h), if_neg hkq]
  · rw [List.getElem?_eq_none (by rw [set_slots_length, set_slots_length]; omega),
      List.getElem?_eq_none (by rw [set_slots_length]; omega)]

theorem ragged_slots_aux {T : Type} (rest : List Nat) :
    ∀ (o0 : Nat) (values : List T),
      (o0 :: rest).Pairwise (· ≤ ·) → (o0 :: rest).getLast? = some (o0 + values.length) →
      ∃ S : List (List T), S.length = rest.length ∧ S.flatten = values ∧
        ∀ j, j ≤ rest.length → (o0 :: rest)[j]? = some (o0 + (S.take j).flatten.length) := by
  induction rest with
  | nil =>
    intro o0 values _ hlast
    have hlen : values.length = 0 := by
      simp only [List.getLast?_singleton, Option.some.injEq] at hlast
      omega
    have hnil : values = [] := List.length_eq_zero.mp hlen
    refine ⟨[], rfl, by rw [hnil]; rfl, ?_⟩
    intro j hj
    have : j = 0 := by simpa using hj
    subst this
    rfl
  | cons o1 rest ih =>
    intro o0 values hp hlast
    obtain ⟨hhead, hp1⟩ := List.pairwise_cons.mp hp
    have h01 : o0 ≤ o1 := hhead o1 (List.mem_cons_self _ _)
    have hlast1 : (o1 :: rest).getLast? = some (o0 + values.length) := by
      rw [List.getLast?_cons_cons] at hlast
      exact hlast
    have hmem : o0 + values.length ∈ o1 :: rest := List.mem_of_mem_getLast? hlast1
    have h1l : o1 ≤ o0 + values.length := by
      rcases List.mem_cons.mp hmem with h | h
      · omega
      · exact (List.pairwise_cons.mp hp1).1 _ h
    have hdrop : (values.drop (o1 - o0)).length = values.length - (o1 - o0) :=
      List.length_drop _ _
    obtain ⟨S1, hS1len, hS1flat, hS1off⟩ := ih o1 (values.drop (o1 - o0)) hp1
      (by rw [hlast1, hdrop]; exact congrArg some (by omega))
    refine ⟨values.take (o1 - o0) :: S1, by simp [hS1len], ?_, ?_⟩
    · rw [List.flatten_cons, hS1flat, List.take_append_drop]
    · intro j hj
      cases j with
      | zero => rfl
      | succ j =>
        have hj1 : j ≤ rest.length := by simpa using hj
        rw [List.getElem?_cons_succ, hS1off j hj1, List.take_succ_cons, List.flatten_cons,
          List.length_append, List.length_take]
        exact congrArg some (by omega)

theorem ragged_eq_ofSlots {T : Type} (fea : SlotValues T) (hinv : fea.RaggedInv) :
    ∃ S : List (List T), fea = SlotValues.ofSlots S ∧
      S.length + 1 = fea.slot_offsets.length := by
  obtain ⟨vals, offs⟩ := fea
  obtain ⟨hhead, hlast, hp⟩ := hinv
  simp only at hhead hlast hp
  cases offs with
  | nil => simp at hhead
  | cons o0 rest =>
    have h0 : o0 = 0 := by simpa using hhead
    subst h0
    obtain ⟨S, hlen, hflat, hoff⟩ := ragged_slots_aux rest 0 vals hp
      (by rw [hlast, Nat.zero_add])
    refine ⟨S, ?_, by simp [hlen]⟩
    unfold SlotValues.ofSlots
    rw [hflat]
    congr 1
    apply List.ext_getElem?
    intro j
    by_cases hj : j ≤ S.length
    · rw [hoff j (by omega), slot_offsets_of_getElem? S j hj, Nat.zero_add]
    · rw [List.getElem?_eq_none (by simp; omega),
        List.getElem?_eq_none (by rw [slot_offsets_of_length]; omega)]

theorem ragged_ofSlots {T : Type} (S : List (List T)) : (SlotValues.ofSlots S).RaggedInv := by
  refine ⟨?_, ?_, ?_⟩
  · show (slot_offsets_of S).head? = some 0
    rw [List.head?_eq_getElem?, slot_offsets_of_getElem? S 0 (Nat.zero_le _)]
    rfl
  · show (slot_offsets_of S).getLast? = some S.flatten.length
    rw [List.getLast?_eq_getElem?, slot_offsets_of_length, Nat.add_sub_cancel,
      slot_offsets_of_getElem? S S.length (Nat.le_refl _), List.take_length]
  · show (slot_offsets_of S).Pairwise (· ≤ ·)
    unfold slot_offsets_of
    rw [List.pairwise_map]
    exact (List.pairwise_lt_range _).imp
      (fun h => take_flatten_length_mono S _ _ (Nat.le_of_lt h))

theorem slot_ofSlots {T : Type} (S : List (List T)) (k : Nat) (hk : k < S.length)
    (hlen : S.flatten.length < 2 ^ 32) : (SlotValues.ofSlots S).slot k = S[k] := by
  obtain ⟨hspan, hsum⟩ := flatten_span S k hk
  have hle := take_flatten_length_le S (k + 1)
  have h1 : (SlotValues.ofSlots S).slot_offsets[k]? = some ((S.take k).flatten.length) :=
    slot_offsets_of_getElem? S k (by omega)
  have h2 : (SlotValues.ofSlots S).slot_offsets[k + 1]? =
      some ((S.take (k + 1)).flatten.length) :=
    slot_offsets_of_getElem? S (k + 1) (by omega)
  have hsize : ((S.take (k + 1)).flatten.length + 2 ^ 32 - (S.take k).flatten.length) % 2 ^ 32
      = S[k].length := by
    rw [hsum]
    omega
  unfold SlotValues.slot
  rw [h1, h2]
  show (SlotValues.ofSlots S).span _ _ = _
  rw [hsize]
  exact hspan

theorem slot_ofSlots_getD {T : Type} (S : List (List T)) (k : Nat) (hk : k < S.length)
    (hlen : S.flatten.length < 2 ^ 32) : (SlotValues.ofSlots S).slot k = S[k]?.getD [] := by
  rw [slot_ofSlots S k hk hlen, List.getElem?_eq_getElem hk]
  rfl

theorem FeasignValuesReplacer.replace_body_eq (vals : Nat → Option (List Nat))
    (st : ReplaceState) (i idx b e : Nat) (old v : List Nat) (diff : Int)
    (hb : st.fea.slot_offsets[idx]? = some b) (he : st.fea.slot_offsets[idx + 1]? = some e)
    (hfv : st.feasign_values_[i]? = some old) (hv : vals idx = some v)
    (hrange : b ≤ e ∧ e ≤ st.fea.slot_values.length)
    (hdiff : int_checked (to_int (v.length : Int) -
      to_int (((st.fea.slot_values.drop b).take (e - b) ++ old).length : Int)) = some diff) :
    FeasignValuesReplacer.replace_body vals st i idx =
      some { feasign_values_ :=
               st.feasign_values_.set i ((st.fea.slot_values.drop b).take (e - b) ++ old)
             fea := ⟨(st.fea.slot_values.take b ++ st.fea.slot_values.drop e).take b ++ v ++
                      (st.fea.slot_values.take b ++ st.fea.slot_values.drop e).drop b,
                    FeasignValuesReplacer.shift_offsets st.fea.slot_offsets idx diff⟩
             del_num := to_int (st.del_num +
               (((st.fea.slot_values.drop b).take (e - b) ++ old).length : Int))
             add_num := to_int (st.add_num + (v.length : Int)) } := by
  unfold FeasignValuesReplacer.replace_body
  rw [hb, Option.some_bind, he, Option.some_bind, hfv, Option.some_bind, if_pos hrange, hv,
    Option.some_bind, hdiff, Option.map_some']

theorem FeasignValuesReplacer.replace_back_body_eq
    (st : ReplaceState) (i idx b e : Nat) (saved : List Nat) (diff : Int)
    (hb : st.fea.slot_offsets[idx]? = some b) (he : st.fea.slot_offsets[idx + 1]? = some e)
    (hfv : st.feasign_values_[i]? = some saved)
    (hrange : b ≤ e ∧ e ≤ st.fea.slot_values.length)
    (hdiff : int_checked (to_int (saved.length : Int) - to_int ((e - b : Nat) : Int))
      = some diff) :
    FeasignValuesReplacer.replace_back_body st i idx =
      some { feasign_values_ := st.feasign_values_
             fea := ⟨(st.fea.slot_values.take b ++ st.fea.slot_values.drop e).take b ++
                      saved ++
                      (st.fea.slot_values.take b ++ st.fea.slot_values.drop e).drop b,
                    FeasignValuesReplacer.shift_offsets st.fea.slot_offsets idx diff⟩
             del_num := to_int (st.del_num + ((e - b : Nat) : Int))
             add_num := to_int (st.add_num + (saved.length : Int)) } := by
  unfold FeasignValuesReplacer.replace_back_body
  rw [hb, Option.some_bind, he, Option.some_bind, if_pos hrange, hfv, Option.some_bind,
    hdiff, Option.map_some']

/-- A slot replaced by `2 ^ 32` values: the difference of the sizes is 0 as an `int`, the
offsets stay as they are, and `replace_back` finds an empty slot to exchange. -/
theorem FeasignValuesReplacer.replace_wrapped (big : List Nat) (hbig : big.length = 2 ^ 32) :
    FeasignValuesReplacer.replace ⟨[]⟩ ⟨[], [0, 0]⟩ (fun _ => some big) [0] 0 0 =
      some ⟨[[]], ⟨big, [0, 0]⟩, 0, 0⟩ ∧
    FeasignValuesReplacer.replace_back ⟨[[]]⟩ ⟨big, [0, 0]⟩ [0] 0 0 =
      some ⟨[], ⟨big, [0, 0]⟩, 0, 0⟩ := by
  have hcast : to_int ((big.length : Nat) : Int) = 0 := by
    rw [hbig]
    decide
  have hzero : to_int ((0 : Nat) : Int) = 0 := by decide
  have hshift : FeasignValuesReplacer.shift_offsets [0, 0] 0 0 = [0, 0] := by decide
  constructor
  · have hbody := FeasignValuesReplacer.replace_body_eq (fun _ => some big)
      ⟨[[]], ⟨[], [0, 0]⟩, 0, 0⟩ 0 0 0 0 [] big 0 rfl rfl rfl rfl
      ⟨Nat.le_refl _, Nat.zero_le _⟩
      (by
        show int_checked (to_int ((big.length : Nat) : Int) - to_int ((0 : Nat) : Int)) = some 0
        rw [hcast, hzero]
        decide)
    show FeasignValuesReplacer.replace_loop _ [0] 0 ⟨[[]], ⟨[], [0, 0]⟩, 0, 0⟩ = _
    rw [FeasignValuesReplacer.replace_loop, hbody]
    show some (ReplaceState.mk [[]] ⟨[] ++ big ++ [],
      FeasignValuesReplacer.shift_offsets [0, 0] 0 0⟩
      (to_int (0 + ((0 : Nat) : Int))) (to_int (0 + ((big.length : Nat) : Int)))) = _
    rw [Int.zero_add, Int.zero_add, hcast, hzero, hshift, List.append_nil, List.nil_append]
  · have hbody := FeasignValuesReplacer.replace_back_body_eq
      ⟨[[]], ⟨big, [0, 0]⟩, 0, 0⟩ 0 0 0 0 [] 0 rfl rfl rfl
      ⟨Nat.le_refl _, Nat.zero_le _⟩
      (by
        show int_checked (to_int ((0 : Nat) : Int) - to_int ((0 : Nat) : Int)) = some 0
        rw [hzero]
        decide)
    have hv : (big.take 0 ++ big.drop 0).take 0 ++ [] ++ (big.take 0 ++ big.drop 0).drop 0
        = big := by simp
    unfold FeasignValuesReplacer.replace_back
    rw [FeasignValuesReplacer.replace_back_loop, hbody]
    show Option.map _ (some (ReplaceState.mk [[]]
      ⟨(big.take 0 ++ big.drop 0).take 0 ++ [] ++ (big.take 0 ++ big.drop 0).drop 0,
        FeasignValuesReplacer.shift_offsets [0, 0] 0 0⟩
      (to_int (0 + ((0 : Nat) : Int))) (to_int (0 + ((0 : Nat) : Int))))) = _
    rw [Option.map_some', hv, hshift, Int.zero_add, hzero]

/-- C34 fails as stated: on a storage with one empty slot (no values, offsets `[0, 0]`),
`replace` with `2 ^ 32` values for the slot leaves the offsets `[0, 0]`, and `replace_back`
then leaves the `2 ^ 32` values in the storage instead of restoring it. -/
theorem replace_back_restores_counterexample :
    FeasignValuesReplacer.replace ⟨[]⟩ ⟨[], [0, 0]⟩
        (fun _ => some (List.replicate (2 ^ 32) 0)) [0] 0 0 =
      some ⟨[[]], ⟨List.replicate (2 ^ 32) 0, [0, 0]⟩, 0, 0⟩ ∧
    FeasignValuesReplacer.replace_back ⟨[[]]⟩ ⟨List.replicate (2 ^ 32) 0, [0, 0]⟩ [0] 0 0 =
      some ⟨[], ⟨List.replicate (2 ^ 32) 0, [0, 0]⟩, 0, 0⟩ :=
  FeasignValuesReplacer.replace_wrapped (List.replicate (2 ^ 32) 0)
    (List.length_replicate _ _)

theorem nodup_of_ascending (l : List Nat) (h : l.Pairwise (· < ·)) : l.Nodup :=
  h.imp (fun hab => Nat.ne_of_lt hab)

/-- What `replace` does to a storage that satisfies the ragged invariant, in terms of its
slots. -/
theorem FeasignValuesReplacer.replace_ofSlots (S : List (List Nat))
    (vals : Nat → Option (List Nat)) (nv : Nat → List Nat) (slot_idxs : List Nat)
    (del_num add_num : Int)
    (hsorted : slot_idxs.Pairwise (· < ·))
    (hvalid : ∀ idx ∈ slot_idxs, idx < S.length)
    (hvals : ∀ idx ∈ slot_idxs, vals idx = some (nv idx))
    (hbound : S.flatten.length + (slot_idxs.map (fun idx => (nv idx).length)).sum < 2 ^ 31) :
    ∃ st, FeasignValuesReplacer.replace ⟨[]⟩ (SlotValues.ofSlots S) vals slot_idxs
        del_num add_num = some st ∧
      st.fea = SlotValues.ofSlots (set_slots nv slot_idxs S) ∧
      st.feasign_values_ = slot_idxs.map (fun k => S[k]?.getD []) ∧
      (-(2 ^ 31) ≤ del_num →
        del_num + ((slot_idxs.map (fun k => (S[k]?.getD []).length)).sum : Nat) < 2 ^ 31 →
        st.del_num = del_num + ((slot_idxs.map (fun k => (S[k]?.getD []).length)).sum : Nat)) ∧
      (-(2 ^ 31) ≤ add_num →
        add_num + ((slot_idxs.map (fun k => (nv k).length)).sum : Nat) < 2 ^ 31 →
        st.add_num = add_num + ((slot_idxs.map (fun k => (nv k).length)).sum : Nat)) := by
  have hfv : vec_resize ([] : List (List Nat)) slot_idxs.length [] =
      [] ++ List.replicate slot_idxs.length [] := by
    simp [vec_resize]
  obtain ⟨st, hrun, hfea, hfvs, hdel, hadd⟩ :=
    FeasignValuesReplacer.replace_loop_ofSlots vals nv slot_idxs 0
      ⟨vec_resize [] slot_idxs.length [], SlotValues.ofSlots S, del_num, add_num⟩ S []
      rfl hfv rfl hvalid (nodup_of_ascending _ hsorted) hvals
      (set_slots_prefix_bound nv slot_idxs S _ hbound)
  refine ⟨st, hrun, hfea, ?_, hdel, hadd⟩
  rw [hfvs, List.nil_append]

/-- What `replace_back` does after `replace`, in terms of the slots. -/
theorem FeasignValuesReplacer.replace_back_ofSlots (S : List (List Nat))
    (nv : Nat → List Nat) (slot_idxs : List Nat) (del_num add_num : Int)
    (hsorted : slot_idxs.Pairwise (· < ·))
    (hvalid : ∀ idx ∈ slot_idxs, idx < S.length)
    (hbound : S.flatten.length + (slot_idxs.map (fun idx => (nv idx).length)).sum < 2 ^ 31) :
    ∃ st, FeasignValuesReplacer.replace_back ⟨slot_idxs.map (fun k => S[k]?.getD [])⟩
        (SlotValues.ofSlots (set_slots nv slot_idxs S)) slot_idxs del_num add_num = some st ∧
      st.fea = SlotValues.ofSlots S ∧ st.feasign_values_ = [] := by
  have hnd := nodup_of_ascending _ hsorted
  obtain ⟨st, hrun, hfea, _⟩ :=
    FeasignValuesReplacer.replace_back_loop_ofSlots (fun k => S[k]?.getD []) slot_idxs 0
      ⟨slot_idxs.map (fun k => S[k]?.getD []), SlotValues.ofSlots (set_slots nv slot_idxs S),
        del_num, add_num⟩ (set_slots nv slot_idxs S) [] rfl rfl rfl
      (fun idx hidx => by rw [set_slots_length]; exact hvalid idx hidx)
      (fun p q hpq => by
        rw [set_slots_back nv slot_idxs S hnd p q hpq]
        have h1 := set_slots_flatten_le nv q S
        rw [hpq, List.map_append, List.sum_append] at hbound
        omega)
  refine ⟨{ st with feasign_values_ := [] }, ?_, ?_, rfl⟩
  · unfold FeasignValuesReplacer.replace_back
    rw [hrun, Option.map_some']
  · show st.fea = _
    rw [hfea, set_slots_back nv slot_idxs S hnd slot_idxs [] (List.append_nil _).symm]
    rfl

/-- C34 as amended: for every `FeasignValues` `fea` that satisfies the ragged invariant, every
ascending list `slot_idxs` of valid slot indices and every map `vals` defined on all of them,
where the number of values of `fea` plus the numbers of values of the `vals[slot]` is below
`2 ^ 31`, and an empty `FeasignValuesReplacer`: `replace` returns, the following
`replace_back` returns, and it leaves `fea` with exactly the `slot_values` and `slot_offsets`
it had before `replace`, and the replacer empty. -/
theorem replace_back_restores (fea : SlotValues Nat) (vals : Nat → Option (List Nat))
    (nv : Nat → List Nat) (slot_idxs : List Nat) (del_num add_num del_num2 add_num2 : Int)
    (hinv : fea.RaggedInv) (hsorted : slot_idxs.Pairwise (· < ·))
    (hvalid : ∀ idx ∈ slot_idxs, idx + 1 < fea.slot_offsets.length)
    (hvals : ∀ idx ∈ slot_idxs, vals idx = some (nv idx))
    (hbound : fea.slot_values.length +
      (slot_idxs.map (fun idx => (nv idx).length)).sum < 2 ^ 31) :
    ∃ st, FeasignValuesReplacer.replace ⟨[]⟩ fea vals slot_idxs del_num add_num = some st ∧
      ∃ st2, FeasignValuesReplacer.replace_back ⟨st.feasign_values_⟩ st.fea slot_idxs
          del_num2 add_num2 = some st2 ∧
        st2.fea = fea ∧ st2.feasign_values_ = [] := by
  obtain ⟨S, hS, hlen⟩ := ragged_eq_ofSlots fea hinv
  subst hS
  have hvalid1 : ∀ idx ∈ slot_idxs, idx < S.length := by
    intro idx hidx
    have := hvalid idx hidx
    omega
  obtain ⟨st, hrun, hfea, hfvs, _, _⟩ :=
    FeasignValuesReplacer.replace_ofSlots S vals nv slot_idxs del_num add_num hsorted hvalid1
      hvals hbound
  obtain ⟨st2, hback, hfea2, hfv2⟩ :=
    FeasignValuesReplacer.replace_back_ofSlots S nv slot_idxs del_num2 add_num2 hsorted
      hvalid1 hbound
  refine ⟨st, hrun, st2, ?_, hfea2, hfv2⟩
  rw [hfvs, hfea]
  exact hback

/-- C35 as amended: for every `FeasignValues` `fea` that satisfies the ragged invariant, every
ascending list `slot_idxs` of valid slot indices and every map `vals` defined on all of them,
where the number of values of `fea` plus the numbers of values of the `vals[slot]` is below
`2 ^ 31` and the counters `*del_num` and `*add_num` do not leave the range of `int`, and an
empty `FeasignValuesReplacer`: `replace` returns; afterwards the values of every slot in
`slot_idxs` are `vals[slot]`, the values of every other slot are unchanged, the ragged
invariant holds with the same number of offsets, `*del_num` has grown by the number of
values removed and `*add_num` by the number inserted, and the replacer holds the removed
values of the slots, in the order of `slot_idxs`. -/
theorem replace_spec (fea : SlotValues Nat) (vals : Nat → Option (List Nat))
    (nv : Nat → List Nat) (slot_idxs : List Nat) (del_num add_num : Int)
    (hinv : fea.RaggedInv) (hsorted : slot_idxs.Pairwise (· < ·))
    (hvalid : ∀ idx ∈ slot_idxs, idx + 1 < fea.slot_offsets.length)
    (hvals : ∀ idx ∈ slot_idxs, vals idx = some (nv idx))
    (hbound : fea.slot_values.length +
      (slot_idxs.map (fun idx => (nv idx).length)).sum < 2 ^ 31)
    (hdel : -(2 ^ 31) ≤ del_num ∧
      del_num + ((slot_idxs.map (fun idx => (fea.slot idx).length)).sum : Nat) < 2 ^ 31)
    (hadd : -(2 ^ 31) ≤ add_num ∧
      add_num + ((slot_idxs.map (fun idx => (nv idx).length)).sum : Nat) < 2 ^ 31) :
    ∃ st, FeasignValuesReplacer.replace ⟨[]⟩ fea vals slot_idxs del_num add_num = some st ∧
      (∀ k, k + 1 < fea.slot_offsets.length →
        st.fea.slot k = if k ∈ slot_idxs then nv k else fea.slot k) ∧
      st.fea.RaggedInv ∧ st.fea.slot_offsets.length = fea.slot_offsets.length ∧
      st.del_num =
        del_num + ((slot_idxs.map (fun idx => (fea.slot idx).length)).sum : Nat) ∧
      st.add_num = add_num + ((slot_idxs.map (fun idx => (nv idx).length)).sum : Nat) ∧
      st.feasign_values_ = slot_idxs.map fea.slot := by
  obtain ⟨S, hS, hlen⟩ := ragged_eq_ofSlots fea hinv
  subst hS
  have hvalid1 : ∀ idx ∈ slot_idxs, idx < S.length := by
    intro idx hidx
    have := hvalid idx hidx
    omega
  have htot : S.flatten.length < 2 ^ 31 := by
    have : (SlotValues.ofSlots S).slot_values.length = S.flatten.length := rfl
    omega
  have hslot : ∀ idx ∈ slot_idxs, (SlotValues.ofSlots S).slot idx = S[idx]?.getD [] :=
    fun idx hidx => slot_ofSlots_getD S idx (hvalid1 idx hidx) (by omega)
  have hmap1 : slot_idxs.map (fun idx => ((SlotValues.ofSlots S).slot idx).length) =
      slot_idxs.map (fun k => (S[k]?.getD []).length) :=
    List.map_congr_left (fun idx hidx => by rw [hslot idx hidx])
  have hmap2 : slot_idxs.map (SlotValues.ofSlots S).slot =
      slot_idxs.map (fun k => S[k]?.getD []) :=
    List.map_congr_left (fun idx hidx => hslot idx hidx)
  obtain ⟨st, hrun, hfea, hfvs, hd, ha⟩ :=
    FeasignValuesReplacer.replace_ofSlots S vals nv slot_idxs del_num add_num hsorted hvalid1
      hvals hbound
  have hnew : (set_slots nv slot_idxs S).flatten.length < 2 ^ 31 :=
    set_slots_prefix_bound nv slot_idxs S _ hbound slot_idxs [] (List.append_nil _).symm
  rw [hmap1] at hdel ⊢
  refine ⟨st, hrun, ?_, ?_, ?_, hd hdel.1 hdel.2, ha hadd.1 hadd.2, ?_⟩
  · intro k hk
    have hkS : k < S.length := by omega
    rw [hfea, slot_ofSlots_getD _ k (by rw [set_slots_length]; exact hkS) (by omega),
      set_slots_getElem? nv slot_idxs S k hkS]
    by_cases hmem : k ∈ slot_idxs
    · rw [if_pos hmem, if_pos hmem]
      rfl
    · rw [if_neg hmem, if_neg hmem, slot_ofSlots_getD S k hkS (by omega)]
  · rw [hfea]
    exact ragged_ofSlots _
  · rw [hfea]
    show (slot_offsets_of (set_slots nv slot_idxs S)).length = (slot_offsets_of S).length
    rw [slot_offsets_of_length, slot_offsets_of_length, set_slots_length]
  · rw [hfvs, hmap2]

/-- The statement of C34 on a storage with the slots `[1, 2]`, `[3]`, `[4, 5, 6]`, of which the
first and the last are replaced by `[9]` and `[7, 8]`. -/
theorem replace_back_restores_witness :
    ∃ st, FeasignValuesReplacer.replace ⟨[]⟩ ⟨[1, 2, 3, 4, 5, 6], [0, 2, 3, 6]⟩
        (fun k => if k = 0 then some [9] else if k = 2 then some [7, 8] else none)
        [0, 2] 0 0 = some st ∧
      ∃ st2, FeasignValuesReplacer.replace_back ⟨st.feasign_values_⟩ st.fea [0, 2] 0 0
          = some st2 ∧
        st2.fea = ⟨[1, 2, 3, 4, 5, 6], [0, 2, 3, 6]⟩ ∧ st2.feasign_values_ = [] :=
  replace_back_restores ⟨[1, 2, 3, 4, 5, 6], [0, 2, 3, 6]⟩
    (fun k => if k = 0 then some [9] else if k = 2 then some [7, 8] else none)
    (fun k => if k = 0 then [9] else [7, 8]) [0, 2] 0 0 0 0
    (by decide) (by decide) (by decide) (by decide) (by decide)

/-- The statement of C35 on a storage with the slots `[1, 2]`, `[3]`, `[4, 5, 6]`, of which the
first and the last are replaced by `[9]` and `[7, 8]`: the storage becomes
`[9, 3, 7, 8]` with offsets `[0, 1, 2, 4]`, five values are removed and three inserted. -/
theorem replace_spec_witness :
    ∃ st, FeasignValuesReplacer.replace ⟨[]⟩ ⟨[1, 2, 3, 4, 5, 6], [0, 2, 3, 6]⟩
        (fun k => if k = 0 then some [9] else if k = 2 then some [7, 8] else none)
        [0, 2] 0 0 = some st ∧
      st.fea = ⟨[9, 3, 7, 8], [0, 1, 2, 4]⟩ ∧ st.fea.RaggedInv ∧
      st.del_num = 5 ∧ st.add_num = 3 ∧ st.feasign_values_ = [[1, 2], [4, 5, 6]] := by
  obtain ⟨st, hrun, _, hinv, _, hdel, hadd, hfv⟩ :=
    replace_spec ⟨[1, 2, 3, 4, 5, 6], [0, 2, 3, 6]⟩
      (fun k => if k = 0 then some [9] else if k = 2 then some [7, 8] else none)
      (fun k => if k = 0 then [9] else [7, 8]) [0, 2] 0 0
      (by decide) (by decide) (by decide) (by decide) (by decide) (by decide) (by decide)
  have hst : FeasignValuesReplacer.replace ⟨[]⟩ ⟨[1, 2, 3, 4, 5, 6], [0, 2, 3, 6]⟩
      (fun k => if k = 0 then some [9] else if k = 2 then some [7, 8] else none)
      [0, 2] 0 0 = some ⟨[[1, 2], [4, 5, 6]], ⟨[9, 3, 7, 8], [0, 1, 2, 4]⟩, 5, 3⟩ := by
    decide
  have heq : st = ⟨[[1, 2], [4, 5, 6]], ⟨[9, 3, 7, 8], [0, 1, 2, 4]⟩, 5, 3⟩ :=
    Option.some.inj (hrun.symm.trans hst)
  exact ⟨st, hrun, by rw [heq], hinv, by rw [heq], by rw [heq], by rw [heq]⟩

/-- C35 fails as stated: with `*del_num = 2 ^ 31 - 1`, replacing the one value of the one slot
by no values leaves `*del_num = -2 ^ 31`, not `2 ^ 31`. -/
theorem replace_spec_counterexample :
    FeasignValuesReplacer.replace ⟨[]⟩ ⟨[7], [0, 1]⟩
        (fun k => if k = 0 then some [] else none) [0] (2 ^ 31 - 1) 0 =
      some ⟨[[7]], ⟨[], [0, 0]⟩, -(2 ^ 31), 0⟩ := by
  decide

end PaddleBox
